import Mathlib

/-!
# Verification of `Basics/AssociativeArray.h`

A shallow embedding of the open-addressing associative array for POD data
(`triagens::basics::AssociativeArray`) and proofs of its contract.

Modelling conventions.

* The slot array `_table` is a `List E`; the field `_nrAlloc` is kept as a separate
  number, exactly as in the class.  A read `_table[i]` is `table[i]?`; reading outside
  the list is undefined behaviour in C++ and yields `none` here.
* `uint64_t` fields are natural numbers; every arithmetic operation that the source
  performs on them is followed by `% 2 ^ 64`.  The result of a hash function is
  converted to `uint32_t` by the source, which is `% 2 ^ 32` here.
* `hash % _nrAlloc` with `_nrAlloc = 0` is undefined behaviour and yields `none`.
* A `while` loop receives a fuel argument; running out of fuel yields `none`.  The
  theorems show that a fuel of about the capacity always suffices when the table has
  an empty slot.
* `new ELEMENT[n]` yields `n` slots of indeterminate content; slot `j` of a fresh array
  holds `rawElement j`, a parameter carried by the description.
* A reference to a slot (the result of `findKey` and `findElement`) is the slot index.
-/

set_option autoImplicit false

namespace triagens.basics

/-! ## The description (template parameter `DESC`) -/

/-- The description of the element type: the seven methods that the header comment
requires of `DESC`, as pure functions, and the content of freshly allocated storage. -/
structure Desc (K E : Type) where
  /-- Method `clearElement(ELEMENT&)`: the value left in the slot. -/
  clearElement : E → E
  /-- Method `deleteElement(ELEMENT&)`: the value left in the slot. -/
  deleteElement : E → E
  /-- Method `hashElement(ELEMENT const&)`. -/
  hashElement : E → Nat
  /-- Method `hashKey(KEY const&)`. -/
  hashKey : K → Nat
  /-- Method `isEmptyElement(ELEMENT const&)`. -/
  isEmptyElement : E → Bool
  /-- Method `isEqualElementElement(ELEMENT const&, ELEMENT const&)`. -/
  isEqualElementElement : E → E → Bool
  /-- Method `isEqualKeyElement(KEY const&, ELEMENT const&)`. -/
  isEqualKeyElement : K → E → Bool
  /-- The indeterminate content of slot `j` of an array made by `new ELEMENT[n]`. -/
  rawElement : Nat → E

/-! ## The table state (class `AssociativeArray`) -/

/-- The private variables of `AssociativeArray`. -/
structure AssociativeArray (K E : Type) where
  /-- Field `_desc`. -/
  desc : Desc K E
  /-- Field `_nrAlloc`: the size of the table. -/
  nrAlloc : Nat
  /-- Field `_nrUsed`: the number of used entries. -/
  nrUsed : Nat
  /-- Field `_table`: the table itself. -/
  table : List E
  /-- Field `_nrFinds` (statistics). -/
  nrFinds : Nat
  /-- Field `_nrAdds` (statistics). -/
  nrAdds : Nat
  /-- Field `_nrRems` (statistics). -/
  nrRems : Nat
  /-- Field `_nrResizes` (statistics). -/
  nrResizes : Nat
  /-- Field `_nrProbesF` (statistics). -/
  nrProbesF : Nat
  /-- Field `_nrProbesA` (statistics). -/
  nrProbesA : Nat
  /-- Field `_nrProbesD` (statistics). -/
  nrProbesD : Nat
  /-- Field `_nrProbesR` (statistics). -/
  nrProbesR : Nat

section Operations

variable {K E : Type}

/-- The default fill-up handler `ExtendAtFillup`: `handle` returns `false`. -/
def ExtendAtFillup.handle (_t : AssociativeArray K E) : Bool := false

/-- The array made by `new ELEMENT[size]` followed by `clearElement` on every slot. -/
def newTable (d : Desc K E) (size : Nat) : List E :=
  (List.range size).map (fun j => d.clearElement (d.rawElement j))

/-- Method `initialise(size)`. -/
def initialise (d : Desc K E) (size : Nat) : AssociativeArray K E :=
  { desc := d
    nrAlloc := size
    nrUsed := 0
    table := newTable d size
    nrFinds := 0
    nrAdds := 0
    nrRems := 0
    nrResizes := 0
    nrProbesF := 0
    nrProbesA := 0
    nrProbesD := 0
    nrProbesR := 0 }

/-- The constructor `AssociativeArray(size, desc)`. -/
def AssociativeArray.create (size : Nat) (d : Desc K E) : AssociativeArray K E :=
  initialise d size

/-- Method `size()`. -/
def AssociativeArray.size (t : AssociativeArray K E) : Nat := t.nrUsed

/-- Method `capacity()`. -/
def AssociativeArray.capacity (t : AssociativeArray K E) : Nat := t.nrAlloc

/-- Method `clear()`. -/
def clear (t : AssociativeArray K E) : AssociativeArray K E :=
  initialise t.desc t.nrAlloc

/-- The probing loop shared by all operations:
`while (!isEmptyElement(_table[i]) && !isMatch(_table[i])) { i = (i + 1) % _nrAlloc; probes++; }`.
The result is the index at which the loop stopped and the probe counter. -/
def probe (d : Desc K E) (isMatch : E → Bool) (table : List E) (nrAlloc : Nat) :
    Nat → Nat → Nat → Option (Nat × Nat)
  | 0, _, _ => none
  | fuel + 1, i, probes =>
    match table[i]? with
    | none => none
    | some x =>
      if (!d.isEmptyElement x && !isMatch x) = true then
        probe d isMatch table nrAlloc fuel ((i + 1) % nrAlloc) ((probes + 1) % 2 ^ 64)
      else some (i, probes)

/-- Method `findKey(key)`: the index of the slot whose reference is returned, and the
table with its statistics updated. -/
def findKey (fuel : Nat) (t : AssociativeArray K E) (key : K) :
    Option (Nat × AssociativeArray K E) :=
  if t.nrAlloc = 0 then none
  else
    let hash := t.desc.hashKey key % 2 ^ 32
    match probe t.desc (t.desc.isEqualKeyElement key) t.table t.nrAlloc fuel
        (hash % t.nrAlloc) t.nrProbesF with
    | none => none
    | some (i, probes) =>
      some (i, { t with nrFinds := (t.nrFinds + 1) % 2 ^ 64, nrProbesF := probes })

/-- Method `findElement(element)`: the index of the slot whose reference is returned,
and the table with its statistics updated. -/
def findElement (fuel : Nat) (t : AssociativeArray K E) (element : E) :
    Option (Nat × AssociativeArray K E) :=
  if t.nrAlloc = 0 then none
  else
    let hash := t.desc.hashElement element % 2 ^ 32
    match probe t.desc (t.desc.isEqualElementElement element) t.table t.nrAlloc fuel
        (hash % t.nrAlloc) t.nrProbesF with
    | none => none
    | some (i, probes) =>
      some (i, { t with nrFinds := (t.nrFinds + 1) % 2 ^ 64, nrProbesF := probes })

/-- Method `addNewElement(element)`. -/
def addNewElement (fuel : Nat) (t : AssociativeArray K E) (element : E) :
    Option (AssociativeArray K E) :=
  if t.nrAlloc = 0 then none
  else
    let hash := t.desc.hashElement element % 2 ^ 32
    match probe t.desc (fun _ => false) t.table t.nrAlloc fuel
        (hash % t.nrAlloc) t.nrProbesR with
    | none => none
    | some (i, probes) =>
      some { t with
        table := t.table.set i element
        nrUsed := (t.nrUsed + 1) % 2 ^ 64
        nrProbesR := probes }

/-- The re-insertion loop of `addElement`:
`for (j = 0; j < oldAlloc; j++) if (!isEmptyElement(oldTable[j])) addNewElement(oldTable[j]);`
over the list of the indices still to visit. -/
def rehashLoop (fuel : Nat) (oldTable : List E) :
    List Nat → AssociativeArray K E → Option (AssociativeArray K E)
  | [], t => some t
  | j :: js, t =>
    match oldTable[j]? with
    | none => none
    | some x =>
      if (!t.desc.isEmptyElement x) = true then
        match addNewElement fuel t x with
        | none => none
        | some t1 => rehashLoop fuel oldTable js t1
      else rehashLoop fuel oldTable js t

/-- Method `addElement(element, overwrite)` with fill-up handler `fuh`. -/
def addElement (fuh : AssociativeArray K E → Bool) (fuel : Nat) (t : AssociativeArray K E)
    (element : E) (overwrite : Bool) : Option (Bool × AssociativeArray K E) :=
  if t.nrAlloc = 0 then none
  else
    let hash := t.desc.hashElement element % 2 ^ 32
    match probe t.desc (t.desc.isEqualElementElement element) t.table t.nrAlloc fuel
        (hash % t.nrAlloc) t.nrProbesA with
    | none => none
    | some (i, probes) =>
      let t1 := { t with nrAdds := (t.nrAdds + 1) % 2 ^ 64, nrProbesA := probes }
      match t1.table[i]? with
      | none => none
      | some x =>
        if (!t1.desc.isEmptyElement x) = true then
          if overwrite = true then some (false, { t1 with table := t1.table.set i element })
          else some (false, t1)
        else
          let t2 := { t1 with
            table := t1.table.set i element
            nrUsed := (t1.nrUsed + 1) % 2 ^ 64 }
          if t2.nrAlloc < (2 * t2.nrUsed) % 2 ^ 64 then
            if fuh t2 = true then some (true, t2)
            else
              let newAlloc := (2 * t2.nrAlloc + 1) % 2 ^ 64
              let t3 := { t2 with
                nrAlloc := newAlloc
                nrUsed := 0
                nrResizes := (t2.nrResizes + 1) % 2 ^ 64
                table := newTable t2.desc newAlloc }
              match rehashLoop fuel t2.table (List.range t2.nrAlloc) t3 with
              | none => none
              | some t4 => some (true, t4)
          else some (true, t2)

/-- The relocation test of the back-shift loop:
`(i < k && !(i < j && j <= k)) || (k < i && !(i < j || j <= k))`. -/
def relocate (i k j : Nat) : Bool :=
  (decide (i < k) && !(decide (i < j) && decide (j ≤ k))) ||
    (decide (k < i) && !(decide (i < j) || decide (j ≤ k)))

/-- The back-shift loop of `removeKey` and `removeElement`:
`while (!isEmptyElement(_table[k])) { j = hashElement(_table[k]) % _nrAlloc; if (...) {
_table[i] = _table[k]; clearElement(_table[k]); i = k; } k = (k + 1) % _nrAlloc; }`. -/
def backShift (d : Desc K E) (nrAlloc : Nat) :
    Nat → List E → Nat → Nat → Option (List E)
  | 0, _, _, _ => none
  | fuel + 1, table, i, k =>
    match table[k]? with
    | none => none
    | some x =>
      if d.isEmptyElement x = true then some table
      else
        let j := ((d.hashElement x % 2 ^ 32) % nrAlloc) % 2 ^ 32
        if relocate i k j = true then
          backShift d nrAlloc fuel ((table.set i x).set k (d.clearElement x)) k
            ((k + 1) % nrAlloc)
        else backShift d nrAlloc fuel table i ((k + 1) % nrAlloc)

/-- Method `removeKey(key)`: the returned element and the table afterwards. -/
def removeKey (fuel : Nat) (t : AssociativeArray K E) (key : K) :
    Option (E × AssociativeArray K E) :=
  if t.nrAlloc = 0 then none
  else
    let hash := t.desc.hashKey key % 2 ^ 32
    match probe t.desc (t.desc.isEqualKeyElement key) t.table t.nrAlloc fuel
        (hash % t.nrAlloc) t.nrProbesD with
    | none => none
    | some (i, probes) =>
      let t1 := { t with nrRems := (t.nrRems + 1) % 2 ^ 64, nrProbesD := probes }
      match t1.table[i]? with
      | none => none
      | some element =>
        if t1.desc.isEmptyElement element = true then some (element, t1)
        else
          let cleared := t1.table.set i (t1.desc.clearElement element)
          let used := (t1.nrUsed + 2 ^ 64 - 1) % 2 ^ 64
          match backShift t1.desc t1.nrAlloc fuel cleared i ((i + 1) % t1.nrAlloc) with
          | none => none
          | some table => some (element, { t1 with table := table, nrUsed := used })

/-- Method `removeElement(element)`: the returned flag and the table afterwards. -/
def removeElement (fuel : Nat) (t : AssociativeArray K E) (element : E) :
    Option (Bool × AssociativeArray K E) :=
  if t.nrAlloc = 0 then none
  else
    let hash := t.desc.hashElement element % 2 ^ 32
    match probe t.desc (t.desc.isEqualElementElement element) t.table t.nrAlloc fuel
        (hash % t.nrAlloc) t.nrProbesD with
    | none => none
    | some (i, probes) =>
      let t1 := { t with nrRems := (t.nrRems + 1) % 2 ^ 64, nrProbesD := probes }
      match t1.table[i]? with
      | none => none
      | some x =>
        if t1.desc.isEmptyElement x = true then some (false, t1)
        else
          let cleared := t1.table.set i (t1.desc.clearElement x)
          let used := (t1.nrUsed + 2 ^ 64 - 1) % 2 ^ 64
          match backShift t1.desc t1.nrAlloc fuel cleared i ((i + 1) % t1.nrAlloc) with
          | none => none
          | some table => some (true, { t1 with table := table, nrUsed := used })

/-! ## Invariants of the table -/

/-- Circular distance: the number of `+1` steps (mod `n`) that lead from index `a` to
index `b`, for `a, b < n`. -/
def cdist (n a b : Nat) : Nat := if a ≤ b then b - a else b + n - a

/-- The natural bucket of an element in a table of `n` slots: `hashElement(x) % n`. -/
def bucket (d : Desc K E) (n : Nat) (x : E) : Nat := (d.hashElement x % 2 ^ 32) % n

/-- Slot `p` exists and does not satisfy `isEmptyElement`. -/
def slotUsed (d : Desc K E) (table : List E) (p : Nat) : Bool :=
  match table[p]? with
  | some x => !d.isEmptyElement x
  | none => false

/-- The natural bucket of the element stored in slot `p`. -/
def slotHome (d : Desc K E) (n : Nat) (table : List E) (p : Nat) : Nat :=
  match table[p]? with
  | some x => bucket d n x
  | none => 0

/-- The probe-chain invariant: for every used slot `p`, the walk from the natural bucket
of its element with step `+1` (mod `n`) reaches `p` without crossing an empty slot. -/
def ProbeChain (d : Desc K E) (n : Nat) (table : List E) : Prop :=
  ∀ p, p < n → slotUsed d table p = true →
    ∀ m, m < cdist n (slotHome d n table p) p →
      slotUsed d table ((slotHome d n table p + m) % n) = true

/-- The contents of the used slots, in slot order. -/
def elems (d : Desc K E) (table : List E) : List E :=
  table.filter (fun x => !d.isEmptyElement x)

/-- No two used slots hold elements that are equal under `isEqualElementElement`. -/
def NoDuplicateKeys (d : Desc K E) (table : List E) : Prop :=
  (elems d table).Pairwise (fun x y => d.isEqualElementElement x y = false)

/-- The slot array has exactly `nrAlloc` slots. -/
def Allocated (t : AssociativeArray K E) : Prop := t.table.length = t.nrAlloc

/-- The capacity after a growth, `2 * nrAlloc + 1`, is representable in 64 bits (an
array that fits into the address space satisfies this). -/
def Growable (t : AssociativeArray K E) : Prop := 2 * t.nrAlloc + 1 < 2 ^ 64

/-- At least one slot satisfies `isEmptyElement`. -/
def HasEmptySlot (t : AssociativeArray K E) : Prop :=
  ∃ p, p < t.nrAlloc ∧ slotUsed t.desc t.table p = false

/-- The contract of `clearElement`: the cleared slot satisfies `isEmptyElement`. -/
def ClearsToEmpty (d : Desc K E) : Prop :=
  ∀ x, d.isEmptyElement (d.clearElement x) = true

/-- A coherent description, with `keyOf e` the key embedded in element `e`: `hashKey`
agrees with `hashElement` on an element's key, `isEqualKeyElement` agrees with
`isEqualElementElement`, equal elements hash equally, and equality of elements is an
equivalence. -/
structure Coherent (d : Desc K E) (keyOf : E → K) : Prop where
  hashKey_keyOf : ∀ e, d.hashKey (keyOf e) = d.hashElement e
  isEqualKey_keyOf : ∀ e x, d.isEqualKeyElement (keyOf e) x = d.isEqualElementElement e x
  hash_eq : ∀ x y, d.isEqualElementElement x y = true → d.hashElement x = d.hashElement y
  eq_refl : ∀ x, d.isEqualElementElement x x = true
  eq_symm : ∀ x y, d.isEqualElementElement x y = true → d.isEqualElementElement y x = true
  eq_trans : ∀ x y z, d.isEqualElementElement x y = true →
    d.isEqualElementElement y z = true → d.isEqualElementElement x z = true

/-- A well-formed table: capacity at least 1, the slot array allocated with a growable
capacity, the probe-chain invariant, no duplicate keys, `used` equal to the number of
non-empty slots, and a load factor of at most one half. -/
structure WellFormed (t : AssociativeArray K E) : Prop where
  capacity_pos : 1 ≤ t.nrAlloc
  allocated : Allocated t
  growable : Growable t
  probeChain : ProbeChain t.desc t.nrAlloc t.table
  noDuplicateKeys : NoDuplicateKeys t.desc t.table
  used_eq : t.nrUsed = (elems t.desc t.table).length
  load : 2 * t.nrUsed ≤ t.nrAlloc

/-- The probing loop with match test `isMatch` stops at slot `q`: the slot is empty or
matches. -/
def stopAt (d : Desc K E) (isMatch : E → Bool) (table : List E) (q : Nat) : Bool :=
  match table[q]? with
  | some x => d.isEmptyElement x || isMatch x
  | none => false

/-- Slot `r` is the first slot, on the walk from `i` with step `+1` (mod `n`), at which
the probing loop with match test `isMatch` stops. -/
def FirstStop (d : Desc K E) (isMatch : E → Bool) (table : List E) (n i r : Nat) : Prop :=
  r < n ∧ stopAt d isMatch table r = true ∧
    ∀ q, q < n → cdist n i q < cdist n i r → stopAt d isMatch table q = false

/-- The loop invariant of the back-shift loop with the hole at slot `i` and the scan at
slot `k`: the hole is empty; every slot strictly between the hole and the scan is used
and has its natural bucket after the hole and not after itself; and every walk from the
natural bucket of a used slot to that slot crosses no empty slot except possibly the
hole. -/
structure BackShiftInv (d : Desc K E) (n : Nat) (table : List E) (i k : Nat) : Prop where
  hole_lt : i < n
  scan_lt : k < n
  hole_empty : slotUsed d table i = false
  scanned : ∀ p, p < n → 0 < cdist n i p → (k = i ∨ cdist n i p < cdist n i k) →
    slotUsed d table p = true ∧ 0 < cdist n i (slotHome d n table p) ∧
      cdist n i (slotHome d n table p) ≤ cdist n i p
  chain : ∀ p q, p < n → q < n → slotUsed d table p = true →
    cdist n (slotHome d n table p) q < cdist n (slotHome d n table p) p →
    q = i ∨ slotUsed d table q = true

/-- The natural bucket of a key in a table of `n` slots: `hashKey(key) % n`. -/
def keyBucket (d : Desc K E) (n : Nat) (key : K) : Nat := (d.hashKey key % 2 ^ 32) % n

/-- The state of `addElement` after a new element has been stored in the empty slot
`r` and `_nrUsed` has been incremented (the probing loop left the counter at `c`). -/
def insertedState (t : AssociativeArray K E) (r c : Nat) (element : E) :
    AssociativeArray K E :=
  { t with
    nrAdds := (t.nrAdds + 1) % 2 ^ 64
    nrProbesA := c
    table := t.table.set r element
    nrUsed := (t.nrUsed + 1) % 2 ^ 64 }

/-- The state of `addElement` after the new, cleared slot array has been allocated, just
before the re-insertion loop. -/
def grownState (t2 : AssociativeArray K E) : AssociativeArray K E :=
  { t2 with
    nrAlloc := (2 * t2.nrAlloc + 1) % 2 ^ 64
    nrUsed := 0
    nrResizes := (t2.nrResizes + 1) % 2 ^ 64
    table := newTable t2.desc ((2 * t2.nrAlloc + 1) % 2 ^ 64) }

/-- What the re-insertion loop leaves alone: the description, the capacity and every
statistics counter except `_nrProbesR`. -/
structure RehashFrame (t t1 : AssociativeArray K E) : Prop where
  desc_eq : t1.desc = t.desc
  nrAlloc_eq : t1.nrAlloc = t.nrAlloc
  nrFinds_eq : t1.nrFinds = t.nrFinds
  nrAdds_eq : t1.nrAdds = t.nrAdds
  nrRems_eq : t1.nrRems = t.nrRems
  nrResizes_eq : t1.nrResizes = t.nrResizes
  nrProbesF_eq : t1.nrProbesF = t.nrProbesF
  nrProbesA_eq : t1.nrProbesA = t.nrProbesA
  nrProbesD_eq : t1.nrProbesD = t.nrProbesD

/-- The contents of the slots of `oldTable` with the indices `js`, in that order. -/
def slotsAt (oldTable : List E) (js : List Nat) : List E :=
  js.filterMap (fun j => oldTable[j]?)

/-- The states reachable from a freshly constructed table of the description `d` by
`addElement` (element overload, non-empty elements, default fill-up handler),
`removeKey`, `removeElement` and `clear`.  The constructor argument is a `uint64_t`. -/
inductive Reachable (d : Desc K E) : AssociativeArray K E → Prop
  | create (size : Nat) (hsize : size < 2 ^ 64) : Reachable d (AssociativeArray.create size d)
  | addElement (t : AssociativeArray K E) (fuel : Nat) (e : E) (overwrite : Bool) (b : Bool)
      (t1 : AssociativeArray K E) (ht : Reachable d t)
      (he : d.isEmptyElement e = false)
      (h : addElement ExtendAtFillup.handle fuel t e overwrite = some (b, t1)) : Reachable d t1
  | removeKey (t : AssociativeArray K E) (fuel : Nat) (key : K) (x : E)
      (t1 : AssociativeArray K E) (ht : Reachable d t)
      (h : removeKey fuel t key = some (x, t1)) : Reachable d t1
  | removeElement (t : AssociativeArray K E) (fuel : Nat) (e : E) (b : Bool)
      (t1 : AssociativeArray K E) (ht : Reachable d t)
      (h : removeElement fuel t e = some (b, t1)) : Reachable d t1
  | clear (t : AssociativeArray K E) (ht : Reachable d t) : Reachable d (clear t)

/-- The structural invariant of the table: the description is `d`, the slot array has
`nrAlloc` slots, `nrAlloc` is a 64-bit number, the probe-chain invariant holds, and
`nrUsed` is the number of slots that do not satisfy `isEmptyElement`. -/
structure Sound (d : Desc K E) (t : AssociativeArray K E) : Prop where
  desc_eq : t.desc = d
  allocated : Allocated t
  capacity_lt : t.nrAlloc < 2 ^ 64
  probeChain : ProbeChain t.desc t.nrAlloc t.table
  used_eq : t.nrUsed = (elems t.desc t.table).length

/-- A call of one of the mutating operations, as an item of a sequence of calls. -/
inductive Call (K E : Type) where
  | addElement (element : E) (overwrite : Bool)
  | removeElement (element : E)
  | removeKey (key : K)

/-- The table left by one call (default fill-up handler). -/
def applyCall (fuel : Nat) (t : AssociativeArray K E) : Call K E → Option (AssociativeArray K E)
  | Call.addElement e ow => (addElement ExtendAtFillup.handle fuel t e ow).map Prod.snd
  | Call.removeElement e => (removeElement fuel t e).map Prod.snd
  | Call.removeKey key => (removeKey fuel t key).map Prod.snd

/-- The table left by a sequence of calls. -/
def runCalls (fuel : Nat) : List (Call K E) → AssociativeArray K E →
    Option (AssociativeArray K E)
  | [], t => some t
  | c :: cs, t =>
    match applyCall fuel t c with
    | none => none
    | some t1 => runCalls fuel cs t1

/-- The calls that the size-conservation property speaks of: an added element is not
empty, and a removed key is the key of some element. -/
def ValidCall (d : Desc K E) (keyOf : E → K) : Call K E → Prop
  | Call.addElement e _ => d.isEmptyElement e = false
  | Call.removeElement _ => True
  | Call.removeKey key => ∃ e, keyOf e = key

/-- The abstract dictionary after one call, as the list of the live elements, one for
each key that has been inserted and not removed: an insertion adds the element when no
live element has its key and replaces the live element of that key when `overwrite` is
set; a removal deletes the live element that matches. -/
def liveAfter (d : Desc K E) (live : List E) : Call K E → List E
  | Call.addElement e ow =>
    if live.any (d.isEqualElementElement e) = true then
      if ow = true then e :: live.filter (fun x => !d.isEqualElementElement e x) else live
    else e :: live
  | Call.removeElement e => live.filter (fun x => !d.isEqualElementElement e x)
  | Call.removeKey key => live.filter (fun x => !d.isEqualKeyElement key x)

/-- The abstract dictionary after a sequence of calls. -/
def liveKeys (d : Desc K E) : List (Call K E) → List E → List E
  | [], live => live
  | c :: cs, live => liveKeys d cs (liveAfter d live c)

/-- The table `t` represents the abstract dictionary `live`: the structural invariant
holds, no two used slots hold equal elements, and the used slots hold exactly the live
elements. -/
structure Refines (d : Desc K E) (t : AssociativeArray K E) (live : List E) : Prop where
  sound : Sound d t
  noDuplicateKeys : NoDuplicateKeys d t.table
  perm : (elems d t.table).Perm live

/-! ## An example description -/

/-- An example description: an element is a pair of a key and a value, the key `0`
marks an empty slot, a key is its own hash value, and freshly allocated storage holds
arbitrary non-empty pairs. -/
def pairDesc : Desc Nat (Nat × Nat) :=
  { clearElement := fun _ => (0, 0)
    deleteElement := fun e => e
    hashElement := fun e => e.1
    hashKey := fun k => k
    isEmptyElement := fun e => e.1 == 0
    isEqualElementElement := fun a b => a.1 == b.1
    isEqualKeyElement := fun k e => k == e.1
    rawElement := fun j => (j + 1, 9) }

/-- The key embedded in an element of the example description. -/
def pairKey (e : Nat × Nat) : Nat := e.1

/-- A table of the example description with the given slots and `used` count, and all
statistics at zero. -/
def pairTable (slots : List (Nat × Nat)) (used : Nat) : AssociativeArray Nat (Nat × Nat) :=
  { desc := pairDesc
    nrAlloc := slots.length
    nrUsed := used
    table := slots
    nrFinds := 0
    nrAdds := 0
    nrRems := 0
    nrResizes := 0
    nrProbesF := 0
    nrProbesA := 0
    nrProbesD := 0
    nrProbesR := 0 }

/-! ## The key overload of `addElement`, and `swap` -/

/-- The array made by `new ELEMENT[size]`, before any slot is cleared. -/
def rawTable (d : Desc K E) (size : Nat) : List E :=
  (List.range size).map d.rawElement

/-- The first loop of the growth branch of the key overload, as the source has it:
`for (uint64_t j = 0; i < _nrAlloc; i++) { clearElement(_table[j]); }`.
The loop tests and increments the probe index `i` while `j` stays `0`; `count` is the
number of its iterations, `_nrAlloc - i`. -/
def clearLoopKey (d : Desc K E) : Nat → List E → Option (List E)
  | 0, table => some table
  | count + 1, table =>
    match table[0]? with
    | none => none
    | some x => clearLoopKey d count (table.set 0 (d.clearElement x))

/-- The second loop of the growth branch of the key overload, as the source has it:
`for (uint64_t j = 0; i < oldAlloc; i++) { if (!isEmptyElement(oldTable[j]))
addNewElement(oldTable[j]); }`.
Again `j` stays `0`; `count` is the number of iterations, `oldAlloc - i`. -/
def rehashLoopKey (fuel : Nat) (oldTable : List E) :
    Nat → AssociativeArray K E → Option (AssociativeArray K E)
  | 0, t => some t
  | count + 1, t =>
    match oldTable[0]? with
    | none => none
    | some x =>
      if (!t.desc.isEmptyElement x) = true then
        match addNewElement fuel t x with
        | none => none
        | some t1 => rehashLoopKey fuel oldTable count t1
      else rehashLoopKey fuel oldTable count t

/-- Method `addElement(key, element, overwrite)` with fill-up handler `fuh`. -/
def addElementWithKey (fuh : AssociativeArray K E → Bool) (fuel : Nat)
    (t : AssociativeArray K E) (key : K) (element : E) (overwrite : Bool) :
    Option (Bool × AssociativeArray K E) :=
  if t.nrAlloc = 0 then none
  else
    let hash := t.desc.hashKey key % 2 ^ 32
    match probe t.desc (t.desc.isEqualKeyElement key) t.table t.nrAlloc fuel
        (hash % t.nrAlloc) t.nrProbesA with
    | none => none
    | some (i, probes) =>
      let t1 := { t with nrAdds := (t.nrAdds + 1) % 2 ^ 64, nrProbesA := probes }
      match t1.table[i]? with
      | none => none
      | some x =>
        if (!t1.desc.isEmptyElement x) = true then
          if overwrite = true then some (false, { t1 with table := t1.table.set i element })
          else some (false, t1)
        else
          let t2 := { t1 with
            table := t1.table.set i element
            nrUsed := (t1.nrUsed + 1) % 2 ^ 64 }
          if t2.nrAlloc < (2 * t2.nrUsed) % 2 ^ 64 then
            if fuh t2 = true then some (true, t2)
            else
              let newAlloc := (2 * t2.nrAlloc + 1) % 2 ^ 64
              match clearLoopKey t2.desc (newAlloc - i) (rawTable t2.desc newAlloc) with
              | none => none
              | some table =>
                let i1 := if i < newAlloc then newAlloc else i
                let t3 := { t2 with
                  nrAlloc := newAlloc
                  nrUsed := 0
                  nrResizes := (t2.nrResizes + 1) % 2 ^ 64
                  table := table }
                match rehashLoopKey fuel t2.table (t2.nrAlloc - i1) t3 with
                | none => none
                | some t4 => some (true, t4)
          else some (true, t2)

/-- The statements
`DESC tmpDesc = _desc; _desc = other->_desc; other->_desc = tmpDesc;`
of `swap`, on the pair of `*this` and `*other`. -/
def swapDesc (p : AssociativeArray K E × AssociativeArray K E) :
    AssociativeArray K E × AssociativeArray K E :=
  ({ p.1 with desc := p.2.desc }, { p.2 with desc := p.1.desc })

/-- The statements
`tmpInt = _nrAlloc; _nrAlloc = other->_nrAlloc; other->_nrAlloc = tmpInt;`
of `swap`, on the pair of `*this` and `*other`. -/
def swapNrAlloc (p : AssociativeArray K E × AssociativeArray K E) :
    AssociativeArray K E × AssociativeArray K E :=
  ({ p.1 with nrAlloc := p.2.nrAlloc }, { p.2 with nrAlloc := p.1.nrAlloc })

/-- The statements
`tmpInt = _nrUsed; _nrUsed = other->_nrUsed; other->_nrUsed = tmpInt;`
of `swap`, on the pair of `*this` and `*other`. -/
def swapNrUsed (p : AssociativeArray K E × AssociativeArray K E) :
    AssociativeArray K E × AssociativeArray K E :=
  ({ p.1 with nrUsed := p.2.nrUsed }, { p.2 with nrUsed := p.1.nrUsed })

/-- The statements
`tmpInt = _nrFinds; _nrFinds = other->_nrFinds; other->_nrFinds = tmpInt;`
of `swap`, on the pair of `*this` and `*other`. -/
def swapNrFinds (p : AssociativeArray K E × AssociativeArray K E) :
    AssociativeArray K E × AssociativeArray K E :=
  ({ p.1 with nrFinds := p.2.nrFinds }, { p.2 with nrFinds := p.1.nrFinds })

/-- The statements
`tmpInt = _nrAdds; _nrAdds = other->_nrAdds; other->_nrAdds = tmpInt;`
of `swap`, on the pair of `*this` and `*other`. -/
def swapNrAdds (p : AssociativeArray K E × AssociativeArray K E) :
    AssociativeArray K E × AssociativeArray K E :=
  ({ p.1 with nrAdds := p.2.nrAdds }, { p.2 with nrAdds := p.1.nrAdds })

/-- The statements
`tmpInt = _nrRems; _nrRems = other->_nrRems; other->_nrRems = tmpInt;`
of `swap`, on the pair of `*this` and `*other`. -/
def swapNrRems (p : AssociativeArray K E × AssociativeArray K E) :
    AssociativeArray K E × AssociativeArray K E :=
  ({ p.1 with nrRems := p.2.nrRems }, { p.2 with nrRems := p.1.nrRems })

/-- The statements
`tmpInt = _nrResizes; _nrResizes = other->_nrResizes; other->_nrResizes = tmpInt;`
of `swap`, on the pair of `*this` and `*other`. -/
def swapNrResizes (p : AssociativeArray K E × AssociativeArray K E) :
    AssociativeArray K E × AssociativeArray K E :=
  ({ p.1 with nrResizes := p.2.nrResizes }, { p.2 with nrResizes := p.1.nrResizes })

/-- The statements
`tmpInt = _nrProbesF; _nrProbesF = other->_nrProbesF; other->_nrProbesF = tmpInt;`
of `swap`, on the pair of `*this` and `*other`. -/
def swapNrProbesF (p : AssociativeArray K E × AssociativeArray K E) :
    AssociativeArray K E × AssociativeArray K E :=
  ({ p.1 with nrProbesF := p.2.nrProbesF }, { p.2 with nrProbesF := p.1.nrProbesF })

/-- The statements
`tmpInt = _nrProbesA; _nrProbesA = other->_nrProbesA; other->_nrProbesA = tmpInt;`
of `swap`, on the pair of `*this` and `*other`. -/
def swapNrProbesA (p : AssociativeArray K E × AssociativeArray K E) :
    AssociativeArray K E × AssociativeArray K E :=
  ({ p.1 with nrProbesA := p.2.nrProbesA }, { p.2 with nrProbesA := p.1.nrProbesA })

/-- The statements
`tmpInt = _nrProbesD; _nrProbesD = other->_nrProbesD; other->_nrProbesD = tmpInt;`
of `swap`, on the pair of `*this` and `*other`. -/
def swapNrProbesD (p : AssociativeArray K E × AssociativeArray K E) :
    AssociativeArray K E × AssociativeArray K E :=
  ({ p.1 with nrProbesD := p.2.nrProbesD }, { p.2 with nrProbesD := p.1.nrProbesD })

/-- The statements
`tmpInt = _nrProbesR; _nrProbesR = other->_nrProbesR; other->_nrProbesR = tmpInt;`
of `swap`, on the pair of `*this` and `*other`. -/
def swapNrProbesR (p : AssociativeArray K E × AssociativeArray K E) :
    AssociativeArray K E × AssociativeArray K E :=
  ({ p.1 with nrProbesR := p.2.nrProbesR }, { p.2 with nrProbesR := p.1.nrProbesR })

/-- The statements
`ELEMENT* tmpTable = _table; _table = other->_table; other->_table = tmpTable;`
of `swap`, on the pair of `*this` and `*other`. -/
def swapTable (p : AssociativeArray K E × AssociativeArray K E) :
    AssociativeArray K E × AssociativeArray K E :=
  ({ p.1 with table := p.2.table }, { p.2 with table := p.1.table })

/-- Method `swap(other)`: the pair of `*this` and `*other` after the call. The blocks of
three statements are applied in the order of the source, which has the block for
`_nrRems` twice. -/
def swap (self other : AssociativeArray K E) : AssociativeArray K E × AssociativeArray K E :=
  swapTable (swapNrProbesR (swapNrProbesD (swapNrProbesA (swapNrProbesF (swapNrResizes
    (swapNrRems (swapNrRems (swapNrAdds (swapNrFinds (swapNrUsed (swapNrAlloc
      (swapDesc (self, other)))))))))))))

/-! ## `clearAndDelete`, sequences of public operations, and the statistics -/

/-- The loop of `clearAndDelete`:
`for (uint64_t i = 0; i < _nrAlloc; i++) { deleteElement(_table[i]); }`,
over the list of the indices still to visit. `deleteElement` releases what the element
owns outside the table, so the loop is observed through its calls: the result is the
slot array as the loop leaves it, and the log of the calls of `deleteElement`, each with
the slot index and the slot content that the call received, in the order of the
calls. -/
def deleteLoop (d : Desc K E) :
    List Nat → List E → List (Nat × E) → Option (List E × List (Nat × E))
  | [], table, log => some (table, log)
  | i :: rest, table, log =>
    match table[i]? with
    | none => none
    | some x => deleteLoop d rest (table.set i (d.deleteElement x)) (log ++ [(i, x)])

/-- Method `clearAndDelete()` with the calls of `deleteElement` that it makes: the loop
over all `_nrAlloc` slots, then `delete[] _table` and `initialise(_nrAlloc)`. The result
is the log of the calls and the table afterwards. -/
def clearAndDeleteCalls (t : AssociativeArray K E) :
    Option (List (Nat × E) × AssociativeArray K E) :=
  match deleteLoop t.desc (List.range t.nrAlloc) t.table [] with
  | none => none
  | some (_, log) => some (log, initialise t.desc t.nrAlloc)

/-- Method `clearAndDelete()`: the table afterwards. -/
def clearAndDelete (t : AssociativeArray K E) : Option (AssociativeArray K E) :=
  (clearAndDeleteCalls t).map Prod.snd

/-- A call of one of the public operations that touch the table or its statistics. -/
inductive Op (K E : Type) where
  | findKey (key : K)
  | findElement (element : E)
  | addElement (element : E) (overwrite : Bool)
  | addElementWithKey (key : K) (element : E) (overwrite : Bool)
  | removeKey (key : K)
  | removeElement (element : E)
  | clear
  | clearAndDelete

/-- The table left by one public operation, with fill-up handler `fuh`. -/
def applyOp (fuh : AssociativeArray K E → Bool) (fuel : Nat) (t : AssociativeArray K E) :
    Op K E → Option (AssociativeArray K E)
  | Op.findKey key => (findKey fuel t key).map Prod.snd
  | Op.findElement e => (findElement fuel t e).map Prod.snd
  | Op.addElement e ow => (addElement fuh fuel t e ow).map Prod.snd
  | Op.addElementWithKey key e ow => (addElementWithKey fuh fuel t key e ow).map Prod.snd
  | Op.removeKey key => (removeKey fuel t key).map Prod.snd
  | Op.removeElement e => (removeElement fuel t e).map Prod.snd
  | Op.clear => some (clear t)
  | Op.clearAndDelete => clearAndDelete t

/-- The states reached from a table constructed with `size` slots by public operations
with fill-up handler `fuh`, each with the list of the operations performed so far, the
latest first. -/
inductive ReachedBy (d : Desc K E) (fuh : AssociativeArray K E → Bool) (size : Nat) :
    List (Op K E) → AssociativeArray K E → Prop
  | create : ReachedBy d fuh size [] (AssociativeArray.create size d)
  | step (ops : List (Op K E)) (t : AssociativeArray K E) (fuel : Nat) (op : Op K E)
      (t1 : AssociativeArray K E) (ht : ReachedBy d fuh size ops t)
      (h : applyOp fuh fuel t op = some t1) : ReachedBy d fuh size (op :: ops) t1

/-- The operations that store elements through the element overload only: every
operation except the key overload of `addElement`. -/
def Op.isElementOverload : Op K E → Bool
  | Op.addElementWithKey _ _ _ => false
  | _ => true

/-- The operations that reinitialise the table: `clear` and `clearAndDelete`. -/
def Op.isClear : Op K E → Bool
  | Op.clear => true
  | Op.clearAndDelete => true
  | _ => false

/-- A sequence of calls `addElement(e)` (with `overwrite = true`) with fill-up handler
`fuh`: the flags returned, in order, and the table left. -/
def addElements (fuh : AssociativeArray K E → Bool) (fuel : Nat) :
    List E → AssociativeArray K E → Option (List Bool × AssociativeArray K E)
  | [], t => some ([], t)
  | e :: es, t =>
    match addElement fuh fuel t e true with
    | none => none
    | some (b, t1) =>
      match addElements fuh fuel es t1 with
      | none => none
      | some (bs, t2) => some (b :: bs, t2)

/-- None of the eight statistics counters is smaller in `t1` than in `t`. -/
structure CountersLe (t t1 : AssociativeArray K E) : Prop where
  nrFinds_le : t.nrFinds ≤ t1.nrFinds
  nrAdds_le : t.nrAdds ≤ t1.nrAdds
  nrRems_le : t.nrRems ≤ t1.nrRems
  nrResizes_le : t.nrResizes ≤ t1.nrResizes
  nrProbesF_le : t.nrProbesF ≤ t1.nrProbesF
  nrProbesA_le : t.nrProbesA ≤ t1.nrProbesA
  nrProbesD_le : t.nrProbesD ≤ t1.nrProbesD
  nrProbesR_le : t.nrProbesR ≤ t1.nrProbesR

/-- All eight statistics counters are zero. -/
structure CountersZero (t : AssociativeArray K E) : Prop where
  nrFinds_eq : t.nrFinds = 0
  nrAdds_eq : t.nrAdds = 0
  nrRems_eq : t.nrRems = 0
  nrResizes_eq : t.nrResizes = 0
  nrProbesF_eq : t.nrProbesF = 0
  nrProbesA_eq : t.nrProbesA = 0
  nrProbesD_eq : t.nrProbesD = 0
  nrProbesR_eq : t.nrProbesR = 0

/-- No 64-bit wrap-around of a statistics counter in one operation whose loops run at
most `fuel` iterations each: the four call counters can take one increment, the probe
counters of lookup, insertion and removal can take `fuel` increments, and the probe
counter of rehashing can take `fuel` increments for each of the `nrAlloc` slots that are
re-inserted. -/
structure NoWrap (fuel : Nat) (t : AssociativeArray K E) : Prop where
  nrFinds_lt : t.nrFinds + 1 < 2 ^ 64
  nrAdds_lt : t.nrAdds + 1 < 2 ^ 64
  nrRems_lt : t.nrRems + 1 < 2 ^ 64
  nrResizes_lt : t.nrResizes + 1 < 2 ^ 64
  nrProbesF_le : t.nrProbesF + fuel ≤ 2 ^ 64
  nrProbesA_le : t.nrProbesA + fuel ≤ 2 ^ 64
  nrProbesD_le : t.nrProbesD + fuel ≤ 2 ^ 64
  nrProbesR_le : t.nrProbesR + t.nrAlloc * fuel ≤ 2 ^ 64

/-! ### Example tables -/

/-- The table left by `addElement((1, 10))` on a fresh table of capacity 3. -/
def insertedExample : AssociativeArray Nat (Nat × Nat) :=
  { pairTable [(0, 0), (1, 10), (0, 0)] 1 with nrAdds := 1 }

/-- The table left by `addElement((1, 10))` and `addElement((2, 5))` on a fresh table of
capacity 3: the second insertion made the table grow to capacity 7. -/
def grownExample : AssociativeArray Nat (Nat × Nat) :=
  { pairTable [(0, 0), (1, 10), (2, 5), (0, 0), (0, 0), (0, 0), (0, 0)] 2 with
    nrAdds := 2, nrResizes := 1 }

/-- The table left by `removeKey(1)` on `grownExample`. -/
def removedExample : AssociativeArray Nat (Nat × Nat) :=
  { pairTable [(0, 0), (0, 0), (2, 5), (0, 0), (0, 0), (0, 0), (0, 0)] 1 with
    nrAdds := 2, nrRems := 1, nrResizes := 1 }

/-- The table left by the key overload `addElement(2, (2, 5))` on `insertedExample`: the
growth branch cleared slot 0 only and re-inserted nothing. -/
def keyGrownExample : AssociativeArray Nat (Nat × Nat) :=
  { pairTable [(0, 0), (2, 9), (3, 9), (4, 9), (5, 9), (6, 9), (7, 9)] 0 with
    nrAdds := 2, nrResizes := 1 }

/-- The full table of capacity 1 left by one vetoed insertion of `(1, 1)`. -/
def fullExample : AssociativeArray Nat (Nat × Nat) :=
  { pairTable [(1, 1)] 1 with nrAdds := 1 }

/-- A table of capacity 7 with the keys 1, 8 and 15, all of natural bucket 1, in the
slots 1, 2 and 3. -/
def chainExample : AssociativeArray Nat (Nat × Nat) :=
  pairTable [(0, 0), (1, 1), (8, 2), (15, 3), (0, 0), (0, 0), (0, 0)] 3

/-- A table of capacity 7 with the keys 6, 13 and 20, all of natural bucket 6, in the
slots 6, 0 and 1. -/
def wrapChainExample : AssociativeArray Nat (Nat × Nat) :=
  pairTable [(13, 2), (20, 3), (0, 0), (0, 0), (0, 0), (0, 0), (6, 1)] 3

/-! ## More example tables -/

/-- A table of capacity 3 that holds `(1, 10)` in slot 1, with all statistics at zero. -/
def smallExample : AssociativeArray Nat (Nat × Nat) :=
  pairTable [(0, 0), (1, 10), (0, 0)] 1

/-- A table of capacity 5 that holds `(1, 10)` in slot 1, with all statistics at zero. -/
def roomyExample : AssociativeArray Nat (Nat × Nat) :=
  pairTable [(0, 0), (1, 10), (0, 0), (0, 0), (0, 0)] 1

end Operations

/-! ## Circular arithmetic -/

section CircularArithmetic

theorem succ_mod_eq {n i : Nat} (h : i < n) :
    (i + 1) % n = if i + 1 = n then 0 else i + 1 := by
  split
  · next h1 => rw [h1, Nat.mod_self]
  · exact Nat.mod_eq_of_lt (by omega)

theorem succ_mod_lt {n i : Nat} (h : i < n) : (i + 1) % n < n :=
  Nat.mod_lt _ (by omega)

theorem add_mod_eq {n a m : Nat} (ha : a < n) (hm : m < n) :
    (a + m) % n = if a + m < n then a + m else a + m - n := by
  split
  · next h1 => exact Nat.mod_eq_of_lt h1
  · next h1 =>
    have h2 : a + m = (a + m - n) + n := by omega
    rw [h2, Nat.add_mod_right, Nat.mod_eq_of_lt (by omega)]
    omega

theorem cdist_self (n a : Nat) : cdist n a a = 0 := by
  simp [cdist]

theorem cdist_lt {n a b : Nat} (ha : a < n) (hb : b < n) : cdist n a b < n := by
  unfold cdist; split_ifs <;> omega

theorem cdist_eq_zero {n a b : Nat} (ha : a < n) (_hb : b < n) :
    cdist n a b = 0 ↔ a = b := by
  unfold cdist; split_ifs <;> omega

theorem cdist_inj {n a b c : Nat} (ha : a < n) (hb : b < n) (hc : c < n)
    (h : cdist n a b = cdist n a c) : b = c := by
  unfold cdist at h; split_ifs at h <;> omega

theorem cdist_succ {n i q : Nat} (hi : i < n) (hq : q < n) (hne : q ≠ i) :
    cdist n ((i + 1) % n) q + 1 = cdist n i q := by
  rw [succ_mod_eq hi]; unfold cdist; split_ifs <;> omega

theorem add_cdist_mod {n a b : Nat} (ha : a < n) (hb : b < n) :
    (a + cdist n a b) % n = b := by
  rw [add_mod_eq ha (cdist_lt ha hb)]; unfold cdist; split_ifs <;> omega

theorem cdist_add_mod {n a m : Nat} (ha : a < n) (hm : m < n) :
    cdist n a ((a + m) % n) = m := by
  rw [add_mod_eq ha hm]; unfold cdist; split_ifs <;> omega

/-- Going from `a` to `c` through `b`: when `b` lies on the walk from `a` to `c`. -/
theorem cdist_split {n a b c : Nat} (ha : a < n) (hb : b < n) (hc : c < n)
    (h : cdist n a b ≤ cdist n a c) : cdist n a c = cdist n a b + cdist n b c := by
  unfold cdist at *; split_ifs at * <;> omega

end CircularArithmetic

/-! ## The probing loop -/

section Probe

variable {K E : Type}

theorem stopAt_lt {d : Desc K E} {isMatch : E → Bool} {table : List E} {q : Nat}
    (h : stopAt d isMatch table q = true) : q < table.length := by
  unfold stopAt at h
  by_contra hq
  rw [List.getElem?_eq_none (by omega)] at h
  simp at h

theorem probe_step_stop (d : Desc K E) (isMatch : E → Bool) (table : List E) (n : Nat)
    (fuel i c : Nat) (hs : stopAt d isMatch table i = true) :
    probe d isMatch table n (fuel + 1) i c = some (i, c) := by
  have hi := stopAt_lt hs
  unfold stopAt at hs
  rw [List.getElem?_eq_getElem hi] at hs
  simp only [probe, List.getElem?_eq_getElem hi]
  rw [if_neg]
  intro h
  simp only [Bool.and_eq_true, Bool.not_eq_true', Bool.or_eq_true] at h hs
  rcases hs with hs | hs
  · rw [hs] at h; exact absurd h.1 (by simp)
  · rw [hs] at h; exact absurd h.2 (by simp)

theorem probe_step_continue (d : Desc K E) (isMatch : E → Bool) (table : List E) (n : Nat)
    (fuel i c : Nat) (hi : i < table.length) (hs : stopAt d isMatch table i = false) :
    probe d isMatch table n (fuel + 1) i c =
      probe d isMatch table n fuel ((i + 1) % n) ((c + 1) % 2 ^ 64) := by
  unfold stopAt at hs
  rw [List.getElem?_eq_getElem hi] at hs
  simp only [probe, List.getElem?_eq_getElem hi]
  rw [if_pos]
  simp only [Bool.or_eq_false_iff] at hs
  simp [hs.1, hs.2]

/-- The probing loop returns the first stop slot once the fuel exceeds the distance to
some stop slot; the probe counter grows by the distance walked. -/
theorem probe_some (d : Desc K E) (isMatch : E → Bool) (table : List E) (n : Nat)
    (hlen : table.length = n) :
    ∀ fuel i c q, i < n → q < n → stopAt d isMatch table q = true → cdist n i q < fuel →
      ∃ r c1, probe d isMatch table n fuel i c = some (r, c1) ∧
        FirstStop d isMatch table n i r ∧
        (c < 2 ^ 64 → c1 = (c + cdist n i r) % 2 ^ 64) := by
  intro fuel
  induction fuel with
  | zero => intro i c q _ _ _ h; omega
  | succ fuel ih =>
    intro i c q hi hq hstop hfuel
    have hi2 : i < table.length := by omega
    by_cases hs : stopAt d isMatch table i = true
    · refine ⟨i, c, probe_step_stop d isMatch table n fuel i c hs, ⟨hi, hs, ?_⟩, ?_⟩
      · intro q2 _ h; rw [cdist_self] at h; omega
      · intro hc; rw [cdist_self]; omega
    · have hs2 : stopAt d isMatch table i = false := by simpa using hs
      have hne : q ≠ i := by
        intro h; rw [h] at hstop; rw [hstop] at hs2; exact absurd hs2 (by simp)
      have hi3 := succ_mod_lt hi
      have hd := cdist_succ hi hq hne
      obtain ⟨r, c1, hr, ⟨hr1, hr2, hr3⟩, hc1⟩ :=
        ih ((i + 1) % n) ((c + 1) % 2 ^ 64) q hi3 hq hstop (by omega)
      have hne2 : r ≠ i := by
        intro h; rw [h] at hr2; rw [hr2] at hs2; exact absurd hs2 (by simp)
      have hd2 := cdist_succ hi hr1 hne2
      refine ⟨r, c1, ?_, ⟨hr1, hr2, ?_⟩, ?_⟩
      · rw [probe_step_continue d isMatch table n fuel i c hi2 hs2, hr]
      · intro q2 hq2 hlt
        by_cases hq3 : q2 = i
        · rw [hq3]; exact hs2
        · have hd3 := cdist_succ hi hq2 hq3
          exact hr3 q2 hq2 (by omega)
      · intro hc
        rw [hc1 (Nat.mod_lt _ (by norm_num))]
        omega

/-- Two first stop slots of the same walk coincide. -/
theorem FirstStop.unique {d : Desc K E} {isMatch : E → Bool} {table : List E}
    {n i r1 r2 : Nat} (hi : i < n)
    (h1 : FirstStop d isMatch table n i r1) (h2 : FirstStop d isMatch table n i r2) :
    r1 = r2 := by
  obtain ⟨ha, hb, hc⟩ := h1
  obtain ⟨ha2, hb2, hc2⟩ := h2
  apply cdist_inj hi ha ha2
  by_contra hne
  rcases Nat.lt_or_gt_of_ne hne with h | h
  · have := hc2 r1 ha h; rw [hb] at this; exact absurd this (by simp)
  · have := hc r2 ha2 h; rw [hb2] at this; exact absurd this (by simp)

/-- Whatever the probing loop returns is the first stop slot (for any fuel). -/
theorem probe_sound (d : Desc K E) (isMatch : E → Bool) (table : List E) (n : Nat)
    (hlen : table.length = n) :
    ∀ fuel i c r c1, i < n → probe d isMatch table n fuel i c = some (r, c1) →
      FirstStop d isMatch table n i r := by
  intro fuel
  induction fuel with
  | zero => intro i c r c1 _ h; simp [probe] at h
  | succ fuel ih =>
    intro i c r c1 hi h
    have hi2 : i < table.length := by omega
    by_cases hs : stopAt d isMatch table i = true
    · rw [probe_step_stop d isMatch table n fuel i c hs] at h
      simp only [Option.some.injEq, Prod.mk.injEq] at h
      rw [← h.1]
      refine ⟨hi, hs, ?_⟩
      intro q2 _ h; rw [cdist_self] at h; omega
    · have hs2 : stopAt d isMatch table i = false := by simpa using hs
      rw [probe_step_continue d isMatch table n fuel i c hi2 hs2] at h
      obtain ⟨hr1, hr2, hr3⟩ := ih _ _ _ _ (succ_mod_lt hi) h
      have hne2 : r ≠ i := by
        intro h; rw [h] at hr2; rw [hr2] at hs2; exact absurd hs2 (by simp)
      have hd2 := cdist_succ hi hr1 hne2
      refine ⟨hr1, hr2, ?_⟩
      intro q2 hq2 hlt
      by_cases hq3 : q2 = i
      · rw [hq3]; exact hs2
      · have hd3 := cdist_succ hi hq2 hq3
        exact hr3 q2 hq2 (by omega)

end Probe

/-! ## Slots, used slots and the stored elements -/

section Slots

variable {K E : Type}

theorem bucket_lt (d : Desc K E) {n : Nat} (hn : 0 < n) (x : E) : bucket d n x < n :=
  Nat.mod_lt _ hn

theorem bucket_mod (d : Desc K E) (n : Nat) (x : E) :
    bucket d n x % 2 ^ 32 = bucket d n x := by
  apply Nat.mod_eq_of_lt
  have h1 : bucket d n x ≤ d.hashElement x % 2 ^ 32 := Nat.mod_le _ _
  have h2 : d.hashElement x % 2 ^ 32 < 2 ^ 32 := Nat.mod_lt _ (by norm_num)
  omega

theorem slotHome_lt (d : Desc K E) {n : Nat} (hn : 0 < n) (table : List E) (p : Nat) :
    slotHome d n table p < n := by
  unfold slotHome
  split
  · exact bucket_lt d hn _
  · exact hn

theorem slotUsed_of_get {d : Desc K E} {table : List E} {p : Nat} {x : E}
    (h : table[p]? = some x) : slotUsed d table p = !d.isEmptyElement x := by
  simp [slotUsed, h]

theorem slotHome_of_get {d : Desc K E} {n : Nat} {table : List E} {p : Nat} {x : E}
    (h : table[p]? = some x) : slotHome d n table p = bucket d n x := by
  simp [slotHome, h]

theorem stopAt_of_get {d : Desc K E} {isMatch : E → Bool} {table : List E} {p : Nat} {x : E}
    (h : table[p]? = some x) :
    stopAt d isMatch table p = (d.isEmptyElement x || isMatch x) := by
  simp [stopAt, h]

theorem slotUsed_lt {d : Desc K E} {table : List E} {p : Nat}
    (h : slotUsed d table p = true) : p < table.length := by
  unfold slotUsed at h
  by_contra hq
  rw [List.getElem?_eq_none (by omega)] at h
  simp at h

theorem slotUsed_get {d : Desc K E} {table : List E} {p : Nat}
    (h : slotUsed d table p = true) :
    ∃ x, table[p]? = some x ∧ d.isEmptyElement x = false := by
  have hp := slotUsed_lt h
  refine ⟨table[p], List.getElem?_eq_getElem hp, ?_⟩
  rw [slotUsed_of_get (List.getElem?_eq_getElem hp)] at h
  simpa using h

theorem slotUsed_of_not_stop {d : Desc K E} {isMatch : E → Bool} {table : List E} {q : Nat}
    (hq : q < table.length) (h : stopAt d isMatch table q = false) :
    slotUsed d table q = true := by
  have hg := List.getElem?_eq_getElem hq
  rw [stopAt_of_get hg, Bool.or_eq_false_iff] at h
  rw [slotUsed_of_get hg, h.1]; rfl

theorem slotUsed_set {d : Desc K E} {table : List E} {i : Nat} (x : E)
    (hi : i < table.length) (p : Nat) :
    slotUsed d (table.set i x) p =
      if p = i then !d.isEmptyElement x else slotUsed d table p := by
  unfold slotUsed
  rw [List.getElem?_set]
  by_cases h : i = p
  · subst h; simp [hi]
  · have h2 : ¬ p = i := fun h3 => h h3.symm
    simp [h, h2]

theorem slotHome_set {d : Desc K E} {n : Nat} {table : List E} {i : Nat} (x : E)
    (hi : i < table.length) (p : Nat) :
    slotHome d n (table.set i x) p =
      if p = i then bucket d n x else slotHome d n table p := by
  unfold slotHome
  rw [List.getElem?_set]
  by_cases h : i = p
  · subst h; simp [hi]
  · have h2 : ¬ p = i := fun h3 => h h3.symm
    simp [h, h2]

theorem stopAt_set {d : Desc K E} {isMatch : E → Bool} {table : List E} {i : Nat} (x : E)
    (hi : i < table.length) (p : Nat) :
    stopAt d isMatch (table.set i x) p =
      if p = i then (d.isEmptyElement x || isMatch x) else stopAt d isMatch table p := by
  unfold stopAt
  rw [List.getElem?_set]
  by_cases h : i = p
  · subst h; simp [hi]
  · have h2 : ¬ p = i := fun h3 => h h3.symm
    simp [h, h2]

/-- The probe-chain invariant in terms of slots instead of offsets: every slot that
lies on the walk from the natural bucket of a used slot `p`, before `p`, is used. -/
theorem ProbeChain.walk {d : Desc K E} {n : Nat} {table : List E}
    (h : ProbeChain d n table) {p q : Nat} (hp : p < n) (hq : q < n)
    (hu : slotUsed d table p = true)
    (hlt : cdist n (slotHome d n table p) q < cdist n (slotHome d n table p) p) :
    slotUsed d table q = true := by
  have hn : 0 < n := by omega
  have hh := slotHome_lt d hn table p
  have := h p hp hu _ hlt
  rwa [add_cdist_mod hh hq] at this

theorem ProbeChain.of_walk {d : Desc K E} {n : Nat} {table : List E}
    (h : ∀ p q, p < n → q < n → slotUsed d table p = true →
      cdist n (slotHome d n table p) q < cdist n (slotHome d n table p) p →
      slotUsed d table q = true) :
    ProbeChain d n table := by
  intro p hp hu m hm
  have hn : 0 < n := by omega
  have hh := slotHome_lt d hn table p
  have hm2 : m < n := lt_trans hm (cdist_lt hh hp)
  apply h p _ hp (Nat.mod_lt _ hn) hu
  rwa [cdist_add_mod hh hm2]

/-- Storing a non-empty element in the first stop slot of the walk from its natural
bucket preserves the probe-chain invariant. -/
theorem ProbeChain.set_firstStop {d : Desc K E} {isMatch : E → Bool} {n : Nat}
    {table : List E} (hlen : table.length = n) (h : ProbeChain d n table)
    {e : E} (he : d.isEmptyElement e = false) {r : Nat}
    (hr : FirstStop d isMatch table n (bucket d n e) r) :
    ProbeChain d n (table.set r e) := by
  obtain ⟨hr1, hr2, hr3⟩ := hr
  have hr4 : r < table.length := by omega
  apply ProbeChain.of_walk
  intro p q hp hq hu hlt
  rw [slotUsed_set e hr4] at hu ⊢
  rw [slotHome_set e hr4] at hlt
  by_cases hpr : p = r
  · subst hpr
    simp only [if_true] at hlt
    have hne : q ≠ p := by intro h2; rw [h2] at hlt; omega
    rw [if_neg hne]
    exact slotUsed_of_not_stop (by omega) (hr3 q hq hlt)
  · rw [if_neg hpr] at hu hlt
    by_cases hqr : q = r
    · rw [if_pos hqr, he]; rfl
    · rw [if_neg hqr]
      exact h.walk hp hq hu hlt

end Slots

/-! ## The list of stored elements -/

section Elems

variable {K E : Type}

theorem elems_append (d : Desc K E) (a b : List E) :
    elems d (a ++ b) = elems d a ++ elems d b := by
  simp [elems]

theorem elems_singleton_used {d : Desc K E} {x : E} (h : d.isEmptyElement x = false) :
    elems d [x] = [x] := by
  simp [elems, h]

theorem elems_singleton_empty {d : Desc K E} {x : E} (h : d.isEmptyElement x = true) :
    elems d [x] = [] := by
  simp [elems, h]

theorem mem_elems {d : Desc K E} {table : List E} {x : E} :
    x ∈ elems d table ↔ x ∈ table ∧ d.isEmptyElement x = false := by
  simp [elems]

theorem mem_elems_iff_slot {d : Desc K E} {table : List E} {x : E} :
    x ∈ elems d table ↔ ∃ p : Nat, table[p]? = some x ∧ d.isEmptyElement x = false := by
  rw [mem_elems, List.mem_iff_getElem?]
  constructor
  · rintro ⟨⟨p, hp⟩, hx⟩; exact ⟨p, hp, hx⟩
  · rintro ⟨p, hp, hx⟩; exact ⟨⟨p, hp⟩, hx⟩

theorem elems_length_le (d : Desc K E) (table : List E) :
    (elems d table).length ≤ table.length :=
  List.length_filter_le _ _

theorem elems_split (d : Desc K E) {table : List E} {i : Nat} {y : E}
    (h : table[i]? = some y) :
    elems d table = elems d (table.take i) ++ elems d [y] ++ elems d (table.drop (i + 1)) := by
  obtain ⟨hi, hy⟩ := List.getElem?_eq_some.mp h
  have h1 : table = table.take i ++ y :: table.drop (i + 1) := by
    rw [← hy, List.getElem_cons_drop, List.take_append_drop]
  conv_lhs => rw [h1]
  rw [elems_append, List.append_assoc, ← elems_append d [y]]
  rfl

theorem elems_set_split (d : Desc K E) {table : List E} {i : Nat} (hi : i < table.length)
    (x : E) :
    elems d (table.set i x) =
      elems d (table.take i) ++ elems d [x] ++ elems d (table.drop (i + 1)) := by
  rw [List.set_eq_take_append_cons_drop, if_pos hi, elems_append, List.append_assoc,
    ← elems_append d [x]]
  rfl

/-- Replacing the content `y` of slot `i` by `x` exchanges `y` for `x` in the list of
stored elements, up to a permutation. -/
theorem elems_set_perm (d : Desc K E) {table : List E} {i : Nat} {y : E}
    (h : table[i]? = some y) (x : E) :
    (elems d [y] ++ elems d (table.set i x)).Perm (elems d [x] ++ elems d table) := by
  obtain ⟨hi, _⟩ := List.getElem?_eq_some.mp h
  rw [elems_set_split d hi x, elems_split d h]
  generalize elems d (table.take i) = A
  generalize elems d (table.drop (i + 1)) = B
  generalize elems d [x] = X
  generalize elems d [y] = Y
  have h1 : (Y ++ (A ++ X ++ B)).Perm (X ++ (A ++ Y ++ B)) := by
    classical
    rw [List.perm_iff_count]
    intro a
    simp only [List.count_append]
    omega
  exact h1

/-- Filling an empty slot with a non-empty element adds that element. -/
theorem elems_set_insert (d : Desc K E) {table : List E} {i : Nat} {y x : E}
    (h : table[i]? = some y) (hy : d.isEmptyElement y = true)
    (hx : d.isEmptyElement x = false) :
    (elems d (table.set i x)).Perm (x :: elems d table) := by
  have := elems_set_perm d h x
  rwa [elems_singleton_empty hy, elems_singleton_used hx] at this

/-- Clearing a used slot removes its element. -/
theorem elems_set_clear (d : Desc K E) {table : List E} {i : Nat} {y x : E}
    (h : table[i]? = some y) (hy : d.isEmptyElement y = false)
    (hx : d.isEmptyElement x = true) :
    (y :: elems d (table.set i x)).Perm (elems d table) := by
  have := elems_set_perm d h x
  rwa [elems_singleton_empty hx, elems_singleton_used hy] at this

/-- Overwriting a used slot with a non-empty element keeps the number of elements. -/
theorem elems_set_length (d : Desc K E) {table : List E} {i : Nat} {y x : E}
    (h : table[i]? = some y) (hxy : d.isEmptyElement x = d.isEmptyElement y) :
    (elems d (table.set i x)).length = (elems d table).length := by
  have := (elems_set_perm d h x).length_eq
  simp only [List.length_append] at this
  have h2 : (elems d [x]).length = (elems d [y]).length := by
    simp only [elems, List.filter_cons, List.filter_nil, hxy]
    split <;> rfl
  omega

theorem exists_empty_of_lt (d : Desc K E) {table : List E}
    (h : (elems d table).length < table.length) :
    ∃ p, p < table.length ∧ slotUsed d table p = false := by
  by_contra hcon
  have hall : ∀ x ∈ table, (!d.isEmptyElement x) = true := by
    intro x hx
    obtain ⟨p, hp⟩ := List.mem_iff_getElem?.mp hx
    obtain ⟨hp2, _⟩ := List.getElem?_eq_some.mp hp
    by_contra hne
    apply hcon
    refine ⟨p, hp2, ?_⟩
    rw [slotUsed_of_get hp]
    simpa using hne
  have : elems d table = table := List.filter_eq_self.mpr hall
  rw [this] at h
  omega

/-- Apart from the slot itself, every used slot holds an element that is not equal to
the element in slot `p`, when no two used slots hold equal elements. -/
theorem NoDuplicateKeys.slots {d : Desc K E} {table : List E}
    (h : NoDuplicateKeys d table)
    (hsymm : ∀ x y, d.isEqualElementElement x y = true → d.isEqualElementElement y x = true)
    {p q : Nat} {x y : E} (hp : table[p]? = some x) (hq : table[q]? = some y)
    (hne : p ≠ q) (hx : d.isEmptyElement x = false) (hy : d.isEmptyElement y = false) :
    d.isEqualElementElement x y = false := by
  have key : ∀ (p q : Nat) (x y : E), table[p]? = some x → table[q]? = some y → p < q →
      d.isEmptyElement x = false → d.isEmptyElement y = false →
      d.isEqualElementElement x y = false := by
    intro p q x y hp hq hlt hx hy
    unfold NoDuplicateKeys at h
    rw [elems_split d hq, List.append_assoc, List.pairwise_append] at h
    obtain ⟨_, _, h3⟩ := h
    apply h3 x
    · rw [mem_elems_iff_slot]
      exact ⟨p, by rw [List.getElem?_take_of_lt hlt]; exact hp, hx⟩
    · rw [elems_singleton_used hy]; simp
  rcases Nat.lt_or_gt_of_ne hne with hlt | hlt
  · exact key p q x y hp hq hlt hx hy
  · have := key q p y x hq hp hlt hy hx
    by_contra hcon
    rw [Bool.not_eq_false] at hcon
    rw [hsymm x y hcon] at this
    exact absurd this (by simp)

end Elems

/-! ## The back-shift loop -/

section BackShift

variable {K E : Type}

/-- The relocation test is true exactly when the natural bucket `j` lies outside the
circular interval `(i, k]`. -/
theorem relocate_iff {n i k j : Nat} (hi : i < n) (hk : k < n) (hj : j < n) (hne : i ≠ k) :
    relocate i k j = true ↔ ¬ (0 < cdist n i j ∧ cdist n i j ≤ cdist n i k) := by
  unfold relocate cdist
  simp only [Bool.or_eq_true, Bool.and_eq_true, decide_eq_true_eq, Bool.not_eq_true',
    Bool.and_eq_false_imp, Bool.or_eq_false_iff, decide_eq_false_iff_not]
  split_ifs <;> omega

theorem backShift_step_stop (d : Desc K E) (n fuel : Nat) (table : List E) (i k : Nat)
    (hu : k < table.length) (hs : slotUsed d table k = false) :
    backShift d n (fuel + 1) table i k = some table := by
  have hg := List.getElem?_eq_getElem hu
  rw [slotUsed_of_get hg] at hs
  simp only [backShift, hg]
  rw [if_pos (by simpa using hs)]

theorem backShift_step_move (d : Desc K E) (n fuel : Nat) (table : List E) (i k : Nat)
    {x : E} (hg : table[k]? = some x) (hx : d.isEmptyElement x = false)
    (hr : relocate i k (bucket d n x) = true) :
    backShift d n (fuel + 1) table i k =
      backShift d n fuel ((table.set i x).set k (d.clearElement x)) k ((k + 1) % n) := by
  have hb : (d.hashElement x % 2 ^ 32) % n % 2 ^ 32 = bucket d n x := bucket_mod d n x
  simp only [backShift, hg, hx, hb, hr, if_true]
  simp

theorem backShift_step_skip (d : Desc K E) (n fuel : Nat) (table : List E) (i k : Nat)
    {x : E} (hg : table[k]? = some x) (hx : d.isEmptyElement x = false)
    (hr : relocate i k (bucket d n x) = false) :
    backShift d n (fuel + 1) table i k = backShift d n fuel table i ((k + 1) % n) := by
  have hb : (d.hashElement x % 2 ^ 32) % n % 2 ^ 32 = bucket d n x := bucket_mod d n x
  simp only [backShift, hg, hx, hb, hr]
  simp

/-- Clearing a used slot of a table that satisfies the probe-chain invariant
establishes the loop invariant. -/
theorem BackShiftInv.init {d : Desc K E} {n : Nat} {table : List E}
    (hpc : ProbeChain d n table) {i : Nat} (hi : i < n) (hlen : table.length = n)
    {c : E} (hc : d.isEmptyElement c = true) :
    BackShiftInv d n (table.set i c) i ((i + 1) % n) := by
  have hi2 : i < table.length := by omega
  refine ⟨hi, succ_mod_lt hi, ?_, ?_, ?_⟩
  · rw [slotUsed_set c hi2, if_pos rfl, hc]; rfl
  · intro p hp h0 h1
    exfalso
    rw [succ_mod_eq hi] at h1
    unfold cdist at h0 h1
    split_ifs at h0 h1 <;> omega
  · intro p q hp hq hu hlt
    rw [slotUsed_set c hi2] at hu ⊢
    rw [slotHome_set c hi2] at hlt
    by_cases hpi : p = i
    · rw [if_pos hpi, hc] at hu; exact absurd hu (by simp)
    · rw [if_neg hpi] at hu hlt
      by_cases hqi : q = i
      · exact Or.inl hqi
      · right; rw [if_neg hqi]; exact hpc.walk hp hq hu hlt

/-- When the scan reaches an empty slot the probe-chain invariant holds again. -/
theorem BackShiftInv.finish {d : Desc K E} {n : Nat} {table : List E} {i k : Nat}
    (h : BackShiftInv d n table i k) (hk : slotUsed d table k = false) :
    ProbeChain d n table := by
  apply ProbeChain.of_walk
  intro p q hp hq hu hlt
  have hn : 0 < n := by omega
  have hh := slotHome_lt d hn table p
  rcases h.chain p q hp hq hu hlt with hqi | hq2
  · exfalso
    subst hqi
    have hpq : p ≠ q := by
      intro h2; rw [h2] at hu; exact absurd (hu.symm.trans h.hole_empty) (by simp)
    have hpk : p ≠ k := by
      intro h2; rw [h2] at hu; rw [hu] at hk; exact absurd hk (by simp)
    have hi := h.hole_lt
    have hk2 := h.scan_lt
    by_cases hcase : k = q ∨ cdist n q p < cdist n q k
    · have h0 : 0 < cdist n q p := by
        rcases Nat.eq_zero_or_pos (cdist n q p) with h3 | h3
        · exact absurd ((cdist_eq_zero hi hp).mp h3).symm hpq
        · exact h3
      obtain ⟨_, h4, h5⟩ := h.scanned p hp h0 hcase
      generalize slotHome d n table p = hm at *
      unfold cdist at hlt h4 h5
      split_ifs at hlt h4 h5 <;> omega
    · rw [not_or] at hcase
      obtain ⟨hkq, hge⟩ := hcase
      have hne : cdist n q p ≠ cdist n q k := fun h3 => hpk (cdist_inj hi hp hk2 h3)
      have hlt2 : cdist n (slotHome d n table p) k < cdist n (slotHome d n table p) p := by
        generalize slotHome d n table p = hm at *
        unfold cdist at hlt hge hne ⊢
        split_ifs at hlt hge hne ⊢ <;> omega
      rcases h.chain p k hp hk2 hu hlt2 with h6 | h6
      · exact hkq h6
      · rw [h6] at hk; exact absurd hk (by simp)
  · exact hq2

/-- The loop invariant is kept when the element under the scan stays where it is. -/
theorem BackShiftInv.skip {d : Desc K E} {n : Nat} {table : List E} {i k : Nat}
    (h : BackShiftInv d n table i k) (hu : slotUsed d table k = true)
    (hr : relocate i k (slotHome d n table k) = false) :
    BackShiftInv d n table i ((k + 1) % n) := by
  have hi := h.hole_lt
  have hk := h.scan_lt
  have hn : 0 < n := by omega
  have hne : i ≠ k := by
    intro h2; rw [← h2] at hu; exact absurd (hu.symm.trans h.hole_empty) (by simp)
  have hj := slotHome_lt d hn table k
  have hrel : 0 < cdist n i (slotHome d n table k) ∧
      cdist n i (slotHome d n table k) ≤ cdist n i k := by
    by_contra hcon
    rw [(relocate_iff hi hk hj hne).mpr hcon] at hr
    exact absurd hr (by simp)
  refine ⟨hi, succ_mod_lt hk, h.hole_empty, ?_, h.chain⟩
  intro p hp h0 h1
  by_cases hpk : p = k
  · subst hpk; exact ⟨hu, hrel⟩
  · apply h.scanned p hp h0
    right
    have hne2 : cdist n i p ≠ cdist n i k := fun h3 => hpk (cdist_inj hi hp hk h3)
    have hlt := cdist_lt hi hp
    rw [succ_mod_eq hk] at h1
    unfold cdist at h1 hne2 hlt ⊢
    split_ifs at h1 hne2 hlt ⊢ <;> omega

/-- The loop invariant is kept when the element under the scan moves into the hole. -/
theorem BackShiftInv.move {d : Desc K E} {n : Nat} {table : List E} {i k : Nat}
    (h : BackShiftInv d n table i k) (hlen : table.length = n) {x c : E}
    (hg : table[k]? = some x) (hx : d.isEmptyElement x = false)
    (hc : d.isEmptyElement c = true)
    (hr : relocate i k (bucket d n x) = true) :
    BackShiftInv d n ((table.set i x).set k c) k ((k + 1) % n) := by
  have hi := h.hole_lt
  have hk := h.scan_lt
  have hn : 0 < n := by omega
  have hu : slotUsed d table k = true := by rw [slotUsed_of_get hg, hx]; rfl
  have hne : i ≠ k := by
    intro h2; rw [← h2] at hu; exact absurd (hu.symm.trans h.hole_empty) (by simp)
  have hj := bucket_lt d hn x
  have hrel := (relocate_iff hi hk hj hne).mp hr
  have hi2 : i < table.length := by omega
  have hk2 : k < (table.set i x).length := by rw [List.length_set]; omega
  have hused : ∀ p, slotUsed d ((table.set i x).set k c) p =
      if p = k then false else if p = i then true else slotUsed d table p := by
    intro p
    rw [slotUsed_set c hk2, slotUsed_set x hi2, hc, hx]; rfl
  have hhome : ∀ p, p ≠ k → slotHome d n ((table.set i x).set k c) p =
      if p = i then bucket d n x else slotHome d n table p := by
    intro p hp
    rw [slotHome_set c hk2, if_neg hp, slotHome_set x hi2]
  refine ⟨hk, succ_mod_lt hk, ?_, ?_, ?_⟩
  · rw [hused, if_pos rfl]
  · intro p hp h0 h1
    exfalso
    rw [succ_mod_eq hk] at h1
    unfold cdist at h0 h1
    split_ifs at h0 h1 <;> omega
  · intro p q hp hq hup hlt
    rw [hused] at hup ⊢
    by_cases hpk : p = k
    · rw [if_pos hpk] at hup; exact absurd hup (by simp)
    · rw [hhome p hpk] at hlt
      rw [if_neg hpk] at hup
      by_cases hqk : q = k
      · exact Or.inl hqk
      · right
        rw [if_neg hqk]
        by_cases hqi : q = i
        · rw [if_pos hqi]
        · rw [if_neg hqi]
          by_cases hpi : p = i
          · rw [if_pos hpi] at hlt
            rw [hpi] at hlt
            have hlt2 : cdist n (slotHome d n table k) q < cdist n (slotHome d n table k) k := by
              rw [slotHome_of_get hg]
              generalize bucket d n x = j at *
              unfold cdist at hlt hrel ⊢
              split_ifs at hlt hrel ⊢ <;> omega
            rcases h.chain k q hk hq hu hlt2 with h3 | h3
            · exact absurd h3 hqi
            · exact h3
          · rw [if_neg hpi] at hup hlt
            rcases h.chain p q hp hq hup hlt with h3 | h3
            · exact absurd h3 hqi
            · exact h3

end BackShift

section BackShiftRun

variable {K E : Type}

/-- Whatever the back-shift loop returns satisfies the probe-chain invariant again and
holds the same elements. -/
theorem backShift_sound {d : Desc K E} (hclear : ClearsToEmpty d) (n : Nat) :
    ∀ (fuel : Nat) (table : List E) (i k : Nat) (result : List E),
      table.length = n → BackShiftInv d n table i k →
      backShift d n fuel table i k = some result →
      ProbeChain d n result ∧ result.length = n ∧ (elems d result).Perm (elems d table) := by
  intro fuel
  induction fuel with
  | zero => intro table i k result _ _ h; simp [backShift] at h
  | succ fuel ih =>
    intro table i k result hlen hinv h
    have hk : k < table.length := by have := hinv.scan_lt; omega
    have hi : i < table.length := by have := hinv.hole_lt; omega
    have hg := List.getElem?_eq_getElem hk
    by_cases hu : slotUsed d table k = true
    · have hx : d.isEmptyElement table[k] = false := by
        rw [slotUsed_of_get hg] at hu; simpa using hu
      by_cases hr : relocate i k (bucket d n table[k]) = true
      · rw [backShift_step_move d n fuel table i k hg hx hr] at h
        have hinv2 := hinv.move hlen hg hx (hclear table[k]) hr
        obtain ⟨h1, h2, h3⟩ := ih _ _ _ _ (by simp [hlen]) hinv2 h
        refine ⟨h1, h2, h3.trans ?_⟩
        have hne : i ≠ k := by
          intro h4; rw [← h4] at hu; exact absurd (hu.symm.trans hinv.hole_empty) (by simp)
        obtain ⟨y, hy, hy2⟩ : ∃ y, table[i]? = some y ∧ d.isEmptyElement y = true := by
          refine ⟨table[i], List.getElem?_eq_getElem hi, ?_⟩
          have := hinv.hole_empty
          rw [slotUsed_of_get (List.getElem?_eq_getElem hi)] at this
          simpa using this
        have p1 := elems_set_insert d hy hy2 hx
        have hg2 : (table.set i table[k])[k]? = some table[k] := by
          rw [List.getElem?_set_ne hne]; exact hg
        have p2 := elems_set_clear d hg2 hx (hclear table[k])
        exact (List.Perm.cons_inv (p2.trans p1))
      · have hr2 : relocate i k (slotHome d n table k) = false := by
          rw [slotHome_of_get hg]; simpa using hr
        rw [backShift_step_skip d n fuel table i k hg hx (by simpa using hr)] at h
        exact ih _ _ _ _ hlen (hinv.skip hu hr2) h
    · have hu2 : slotUsed d table k = false := by simpa using hu
      rw [backShift_step_stop d n fuel table i k hk hu2] at h
      simp only [Option.some.injEq] at h
      subst h
      exact ⟨hinv.finish hu2, hlen, List.Perm.refl _⟩

/-- The back-shift loop returns once the fuel exceeds the distance from the scan to an
empty slot other than the hole. -/
theorem backShift_some (d : Desc K E) (n : Nat) :
    ∀ (fuel : Nat) (table : List E) (i k z : Nat),
      table.length = n → i < n → k < n → z < n → slotUsed d table z = false → z ≠ i →
      cdist n k z < fuel →
      ∃ result, backShift d n fuel table i k = some result := by
  intro fuel
  induction fuel with
  | zero => intro table i k z _ _ _ _ _ _ h; omega
  | succ fuel ih =>
    intro table i k z hlen hi hk hz hzu hzi hfuel
    have hk2 : k < table.length := by omega
    have hi2 : i < table.length := by omega
    have hg := List.getElem?_eq_getElem hk2
    by_cases hu : slotUsed d table k = true
    · have hx : d.isEmptyElement table[k] = false := by
        rw [slotUsed_of_get hg] at hu; simpa using hu
      have hzk : z ≠ k := by
        intro h4; rw [h4] at hzu; exact absurd (hu.symm.trans hzu) (by simp)
      have hd := cdist_succ hk hz hzk
      by_cases hr : relocate i k (bucket d n table[k]) = true
      · rw [backShift_step_move d n fuel table i k hg hx hr]
        apply ih _ k _ z (by simp [hlen]) hk (succ_mod_lt hk) hz _ hzk (by omega)
        rw [slotUsed_set _ (by rw [List.length_set]; omega), if_neg hzk,
          slotUsed_set _ hi2, if_neg hzi]
        exact hzu
      · rw [backShift_step_skip d n fuel table i k hg hx (by simpa using hr)]
        exact ih _ i _ z hlen hi (succ_mod_lt hk) hz hzu hzi (by omega)
    · have hu2 : slotUsed d table k = false := by simpa using hu
      exact ⟨table, backShift_step_stop d n fuel table i k hk2 hu2⟩

end BackShiftRun

/-! ## Removal -/

section Remove

variable {K E : Type}

theorem removeElement_empty {fuel : Nat} {t : AssociativeArray K E} {e : E}
    (hn : t.nrAlloc ≠ 0) {r c : Nat} {x : E}
    (hp : probe t.desc (t.desc.isEqualElementElement e) t.table t.nrAlloc fuel
      (bucket t.desc t.nrAlloc e) t.nrProbesD = some (r, c))
    (hx : t.table[r]? = some x) (hex : t.desc.isEmptyElement x = true) :
    removeElement fuel t e =
      some (false, { t with nrRems := (t.nrRems + 1) % 2 ^ 64, nrProbesD := c }) := by
  unfold bucket at hp
  unfold removeElement
  rw [if_neg hn]
  simp only [hp, hx, hex, if_true]

theorem removeElement_used {fuel : Nat} {t : AssociativeArray K E} {e : E}
    (hn : t.nrAlloc ≠ 0) {r c : Nat} {x : E} {table : List E}
    (hp : probe t.desc (t.desc.isEqualElementElement e) t.table t.nrAlloc fuel
      (bucket t.desc t.nrAlloc e) t.nrProbesD = some (r, c))
    (hx : t.table[r]? = some x) (hex : t.desc.isEmptyElement x = false)
    (hb : backShift t.desc t.nrAlloc fuel (t.table.set r (t.desc.clearElement x)) r
      ((r + 1) % t.nrAlloc) = some table) :
    removeElement fuel t e =
      some (true, { t with
        nrRems := (t.nrRems + 1) % 2 ^ 64
        nrProbesD := c
        table := table
        nrUsed := (t.nrUsed + 2 ^ 64 - 1) % 2 ^ 64 }) := by
  unfold bucket at hp
  unfold removeElement
  rw [if_neg hn]
  simp only [hp, hx, hex, hb]
  rfl

theorem removeElement_inv {fuel : Nat} {t : AssociativeArray K E} {e : E}
    {b : Bool} {t1 : AssociativeArray K E} (h : removeElement fuel t e = some (b, t1)) :
    t.nrAlloc ≠ 0 ∧ ∃ r c x,
      probe t.desc (t.desc.isEqualElementElement e) t.table t.nrAlloc fuel
        (bucket t.desc t.nrAlloc e) t.nrProbesD = some (r, c) ∧
      t.table[r]? = some x ∧
      ((t.desc.isEmptyElement x = true ∧ b = false ∧
          t1 = { t with nrRems := (t.nrRems + 1) % 2 ^ 64, nrProbesD := c }) ∨
       (t.desc.isEmptyElement x = false ∧ b = true ∧ ∃ table,
          backShift t.desc t.nrAlloc fuel (t.table.set r (t.desc.clearElement x)) r
            ((r + 1) % t.nrAlloc) = some table ∧
          t1 = { t with
            nrRems := (t.nrRems + 1) % 2 ^ 64
            nrProbesD := c
            table := table
            nrUsed := (t.nrUsed + 2 ^ 64 - 1) % 2 ^ 64 })) := by
  by_cases hn : t.nrAlloc = 0
  · simp [removeElement, hn] at h
  refine ⟨hn, ?_⟩
  cases hp : probe t.desc (t.desc.isEqualElementElement e) t.table t.nrAlloc fuel
      (bucket t.desc t.nrAlloc e) t.nrProbesD with
  | none =>
    unfold bucket at hp
    unfold removeElement at h
    rw [if_neg hn] at h
    simp only [hp] at h
    exact absurd h (by simp)
  | some rc =>
    obtain ⟨r, c⟩ := rc
    cases hx : t.table[r]? with
    | none =>
      unfold bucket at hp
      unfold removeElement at h
      rw [if_neg hn] at h
      simp only [hp, hx] at h
      exact absurd h (by simp)
    | some x =>
      refine ⟨r, c, x, rfl, hx, ?_⟩
      by_cases hex : t.desc.isEmptyElement x = true
      · rw [removeElement_empty hn hp hx hex] at h
        simp only [Option.some.injEq, Prod.mk.injEq] at h
        exact Or.inl ⟨hex, h.1.symm, h.2.symm⟩
      · have hex2 : t.desc.isEmptyElement x = false := by simpa using hex
        cases hb : backShift t.desc t.nrAlloc fuel (t.table.set r (t.desc.clearElement x)) r
            ((r + 1) % t.nrAlloc) with
        | none =>
          unfold bucket at hp
          unfold removeElement at h
          rw [if_neg hn] at h
          simp only [hp, hx, hex2, hb] at h
          exact absurd h (by simp)
        | some table =>
          rw [removeElement_used hn hp hx hex2 hb] at h
          simp only [Option.some.injEq, Prod.mk.injEq] at h
          exact Or.inr ⟨hex2, h.1.symm, table, rfl, h.2.symm⟩

theorem removeKey_empty {fuel : Nat} {t : AssociativeArray K E} {key : K}
    (hn : t.nrAlloc ≠ 0) {r c : Nat} {x : E}
    (hp : probe t.desc (t.desc.isEqualKeyElement key) t.table t.nrAlloc fuel
      (keyBucket t.desc t.nrAlloc key) t.nrProbesD = some (r, c))
    (hx : t.table[r]? = some x) (hex : t.desc.isEmptyElement x = true) :
    removeKey fuel t key =
      some (x, { t with nrRems := (t.nrRems + 1) % 2 ^ 64, nrProbesD := c }) := by
  unfold keyBucket at hp
  unfold removeKey
  rw [if_neg hn]
  simp only [hp, hx, hex, if_true]

theorem removeKey_used {fuel : Nat} {t : AssociativeArray K E} {key : K}
    (hn : t.nrAlloc ≠ 0) {r c : Nat} {x : E} {table : List E}
    (hp : probe t.desc (t.desc.isEqualKeyElement key) t.table t.nrAlloc fuel
      (keyBucket t.desc t.nrAlloc key) t.nrProbesD = some (r, c))
    (hx : t.table[r]? = some x) (hex : t.desc.isEmptyElement x = false)
    (hb : backShift t.desc t.nrAlloc fuel (t.table.set r (t.desc.clearElement x)) r
      ((r + 1) % t.nrAlloc) = some table) :
    removeKey fuel t key =
      some (x, { t with
        nrRems := (t.nrRems + 1) % 2 ^ 64
        nrProbesD := c
        table := table
        nrUsed := (t.nrUsed + 2 ^ 64 - 1) % 2 ^ 64 }) := by
  unfold keyBucket at hp
  unfold removeKey
  rw [if_neg hn]
  simp only [hp, hx, hex, hb]
  rfl

theorem removeKey_inv {fuel : Nat} {t : AssociativeArray K E} {key : K}
    {b : E} {t1 : AssociativeArray K E} (h : removeKey fuel t key = some (b, t1)) :
    t.nrAlloc ≠ 0 ∧ ∃ r c x,
      probe t.desc (t.desc.isEqualKeyElement key) t.table t.nrAlloc fuel
        (keyBucket t.desc t.nrAlloc key) t.nrProbesD = some (r, c) ∧
      t.table[r]? = some x ∧
      ((t.desc.isEmptyElement x = true ∧ b = x ∧
          t1 = { t with nrRems := (t.nrRems + 1) % 2 ^ 64, nrProbesD := c }) ∨
       (t.desc.isEmptyElement x = false ∧ b = x ∧ ∃ table,
          backShift t.desc t.nrAlloc fuel (t.table.set r (t.desc.clearElement x)) r
            ((r + 1) % t.nrAlloc) = some table ∧
          t1 = { t with
            nrRems := (t.nrRems + 1) % 2 ^ 64
            nrProbesD := c
            table := table
            nrUsed := (t.nrUsed + 2 ^ 64 - 1) % 2 ^ 64 })) := by
  by_cases hn : t.nrAlloc = 0
  · simp [removeKey, hn] at h
  refine ⟨hn, ?_⟩
  cases hp : probe t.desc (t.desc.isEqualKeyElement key) t.table t.nrAlloc fuel
      (keyBucket t.desc t.nrAlloc key) t.nrProbesD with
  | none =>
    unfold keyBucket at hp
    unfold removeKey at h
    rw [if_neg hn] at h
    simp only [hp] at h
    exact absurd h (by simp)
  | some rc =>
    obtain ⟨r, c⟩ := rc
    cases hx : t.table[r]? with
    | none =>
      unfold keyBucket at hp
      unfold removeKey at h
      rw [if_neg hn] at h
      simp only [hp, hx] at h
      exact absurd h (by simp)
    | some x =>
      refine ⟨r, c, x, rfl, hx, ?_⟩
      by_cases hex : t.desc.isEmptyElement x = true
      · rw [removeKey_empty hn hp hx hex] at h
        simp only [Option.some.injEq, Prod.mk.injEq] at h
        exact Or.inl ⟨hex, h.1.symm, h.2.symm⟩
      · have hex2 : t.desc.isEmptyElement x = false := by simpa using hex
        cases hb : backShift t.desc t.nrAlloc fuel (t.table.set r (t.desc.clearElement x)) r
            ((r + 1) % t.nrAlloc) with
        | none =>
          unfold keyBucket at hp
          unfold removeKey at h
          rw [if_neg hn] at h
          simp only [hp, hx, hex2, hb] at h
          exact absurd h (by simp)
        | some table =>
          rw [removeKey_used hn hp hx hex2 hb] at h
          simp only [Option.some.injEq, Prod.mk.injEq] at h
          exact Or.inr ⟨hex2, h.1.symm, table, rfl, h.2.symm⟩


end Remove

section RemoveCore

variable {K E : Type}

theorem HasEmptySlot.pos {t : AssociativeArray K E} (h : HasEmptySlot t) : 0 < t.nrAlloc := by
  obtain ⟨p, hp, _⟩ := h; omega

theorem stopAt_of_unused {d : Desc K E} (isMatch : E → Bool) {table : List E} {z : Nat}
    (hz : z < table.length) (h : slotUsed d table z = false) :
    stopAt d isMatch table z = true := by
  have hg := List.getElem?_eq_getElem hz
  rw [slotUsed_of_get hg] at h
  rw [stopAt_of_get hg]
  have : d.isEmptyElement table[z] = true := by simpa using h
  rw [this]; rfl

/-- The probing loop of any operation returns when the table has an empty slot and the
fuel is at least the capacity. -/
theorem probe_total (d : Desc K E) (isMatch : E → Bool) {table : List E} {n : Nat}
    (hlen : table.length = n) {z : Nat} (hz : z < n) (hzu : slotUsed d table z = false)
    {fuel : Nat} (hfuel : n ≤ fuel) {i : Nat} (hi : i < n) (c : Nat) :
    ∃ r c1 x, probe d isMatch table n fuel i c = some (r, c1) ∧
      FirstStop d isMatch table n i r ∧ table[r]? = some x ∧
      (c < 2 ^ 64 → c1 = (c + cdist n i r) % 2 ^ 64) := by
  have hs := stopAt_of_unused isMatch (by omega) hzu
  obtain ⟨r, c1, h1, h2, h3⟩ := probe_some d isMatch table n hlen fuel i c z hi hz hs
    (lt_of_lt_of_le (cdist_lt hi hz) hfuel)
  have hr : r < table.length := by have := h2.1; omega
  exact ⟨r, c1, table[r], h1, h2, List.getElem?_eq_getElem hr, h3⟩

/-- The table left by the back-shift loop after slot `r` has been cleared. -/
theorem backShift_after_clear_sound {d : Desc K E} (hclear : ClearsToEmpty d) {n : Nat}
    {table : List E} (hlen : table.length = n) (hpc : ProbeChain d n table)
    {r : Nat} {x : E} (hx : table[r]? = some x) (hex : d.isEmptyElement x = false)
    {fuel : Nat} {result : List E}
    (h : backShift d n fuel (table.set r (d.clearElement x)) r ((r + 1) % n) = some result) :
    ProbeChain d n result ∧ result.length = n ∧ (x :: elems d result).Perm (elems d table) := by
  obtain ⟨hr, _⟩ := List.getElem?_eq_some.mp hx
  have hinv := BackShiftInv.init hpc (by omega : r < n) hlen (hclear x)
  obtain ⟨h1, h2, h3⟩ := backShift_sound hclear n fuel _ _ _ _ (by simp [hlen]) hinv h
  exact ⟨h1, h2, (List.Perm.cons x h3).trans (elems_set_clear d hx hex (hclear x))⟩

/-- The back-shift loop after clearing slot `r` returns when the table had an empty
slot and the fuel is at least the capacity. -/
theorem backShift_after_clear_total (d : Desc K E) {n : Nat}
    {table : List E} (hlen : table.length = n)
    {r : Nat} {x : E} (hx : table[r]? = some x) (hex : d.isEmptyElement x = false)
    {z : Nat} (hz : z < n) (hzu : slotUsed d table z = false)
    {fuel : Nat} (hfuel : n ≤ fuel) (c : E) :
    ∃ result, backShift d n fuel (table.set r c) r ((r + 1) % n) = some result := by
  obtain ⟨hr, _⟩ := List.getElem?_eq_some.mp hx
  have hr2 : r < n := by omega
  have hzr : z ≠ r := by
    intro h; rw [h, slotUsed_of_get hx, hex] at hzu; exact absurd hzu (by simp)
  apply backShift_some d n fuel _ r _ z (by simp [hlen]) hr2 (succ_mod_lt hr2) hz _ hzr
    (lt_of_lt_of_le (cdist_lt (succ_mod_lt hr2) hz) hfuel)
  rw [slotUsed_set c hr, if_neg hzr]; exact hzu

theorem removeElement_sound {t : AssociativeArray K E} (hclear : ClearsToEmpty t.desc)
    (halloc : Allocated t) (hpc : ProbeChain t.desc t.nrAlloc t.table) {e : E}
    {fuel : Nat} {b : Bool} {t1 : AssociativeArray K E}
    (h : removeElement fuel t e = some (b, t1)) :
    t1.desc = t.desc ∧ t1.nrAlloc = t.nrAlloc ∧ Allocated t1 ∧
      ProbeChain t1.desc t1.nrAlloc t1.table := by
  obtain ⟨hn, r, c, x, hp, hx, hcase⟩ := removeElement_inv h
  rcases hcase with ⟨_, _, ht⟩ | ⟨hex, _, table, hb, ht⟩
  · subst ht; exact ⟨rfl, rfl, halloc, hpc⟩
  · obtain ⟨h1, h2, _⟩ := backShift_after_clear_sound hclear halloc hpc hx hex hb
    subst ht; exact ⟨rfl, rfl, h2, h1⟩

theorem removeKey_sound {t : AssociativeArray K E} (hclear : ClearsToEmpty t.desc)
    (halloc : Allocated t) (hpc : ProbeChain t.desc t.nrAlloc t.table) {key : K}
    {fuel : Nat} {b : E} {t1 : AssociativeArray K E}
    (h : removeKey fuel t key = some (b, t1)) :
    t1.desc = t.desc ∧ t1.nrAlloc = t.nrAlloc ∧ Allocated t1 ∧
      ProbeChain t1.desc t1.nrAlloc t1.table := by
  obtain ⟨hn, r, c, x, hp, hx, hcase⟩ := removeKey_inv h
  rcases hcase with ⟨_, _, ht⟩ | ⟨hex, _, table, hb, ht⟩
  · subst ht; exact ⟨rfl, rfl, halloc, hpc⟩
  · obtain ⟨h1, h2, _⟩ := backShift_after_clear_sound hclear halloc hpc hx hex hb
    subst ht; exact ⟨rfl, rfl, h2, h1⟩

theorem removeElement_total {t : AssociativeArray K E} (halloc : Allocated t)
    (hempty : HasEmptySlot t) (e : E) {fuel : Nat} (hfuel : t.nrAlloc ≤ fuel) :
    ∃ b t1, removeElement fuel t e = some (b, t1) := by
  have hn := hempty.pos
  obtain ⟨z, hz, hzu⟩ := hempty
  obtain ⟨r, c, x, hp, _, hx, _⟩ := probe_total t.desc (t.desc.isEqualElementElement e) halloc
    hz hzu hfuel (bucket_lt t.desc hn e) t.nrProbesD
  by_cases hex : t.desc.isEmptyElement x = true
  · exact ⟨_, _, removeElement_empty (by omega) hp hx hex⟩
  · have hex2 : t.desc.isEmptyElement x = false := by simpa using hex
    obtain ⟨table, hb⟩ := backShift_after_clear_total t.desc halloc hx hex2 hz hzu hfuel
      (t.desc.clearElement x)
    exact ⟨_, _, removeElement_used (by omega) hp hx hex2 hb⟩

theorem removeKey_total {t : AssociativeArray K E} (halloc : Allocated t)
    (hempty : HasEmptySlot t) (key : K) {fuel : Nat} (hfuel : t.nrAlloc ≤ fuel) :
    ∃ b t1, removeKey fuel t key = some (b, t1) := by
  have hn := hempty.pos
  obtain ⟨z, hz, hzu⟩ := hempty
  obtain ⟨r, c, x, hp, _, hx, _⟩ := probe_total t.desc (t.desc.isEqualKeyElement key) halloc
    hz hzu hfuel (Nat.mod_lt _ hn : keyBucket t.desc t.nrAlloc key < t.nrAlloc) t.nrProbesD
  by_cases hex : t.desc.isEmptyElement x = true
  · exact ⟨_, _, removeKey_empty (by omega) hp hx hex⟩
  · have hex2 : t.desc.isEmptyElement x = false := by simpa using hex
    obtain ⟨table, hb⟩ := backShift_after_clear_total t.desc halloc hx hex2 hz hzu hfuel
      (t.desc.clearElement x)
    exact ⟨_, _, removeKey_used (by omega) hp hx hex2 hb⟩

end RemoveCore

/-! ## Lookup -/

section Find

variable {K E : Type}

theorem findElement_eq {fuel : Nat} {t : AssociativeArray K E} {e : E}
    (hn : t.nrAlloc ≠ 0) {r c : Nat}
    (hp : probe t.desc (t.desc.isEqualElementElement e) t.table t.nrAlloc fuel
      (bucket t.desc t.nrAlloc e) t.nrProbesF = some (r, c)) :
    findElement fuel t e =
      some (r, { t with nrFinds := (t.nrFinds + 1) % 2 ^ 64, nrProbesF := c }) := by
  unfold bucket at hp
  unfold findElement
  rw [if_neg hn]
  simp only [hp]

theorem findKey_eq {fuel : Nat} {t : AssociativeArray K E} {key : K}
    (hn : t.nrAlloc ≠ 0) {r c : Nat}
    (hp : probe t.desc (t.desc.isEqualKeyElement key) t.table t.nrAlloc fuel
      (keyBucket t.desc t.nrAlloc key) t.nrProbesF = some (r, c)) :
    findKey fuel t key =
      some (r, { t with nrFinds := (t.nrFinds + 1) % 2 ^ 64, nrProbesF := c }) := by
  unfold keyBucket at hp
  unfold findKey
  rw [if_neg hn]
  simp only [hp]

/-- For a coherent description, `findKey` on the key of an element is the same
computation as `findElement` on the element. -/
theorem findKey_keyOf {d : Desc K E} {keyOf : E → K} (hcoh : Coherent d keyOf)
    (fuel : Nat) (t : AssociativeArray K E) (ht : t.desc = d) (e : E) :
    findKey fuel t (keyOf e) = findElement fuel t e := by
  have h1 : t.desc.isEqualKeyElement (keyOf e) = t.desc.isEqualElementElement e := by
    funext x; rw [ht]; exact hcoh.isEqualKey_keyOf e x
  have h2 : t.desc.hashKey (keyOf e) = t.desc.hashElement e := by
    rw [ht]; exact hcoh.hashKey_keyOf e
  unfold findKey findElement
  rw [h1, h2]

/-- The lookup of an element returns when the table has an empty slot and the fuel is
at least the capacity; the returned slot is the first stop slot of the walk. -/
theorem findElement_total {t : AssociativeArray K E} (halloc : Allocated t)
    (hempty : HasEmptySlot t) (e : E) {fuel : Nat} (hfuel : t.nrAlloc ≤ fuel) :
    ∃ r t1 x, findElement fuel t e = some (r, t1) ∧ t.table[r]? = some x ∧
      FirstStop t.desc (t.desc.isEqualElementElement e) t.table t.nrAlloc
        (bucket t.desc t.nrAlloc e) r := by
  have hn := hempty.pos
  obtain ⟨z, hz, hzu⟩ := hempty
  obtain ⟨r, c, x, hp, hfs, hx, _⟩ := probe_total t.desc (t.desc.isEqualElementElement e)
    halloc hz hzu hfuel (bucket_lt t.desc hn e) t.nrProbesF
  exact ⟨r, _, x, findElement_eq (by omega) hp, hx, hfs⟩

/-- When no stored element matches, the first stop slot is empty. -/
theorem FirstStop.empty_of_no_match {d : Desc K E} {isMatch : E → Bool} {table : List E}
    {n i r : Nat} (h : FirstStop d isMatch table n i r)
    (hno : ∀ y ∈ elems d table, isMatch y = false) {x : E} (hx : table[r]? = some x) :
    d.isEmptyElement x = true := by
  by_contra hex
  have hex2 : d.isEmptyElement x = false := by simpa using hex
  have hm := hno x (mem_elems_iff_slot.mpr ⟨r, hx, hex2⟩)
  have hs := h.2.1
  rw [stopAt_of_get hx, hex2, hm] at hs
  exact absurd hs (by simp)

end Find

/-! ## Re-insertion into a new slot array -/

section Rehash

variable {K E : Type}

theorem newTable_length (d : Desc K E) (size : Nat) : (newTable d size).length = size := by
  simp [newTable]

theorem newTable_get {d : Desc K E} {size p : Nat} {x : E}
    (h : (newTable d size)[p]? = some x) : ∃ y, x = d.clearElement y := by
  unfold newTable at h
  rw [List.getElem?_map] at h
  cases hq : (List.range size)[p]? with
  | none => rw [hq] at h; exact absurd h (by simp)
  | some j =>
    rw [hq] at h
    simp only [Option.map_some', Option.some.injEq] at h
    exact ⟨_, h.symm⟩

theorem newTable_unused {d : Desc K E} (hclear : ClearsToEmpty d) (size p : Nat) :
    slotUsed d (newTable d size) p = false := by
  unfold slotUsed
  cases h : (newTable d size)[p]? with
  | none => rfl
  | some x =>
    obtain ⟨y, hy⟩ := newTable_get h
    simp only [hy, hclear y]
    rfl

theorem newTable_elems {d : Desc K E} (hclear : ClearsToEmpty d) (size : Nat) :
    elems d (newTable d size) = [] := by
  unfold elems
  rw [List.filter_eq_nil_iff]
  intro x hx
  obtain ⟨p, hp⟩ := List.mem_iff_getElem?.mp hx
  obtain ⟨y, hy⟩ := newTable_get hp
  simp [hy, hclear y]

theorem newTable_probeChain {d : Desc K E} (hclear : ClearsToEmpty d) (n size : Nat) :
    ProbeChain d n (newTable d size) := by
  intro p _ hu
  rw [newTable_unused hclear] at hu
  exact absurd hu (by simp)

theorem addNewElement_eq {fuel : Nat} {t : AssociativeArray K E} {e : E}
    (hn : t.nrAlloc ≠ 0) {r c : Nat}
    (hp : probe t.desc (fun _ => false) t.table t.nrAlloc fuel
      (bucket t.desc t.nrAlloc e) t.nrProbesR = some (r, c)) :
    addNewElement fuel t e =
      some { t with
        table := t.table.set r e
        nrUsed := (t.nrUsed + 1) % 2 ^ 64
        nrProbesR := c } := by
  unfold bucket at hp
  unfold addNewElement
  rw [if_neg hn]
  simp only [hp]

theorem addNewElement_inv {fuel : Nat} {t t1 : AssociativeArray K E} {e : E}
    (h : addNewElement fuel t e = some t1) :
    t.nrAlloc ≠ 0 ∧ ∃ r c,
      probe t.desc (fun _ => false) t.table t.nrAlloc fuel
        (bucket t.desc t.nrAlloc e) t.nrProbesR = some (r, c) ∧
      t1 = { t with
        table := t.table.set r e
        nrUsed := (t.nrUsed + 1) % 2 ^ 64
        nrProbesR := c } := by
  by_cases hn : t.nrAlloc = 0
  · simp [addNewElement, hn] at h
  refine ⟨hn, ?_⟩
  cases hp : probe t.desc (fun _ => false) t.table t.nrAlloc fuel
      (bucket t.desc t.nrAlloc e) t.nrProbesR with
  | none =>
    unfold bucket at hp
    unfold addNewElement at h
    rw [if_neg hn] at h
    simp only [hp] at h
    exact absurd h (by simp)
  | some rc =>
    obtain ⟨r, c⟩ := rc
    rw [addNewElement_eq hn hp] at h
    exact ⟨r, c, rfl, (Option.some.inj h).symm⟩

/-- With the match test that is always false, a stop slot is an empty slot. -/
theorem FirstStop.empty_of_never {d : Desc K E} {table : List E} {n i r : Nat}
    (h : FirstStop d (fun _ => false) table n i r) :
    ∃ x, table[r]? = some x ∧ d.isEmptyElement x = true := by
  have hs := h.2.1
  have hr := stopAt_lt hs
  refine ⟨table[r], List.getElem?_eq_getElem hr, ?_⟩
  rw [stopAt_of_get (List.getElem?_eq_getElem hr)] at hs
  simpa using hs

/-- What `addNewElement` leaves, whenever it returns: the probe-chain invariant, the
allocation, and the stored elements with the new one added. -/
theorem addNewElement_sound {fuel : Nat} {t t1 : AssociativeArray K E} {e : E}
    (halloc : Allocated t) (hpc : ProbeChain t.desc t.nrAlloc t.table)
    (he : t.desc.isEmptyElement e = false)
    (h : addNewElement fuel t e = some t1) :
    RehashFrame t t1 ∧ Allocated t1 ∧ ProbeChain t1.desc t1.nrAlloc t1.table ∧
      (elems t1.desc t1.table).Perm (e :: elems t.desc t.table) ∧
      t1.nrUsed = (t.nrUsed + 1) % 2 ^ 64 := by
  obtain ⟨hn, r, c, hp, ht⟩ := addNewElement_inv h
  have hpos : 0 < t.nrAlloc := by omega
  have hfs := probe_sound _ _ _ _ halloc _ _ _ _ _ (bucket_lt t.desc hpos e) hp
  obtain ⟨x, hx, hex⟩ := hfs.empty_of_never
  subst ht
  refine ⟨⟨rfl, rfl, rfl, rfl, rfl, rfl, rfl, rfl, rfl⟩, ?_, ?_, ?_, rfl⟩
  · unfold Allocated; simp only [List.length_set]; exact halloc
  · exact hpc.set_firstStop halloc he hfs
  · exact elems_set_insert t.desc hx hex he

/-- `addNewElement` returns when the table has an empty slot and the fuel is at least
the capacity. -/
theorem addNewElement_total {t : AssociativeArray K E} (halloc : Allocated t)
    (hempty : HasEmptySlot t) (e : E) {fuel : Nat} (hfuel : t.nrAlloc ≤ fuel) :
    ∃ t1, addNewElement fuel t e = some t1 := by
  have hn := hempty.pos
  obtain ⟨z, hz, hzu⟩ := hempty
  obtain ⟨r, c, x, hp, _, _, _⟩ := probe_total t.desc (fun _ => false) halloc
    hz hzu hfuel (bucket_lt t.desc hn e) t.nrProbesR
  exact ⟨_, addNewElement_eq (by omega) hp⟩

theorem RehashFrame.refl (t : AssociativeArray K E) : RehashFrame t t :=
  ⟨rfl, rfl, rfl, rfl, rfl, rfl, rfl, rfl, rfl⟩

theorem RehashFrame.trans {t t1 t2 : AssociativeArray K E}
    (h1 : RehashFrame t t1) (h2 : RehashFrame t1 t2) : RehashFrame t t2 :=
  ⟨h2.desc_eq.trans h1.desc_eq, h2.nrAlloc_eq.trans h1.nrAlloc_eq,
    h2.nrFinds_eq.trans h1.nrFinds_eq, h2.nrAdds_eq.trans h1.nrAdds_eq,
    h2.nrRems_eq.trans h1.nrRems_eq, h2.nrResizes_eq.trans h1.nrResizes_eq,
    h2.nrProbesF_eq.trans h1.nrProbesF_eq, h2.nrProbesA_eq.trans h1.nrProbesA_eq,
    h2.nrProbesD_eq.trans h1.nrProbesD_eq⟩

/-- What the re-insertion loop leaves, whenever it returns: the probe-chain invariant
and the elements of the new array together with the used slots of the old one. -/
theorem rehashLoop_sound (fuel : Nat) (oldTable : List E) :
    ∀ (js : List Nat) (t t1 : AssociativeArray K E),
      Allocated t → ProbeChain t.desc t.nrAlloc t.table → t.nrUsed < 2 ^ 64 →
      rehashLoop fuel oldTable js t = some t1 →
      RehashFrame t t1 ∧ Allocated t1 ∧ ProbeChain t1.desc t1.nrAlloc t1.table ∧
        (elems t1.desc t1.table).Perm
          ((elems t.desc (slotsAt oldTable js)).reverse ++ elems t.desc t.table) ∧
        t1.nrUsed = (t.nrUsed + (elems t.desc (slotsAt oldTable js)).length) % 2 ^ 64 := by
  intro js
  induction js with
  | nil =>
    intro t t1 halloc hpc hu h
    simp only [rehashLoop, Option.some.injEq] at h
    subst h
    refine ⟨RehashFrame.refl t, halloc, hpc, ?_, ?_⟩
    · simp [slotsAt, elems]
    · simp only [slotsAt, elems, List.filterMap_nil, List.filter_nil, List.length_nil,
        Nat.add_zero]
      exact (Nat.mod_eq_of_lt hu).symm
  | cons j js ih =>
    intro t t1 halloc hpc hu h
    cases hx : oldTable[j]? with
    | none => simp [rehashLoop, hx] at h
    | some x =>
      have hs : slotsAt oldTable (j :: js) = x :: slotsAt oldTable js := by
        simp [slotsAt, hx]
      by_cases hex : t.desc.isEmptyElement x = true
      · have h2 : rehashLoop fuel oldTable js t = some t1 := by
          simpa [rehashLoop, hx, hex] using h
        obtain ⟨a, b, c, d1, e1⟩ := ih t t1 halloc hpc hu h2
        refine ⟨a, b, c, ?_, ?_⟩
        · rw [hs]
          have : elems t.desc (x :: slotsAt oldTable js) = elems t.desc (slotsAt oldTable js) := by
            simp [elems, hex]
          rw [this]; exact d1
        · rw [hs]
          have : elems t.desc (x :: slotsAt oldTable js) = elems t.desc (slotsAt oldTable js) := by
            simp [elems, hex]
          rw [this]; exact e1
      · have hex2 : t.desc.isEmptyElement x = false := by simpa using hex
        cases ha : addNewElement fuel t x with
        | none => simp [rehashLoop, hx, hex2, ha] at h
        | some t2 =>
          have h2 : rehashLoop fuel oldTable js t2 = some t1 := by
            simpa [rehashLoop, hx, hex2, ha] using h
          obtain ⟨f1, a1, p1, m1, u1⟩ := addNewElement_sound halloc hpc hex2 ha
          have hu2 : t2.nrUsed < 2 ^ 64 := by rw [u1]; exact Nat.mod_lt _ (by norm_num)
          obtain ⟨a, b, c, d1, e1⟩ := ih t2 t1 a1 p1 hu2 h2
          have hel : elems t.desc (x :: slotsAt oldTable js) =
              x :: elems t.desc (slotsAt oldTable js) := by
            simp [elems, hex2]
          refine ⟨f1.trans a, b, c, ?_, ?_⟩
          · rw [hs, hel, List.reverse_cons, List.append_assoc]
            rw [f1.desc_eq] at d1 m1
            refine d1.trans ?_
            apply List.Perm.append_left
            exact m1
          · rw [hs, hel, e1, u1, f1.desc_eq, List.length_cons]
            omega

end Rehash

section RehashTotal

variable {K E : Type}

theorem slotsAt_range_take (oldTable : List E) :
    ∀ n, slotsAt oldTable (List.range n) = oldTable.take n := by
  intro n
  induction n with
  | zero => simp [slotsAt]
  | succ n ih =>
    unfold slotsAt at ih ⊢
    rw [List.range_succ, List.filterMap_append, ih, List.take_succ]
    congr 1

/-- The re-insertion loop visits every slot of the old array. -/
theorem slotsAt_range (oldTable : List E) :
    slotsAt oldTable (List.range oldTable.length) = oldTable := by
  rw [slotsAt_range_take, List.take_length]

theorem HasEmptySlot.of_lt {t : AssociativeArray K E} (halloc : Allocated t)
    (h : (elems t.desc t.table).length < t.nrAlloc) : HasEmptySlot t := by
  unfold Allocated at halloc
  obtain ⟨z, hz, hzu⟩ := exists_empty_of_lt t.desc (by omega : _ < t.table.length)
  exact ⟨z, by omega, hzu⟩

/-- The re-insertion loop returns when the new array has more slots than elements to
hold and the fuel is at least the new capacity. -/
theorem rehashLoop_total (fuel : Nat) (oldTable : List E) :
    ∀ (js : List Nat) (t : AssociativeArray K E),
      Allocated t → ProbeChain t.desc t.nrAlloc t.table →
      (elems t.desc t.table).length + js.length < t.nrAlloc →
      (∀ j ∈ js, j < oldTable.length) → t.nrAlloc ≤ fuel →
      ∃ t1, rehashLoop fuel oldTable js t = some t1 := by
  intro js
  induction js with
  | nil => intro t _ _ _ _ _; exact ⟨t, rfl⟩
  | cons j js ih =>
    intro t halloc hpc hlt hjs hfuel
    have hj : j < oldTable.length := hjs j (List.mem_cons_self _ _)
    have hx := List.getElem?_eq_getElem hj
    have hjs2 : ∀ i ∈ js, i < oldTable.length := fun i hi => hjs i (List.mem_cons_of_mem _ hi)
    rw [List.length_cons] at hlt
    by_cases hex : t.desc.isEmptyElement oldTable[j] = true
    · have h2 : rehashLoop fuel oldTable (j :: js) t = rehashLoop fuel oldTable js t := by
        simp [rehashLoop, hx, hex]
      rw [h2]
      exact ih t halloc hpc (by omega) hjs2 hfuel
    · have hex2 : t.desc.isEmptyElement oldTable[j] = false := by simpa using hex
      obtain ⟨t2, ha⟩ := addNewElement_total halloc
        (HasEmptySlot.of_lt halloc (by omega)) oldTable[j] hfuel
      have h2 : rehashLoop fuel oldTable (j :: js) t = rehashLoop fuel oldTable js t2 := by
        simp [rehashLoop, hx, hex2, ha]
      rw [h2]
      obtain ⟨f1, a1, p1, m1, _⟩ := addNewElement_sound halloc hpc hex2 ha
      have hl := m1.length_eq
      rw [List.length_cons] at hl
      rw [f1.desc_eq] at hl
      apply ih t2 a1 p1 _ hjs2 (by rw [f1.nrAlloc_eq]; exact hfuel)
      rw [f1.desc_eq, f1.nrAlloc_eq, hl]
      omega

end RehashTotal

/-! ## Insertion -/

section Add

variable {K E : Type}

theorem addElement_found_overwrite {fuh : AssociativeArray K E → Bool} {fuel : Nat}
    {t : AssociativeArray K E} {e : E} (hn : t.nrAlloc ≠ 0) {r c : Nat} {x : E}
    (hp : probe t.desc (t.desc.isEqualElementElement e) t.table t.nrAlloc fuel
      (bucket t.desc t.nrAlloc e) t.nrProbesA = some (r, c))
    (hx : t.table[r]? = some x) (hex : t.desc.isEmptyElement x = false) :
    addElement fuh fuel t e true =
      some (false, { t with
        nrAdds := (t.nrAdds + 1) % 2 ^ 64
        nrProbesA := c
        table := t.table.set r e }) := by
  unfold bucket at hp
  unfold addElement
  rw [if_neg hn]
  simp only [hp, hx, hex]
  rfl

theorem addElement_found_keep {fuh : AssociativeArray K E → Bool} {fuel : Nat}
    {t : AssociativeArray K E} {e : E} (hn : t.nrAlloc ≠ 0) {r c : Nat} {x : E}
    (hp : probe t.desc (t.desc.isEqualElementElement e) t.table t.nrAlloc fuel
      (bucket t.desc t.nrAlloc e) t.nrProbesA = some (r, c))
    (hx : t.table[r]? = some x) (hex : t.desc.isEmptyElement x = false) :
    addElement fuh fuel t e false =
      some (false, { t with
        nrAdds := (t.nrAdds + 1) % 2 ^ 64
        nrProbesA := c }) := by
  unfold bucket at hp
  unfold addElement
  rw [if_neg hn]
  simp only [hp, hx, hex]
  rfl

theorem addElement_new_fits {fuh : AssociativeArray K E → Bool} {fuel : Nat}
    {t : AssociativeArray K E} {e : E} {ow : Bool} (hn : t.nrAlloc ≠ 0) {r c : Nat} {x : E}
    (hp : probe t.desc (t.desc.isEqualElementElement e) t.table t.nrAlloc fuel
      (bucket t.desc t.nrAlloc e) t.nrProbesA = some (r, c))
    (hx : t.table[r]? = some x) (hex : t.desc.isEmptyElement x = true)
    (hfit : ¬ t.nrAlloc < (2 * ((t.nrUsed + 1) % 2 ^ 64)) % 2 ^ 64) :
    addElement fuh fuel t e ow = some (true, insertedState t r c e) := by
  unfold bucket at hp
  unfold addElement
  rw [if_neg hn]
  simp only [hp, hx, hex, hfit]
  rfl

theorem addElement_new_veto {fuh : AssociativeArray K E → Bool} {fuel : Nat}
    {t : AssociativeArray K E} {e : E} {ow : Bool} (hn : t.nrAlloc ≠ 0) {r c : Nat} {x : E}
    (hp : probe t.desc (t.desc.isEqualElementElement e) t.table t.nrAlloc fuel
      (bucket t.desc t.nrAlloc e) t.nrProbesA = some (r, c))
    (hx : t.table[r]? = some x) (hex : t.desc.isEmptyElement x = true)
    (hfull : t.nrAlloc < (2 * ((t.nrUsed + 1) % 2 ^ 64)) % 2 ^ 64)
    (hveto : fuh (insertedState t r c e) = true) :
    addElement fuh fuel t e ow = some (true, insertedState t r c e) := by
  unfold bucket at hp
  unfold insertedState at hveto
  unfold addElement
  rw [if_neg hn]
  simp only [hp, hx, hex, hfull, hveto]
  rfl

theorem addElement_new_grow {fuh : AssociativeArray K E → Bool} {fuel : Nat}
    {t : AssociativeArray K E} {e : E} {ow : Bool} (hn : t.nrAlloc ≠ 0) {r c : Nat} {x : E}
    (hp : probe t.desc (t.desc.isEqualElementElement e) t.table t.nrAlloc fuel
      (bucket t.desc t.nrAlloc e) t.nrProbesA = some (r, c))
    (hx : t.table[r]? = some x) (hex : t.desc.isEmptyElement x = true)
    (hfull : t.nrAlloc < (2 * ((t.nrUsed + 1) % 2 ^ 64)) % 2 ^ 64)
    (hveto : fuh (insertedState t r c e) = false) {t4 : AssociativeArray K E}
    (hre : rehashLoop fuel (t.table.set r e) (List.range t.nrAlloc)
      (grownState (insertedState t r c e)) = some t4) :
    addElement fuh fuel t e ow = some (true, t4) := by
  unfold bucket at hp
  unfold insertedState at hveto
  unfold grownState insertedState at hre
  unfold addElement
  rw [if_neg hn]
  simp only [hp, hx, hex, hfull, hveto, hre]
  rfl

/-- The result of `addElement`, case by case, whenever it returns. -/
theorem addElement_inv {fuh : AssociativeArray K E → Bool} {fuel : Nat}
    {t : AssociativeArray K E} {e : E} {ow b : Bool} {t1 : AssociativeArray K E}
    (h : addElement fuh fuel t e ow = some (b, t1)) :
    t.nrAlloc ≠ 0 ∧ ∃ r c x,
      probe t.desc (t.desc.isEqualElementElement e) t.table t.nrAlloc fuel
        (bucket t.desc t.nrAlloc e) t.nrProbesA = some (r, c) ∧
      t.table[r]? = some x ∧
      ((t.desc.isEmptyElement x = false ∧ b = false ∧ ow = true ∧
          t1 = { t with
            nrAdds := (t.nrAdds + 1) % 2 ^ 64
            nrProbesA := c
            table := t.table.set r e }) ∨
       (t.desc.isEmptyElement x = false ∧ b = false ∧ ow = false ∧
          t1 = { t with
            nrAdds := (t.nrAdds + 1) % 2 ^ 64
            nrProbesA := c }) ∨
       (t.desc.isEmptyElement x = true ∧ b = true ∧
          ¬ t.nrAlloc < (2 * ((t.nrUsed + 1) % 2 ^ 64)) % 2 ^ 64 ∧
          t1 = insertedState t r c e) ∨
       (t.desc.isEmptyElement x = true ∧ b = true ∧
          t.nrAlloc < (2 * ((t.nrUsed + 1) % 2 ^ 64)) % 2 ^ 64 ∧
          fuh (insertedState t r c e) = true ∧ t1 = insertedState t r c e) ∨
       (t.desc.isEmptyElement x = true ∧ b = true ∧
          t.nrAlloc < (2 * ((t.nrUsed + 1) % 2 ^ 64)) % 2 ^ 64 ∧
          fuh (insertedState t r c e) = false ∧
          rehashLoop fuel (t.table.set r e) (List.range t.nrAlloc)
            (grownState (insertedState t r c e)) = some t1)) := by
  by_cases hn : t.nrAlloc = 0
  · simp [addElement, hn] at h
  refine ⟨hn, ?_⟩
  cases hp : probe t.desc (t.desc.isEqualElementElement e) t.table t.nrAlloc fuel
      (bucket t.desc t.nrAlloc e) t.nrProbesA with
  | none =>
    unfold bucket at hp
    unfold addElement at h
    rw [if_neg hn] at h
    simp only [hp] at h
    exact absurd h (by simp)
  | some rc =>
    obtain ⟨r, c⟩ := rc
    cases hx : t.table[r]? with
    | none =>
      unfold bucket at hp
      unfold addElement at h
      rw [if_neg hn] at h
      simp only [hp, hx] at h
      exact absurd h (by simp)
    | some x =>
      refine ⟨r, c, x, rfl, hx, ?_⟩
      by_cases hex : t.desc.isEmptyElement x = true
      · by_cases hfull : t.nrAlloc < (2 * ((t.nrUsed + 1) % 2 ^ 64)) % 2 ^ 64
        · by_cases hveto : fuh (insertedState t r c e) = true
          · rw [addElement_new_veto hn hp hx hex hfull hveto] at h
            simp only [Option.some.injEq, Prod.mk.injEq] at h
            exact Or.inr (Or.inr (Or.inr (Or.inl ⟨hex, h.1.symm, hfull, hveto, h.2.symm⟩)))
          · have hveto2 : fuh (insertedState t r c e) = false := by simpa using hveto
            cases hre : rehashLoop fuel (t.table.set r e) (List.range t.nrAlloc)
                (grownState (insertedState t r c e)) with
            | none =>
              unfold bucket at hp
              unfold insertedState at hveto2
              unfold grownState insertedState at hre
              unfold addElement at h
              rw [if_neg hn] at h
              simp only [hp, hx, hex, hfull, hveto2, hre] at h
              simp at h
            | some t4 =>
              rw [addElement_new_grow hn hp hx hex hfull hveto2 hre] at h
              simp only [Option.some.injEq, Prod.mk.injEq] at h
              exact Or.inr (Or.inr (Or.inr (Or.inr
                ⟨hex, h.1.symm, hfull, hveto2, congrArg some h.2⟩)))
        · rw [addElement_new_fits hn hp hx hex hfull] at h
          simp only [Option.some.injEq, Prod.mk.injEq] at h
          exact Or.inr (Or.inr (Or.inl ⟨hex, h.1.symm, hfull, h.2.symm⟩))
      · have hex2 : t.desc.isEmptyElement x = false := by simpa using hex
        cases ow with
        | true =>
          rw [addElement_found_overwrite hn hp hx hex2] at h
          simp only [Option.some.injEq, Prod.mk.injEq] at h
          exact Or.inl ⟨hex2, h.1.symm, rfl, h.2.symm⟩
        | false =>
          rw [addElement_found_keep hn hp hx hex2] at h
          simp only [Option.some.injEq, Prod.mk.injEq] at h
          exact Or.inr (Or.inl ⟨hex2, h.1.symm, rfl, h.2.symm⟩)

end Add

section AddCore

variable {K E : Type}

/-- When probing for `e` stops at an empty slot, no stored element matches `e`, given
the probe-chain invariant and that equal elements hash equally. -/
theorem no_match_of_firstStop_empty {d : Desc K E} {n : Nat} {table : List E}
    (hlen : table.length = n) (hpc : ProbeChain d n table)
    (hhash : ∀ x y, d.isEqualElementElement x y = true → d.hashElement x = d.hashElement y)
    {e : E} {r : Nat} (hfs : FirstStop d (d.isEqualElementElement e) table n (bucket d n e) r)
    {x : E} (hx : table[r]? = some x) (hex : d.isEmptyElement x = true) :
    ∀ y ∈ elems d table, d.isEqualElementElement e y = false := by
  intro y hy
  by_contra hcon
  rw [Bool.not_eq_false] at hcon
  obtain ⟨p, hp, hey⟩ := mem_elems_iff_slot.mp hy
  obtain ⟨hp2, _⟩ := List.getElem?_eq_some.mp hp
  have hpn : p < n := by omega
  have hb : bucket d n y = bucket d n e := by
    unfold bucket; rw [hhash e y hcon]
  have hsp : stopAt d (d.isEqualElementElement e) table p = true := by
    rw [stopAt_of_get hp, hcon]; simp
  have hup : slotUsed d table p = true := by rw [slotUsed_of_get hp, hey]; rfl
  have hur : slotUsed d table r = false := by rw [slotUsed_of_get hx, hex]; rfl
  have hne : r ≠ p := by
    intro h; rw [h] at hur; exact absurd (hup.symm.trans hur) (by simp)
  have hn : 0 < n := by omega
  have hle : ¬ cdist n (bucket d n e) p < cdist n (bucket d n e) r := by
    intro hlt
    have := hfs.2.2 p hpn hlt
    exact absurd (hsp.symm.trans this) (by simp)
  have hne2 : cdist n (bucket d n e) r ≠ cdist n (bucket d n e) p :=
    fun h => hne (cdist_inj (bucket_lt d hn e) hfs.1 hpn h)
  have hlt : cdist n (slotHome d n table p) r < cdist n (slotHome d n table p) p := by
    rw [slotHome_of_get hp, hb]; omega
  have := hpc.walk hpn hfs.1 hup hlt
  exact absurd (this.symm.trans hur) (by simp)

/-- The relation "not equal" on elements is symmetric when equality is. -/
theorem ne_symm_of_symm {d : Desc K E}
    (hsymm : ∀ x y, d.isEqualElementElement x y = true → d.isEqualElementElement y x = true)
    {a b : E} (h : d.isEqualElementElement a b = false) :
    d.isEqualElementElement b a = false := by
  by_contra hcon
  rw [Bool.not_eq_false] at hcon
  rw [hsymm b a hcon] at h
  exact absurd h (by simp)

theorem NoDuplicateKeys.of_perm {d : Desc K E}
    (hsymm : ∀ x y, d.isEqualElementElement x y = true → d.isEqualElementElement y x = true)
    {table result : List E} (hperm : (elems d result).Perm (elems d table))
    (h : NoDuplicateKeys d table) : NoDuplicateKeys d result :=
  (List.Perm.pairwise_iff (fun h => ne_symm_of_symm hsymm h) hperm).mpr h

/-- Adding an element that matches no stored element keeps the keys distinct. -/
theorem NoDuplicateKeys.insert {d : Desc K E}
    (hsymm : ∀ x y, d.isEqualElementElement x y = true → d.isEqualElementElement y x = true)
    {table result : List E} {e : E} (hperm : (elems d result).Perm (e :: elems d table))
    (h : NoDuplicateKeys d table)
    (hno : ∀ y ∈ elems d table, d.isEqualElementElement e y = false) :
    NoDuplicateKeys d result := by
  apply (List.Perm.pairwise_iff (fun h => ne_symm_of_symm hsymm h) hperm).mpr
  exact List.pairwise_cons.mpr ⟨hno, h⟩

/-- Probing for a stored element stops at the slot that holds it. -/
theorem firstStop_of_stored {d : Desc K E} {n : Nat} {table : List E}
    (hlen : table.length = n) (hpc : ProbeChain d n table) (hnd : NoDuplicateKeys d table)
    (hrefl : ∀ x, d.isEqualElementElement x x = true)
    (hsymm : ∀ x y, d.isEqualElementElement x y = true → d.isEqualElementElement y x = true)
    {e : E} {p : Nat} (hp : table[p]? = some e) (he : d.isEmptyElement e = false)
    {r : Nat} (hfs : FirstStop d (d.isEqualElementElement e) table n (bucket d n e) r) :
    r = p := by
  by_contra hne
  obtain ⟨hp2, _⟩ := List.getElem?_eq_some.mp hp
  have hpn : p < n := by omega
  have hn : 0 < n := by omega
  have hsp : stopAt d (d.isEqualElementElement e) table p = true := by
    rw [stopAt_of_get hp, hrefl e]; simp
  have hup : slotUsed d table p = true := by rw [slotUsed_of_get hp, he]; rfl
  have hle : ¬ cdist n (bucket d n e) p < cdist n (bucket d n e) r := by
    intro hlt
    have := hfs.2.2 p hpn hlt
    exact absurd (hsp.symm.trans this) (by simp)
  have hne2 : cdist n (bucket d n e) r ≠ cdist n (bucket d n e) p :=
    fun h => hne (cdist_inj (bucket_lt d hn e) hfs.1 hpn h)
  have hlt : cdist n (slotHome d n table p) r < cdist n (slotHome d n table p) p := by
    rw [slotHome_of_get hp]; omega
  have hur := hpc.walk hpn hfs.1 hup hlt
  obtain ⟨y, hy, hey⟩ := slotUsed_get hur
  have hs := hfs.2.1
  rw [stopAt_of_get hy, hey] at hs
  have hm : d.isEqualElementElement e y = true := by simpa using hs
  have := hnd.slots hsymm hp hy (fun h => hne h.symm) he hey
  exact absurd (hm.symm.trans this) (by simp)

/-- Storing an element in a slot of the walk makes that slot the first stop slot for
the element, when it was the first stop slot before. -/
theorem FirstStop.set_self {d : Desc K E} {isMatch : E → Bool} {n i r : Nat}
    {table : List E} (hlen : table.length = n)
    (hfs : FirstStop d isMatch table n i r) {e : E} (hm : isMatch e = true) :
    FirstStop d isMatch (table.set r e) n i r := by
  obtain ⟨h1, h2, h3⟩ := hfs
  have hr : r < table.length := by omega
  refine ⟨h1, ?_, ?_⟩
  · rw [stopAt_set e hr, if_pos rfl, hm]; simp
  · intro q hq hlt
    have hne : q ≠ r := by intro h; rw [h] at hlt; omega
    rw [stopAt_set e hr, if_neg hne]
    exact h3 q hq hlt

/-- What the growth branch of `addElement` leaves, whenever it returns. -/
theorem grow_sound {t t1 : AssociativeArray K E} (hclear : ClearsToEmpty t.desc)
    (halloc : Allocated t) {r c : Nat} {e : E} {fuel : Nat}
    (h : rehashLoop fuel (t.table.set r e) (List.range t.nrAlloc)
      (grownState (insertedState t r c e)) = some t1) :
    RehashFrame (grownState (insertedState t r c e)) t1 ∧ Allocated t1 ∧
      ProbeChain t1.desc t1.nrAlloc t1.table ∧
      (elems t1.desc t1.table).Perm (elems t.desc (t.table.set r e)) ∧
      t1.nrUsed = (elems t.desc (t.table.set r e)).length % 2 ^ 64 := by
  have ha : Allocated (grownState (insertedState t r c e)) := by
    unfold Allocated grownState; exact newTable_length _ _
  have hpc : ProbeChain (grownState (insertedState t r c e)).desc
      (grownState (insertedState t r c e)).nrAlloc
      (grownState (insertedState t r c e)).table := newTable_probeChain hclear _ _
  obtain ⟨f, a, p, m, u⟩ := rehashLoop_sound fuel _ _ _ _ ha hpc
    (by unfold grownState; norm_num) h
  have hr : List.range t.nrAlloc = List.range (t.table.set r e).length := by
    rw [List.length_set]; unfold Allocated at halloc; rw [halloc]
  rw [hr, slotsAt_range] at m u
  have hd : (grownState (insertedState t r c e)).desc = t.desc := rfl
  have he : elems t.desc (grownState (insertedState t r c e)).table = [] :=
    newTable_elems hclear _
  rw [hd] at m u
  rw [he, List.append_nil] at m
  refine ⟨f, a, p, ?_, ?_⟩
  · exact m.trans (List.reverse_perm _)
  · rw [u]
    have : (grownState (insertedState t r c e)).nrUsed = 0 := rfl
    rw [this, Nat.zero_add]

/-- The growth branch of `addElement` returns when the new capacity is representable
and the fuel is at least the new capacity. -/
theorem grow_total {t : AssociativeArray K E} (hclear : ClearsToEmpty t.desc)
    (halloc : Allocated t) (hgrow : Growable t) (r c : Nat) (e : E) {fuel : Nat}
    (hfuel : 2 * t.nrAlloc + 1 ≤ fuel) :
    ∃ t1, rehashLoop fuel (t.table.set r e) (List.range t.nrAlloc)
      (grownState (insertedState t r c e)) = some t1 := by
  unfold Growable at hgrow
  unfold Allocated at halloc
  have hcap : (grownState (insertedState t r c e)).nrAlloc = 2 * t.nrAlloc + 1 := by
    show (2 * t.nrAlloc + 1) % 2 ^ 64 = 2 * t.nrAlloc + 1
    exact Nat.mod_eq_of_lt hgrow
  have ha : Allocated (grownState (insertedState t r c e)) := by
    unfold Allocated grownState; exact newTable_length _ _
  have hpc : ProbeChain (grownState (insertedState t r c e)).desc
      (grownState (insertedState t r c e)).nrAlloc
      (grownState (insertedState t r c e)).table := newTable_probeChain hclear _ _
  have he : elems (grownState (insertedState t r c e)).desc
      (grownState (insertedState t r c e)).table = [] := newTable_elems hclear _
  apply rehashLoop_total fuel _ _ _ ha hpc
  · rw [he, hcap, List.length_range, List.length_nil]; omega
  · intro j hj
    rw [List.mem_range] at hj
    rw [List.length_set]; omega
  · rw [hcap]; exact hfuel

end AddCore

section AddRun

variable {K E : Type}

/-- `addElement` returns when the table has an empty slot, the capacity after a growth
is representable and the fuel is at least that capacity. -/
theorem addElement_total (fuh : AssociativeArray K E → Bool) {t : AssociativeArray K E}
    (hclear : ClearsToEmpty t.desc) (halloc : Allocated t) (hempty : HasEmptySlot t)
    (hgrow : Growable t) (e : E) (ow : Bool) {fuel : Nat}
    (hfuel : 2 * t.nrAlloc + 1 ≤ fuel) :
    ∃ b t1, addElement fuh fuel t e ow = some (b, t1) := by
  have hn := hempty.pos
  have hn2 : t.nrAlloc ≠ 0 := by omega
  obtain ⟨z, hz, hzu⟩ := hempty
  obtain ⟨r, c, x, hp, _, hx, _⟩ := probe_total t.desc (t.desc.isEqualElementElement e) halloc
    hz hzu (by omega : t.nrAlloc ≤ fuel) (bucket_lt t.desc hn e) t.nrProbesA
  by_cases hex : t.desc.isEmptyElement x = true
  · by_cases hfull : t.nrAlloc < (2 * ((t.nrUsed + 1) % 2 ^ 64)) % 2 ^ 64
    · by_cases hveto : fuh (insertedState t r c e) = true
      · exact ⟨_, _, addElement_new_veto hn2 hp hx hex hfull hveto⟩
      · have hveto2 : fuh (insertedState t r c e) = false := by simpa using hveto
        obtain ⟨t4, hre⟩ := grow_total hclear halloc hgrow r c e hfuel
        exact ⟨_, _, addElement_new_grow hn2 hp hx hex hfull hveto2 hre⟩
    · exact ⟨_, _, addElement_new_fits hn2 hp hx hex hfull⟩
  · have hex2 : t.desc.isEmptyElement x = false := by simpa using hex
    cases ow with
    | true => exact ⟨_, _, addElement_found_overwrite hn2 hp hx hex2⟩
    | false => exact ⟨_, _, addElement_found_keep hn2 hp hx hex2⟩

/-- What `addElement` of a non-empty element leaves, whenever it returns: the
description, the allocation and the probe-chain invariant. -/
theorem addElement_sound {fuh : AssociativeArray K E → Bool} {t : AssociativeArray K E}
    (hclear : ClearsToEmpty t.desc) (halloc : Allocated t)
    (hpc : ProbeChain t.desc t.nrAlloc t.table) {e : E}
    (he : t.desc.isEmptyElement e = false) {ow : Bool} {fuel : Nat} {b : Bool}
    {t1 : AssociativeArray K E} (h : addElement fuh fuel t e ow = some (b, t1)) :
    t1.desc = t.desc ∧ Allocated t1 ∧ ProbeChain t1.desc t1.nrAlloc t1.table := by
  obtain ⟨hn, r, c, x, hp, hx, hcase⟩ := addElement_inv h
  have hpos : 0 < t.nrAlloc := by omega
  have hfs := probe_sound _ _ _ _ halloc _ _ _ _ _ (bucket_lt t.desc hpos e) hp
  have hset : ProbeChain t.desc t.nrAlloc (t.table.set r e) := hpc.set_firstStop halloc he hfs
  have hlen : (t.table.set r e).length = t.nrAlloc := by rw [List.length_set]; exact halloc
  rcases hcase with ⟨_, _, _, ht⟩ | ⟨_, _, _, ht⟩ | ⟨_, _, _, ht⟩ | ⟨_, _, _, _, ht⟩ |
    ⟨_, _, _, _, hre⟩
  · subst ht; exact ⟨rfl, hlen, hset⟩
  · subst ht; exact ⟨rfl, halloc, hpc⟩
  · subst ht; exact ⟨rfl, hlen, hset⟩
  · subst ht; exact ⟨rfl, hlen, hset⟩
  · obtain ⟨f, a, p, _, _⟩ := grow_sound hclear halloc hre
    exact ⟨f.desc_eq, a, p⟩

end AddRun

/-! ## Consequences of well-formedness -/

section WellFormedFacts

variable {K E : Type}

theorem WellFormed.hasEmptySlot {t : AssociativeArray K E} (h : WellFormed t) :
    HasEmptySlot t := by
  apply HasEmptySlot.of_lt h.allocated
  have h1 := h.used_eq
  have h2 := h.load
  have h3 := h.capacity_pos
  omega

theorem WellFormed.used_lt {t : AssociativeArray K E} (h : WellFormed t) :
    t.nrUsed + 1 < 2 ^ 64 := by
  have h2 := h.load
  have h4 := h.growable
  unfold Growable at h4
  omega

/-- The default fill-up handler never vetoes. -/
theorem extendAtFillup_eq (t : AssociativeArray K E) :
    ExtendAtFillup.handle t = false := rfl

/-- The growth test of `addElement` on a well-formed table, without wrap-around. -/
theorem WellFormed.growth_test {t : AssociativeArray K E} (h : WellFormed t) :
    (t.nrAlloc < (2 * ((t.nrUsed + 1) % 2 ^ 64)) % 2 ^ 64) ↔ t.nrAlloc < 2 * (t.nrUsed + 1) := by
  have h1 := h.used_lt
  have h2 := h.load
  have h3 := h.growable
  unfold Growable at h3
  rw [Nat.mod_eq_of_lt h1, Nat.mod_eq_of_lt (by omega)]

/-- Looking up a stored element returns the slot that holds it. -/
theorem findElement_stored {t : AssociativeArray K E} (keyOf : E → K)
    (hcoh : Coherent t.desc keyOf) (halloc : Allocated t)
    (hpc : ProbeChain t.desc t.nrAlloc t.table) (hnd : NoDuplicateKeys t.desc t.table)
    (hempty : HasEmptySlot t) {x : E} (hx : x ∈ elems t.desc t.table)
    {fuel : Nat} (hfuel : t.nrAlloc ≤ fuel) :
    ∃ i t2, findElement fuel t x = some (i, t2) ∧ t.table[i]? = some x := by
  obtain ⟨p, hp, hex⟩ := mem_elems_iff_slot.mp hx
  obtain ⟨i, t2, y, hf, hy, hfs⟩ := findElement_total halloc hempty x hfuel
  have := firstStop_of_stored halloc hpc hnd hcoh.eq_refl hcoh.eq_symm hp hex hfs
  subst this
  exact ⟨i, t2, hf, hp⟩

/-- The state in which the growth branch of `addElement` leaves a well-formed table:
allocated with `2 * capacity + 1` slots, one more resize, the probe-chain invariant, an
empty slot, and the old elements together with the new one. -/
theorem grow_wellFormed {t t1 : AssociativeArray K E} (hclear : ClearsToEmpty t.desc)
    (hwf : WellFormed t) {r c : Nat} {e x : E} {fuel : Nat}
    (hx : t.table[r]? = some x) (hex : t.desc.isEmptyElement x = true)
    (he : t.desc.isEmptyElement e = false)
    (h : rehashLoop fuel (t.table.set r e) (List.range t.nrAlloc)
      (grownState (insertedState t r c e)) = some t1) :
    t1.desc = t.desc ∧ t1.nrAlloc = 2 * t.nrAlloc + 1 ∧
      t1.nrResizes = (t.nrResizes + 1) % 2 ^ 64 ∧ Allocated t1 ∧
      ProbeChain t1.desc t1.nrAlloc t1.table ∧
      (elems t1.desc t1.table).Perm (e :: elems t.desc t.table) ∧
      t1.nrUsed = t.nrUsed + 1 ∧ HasEmptySlot t1 := by
  obtain ⟨f, a, p, m, u⟩ := grow_sound hclear hwf.allocated h
  have hcap : t1.nrAlloc = 2 * t.nrAlloc + 1 := by
    rw [f.nrAlloc_eq]
    show (2 * t.nrAlloc + 1) % 2 ^ 64 = 2 * t.nrAlloc + 1
    exact Nat.mod_eq_of_lt hwf.growable
  have hperm := m.trans (elems_set_insert t.desc hx hex he)
  have hl := hperm.length_eq
  have hl2 := (elems_set_insert t.desc hx hex he).length_eq
  rw [List.length_cons] at hl hl2
  have hused := hwf.used_eq
  have hlt := hwf.used_lt
  have hload := hwf.load
  have hpos := hwf.capacity_pos
  refine ⟨f.desc_eq, hcap, f.nrResizes_eq, a, p, hperm, ?_, ?_⟩
  · rw [u, hl2, ← hused]; exact Nat.mod_eq_of_lt hlt
  · apply HasEmptySlot.of_lt a
    rw [hl, hcap]; omega

end WellFormedFacts

/-! ## The structural invariant is kept by every operation -/

section SoundFacts

variable {K E : Type}

theorem Sound.used_le {d : Desc K E} {t : AssociativeArray K E} (h : Sound d t) :
    t.nrUsed ≤ t.nrAlloc := by
  have h1 := elems_length_le t.desc t.table
  have h2 := h.allocated
  have h3 := h.used_eq
  unfold Allocated at h2
  omega

theorem initialise_sound {d : Desc K E} (hclear : ClearsToEmpty d) {size : Nat}
    (hsize : size < 2 ^ 64) : Sound d (initialise d size) where
  desc_eq := rfl
  allocated := newTable_length d size
  capacity_lt := hsize
  probeChain := newTable_probeChain hclear _ _
  used_eq := by
    show 0 = (elems d (newTable d size)).length
    rw [newTable_elems hclear]; rfl

/-- Storing a non-empty element in the slot where probing stopped keeps the structural
invariant; `used` grows by one when the slot was empty. -/
theorem Sound.store_firstStop {d : Desc K E} {t : AssociativeArray K E} (hs : Sound d t)
    {e : E} (he : t.desc.isEmptyElement e = false) {r : Nat} {x : E}
    (hfs : FirstStop t.desc (t.desc.isEqualElementElement e) t.table t.nrAlloc
      (bucket t.desc t.nrAlloc e) r)
    (hx : t.table[r]? = some x) :
    ProbeChain t.desc t.nrAlloc (t.table.set r e) ∧
      (t.table.set r e).length = t.nrAlloc ∧
      (t.desc.isEmptyElement x = false →
        (elems t.desc (t.table.set r e)).length = t.nrUsed) ∧
      (t.desc.isEmptyElement x = true →
        (elems t.desc (t.table.set r e)).length = t.nrUsed + 1 ∧
          (t.nrUsed + 1) % 2 ^ 64 = t.nrUsed + 1) := by
  have hlen : (t.table.set r e).length = t.nrAlloc := by
    rw [List.length_set]; exact hs.allocated
  refine ⟨hs.probeChain.set_firstStop hs.allocated he hfs, hlen, ?_, ?_⟩
  · intro hex
    rw [elems_set_length t.desc hx (he.trans hex.symm), hs.used_eq]
  · intro hex
    have h1 := (elems_set_insert t.desc hx hex he).length_eq
    rw [List.length_cons, ← hs.used_eq] at h1
    have h2 := elems_length_le t.desc (t.table.set r e)
    have h3 := hs.capacity_lt
    refine ⟨h1, Nat.mod_eq_of_lt ?_⟩
    omega

theorem addElement_keeps_sound {d : Desc K E} (hclear : ClearsToEmpty d)
    {fuh : AssociativeArray K E → Bool} {t : AssociativeArray K E} (hs : Sound d t)
    {e : E} (he : d.isEmptyElement e = false) {ow : Bool} {fuel : Nat} {b : Bool}
    {t1 : AssociativeArray K E} (h : addElement fuh fuel t e ow = some (b, t1)) :
    Sound d t1 := by
  have hd := hs.desc_eq
  have hclear2 : ClearsToEmpty t.desc := by rw [hd]; exact hclear
  have he2 : t.desc.isEmptyElement e = false := by rw [hd]; exact he
  obtain ⟨hn, r, c, x, hp, hx, hcase⟩ := addElement_inv h
  have hpos : 0 < t.nrAlloc := by omega
  have hfs := probe_sound _ _ _ _ hs.allocated _ _ _ _ _ (bucket_lt t.desc hpos e) hp
  obtain ⟨hpc, hlen, hfound, hnew⟩ := hs.store_firstStop he2 hfs hx
  rcases hcase with ⟨hex, _, _, ht⟩ | ⟨_, _, _, ht⟩ | ⟨hex, _, _, ht⟩ | ⟨hex, _, _, _, ht⟩ |
    ⟨hex, _, _, _, hre⟩
  · subst ht
    exact ⟨hd, hlen, hs.capacity_lt, hpc, (hfound hex).symm⟩
  · subst ht
    exact ⟨hd, hs.allocated, hs.capacity_lt, hs.probeChain, hs.used_eq⟩
  · subst ht
    exact ⟨hd, hlen, hs.capacity_lt, hpc, by
      show (t.nrUsed + 1) % 2 ^ 64 = (elems t.desc (t.table.set r e)).length
      rw [(hnew hex).2, (hnew hex).1]⟩
  · subst ht
    exact ⟨hd, hlen, hs.capacity_lt, hpc, by
      show (t.nrUsed + 1) % 2 ^ 64 = (elems t.desc (t.table.set r e)).length
      rw [(hnew hex).2, (hnew hex).1]⟩
  · obtain ⟨f, a, p, m, u⟩ := grow_sound hclear2 hs.allocated hre
    have hcap : t1.nrAlloc < 2 ^ 64 := by
      rw [f.nrAlloc_eq]
      show (2 * t.nrAlloc + 1) % 2 ^ 64 < 2 ^ 64
      exact Nat.mod_lt _ (by norm_num)
    refine ⟨f.desc_eq.trans hd, a, hcap, p, ?_⟩
    rw [u, m.length_eq]
    apply Nat.mod_eq_of_lt
    have h2 := elems_length_le t.desc (t.table.set r e)
    have h3 := hs.capacity_lt
    omega

/-- The table left by the back-shift loop of a removal keeps the structural invariant
with one element less. -/
theorem Sound.after_backShift {d : Desc K E} (hclear : ClearsToEmpty d)
    {t : AssociativeArray K E} (hs : Sound d t) {r : Nat} {x : E}
    (hx : t.table[r]? = some x) (hex : t.desc.isEmptyElement x = false)
    {fuel : Nat} {table : List E}
    (hb : backShift t.desc t.nrAlloc fuel (t.table.set r (t.desc.clearElement x)) r
      ((r + 1) % t.nrAlloc) = some table) :
    ProbeChain t.desc t.nrAlloc table ∧ table.length = t.nrAlloc ∧
      (x :: elems t.desc table).Perm (elems t.desc t.table) ∧
      (t.nrUsed + 2 ^ 64 - 1) % 2 ^ 64 = (elems t.desc table).length := by
  have hclear2 : ClearsToEmpty t.desc := by rw [hs.desc_eq]; exact hclear
  obtain ⟨h1, h2, h3⟩ := backShift_after_clear_sound hclear2 hs.allocated hs.probeChain hx hex hb
  refine ⟨h1, h2, h3, ?_⟩
  have h4 := h3.length_eq
  rw [List.length_cons, ← hs.used_eq] at h4
  have h5 := hs.used_le
  have h6 := hs.capacity_lt
  rw [← h4]
  have h7 : (elems t.desc table).length + 1 + 2 ^ 64 - 1 =
      (elems t.desc table).length + 2 ^ 64 := by omega
  rw [h7, Nat.add_mod_right]
  exact Nat.mod_eq_of_lt (by omega)

theorem removeElement_keeps_sound {d : Desc K E} (hclear : ClearsToEmpty d)
    {t : AssociativeArray K E} (hs : Sound d t) {e : E} {fuel : Nat} {b : Bool}
    {t1 : AssociativeArray K E} (h : removeElement fuel t e = some (b, t1)) :
    Sound d t1 := by
  obtain ⟨hn, r, c, x, hp, hx, hcase⟩ := removeElement_inv h
  rcases hcase with ⟨_, _, ht⟩ | ⟨hex, _, table, hb, ht⟩
  · subst ht
    exact ⟨hs.desc_eq, hs.allocated, hs.capacity_lt, hs.probeChain, hs.used_eq⟩
  · obtain ⟨h1, h2, _, h4⟩ := hs.after_backShift hclear hx hex hb
    subst ht
    exact ⟨hs.desc_eq, h2, hs.capacity_lt, h1, h4⟩

theorem removeKey_keeps_sound {d : Desc K E} (hclear : ClearsToEmpty d)
    {t : AssociativeArray K E} (hs : Sound d t) {key : K} {fuel : Nat} {b : E}
    {t1 : AssociativeArray K E} (h : removeKey fuel t key = some (b, t1)) :
    Sound d t1 := by
  obtain ⟨hn, r, c, x, hp, hx, hcase⟩ := removeKey_inv h
  rcases hcase with ⟨_, _, ht⟩ | ⟨hex, _, table, hb, ht⟩
  · subst ht
    exact ⟨hs.desc_eq, hs.allocated, hs.capacity_lt, hs.probeChain, hs.used_eq⟩
  · obtain ⟨h1, h2, _, h4⟩ := hs.after_backShift hclear hx hex hb
    subst ht
    exact ⟨hs.desc_eq, h2, hs.capacity_lt, h1, h4⟩

/-- Every reachable state satisfies the structural invariant. -/
theorem Reachable.sound {d : Desc K E} (hclear : ClearsToEmpty d)
    {t : AssociativeArray K E} (h : Reachable d t) : Sound d t := by
  induction h with
  | create size hsize => exact initialise_sound hclear hsize
  | addElement t fuel e ow b t1 _ he h ih => exact addElement_keeps_sound hclear ih he h
  | removeKey t fuel key x t1 _ h ih => exact removeKey_keeps_sound hclear ih h
  | removeElement t fuel e b t1 _ h ih => exact removeElement_keeps_sound hclear ih h
  | clear t _ ih =>
    have := initialise_sound hclear ih.capacity_lt
    rw [← ih.desc_eq] at this
    rw [← ih.desc_eq]
    exact this

end SoundFacts

/-! ## The table against the abstract dictionary -/

section Model

variable {K E : Type}

/-- For a coherent description, `removeKey` on the key of an element leaves the same
table as `removeElement` on the element. -/
theorem removeKey_keyOf {keyOf : E → K} (fuel : Nat) (t : AssociativeArray K E)
    (hcoh : Coherent t.desc keyOf) (e : E) :
    (removeKey fuel t (keyOf e)).map Prod.snd = (removeElement fuel t e).map Prod.snd := by
  have h1 : t.desc.isEqualKeyElement (keyOf e) = t.desc.isEqualElementElement e := by
    funext x; exact hcoh.isEqualKey_keyOf e x
  have h2 : t.desc.hashKey (keyOf e) = t.desc.hashElement e := hcoh.hashKey_keyOf e
  unfold removeKey removeElement
  rw [h1, h2]
  by_cases hn : t.nrAlloc = 0
  · simp [hn]
  · simp only [if_neg hn]
    cases probe t.desc (t.desc.isEqualElementElement e) t.table t.nrAlloc fuel
        (t.desc.hashElement e % 2 ^ 32 % t.nrAlloc) t.nrProbesD with
    | none => rfl
    | some rc =>
      obtain ⟨r, c⟩ := rc
      simp only
      cases t.table[r]? with
      | none => rfl
      | some x =>
        simp only
        by_cases hex : t.desc.isEmptyElement x = true
        · simp only [hex, if_true, Option.map_some']
        · simp only [hex]
          cases backShift t.desc t.nrAlloc fuel (t.table.set r (t.desc.clearElement x)) r
              ((r + 1) % t.nrAlloc) with
          | none => rfl
          | some table => rfl

theorem filter_no_match {d : Desc K E} {e : E} {R : List E}
    (h : ∀ y ∈ R, d.isEqualElementElement e y = false) :
    R.filter (fun y => !d.isEqualElementElement e y) = R := by
  rw [List.filter_eq_self]
  intro y hy
  rw [h y hy]; rfl

theorem perm_filter_match {d : Desc K E} {e x : E} {L R : List E}
    (hperm : L.Perm (x :: R)) (hx : d.isEqualElementElement e x = true)
    (h : ∀ y ∈ R, d.isEqualElementElement e y = false) :
    (L.filter (fun y => !d.isEqualElementElement e y)).Perm R := by
  have h1 := hperm.filter (fun y => !d.isEqualElementElement e y)
  rw [List.filter_cons, hx] at h1
  simp only [Bool.not_true, Bool.false_eq_true, if_false] at h1
  rwa [filter_no_match h] at h1

theorem any_false_of_no_match {d : Desc K E} {e : E} {L : List E}
    (h : ∀ y ∈ L, d.isEqualElementElement e y = false) :
    L.any (d.isEqualElementElement e) = false := by
  rw [List.any_eq_false]
  intro y hy
  rw [h y hy]; simp

theorem any_true_of_match {d : Desc K E} {e x : E} {L : List E} (hx : x ∈ L)
    (h : d.isEqualElementElement e x = true) :
    L.any (d.isEqualElementElement e) = true := by
  rw [List.any_eq_true]
  exact ⟨x, hx, h⟩

end Model

section Refinement

variable {K E : Type}

/-- The stored elements around a used slot `r`: the rest `R` is what both the old and
the overwritten table hold besides slot `r`. -/
theorem elems_overwrite_split (d : Desc K E) {table : List E} {r : Nat} {x e : E}
    (hx : table[r]? = some x) (hex : d.isEmptyElement x = false)
    (he : d.isEmptyElement e = false) :
    ∃ R, (elems d table).Perm (x :: R) ∧ (elems d (table.set r e)).Perm (e :: R) := by
  obtain ⟨hr, _⟩ := List.getElem?_eq_some.mp hx
  refine ⟨elems d (table.take r) ++ elems d (table.drop (r + 1)), ?_, ?_⟩
  · rw [elems_split d hx, elems_singleton_used hex, List.append_assoc]
    exact List.perm_middle
  · rw [elems_set_split d hr e, elems_singleton_used he, List.append_assoc]
    exact List.perm_middle

/-- A stored element that equals `e` is the only one: the others do not equal `e`. -/
theorem no_match_in_rest {d : Desc K E} {keyOf : E → K} (hcoh : Coherent d keyOf)
    {e x : E} {R : List E}
    (hpw : (x :: R).Pairwise (fun a b => d.isEqualElementElement a b = false))
    (hm : d.isEqualElementElement e x = true) :
    ∀ y ∈ R, d.isEqualElementElement e y = false := by
  rw [List.pairwise_cons] at hpw
  intro y hy
  by_contra hcon
  rw [Bool.not_eq_false] at hcon
  have h1 := hcoh.eq_trans x e y (hcoh.eq_symm e x hm) hcon
  rw [hpw.1 y hy] at h1
  exact absurd h1 (by simp)

theorem pairwise_of_perm {d : Desc K E} {keyOf : E → K} (hcoh : Coherent d keyOf)
    {A B : List E} (hperm : A.Perm B)
    (h : A.Pairwise (fun a b => d.isEqualElementElement a b = false)) :
    B.Pairwise (fun a b => d.isEqualElementElement a b = false) :=
  (List.Perm.pairwise_iff (fun h => ne_symm_of_symm hcoh.eq_symm h) hperm).mp h

/-- `addElement` of a non-empty element on a table that represents `live` leaves a
table that represents the abstract dictionary after the insertion. -/
theorem refines_addElement {d : Desc K E} {keyOf : E → K} (hcoh : Coherent d keyOf)
    (hclear : ClearsToEmpty d) {t : AssociativeArray K E} {live : List E}
    (href : Refines d t live) {e : E} (he : d.isEmptyElement e = false) {ow : Bool}
    {fuel : Nat} {b : Bool} {t1 : AssociativeArray K E}
    (h : addElement ExtendAtFillup.handle fuel t e ow = some (b, t1)) :
    Refines d t1 (liveAfter d live (Call.addElement e ow)) := by
  have hs1 := addElement_keeps_sound hclear href.sound he h
  have hs := href.sound
  have hd := hs.desc_eq
  subst hd
  obtain ⟨hn, r, c, x, hp, hx, hcase⟩ := addElement_inv h
  have hpos : 0 < t.nrAlloc := by omega
  have hfs := probe_sound _ _ _ _ hs.allocated _ _ _ _ _ (bucket_lt t.desc hpos e) hp
  have hmatch : t.desc.isEmptyElement x = false → t.desc.isEqualElementElement e x = true := by
    intro hex
    have hst := hfs.2.1
    rw [stopAt_of_get hx, hex] at hst
    simpa using hst
  have hfound : t.desc.isEmptyElement x = false →
      live.any (t.desc.isEqualElementElement e) = true := by
    intro hex
    exact any_true_of_match (href.perm.subset (mem_elems_iff_slot.mpr ⟨r, hx, hex⟩))
      (hmatch hex)
  have hnone : t.desc.isEmptyElement x = true →
      ∀ y ∈ elems t.desc t.table, t.desc.isEqualElementElement e y = false :=
    fun hex => no_match_of_firstStop_empty hs.allocated hs.probeChain hcoh.hash_eq hfs hx hex
  have hnew : t.desc.isEmptyElement x = true →
      liveAfter t.desc live (Call.addElement e ow) = e :: live := by
    intro hex
    have : live.any (t.desc.isEqualElementElement e) = false :=
      any_false_of_no_match (fun y hy => hnone hex y (href.perm.symm.subset hy))
    simp [liveAfter, this]
  have hinsert : t.desc.isEmptyElement x = true →
      ∀ table : List E, (elems t.desc table).Perm (e :: elems t.desc t.table) →
      NoDuplicateKeys t.desc table ∧ (elems t.desc table).Perm (e :: live) := by
    intro hex table hperm
    exact ⟨NoDuplicateKeys.insert hcoh.eq_symm hperm href.noDuplicateKeys (hnone hex),
      hperm.trans (List.Perm.cons e href.perm)⟩
  rcases hcase with ⟨hex, _, how, ht⟩ | ⟨hex, _, how, ht⟩ | ⟨hex, _, _, ht⟩ |
    ⟨hex, _, _, _, ht⟩ | ⟨hex, _, _, _, hre⟩
  · obtain ⟨R, hR1, hR2⟩ := elems_overwrite_split t.desc hx hex he
    have hpw := pairwise_of_perm hcoh hR1 href.noDuplicateKeys
    have hrest := no_match_in_rest hcoh hpw (hmatch hex)
    have hlive : liveAfter t.desc live (Call.addElement e ow) =
        e :: live.filter (fun y => !t.desc.isEqualElementElement e y) := by
      simp [liveAfter, hfound hex, how]
    have hfil := perm_filter_match (href.perm.symm.trans hR1) (hmatch hex) hrest
    have hpw2 : (e :: R).Pairwise (fun a b => t.desc.isEqualElementElement a b = false) :=
      List.pairwise_cons.mpr ⟨hrest, (List.pairwise_cons.mp hpw).2⟩
    subst ht
    refine ⟨hs1, ?_, ?_⟩
    · exact pairwise_of_perm hcoh hR2.symm hpw2
    · rw [hlive]
      exact hR2.trans (List.Perm.cons e hfil.symm)
  · have hlive : liveAfter t.desc live (Call.addElement e ow) = live := by
      simp [liveAfter, hfound hex, how]
    subst ht
    rw [hlive]
    exact ⟨hs1, href.noDuplicateKeys, href.perm⟩
  · obtain ⟨h1, h2⟩ := hinsert hex _ (elems_set_insert t.desc hx hex he)
    subst ht
    rw [hnew hex]
    exact ⟨hs1, h1, h2⟩
  · obtain ⟨h1, h2⟩ := hinsert hex _ (elems_set_insert t.desc hx hex he)
    subst ht
    rw [hnew hex]
    exact ⟨hs1, h1, h2⟩
  · obtain ⟨f, _, _, m, _⟩ := grow_sound hclear hs.allocated hre
    rw [f.desc_eq] at m
    obtain ⟨h1, h2⟩ := hinsert hex _ (m.trans (elems_set_insert t.desc hx hex he))
    rw [hnew hex]
    exact ⟨hs1, h1, h2⟩

/-- `removeElement` on a table that represents `live` leaves a table that represents
the abstract dictionary after the removal. -/
theorem refines_removeElement {d : Desc K E} {keyOf : E → K} (hcoh : Coherent d keyOf)
    (hclear : ClearsToEmpty d) {t : AssociativeArray K E} {live : List E}
    (href : Refines d t live) {e : E}
    {fuel : Nat} {b : Bool} {t1 : AssociativeArray K E}
    (h : removeElement fuel t e = some (b, t1)) :
    Refines d t1 (liveAfter d live (Call.removeElement e)) := by
  have hs1 := removeElement_keeps_sound hclear href.sound h
  have hs := href.sound
  have hd := hs.desc_eq
  subst hd
  obtain ⟨hn, r, c, x, hp, hx, hcase⟩ := removeElement_inv h
  have hpos : 0 < t.nrAlloc := by omega
  have hfs := probe_sound _ _ _ _ hs.allocated _ _ _ _ _ (bucket_lt t.desc hpos e) hp
  rcases hcase with ⟨hex, _, ht⟩ | ⟨hex, _, table, hb, ht⟩
  · have hnone := no_match_of_firstStop_empty hs.allocated hs.probeChain hcoh.hash_eq
      hfs hx hex
    have hlive : liveAfter t.desc live (Call.removeElement e) = live :=
      filter_no_match (fun y hy => hnone y (href.perm.symm.subset hy))
    subst ht
    rw [hlive]
    exact ⟨hs1, href.noDuplicateKeys, href.perm⟩
  · have hm : t.desc.isEqualElementElement e x = true := by
      have hst := hfs.2.1
      rw [stopAt_of_get hx, hex] at hst
      simpa using hst
    obtain ⟨_, _, hperm, _⟩ := hs.after_backShift hclear hx hex hb
    have hpw := pairwise_of_perm hcoh hperm.symm href.noDuplicateKeys
    have hrest := no_match_in_rest hcoh hpw hm
    have hfil := perm_filter_match (href.perm.symm.trans hperm.symm) hm hrest
    subst ht
    exact ⟨hs1, (List.pairwise_cons.mp hpw).2, hfil.symm⟩

/-- `removeKey` on the key of an element, on a table that represents `live`, leaves a
table that represents the abstract dictionary after the removal. -/
theorem refines_removeKey {d : Desc K E} {keyOf : E → K} (hcoh : Coherent d keyOf)
    (hclear : ClearsToEmpty d) {t : AssociativeArray K E} {live : List E}
    (href : Refines d t live) {key : K} (hkey : ∃ e, keyOf e = key)
    {fuel : Nat} {x : E} {t1 : AssociativeArray K E}
    (h : removeKey fuel t key = some (x, t1)) :
    Refines d t1 (liveAfter d live (Call.removeKey key)) := by
  obtain ⟨e, rfl⟩ := hkey
  have hd := href.sound.desc_eq
  have hcoh2 : Coherent t.desc keyOf := by rw [hd]; exact hcoh
  have h1 := removeKey_keyOf fuel t hcoh2 e
  rw [h, Option.map_some'] at h1
  have hlive : liveAfter d live (Call.removeKey (keyOf e)) =
      liveAfter d live (Call.removeElement e) := by
    have : d.isEqualKeyElement (keyOf e) = d.isEqualElementElement e := by
      funext y; exact hcoh.isEqualKey_keyOf e y
    simp only [liveAfter, this]
  rw [hlive]
  cases h2 : removeElement fuel t e with
  | none => rw [h2] at h1; exact absurd h1 (by simp)
  | some bt =>
    obtain ⟨b, t2⟩ := bt
    rw [h2, Option.map_some'] at h1
    have h3 : t1 = t2 := Option.some.inj h1
    subst h3
    exact refines_removeElement hcoh hclear href h2

end Refinement

section RunCalls

variable {K E : Type}

/-- The capacity and the size after `addElement` on a well-formed table: unchanged; or
one element more in the same array, which is still at most half full; or one element
more in an array of `2 * capacity + 1` slots. -/
theorem WellFormed.addElement_size {t : AssociativeArray K E} (hclear : ClearsToEmpty t.desc)
    (hwf : WellFormed t) {e : E} (he : t.desc.isEmptyElement e = false) {ow : Bool}
    {fuel : Nat} {b : Bool} {t1 : AssociativeArray K E}
    (h : addElement ExtendAtFillup.handle fuel t e ow = some (b, t1)) :
    (t1.nrAlloc = t.nrAlloc ∧ t1.nrUsed = t.nrUsed) ∨
    (t1.nrAlloc = t.nrAlloc ∧ t1.nrUsed = t.nrUsed + 1 ∧ 2 * (t.nrUsed + 1) ≤ t.nrAlloc) ∨
    (t1.nrAlloc = 2 * t.nrAlloc + 1 ∧ t1.nrUsed = t.nrUsed + 1 ∧
      t.nrAlloc < 2 * (t.nrUsed + 1)) := by
  obtain ⟨hn, r, c, x, hp, hx, hcase⟩ := addElement_inv h
  have hmod : (t.nrUsed + 1) % 2 ^ 64 = t.nrUsed + 1 := Nat.mod_eq_of_lt hwf.used_lt
  rcases hcase with ⟨_, _, _, ht⟩ | ⟨_, _, _, ht⟩ | ⟨_, _, hfit, ht⟩ | ⟨_, _, _, hveto, _⟩ |
    ⟨hex, _, hfull, _, hre⟩
  · subst ht; exact Or.inl ⟨rfl, rfl⟩
  · subst ht; exact Or.inl ⟨rfl, rfl⟩
  · subst ht
    rw [hwf.growth_test] at hfit
    exact Or.inr (Or.inl ⟨rfl, hmod, by omega⟩)
  · rw [extendAtFillup_eq] at hveto; exact absurd hveto (by simp)
  · obtain ⟨_, hcap, _, _, _, _, hu, _⟩ := grow_wellFormed hclear hwf hx hex he hre
    rw [hwf.growth_test] at hfull
    exact Or.inr (Or.inr ⟨hcap, hu, hfull⟩)

/-- The capacity and the size after `removeElement`: the capacity is unchanged and the
size does not grow. -/
theorem Sound.removeElement_size {d : Desc K E} (hclear : ClearsToEmpty d)
    {t : AssociativeArray K E} (hs : Sound d t) {e : E} {fuel : Nat} {b : Bool}
    {t1 : AssociativeArray K E} (h : removeElement fuel t e = some (b, t1)) :
    t1.nrAlloc = t.nrAlloc ∧ t1.nrUsed ≤ t.nrUsed := by
  obtain ⟨hn, r, c, x, hp, hx, hcase⟩ := removeElement_inv h
  rcases hcase with ⟨_, _, ht⟩ | ⟨hex, _, table, hb, ht⟩
  · subst ht; exact ⟨rfl, le_refl _⟩
  · obtain ⟨_, _, hperm, hu⟩ := hs.after_backShift hclear hx hex hb
    have hl := hperm.length_eq
    rw [List.length_cons, ← hs.used_eq] at hl
    subst ht
    refine ⟨rfl, ?_⟩
    show (t.nrUsed + 2 ^ 64 - 1) % 2 ^ 64 ≤ t.nrUsed
    rw [hu]; omega

theorem Sound.removeKey_size {d : Desc K E} (hclear : ClearsToEmpty d)
    {t : AssociativeArray K E} (hs : Sound d t) {key : K} {fuel : Nat} {b : E}
    {t1 : AssociativeArray K E} (h : removeKey fuel t key = some (b, t1)) :
    t1.nrAlloc = t.nrAlloc ∧ t1.nrUsed ≤ t.nrUsed := by
  obtain ⟨hn, r, c, x, hp, hx, hcase⟩ := removeKey_inv h
  rcases hcase with ⟨_, _, ht⟩ | ⟨hex, _, table, hb, ht⟩
  · subst ht; exact ⟨rfl, le_refl _⟩
  · obtain ⟨_, _, hperm, hu⟩ := hs.after_backShift hclear hx hex hb
    have hl := hperm.length_eq
    rw [List.length_cons, ← hs.used_eq] at hl
    subst ht
    refine ⟨rfl, ?_⟩
    show (t.nrUsed + 2 ^ 64 - 1) % 2 ^ 64 ≤ t.nrUsed
    rw [hu]; omega

/-- A table that represents an abstract dictionary, is at most half full and has a
growable capacity is well-formed. -/
theorem Refines.wellFormed {d : Desc K E} {t : AssociativeArray K E} {live : List E}
    (href : Refines d t live) (hpos : 1 ≤ t.nrAlloc) (hload : 2 * t.nrUsed ≤ t.nrAlloc)
    (hgrow : 2 * t.nrAlloc + 1 < 2 ^ 64) : WellFormed t where
  capacity_pos := hpos
  allocated := href.sound.allocated
  growable := hgrow
  probeChain := href.sound.probeChain
  noDuplicateKeys := by rw [href.sound.desc_eq]; exact href.noDuplicateKeys
  used_eq := href.sound.used_eq
  load := hload

/-- Whenever a sequence of valid calls returns, the table it leaves represents the
abstract dictionary after the same calls. -/
theorem refines_runCalls {d : Desc K E} {keyOf : E → K} (hcoh : Coherent d keyOf)
    (hclear : ClearsToEmpty d) (fuel : Nat) :
    ∀ (calls : List (Call K E)) (t : AssociativeArray K E) (live : List E)
      (t1 : AssociativeArray K E),
      Refines d t live → (∀ c ∈ calls, ValidCall d keyOf c) →
      runCalls fuel calls t = some t1 → Refines d t1 (liveKeys d calls live) := by
  intro calls
  induction calls with
  | nil =>
    intro t live t1 href _ h
    simp only [runCalls, Option.some.injEq] at h
    subst h
    exact href
  | cons c cs ih =>
    intro t live t1 href hvalid h
    have hc := hvalid c (List.mem_cons_self _ _)
    have hcs : ∀ c2 ∈ cs, ValidCall d keyOf c2 := fun c2 h2 =>
      hvalid c2 (List.mem_cons_of_mem _ h2)
    cases ha : applyCall fuel t c with
    | none => simp [runCalls, ha] at h
    | some t2 =>
      have h2 : runCalls fuel cs t2 = some t1 := by simpa [runCalls, ha] using h
      apply ih t2 _ t1 _ hcs h2
      cases c with
      | addElement e ow =>
        cases hr : addElement ExtendAtFillup.handle fuel t e ow with
        | none => simp [applyCall, hr] at ha
        | some bt =>
          obtain ⟨b, t3⟩ := bt
          have : t3 = t2 := by simpa [applyCall, hr] using ha
          subst this
          exact refines_addElement hcoh hclear href hc hr
      | removeElement e =>
        cases hr : removeElement fuel t e with
        | none => simp [applyCall, hr] at ha
        | some bt =>
          obtain ⟨b, t3⟩ := bt
          have : t3 = t2 := by simpa [applyCall, hr] using ha
          subst this
          exact refines_removeElement hcoh hclear href hr
      | removeKey key =>
        cases hr : removeKey fuel t key with
        | none => simp [applyCall, hr] at ha
        | some bt =>
          obtain ⟨b, t3⟩ := bt
          have : t3 = t2 := by simpa [applyCall, hr] using ha
          subst this
          exact refines_removeKey hcoh hclear href hc hr

/-- A sequence of valid calls returns when the table is at most half full, the bound
`bound` covers the capacity that the calls can reach, twice the bound is
representable, and the fuel is at least twice the bound. -/
theorem runCalls_total {d : Desc K E} {keyOf : E → K} (hcoh : Coherent d keyOf)
    (hclear : ClearsToEmpty d) (fuel bound : Nat) (hbound : 2 * bound + 1 < 2 ^ 64)
    (hfuel : 2 * bound + 1 ≤ fuel) :
    ∀ (calls : List (Call K E)) (t : AssociativeArray K E) (live : List E),
      Refines d t live → (∀ c ∈ calls, ValidCall d keyOf c) →
      1 ≤ t.nrAlloc → 2 * t.nrUsed ≤ t.nrAlloc → t.nrAlloc ≤ bound →
      4 * (t.nrUsed + calls.length) + 3 ≤ bound →
      ∃ t1, runCalls fuel calls t = some t1 := by
  intro calls
  induction calls with
  | nil => intro t _ _ _ _ _ _ _; exact ⟨t, rfl⟩
  | cons c cs ih =>
    intro t live href hvalid hpos hload hcap hlen
    have hc := hvalid c (List.mem_cons_self _ _)
    have hcs : ∀ c2 ∈ cs, ValidCall d keyOf c2 := fun c2 h2 =>
      hvalid c2 (List.mem_cons_of_mem _ h2)
    rw [List.length_cons] at hlen
    have hwf : WellFormed t := href.wellFormed hpos hload (by omega)
    have hd := href.sound.desc_eq
    have hclear2 : ClearsToEmpty t.desc := by rw [hd]; exact hclear
    have hfuel2 : 2 * t.nrAlloc + 1 ≤ fuel := by omega
    cases c with
    | addElement e ow =>
      have he : t.desc.isEmptyElement e = false := by rw [hd]; exact hc
      obtain ⟨b, t2, hr⟩ := addElement_total ExtendAtFillup.handle hclear2 hwf.allocated
        hwf.hasEmptySlot hwf.growable e ow hfuel2
      have href2 := refines_addElement hcoh hclear href hc hr
      have hrun : runCalls fuel (Call.addElement e ow :: cs) t = runCalls fuel cs t2 := by
        simp [runCalls, applyCall, hr]
      rw [hrun]
      rcases hwf.addElement_size hclear2 he hr with ⟨h1, h2⟩ | ⟨h1, h2, h3⟩ | ⟨h1, h2, h3⟩
      · exact ih t2 _ href2 hcs (by omega) (by omega) (by omega) (by omega)
      · exact ih t2 _ href2 hcs (by omega) (by omega) (by omega) (by omega)
      · exact ih t2 _ href2 hcs (by omega) (by omega) (by omega) (by omega)
    | removeElement e =>
      obtain ⟨b, t2, hr⟩ := removeElement_total hwf.allocated hwf.hasEmptySlot e
        (by omega : t.nrAlloc ≤ fuel)
      have href2 := refines_removeElement hcoh hclear href hr
      have hrun : runCalls fuel (Call.removeElement e :: cs) t = runCalls fuel cs t2 := by
        simp [runCalls, applyCall, hr]
      rw [hrun]
      obtain ⟨h1, h2⟩ := href.sound.removeElement_size hclear hr
      exact ih t2 _ href2 hcs (by omega) (by omega) (by omega) (by omega)
    | removeKey key =>
      obtain ⟨b, t2, hr⟩ := removeKey_total hwf.allocated hwf.hasEmptySlot key
        (by omega : t.nrAlloc ≤ fuel)
      have href2 := refines_removeKey hcoh hclear href hc hr
      have hrun : runCalls fuel (Call.removeKey key :: cs) t = runCalls fuel cs t2 := by
        simp [runCalls, applyCall, hr]
      rw [hrun]
      obtain ⟨h1, h2⟩ := href.sound.removeKey_size hclear hr
      exact ih t2 _ href2 hcs (by omega) (by omega) (by omega) (by omega)

end RunCalls

/-! ## What probing finds -/

section ProbeResults

variable {K E : Type}

theorem WellFormed.toSound {t : AssociativeArray K E} (h : WellFormed t) : Sound t.desc t where
  desc_eq := rfl
  allocated := h.allocated
  capacity_lt := by have := h.growable; unfold Growable at this; omega
  probeChain := h.probeChain
  used_eq := h.used_eq

/-- The element in a used first stop slot matches. -/
theorem FirstStop.match_of_used {d : Desc K E} {isMatch : E → Bool} {table : List E}
    {n i r : Nat} (h : FirstStop d isMatch table n i r) {x : E} (hx : table[r]? = some x)
    (hex : d.isEmptyElement x = false) : isMatch x = true := by
  have hs := h.2.1
  rw [stopAt_of_get hx, hex] at hs
  simpa using hs

/-- Probing for `e` stops at a used slot exactly when some stored element equals `e`. -/
theorem firstStop_used_iff {d : Desc K E} {n : Nat} {table : List E}
    (hlen : table.length = n) (hpc : ProbeChain d n table)
    (hhash : ∀ x y, d.isEqualElementElement x y = true → d.hashElement x = d.hashElement y)
    {e : E} {r : Nat} (hfs : FirstStop d (d.isEqualElementElement e) table n (bucket d n e) r)
    {x : E} (hx : table[r]? = some x) :
    d.isEmptyElement x = false ↔ ∃ y ∈ elems d table, d.isEqualElementElement e y = true := by
  constructor
  · intro hex
    exact ⟨x, mem_elems_iff_slot.mpr ⟨r, hx, hex⟩, hfs.match_of_used hx hex⟩
  · rintro ⟨y, hy, hm⟩
    by_contra hex
    have hex2 : d.isEmptyElement x = true := by simpa using hex
    have := no_match_of_firstStop_empty hlen hpc hhash hfs hx hex2 y hy
    exact absurd (hm.symm.trans this) (by simp)

/-- For a coherent description, probing for the key of `e` is probing for `e`. -/
theorem firstStop_keyOf {d : Desc K E} {keyOf : E → K} (hcoh : Coherent d keyOf)
    (table : List E) (n : Nat) (e : E) (r : Nat) :
    FirstStop d (d.isEqualKeyElement (keyOf e)) table n (keyBucket d n (keyOf e)) r ↔
      FirstStop d (d.isEqualElementElement e) table n (bucket d n e) r := by
  have h1 : d.isEqualKeyElement (keyOf e) = d.isEqualElementElement e := by
    funext x; exact hcoh.isEqualKey_keyOf e x
  have h2 : keyBucket d n (keyOf e) = bucket d n e := by
    unfold keyBucket bucket; rw [hcoh.hashKey_keyOf e]
  rw [h1, h2]

/-- The element removed from a table without duplicate keys is the only stored element
that equals `e`. -/
theorem unique_match_of_removed {d : Desc K E} {keyOf : E → K} (hcoh : Coherent d keyOf)
    {table result : List E} (hnd : NoDuplicateKeys d table) {e x : E}
    (hm : d.isEqualElementElement e x = true)
    (hperm : (x :: elems d result).Perm (elems d table)) :
    ∀ y ∈ elems d table, d.isEqualElementElement e y = true → y = x := by
  intro y hy hmy
  have hpw := pairwise_of_perm hcoh hperm.symm hnd
  have hrest := no_match_in_rest hcoh hpw hm
  rcases List.mem_cons.mp (hperm.symm.subset hy) with h | h
  · exact h
  · exact absurd (hmy.symm.trans (hrest y h)) (by simp)

end ProbeResults

/-! ## What `addElement` leaves behind -/

section AddResults

variable {K E : Type}

/-- Writing into a slot the value that it holds changes nothing. -/
theorem set_same {table : List E} {i : Nat} {e : E} (h : table[i]? = some e) :
    table.set i e = table := by
  obtain ⟨hi, _⟩ := List.getElem?_eq_some.mp h
  apply List.ext_getElem?
  intro j
  rw [List.getElem?_set]
  by_cases hij : i = j
  · subst hij; simp [hi, h]
  · simp [hij]

/-- After `addElement(e, overwrite = true)` on a well-formed table, probing for `e`
stops at a slot that holds `e` itself. -/
theorem addElement_stored_firstStop {t : AssociativeArray K E} {keyOf : E → K}
    (hcoh : Coherent t.desc keyOf) (hclear : ClearsToEmpty t.desc) (hwf : WellFormed t)
    {e : E} (he : t.desc.isEmptyElement e = false) {fuel : Nat} {b : Bool}
    {t1 : AssociativeArray K E}
    (h : addElement ExtendAtFillup.handle fuel t e true = some (b, t1)) :
    t1.desc = t.desc ∧ Allocated t1 ∧ 0 < t1.nrAlloc ∧ t1.nrAlloc ≤ 2 * t.nrAlloc + 1 ∧
      ∃ i, FirstStop t1.desc (t1.desc.isEqualElementElement e) t1.table t1.nrAlloc
        (bucket t1.desc t1.nrAlloc e) i ∧ t1.table[i]? = some e := by
  have halloc := hwf.allocated
  obtain ⟨hn, r, c, x, hp, hx, hcase⟩ := addElement_inv h
  have hpos : 0 < t.nrAlloc := by omega
  have hfs := probe_sound _ _ _ _ halloc _ _ _ _ _ (bucket_lt t.desc hpos e) hp
  obtain ⟨hr, _⟩ := List.getElem?_eq_some.mp hx
  have hlen : (t.table.set r e).length = t.nrAlloc := by rw [List.length_set]; exact halloc
  have hsame : ∀ c2 : AssociativeArray K E, c2.desc = t.desc → c2.nrAlloc = t.nrAlloc →
      c2.table = t.table.set r e →
      c2.desc = t.desc ∧ Allocated c2 ∧ 0 < c2.nrAlloc ∧ c2.nrAlloc ≤ 2 * t.nrAlloc + 1 ∧
      ∃ i, FirstStop c2.desc (c2.desc.isEqualElementElement e) c2.table c2.nrAlloc
        (bucket c2.desc c2.nrAlloc e) i ∧ c2.table[i]? = some e := by
    intro c2 hd hcap htab
    refine ⟨hd, ?_, by omega, by omega, r, ?_, ?_⟩
    · unfold Allocated; rw [htab, hcap]; exact hlen
    · rw [hd, hcap, htab]; exact hfs.set_self halloc (hcoh.eq_refl e)
    · rw [htab]; exact List.getElem?_set_self hr
  rcases hcase with ⟨_, _, _, ht⟩ | ⟨_, _, how, _⟩ | ⟨_, _, _, ht⟩ | ⟨_, _, _, hveto, _⟩ |
    ⟨hex, _, _, _, hre⟩
  · subst ht; exact hsame _ rfl rfl rfl
  · exact absurd how (by simp)
  · subst ht; exact hsame _ rfl rfl rfl
  · rw [extendAtFillup_eq] at hveto; exact absurd hveto (by simp)
  · obtain ⟨hd, hcap, _, a, p, m, _, hem⟩ := grow_wellFormed hclear hwf hx hex he hre
    have hno := no_match_of_firstStop_empty halloc hwf.probeChain hcoh.hash_eq hfs hx hex
    have hcoh1 : Coherent t1.desc keyOf := by rw [hd]; exact hcoh
    have hnd : NoDuplicateKeys t1.desc t1.table := by
      rw [hd] at m ⊢
      exact NoDuplicateKeys.insert hcoh.eq_symm m hwf.noDuplicateKeys hno
    have hmem : e ∈ elems t1.desc t1.table := m.symm.subset (List.mem_cons_self _ _)
    obtain ⟨q, hq, heq⟩ := mem_elems_iff_slot.mp hmem
    obtain ⟨i, t2, y, _, _, hfs2⟩ := findElement_total a hem e (le_refl t1.nrAlloc)
    have hiq := firstStop_of_stored a p hnd hcoh1.eq_refl hcoh1.eq_symm hq heq hfs2
    subst hiq
    exact ⟨hd, a, hem.pos, by omega, i, hfs2, hq⟩

/-- `addElement` of a new non-empty element on a well-formed table returns `true`; it
ends in the growth branch when `capacity < 2 * (used + 1)` and with the element stored
in place otherwise. -/
theorem WellFormed.addElement_new {t : AssociativeArray K E} (hclear : ClearsToEmpty t.desc)
    (hwf : WellFormed t) {e : E}
    (hnew : ∀ x ∈ elems t.desc t.table, t.desc.isEqualElementElement e x = false)
    (ow : Bool) {fuel : Nat} (hfuel : 2 * t.nrAlloc + 1 ≤ fuel) :
    ∃ t1 r c x, addElement ExtendAtFillup.handle fuel t e ow = some (true, t1) ∧
      t.table[r]? = some x ∧ t.desc.isEmptyElement x = true ∧
      FirstStop t.desc (t.desc.isEqualElementElement e) t.table t.nrAlloc
        (bucket t.desc t.nrAlloc e) r ∧
      ((t.nrAlloc < 2 * (t.nrUsed + 1) ∧
          rehashLoop fuel (t.table.set r e) (List.range t.nrAlloc)
            (grownState (insertedState t r c e)) = some t1) ∨
       (2 * (t.nrUsed + 1) ≤ t.nrAlloc ∧ t1 = insertedState t r c e)) := by
  have halloc := hwf.allocated
  have hpos : 0 < t.nrAlloc := hwf.capacity_pos
  obtain ⟨z, hz, hzu⟩ := hwf.hasEmptySlot
  obtain ⟨r, c, x, hp, hfs, hx, _⟩ := probe_total t.desc (t.desc.isEqualElementElement e)
    halloc hz hzu (by omega : t.nrAlloc ≤ fuel) (bucket_lt t.desc hpos e) t.nrProbesA
  have hex : t.desc.isEmptyElement x = true := hfs.empty_of_no_match hnew hx
  by_cases hfull : t.nrAlloc < 2 * (t.nrUsed + 1)
  · obtain ⟨t1, hre⟩ := grow_total hclear halloc hwf.growable r c e hfuel
    exact ⟨t1, r, c, x, addElement_new_grow (by omega) hp hx hex (hwf.growth_test.mpr hfull)
      rfl hre, hx, hex, hfs, Or.inl ⟨hfull, hre⟩⟩
  · have hfit : ¬ t.nrAlloc < (2 * ((t.nrUsed + 1) % 2 ^ 64)) % 2 ^ 64 := by
      rw [hwf.growth_test]; exact hfull
    exact ⟨_, r, c, x, addElement_new_fits (by omega) hp hx hex hfit, hx, hex, hfs,
      Or.inr ⟨by omega, rfl⟩⟩

/-- The table that `addElement` of a new non-empty element leaves is well-formed again
(when the next growth is representable as well), holds the new element besides the old
ones, and has the capacity that the growth policy prescribes. -/
theorem WellFormed.after_new {t : AssociativeArray K E} {keyOf : E → K}
    (hcoh : Coherent t.desc keyOf) (hclear : ClearsToEmpty t.desc)
    (hwf : WellFormed t) {e : E} (he : t.desc.isEmptyElement e = false)
    (hnew : ∀ x ∈ elems t.desc t.table, t.desc.isEqualElementElement e x = false)
    (ow : Bool) {fuel : Nat} (hfuel : 2 * t.nrAlloc + 1 ≤ fuel)
    (hroom : 2 * (2 * t.nrAlloc + 1) + 1 < 2 ^ 64) :
    ∃ t1, addElement ExtendAtFillup.handle fuel t e ow = some (true, t1) ∧
      t1.desc = t.desc ∧ WellFormed t1 ∧
      (elems t1.desc t1.table).Perm (e :: elems t.desc t.table) ∧
      t1.nrUsed = t.nrUsed + 1 ∧
      ((t.nrAlloc < 2 * (t.nrUsed + 1) ∧ t1.nrAlloc = 2 * t.nrAlloc + 1 ∧
          t1.nrResizes = (t.nrResizes + 1) % 2 ^ 64) ∨
       (2 * (t.nrUsed + 1) ≤ t.nrAlloc ∧ t1.nrAlloc = t.nrAlloc ∧
          t1.nrResizes = t.nrResizes)) := by
  obtain ⟨t1, r, c, x, hadd, hx, hex, hfs, hcase⟩ := hwf.addElement_new hclear hnew ow hfuel
  have hs1 := addElement_keeps_sound hclear hwf.toSound he hadd
  have hpos := hwf.capacity_pos
  have hload := hwf.load
  have hmod : (t.nrUsed + 1) % 2 ^ 64 = t.nrUsed + 1 := Nat.mod_eq_of_lt hwf.used_lt
  have hfacts : t1.nrUsed = t.nrUsed + 1 ∧
      (elems t1.desc t1.table).Perm (e :: elems t.desc t.table) ∧
      ((t.nrAlloc < 2 * (t.nrUsed + 1) ∧ t1.nrAlloc = 2 * t.nrAlloc + 1 ∧
          t1.nrResizes = (t.nrResizes + 1) % 2 ^ 64) ∨
       (2 * (t.nrUsed + 1) ≤ t.nrAlloc ∧ t1.nrAlloc = t.nrAlloc ∧
          t1.nrResizes = t.nrResizes)) := by
    rcases hcase with ⟨hfull, hre⟩ | ⟨hfit, ht⟩
    · obtain ⟨_, hcap, hrs, _, _, m, hu, _⟩ := grow_wellFormed hclear hwf hx hex he hre
      exact ⟨hu, m, Or.inl ⟨hfull, hcap, hrs⟩⟩
    · have hu : t1.nrUsed = (t.nrUsed + 1) % 2 ^ 64 := by rw [ht]; rfl
      have hm : (elems t1.desc t1.table).Perm (e :: elems t.desc t.table) := by
        rw [ht]; exact elems_set_insert t.desc hx hex he
      have hc : t1.nrAlloc = t.nrAlloc := by rw [ht]; rfl
      have hr : t1.nrResizes = t.nrResizes := by rw [ht]; rfl
      exact ⟨hu.trans hmod, hm, Or.inr ⟨hfit, hc, hr⟩⟩
  obtain ⟨hu, m, hcap⟩ := hfacts
  have hd := hs1.desc_eq
  refine ⟨t1, hadd, hd, ?_, m, hu, hcap⟩
  have hnd : NoDuplicateKeys t1.desc t1.table := by
    rw [hd] at m ⊢
    exact NoDuplicateKeys.insert hcoh.eq_symm m hwf.noDuplicateKeys hnew
  refine ⟨?_, hs1.allocated, ?_, hs1.probeChain, hnd, hs1.used_eq, ?_⟩
  · rcases hcap with ⟨_, h1, _⟩ | ⟨_, h1, _⟩ <;> omega
  · unfold Growable
    rcases hcap with ⟨_, h1, _⟩ | ⟨_, h1, _⟩ <;> omega
  · rcases hcap with ⟨_, h1, _⟩ | ⟨_, h1, _⟩ <;> omega

end AddResults

/-! ## The load factor in reachable states -/

section Load

variable {K E : Type}

/-- The capacity and the size after `addElement` of a non-empty element on a table with
the structural invariant, 64-bit wrap-around included: unchanged; or one element more in
the same array, when the growth test fails; or one element more and the capacity
`(2 * capacity + 1) % 2 ^ 64`, when the growth test succeeds. -/
theorem Sound.addElement_counts {d : Desc K E} (hclear : ClearsToEmpty d)
    {t : AssociativeArray K E} (hs : Sound d t) {e : E} (he : d.isEmptyElement e = false)
    {ow : Bool} {fuel : Nat} {b : Bool} {t1 : AssociativeArray K E}
    (h : addElement ExtendAtFillup.handle fuel t e ow = some (b, t1)) :
    t.nrAlloc ≠ 0 ∧
    ((t1.nrAlloc = t.nrAlloc ∧ t1.nrUsed = t.nrUsed) ∨
     (t1.nrAlloc = t.nrAlloc ∧ t1.nrUsed = t.nrUsed + 1 ∧
        ¬ t.nrAlloc < (2 * (t.nrUsed + 1)) % 2 ^ 64) ∨
     (t1.nrAlloc = (2 * t.nrAlloc + 1) % 2 ^ 64 ∧ t1.nrUsed = t.nrUsed + 1 ∧
        t.nrAlloc < (2 * (t.nrUsed + 1)) % 2 ^ 64)) := by
  have hd := hs.desc_eq
  have hclear2 : ClearsToEmpty t.desc := by rw [hd]; exact hclear
  have he2 : t.desc.isEmptyElement e = false := by rw [hd]; exact he
  have hs1 := addElement_keeps_sound hclear hs he h
  obtain ⟨hn, r, c, x, hp, hx, hcase⟩ := addElement_inv h
  refine ⟨hn, ?_⟩
  have hpos : 0 < t.nrAlloc := by omega
  have hfs := probe_sound _ _ _ _ hs.allocated _ _ _ _ _ (bucket_lt t.desc hpos e) hp
  obtain ⟨_, _, _, hnew⟩ := hs.store_firstStop he2 hfs hx
  rcases hcase with ⟨_, _, _, ht⟩ | ⟨_, _, _, ht⟩ | ⟨hex, _, hfit, ht⟩ | ⟨_, _, _, hveto, _⟩ |
    ⟨hex, _, hfull, _, hre⟩
  · left; rw [ht]; exact ⟨rfl, rfl⟩
  · left; rw [ht]; exact ⟨rfl, rfl⟩
  · right; left
    have hmod := (hnew hex).2
    rw [hmod] at hfit
    have hu : t1.nrUsed = (t.nrUsed + 1) % 2 ^ 64 := by rw [ht]; rfl
    have hc : t1.nrAlloc = t.nrAlloc := by rw [ht]; rfl
    exact ⟨hc, hu.trans hmod, hfit⟩
  · rw [extendAtFillup_eq] at hveto; exact absurd hveto (by simp)
  · right; right
    have hmod := (hnew hex).2
    rw [hmod] at hfull
    obtain ⟨f, _, _, m, _⟩ := grow_sound hclear2 hs.allocated hre
    have hc : t1.nrAlloc = (2 * t.nrAlloc + 1) % 2 ^ 64 := f.nrAlloc_eq
    have hl := m.length_eq
    rw [(hnew hex).1] at hl
    have hu := hs1.used_eq
    rw [hl] at hu
    exact ⟨hc, hu, hfull⟩

/-- In every reachable state whose capacity is below `2 ^ 62` the table is at most half
full. -/
theorem Reachable.load {d : Desc K E} (hclear : ClearsToEmpty d)
    {t : AssociativeArray K E} (h : Reachable d t) :
    t.nrAlloc < 2 ^ 62 → 2 * t.nrUsed ≤ t.nrAlloc := by
  induction h with
  | create size hsize => intro _; exact Nat.zero_le _
  | addElement t fuel e ow b t1 ht he h ih =>
    intro hsmall
    have hs := ht.sound hclear
    have hs1 := (addElement_keeps_sound hclear hs he h).used_le
    obtain ⟨hn, hcase⟩ := hs.addElement_counts hclear he h
    rcases hcase with ⟨h1, h2⟩ | ⟨h1, h2, h3⟩ | ⟨h1, h2, h3⟩
    · rw [h1] at hsmall ⊢; rw [h2]; exact ih hsmall
    · rw [h1] at hsmall ⊢
      rw [h2]
      have := ih hsmall
      omega
    · rw [h1] at hsmall hs1 ⊢
      rw [h2] at hs1 ⊢
      have hcap := hs.capacity_lt
      by_cases hbig : t.nrAlloc < 2 ^ 62
      · have := ih hbig
        omega
      · omega
  | removeKey t fuel key x t1 ht h ih =>
    intro hsmall
    obtain ⟨h1, h2⟩ := (ht.sound hclear).removeKey_size hclear h
    rw [h1] at hsmall ⊢
    have := ih hsmall
    omega
  | removeElement t fuel e b t1 ht h ih =>
    intro hsmall
    obtain ⟨h1, h2⟩ := (ht.sound hclear).removeElement_size hclear h
    rw [h1] at hsmall ⊢
    have := ih hsmall
    omega
  | clear t _ _ => intro _; exact Nat.zero_le _

end Load

/-! ## Inserting a new element, with the description named -/

section Scenario

variable {K E : Type}

/-- Form of `WellFormed.after_new` for a table whose description is the named `d`. -/
theorem WellFormed.after_new_of {d : Desc K E} {keyOf : E → K} (hcoh : Coherent d keyOf)
    (hclear : ClearsToEmpty d) {t : AssociativeArray K E} (hd : t.desc = d)
    (hwf : WellFormed t) {e : E} (he : d.isEmptyElement e = false)
    (hnew : ∀ x ∈ elems d t.table, d.isEqualElementElement e x = false)
    (ow : Bool) {fuel : Nat} (hfuel : 2 * t.nrAlloc + 1 ≤ fuel)
    (hroom : 2 * (2 * t.nrAlloc + 1) + 1 < 2 ^ 64) :
    ∃ t1, addElement ExtendAtFillup.handle fuel t e ow = some (true, t1) ∧
      t1.desc = d ∧ WellFormed t1 ∧
      (elems d t1.table).Perm (e :: elems d t.table) ∧
      t1.nrUsed = t.nrUsed + 1 ∧
      ((t.nrAlloc < 2 * (t.nrUsed + 1) ∧ t1.nrAlloc = 2 * t.nrAlloc + 1 ∧
          t1.nrResizes = (t.nrResizes + 1) % 2 ^ 64) ∨
       (2 * (t.nrUsed + 1) ≤ t.nrAlloc ∧ t1.nrAlloc = t.nrAlloc ∧
          t1.nrResizes = t.nrResizes)) := by
  subst hd
  obtain ⟨t1, h, hd1, hwf1, hperm, hrest⟩ :=
    hwf.after_new hcoh hclear he hnew ow hfuel hroom
  refine ⟨t1, h, hd1, hwf1, ?_, hrest⟩
  rw [hd1] at hperm
  exact hperm

end Scenario

/-! ## Circular distance as a remainder, lookups in detail -/

section Frame

variable {K E : Type}

/-- The circular distance from `a` to `b` is `(b - a) mod n`. -/
theorem cdist_eq_emod {n a b : Nat} (ha : a < n) (hb : b < n) :
    ((cdist n a b : Nat) : Int) = ((b : Int) - (a : Int)) % (n : Int) := by
  unfold cdist
  split_ifs with h
  · rw [Int.emod_eq_of_lt (by omega) (by omega)]
    omega
  · have h1 : ((b : Int) - (a : Int)) % (n : Int) =
        ((b : Int) - (a : Int) + (n : Int)) % (n : Int) := by
      rw [Int.add_emod_self]
    rw [h1, Int.emod_eq_of_lt (by omega) (by omega)]
    omega

theorem keyBucket_lt (d : Desc K E) {n : Nat} (hn : 0 < n) (key : K) : keyBucket d n key < n :=
  Nat.mod_lt _ hn

/-- A lookup by key on a table with an empty slot returns the first stop of the probe
walk, and only the two lookup statistics change. -/
theorem findKey_total {t : AssociativeArray K E} (halloc : Allocated t)
    (hempty : HasEmptySlot t) (key : K) {fuel : Nat} (hfuel : t.nrAlloc ≤ fuel) :
    ∃ r c x, findKey fuel t key =
        some (r, { t with nrFinds := (t.nrFinds + 1) % 2 ^ 64, nrProbesF := c }) ∧
      t.table[r]? = some x ∧
      FirstStop t.desc (t.desc.isEqualKeyElement key) t.table t.nrAlloc
        (keyBucket t.desc t.nrAlloc key) r ∧
      (t.nrProbesF < 2 ^ 64 →
        c = (t.nrProbesF + cdist t.nrAlloc (keyBucket t.desc t.nrAlloc key) r) % 2 ^ 64) := by
  obtain ⟨z, hz, hzu⟩ := hempty
  have hpos : 0 < t.nrAlloc := by omega
  obtain ⟨r, c, x, hp, hfs, hx, hc⟩ := probe_total t.desc (t.desc.isEqualKeyElement key)
    halloc hz hzu hfuel (keyBucket_lt t.desc hpos key) t.nrProbesF
  exact ⟨r, c, x, findKey_eq (by omega) hp, hx, hfs, hc⟩

end Frame

/-! ## What the loops and the key overload leave unchanged -/

section OpsFrame

variable {K E : Type}

/-- The probing loop increments its counter at most `fuel - 1` times. -/
theorem probe_counter (d : Desc K E) (isMatch : E → Bool) (table : List E) (n : Nat) :
    ∀ fuel i c r c1, probe d isMatch table n fuel i c = some (r, c1) →
      c + fuel ≤ 2 ^ 64 → c ≤ c1 ∧ c1 < c + fuel := by
  intro fuel
  induction fuel with
  | zero => intro i c r c1 h; simp [probe] at h
  | succ f ih =>
    intro i c r c1 h hc
    unfold probe at h
    cases hg : table[i]? with
    | none => simp [hg] at h
    | some x =>
      simp only [hg] at h
      split at h
      · cases f with
        | zero => simp [probe] at h
        | succ g =>
          have hmod : (c + 1) % 2 ^ 64 = c + 1 := Nat.mod_eq_of_lt (by omega)
          rw [hmod] at h
          have := ih _ _ _ _ h (by omega)
          omega
      · simp only [Option.some.injEq, Prod.mk.injEq] at h
        omega

/-- Inversion of the key overload of `addElement`: the probing loop stopped at a slot
`r`; either the slot was used (and is overwritten or kept), or the element was stored
in the empty slot without growth, or the growth branch ran its two loops. -/
theorem addElementWithKey_inv {fuh : AssociativeArray K E → Bool} {fuel : Nat}
    {t : AssociativeArray K E} {key : K} {e : E} {ow b : Bool} {t1 : AssociativeArray K E}
    (h : addElementWithKey fuh fuel t key e ow = some (b, t1)) :
    t.nrAlloc ≠ 0 ∧ ∃ r c x,
      probe t.desc (t.desc.isEqualKeyElement key) t.table t.nrAlloc fuel
        (keyBucket t.desc t.nrAlloc key) t.nrProbesA = some (r, c) ∧
      t.table[r]? = some x ∧
      ((t.desc.isEmptyElement x = false ∧ b = false ∧ ow = true ∧
          t1 = { t with
            nrAdds := (t.nrAdds + 1) % 2 ^ 64
            nrProbesA := c
            table := t.table.set r e }) ∨
       (t.desc.isEmptyElement x = false ∧ b = false ∧ ow = false ∧
          t1 = { t with
            nrAdds := (t.nrAdds + 1) % 2 ^ 64
            nrProbesA := c }) ∨
       (t.desc.isEmptyElement x = true ∧ b = true ∧ t1 = insertedState t r c e) ∨
       (t.desc.isEmptyElement x = true ∧ b = true ∧
          t.nrAlloc < (2 * ((t.nrUsed + 1) % 2 ^ 64)) % 2 ^ 64 ∧
          fuh (insertedState t r c e) = false ∧ ∃ table,
          clearLoopKey t.desc ((2 * t.nrAlloc + 1) % 2 ^ 64 - r)
            (rawTable t.desc ((2 * t.nrAlloc + 1) % 2 ^ 64)) = some table ∧
          rehashLoopKey fuel (t.table.set r e)
            (t.nrAlloc -
              (if r < (2 * t.nrAlloc + 1) % 2 ^ 64 then (2 * t.nrAlloc + 1) % 2 ^ 64 else r))
            { insertedState t r c e with
              nrAlloc := (2 * t.nrAlloc + 1) % 2 ^ 64
              nrUsed := 0
              nrResizes := (t.nrResizes + 1) % 2 ^ 64
              table := table } = some t1)) := by
  by_cases hn : t.nrAlloc = 0
  · simp [addElementWithKey, hn] at h
  refine ⟨hn, ?_⟩
  unfold addElementWithKey at h
  rw [if_neg hn] at h
  cases hp : probe t.desc (t.desc.isEqualKeyElement key) t.table t.nrAlloc fuel
      (keyBucket t.desc t.nrAlloc key) t.nrProbesA with
  | none =>
    unfold keyBucket at hp
    simp only [hp] at h
    exact absurd h (by simp)
  | some rc =>
    obtain ⟨r, c⟩ := rc
    unfold keyBucket at hp
    simp only [hp] at h
    cases hx : t.table[r]? with
    | none =>
      simp only [hx] at h
      exact absurd h (by simp)
    | some x =>
      refine ⟨r, c, x, rfl, hx, ?_⟩
      simp only [hx] at h
      by_cases hex : t.desc.isEmptyElement x = true
      · simp only [hex, Bool.not_true, Bool.false_eq_true, if_false] at h
        by_cases hfull : t.nrAlloc < (2 * ((t.nrUsed + 1) % 2 ^ 64)) % 2 ^ 64
        · rw [if_pos hfull] at h
          by_cases hveto : fuh (insertedState t r c e) = true
          · unfold insertedState at hveto
            rw [if_pos hveto] at h
            simp only [Option.some.injEq, Prod.mk.injEq] at h
            exact Or.inr (Or.inr (Or.inl ⟨hex, h.1.symm, h.2.symm⟩))
          · have hveto2 : fuh (insertedState t r c e) = false := by simpa using hveto
            unfold insertedState at hveto
            rw [if_neg hveto] at h
            cases hcl : clearLoopKey t.desc ((2 * t.nrAlloc + 1) % 2 ^ 64 - r)
                (rawTable t.desc ((2 * t.nrAlloc + 1) % 2 ^ 64)) with
            | none =>
              simp only [hcl] at h
              exact absurd h (by simp)
            | some table =>
              simp only [hcl] at h
              refine Or.inr (Or.inr (Or.inr ⟨hex, ?_, hfull, hveto2, table, rfl, ?_⟩))
              · split at h
                · exact absurd h (by simp)
                · simp only [Option.some.injEq, Prod.mk.injEq] at h
                  exact h.1.symm
              · split at h
                · exact absurd h (by simp)
                · rename_i t4 hre
                  simp only [Option.some.injEq, Prod.mk.injEq] at h
                  rw [← h.2]
                  exact hre
        · rw [if_neg hfull] at h
          simp only [Option.some.injEq, Prod.mk.injEq] at h
          exact Or.inr (Or.inr (Or.inl ⟨hex, h.1.symm, h.2.symm⟩))
      · have hex2 : t.desc.isEmptyElement x = false := by simpa using hex
        simp only [hex2, Bool.not_false, if_true] at h
        cases ow with
        | true =>
          simp only [if_true, Option.some.injEq, Prod.mk.injEq] at h
          exact Or.inl ⟨hex2, h.1.symm, rfl, h.2.symm⟩
        | false =>
          simp only [Bool.false_eq_true, if_false, Option.some.injEq, Prod.mk.injEq] at h
          exact Or.inr (Or.inl ⟨hex2, h.1.symm, rfl, h.2.symm⟩)

end OpsFrame

/-! ## The effect of each operation on the description, the capacity, the statistics
and the values in the slots -/

section Effects

variable {K E : Type}

theorem mem_set_cases {table : List E} {i : Nat} {a x : E} (h : x ∈ table.set i a) :
    x ∈ table ∨ x = a :=
  List.mem_or_eq_of_mem_set h

/-- One re-insertion changes `_nrProbesR` by less than `fuel` and stores its argument. -/
theorem addNewElement_frame {fuel : Nat} {t t1 : AssociativeArray K E} {e : E}
    (h : addNewElement fuel t e = some t1) :
    RehashFrame t t1 ∧ (∀ x ∈ t1.table, x ∈ t.table ∨ x = e) ∧
      (t.nrProbesR + fuel ≤ 2 ^ 64 →
        t.nrProbesR ≤ t1.nrProbesR ∧ t1.nrProbesR < t.nrProbesR + fuel) := by
  obtain ⟨_, r, c, hp, ht⟩ := addNewElement_inv h
  subst ht
  refine ⟨⟨rfl, rfl, rfl, rfl, rfl, rfl, rfl, rfl, rfl⟩, fun x hx => mem_set_cases hx, ?_⟩
  intro hc
  exact probe_counter _ _ _ _ _ _ _ _ _ hp hc

/-- The re-insertion loop of the element overload: the frame, the provenance of the
slots, and the bound on `_nrProbesR`. -/
theorem rehashLoop_frame (fuel : Nat) (oldTable : List E) :
    ∀ (js : List Nat) (t t1 : AssociativeArray K E),
      rehashLoop fuel oldTable js t = some t1 →
      RehashFrame t t1 ∧ (∀ x ∈ t1.table, x ∈ t.table ∨ x ∈ oldTable) ∧
        (t.nrProbesR + js.length * fuel ≤ 2 ^ 64 →
          t.nrProbesR ≤ t1.nrProbesR ∧ t1.nrProbesR ≤ t.nrProbesR + js.length * fuel) := by
  intro js
  induction js with
  | nil =>
    intro t t1 h
    simp only [rehashLoop, Option.some.injEq] at h
    subst h
    exact ⟨RehashFrame.refl t, fun x hx => Or.inl hx, fun _ => ⟨le_refl _, by simp⟩⟩
  | cons j js ih =>
    intro t t1 h
    unfold rehashLoop at h
    cases hg : oldTable[j]? with
    | none => simp [hg] at h
    | some y =>
      simp only [hg] at h
      have hy : y ∈ oldTable := List.getElem?_mem hg
      rw [List.length_cons, Nat.succ_mul]
      split at h
      · cases ha : addNewElement fuel t y with
        | none => simp [ha] at h
        | some t2 =>
          simp only [ha] at h
          obtain ⟨hf2, hm2, hc2⟩ := addNewElement_frame ha
          obtain ⟨hf1, hm1, hc1⟩ := ih t2 t1 h
          refine ⟨hf2.trans hf1, ?_, ?_⟩
          · intro x hx
            rcases hm1 x hx with h1 | h1
            · rcases hm2 x h1 with h3 | h3
              · exact Or.inl h3
              · exact Or.inr (h3 ▸ hy)
            · exact Or.inr h1
          · intro hc
            have h3 := hc2 (by omega)
            have h4 := hc1 (by omega)
            omega
      · obtain ⟨hf1, hm1, hc1⟩ := ih t t1 h
        refine ⟨hf1, hm1, ?_⟩
        intro hc
        have h4 := hc1 (by omega)
        omega

/-- The re-insertion loop of the key overload: the frame and the bound on
`_nrProbesR`. -/
theorem rehashLoopKey_frame (fuel : Nat) (oldTable : List E) :
    ∀ (count : Nat) (t t1 : AssociativeArray K E),
      rehashLoopKey fuel oldTable count t = some t1 →
      RehashFrame t t1 ∧
        (t.nrProbesR + count * fuel ≤ 2 ^ 64 →
          t.nrProbesR ≤ t1.nrProbesR ∧ t1.nrProbesR ≤ t.nrProbesR + count * fuel) := by
  intro count
  induction count with
  | zero =>
    intro t t1 h
    simp only [rehashLoopKey, Option.some.injEq] at h
    subst h
    exact ⟨RehashFrame.refl t, fun _ => ⟨le_refl _, by simp⟩⟩
  | succ n ih =>
    intro t t1 h
    unfold rehashLoopKey at h
    cases hg : oldTable[0]? with
    | none => simp [hg] at h
    | some y =>
      simp only [hg] at h
      rw [Nat.succ_mul]
      split at h
      · cases ha : addNewElement fuel t y with
        | none => simp [ha] at h
        | some t2 =>
          simp only [ha] at h
          obtain ⟨hf2, _, hc2⟩ := addNewElement_frame ha
          obtain ⟨hf1, hc1⟩ := ih t2 t1 h
          refine ⟨hf2.trans hf1, ?_⟩
          intro hc
          have h3 := hc2 (by omega)
          have h4 := hc1 (by omega)
          omega
      · obtain ⟨hf1, hc1⟩ := ih t t1 h
        refine ⟨hf1, ?_⟩
        intro hc
        have h4 := hc1 (by omega)
        omega

/-- Every value in a slot after the back-shift loop was in a slot before it or was
produced by `clearElement`. -/
theorem backShift_mem (d : Desc K E) (n : Nat) :
    ∀ (fuel : Nat) (table : List E) (i k : Nat) (result : List E),
      backShift d n fuel table i k = some result →
      ∀ x ∈ result, x ∈ table ∨ ∃ y, x = d.clearElement y := by
  intro fuel
  induction fuel with
  | zero => intro table i k result h; simp [backShift] at h
  | succ f ih =>
    intro table i k result h x hx
    unfold backShift at h
    cases hg : table[k]? with
    | none => simp [hg] at h
    | some y =>
      simp only [hg] at h
      have hy : y ∈ table := List.getElem?_mem hg
      split at h
      · simp only [Option.some.injEq] at h
        subst h
        exact Or.inl hx
      · split at h
        · rcases ih _ _ _ _ h x hx with h1 | h1
          · rcases mem_set_cases h1 with h2 | h2
            · rcases mem_set_cases h2 with h3 | h3
              · exact Or.inl h3
              · exact Or.inl (h3 ▸ hy)
            · exact Or.inr ⟨y, h2⟩
          · exact Or.inr h1
        · exact ih _ _ _ _ h x hx

end Effects

/-! ## The effect of the lookups and of the removals -/

section Effects2

variable {K E : Type}

theorem findKey_inv {fuel : Nat} {t : AssociativeArray K E} {key : K} {r : Nat}
    {t1 : AssociativeArray K E} (h : findKey fuel t key = some (r, t1)) :
    t.nrAlloc ≠ 0 ∧ ∃ c,
      probe t.desc (t.desc.isEqualKeyElement key) t.table t.nrAlloc fuel
        (keyBucket t.desc t.nrAlloc key) t.nrProbesF = some (r, c) ∧
      t1 = { t with nrFinds := (t.nrFinds + 1) % 2 ^ 64, nrProbesF := c } := by
  by_cases hn : t.nrAlloc = 0
  · simp [findKey, hn] at h
  refine ⟨hn, ?_⟩
  cases hp : probe t.desc (t.desc.isEqualKeyElement key) t.table t.nrAlloc fuel
      (keyBucket t.desc t.nrAlloc key) t.nrProbesF with
  | none =>
    unfold keyBucket at hp
    unfold findKey at h
    rw [if_neg hn] at h
    simp only [hp] at h
    exact absurd h (by simp)
  | some rc =>
    obtain ⟨r2, c⟩ := rc
    rw [findKey_eq hn hp] at h
    simp only [Option.some.injEq, Prod.mk.injEq] at h
    obtain ⟨h1, h2⟩ := h
    subst h1
    exact ⟨c, rfl, h2.symm⟩

theorem findElement_inv {fuel : Nat} {t : AssociativeArray K E} {e : E} {r : Nat}
    {t1 : AssociativeArray K E} (h : findElement fuel t e = some (r, t1)) :
    t.nrAlloc ≠ 0 ∧ ∃ c,
      probe t.desc (t.desc.isEqualElementElement e) t.table t.nrAlloc fuel
        (bucket t.desc t.nrAlloc e) t.nrProbesF = some (r, c) ∧
      t1 = { t with nrFinds := (t.nrFinds + 1) % 2 ^ 64, nrProbesF := c } := by
  by_cases hn : t.nrAlloc = 0
  · simp [findElement, hn] at h
  refine ⟨hn, ?_⟩
  cases hp : probe t.desc (t.desc.isEqualElementElement e) t.table t.nrAlloc fuel
      (bucket t.desc t.nrAlloc e) t.nrProbesF with
  | none =>
    unfold bucket at hp
    unfold findElement at h
    rw [if_neg hn] at h
    simp only [hp] at h
    exact absurd h (by simp)
  | some rc =>
    obtain ⟨r2, c⟩ := rc
    rw [findElement_eq hn hp] at h
    simp only [Option.some.injEq, Prod.mk.injEq] at h
    obtain ⟨h1, h2⟩ := h
    subst h1
    exact ⟨c, rfl, h2.symm⟩

/-- The statistics after a lookup whose probing loop left its counter at `c`. -/
theorem countersLe_find {fuel : Nat} {t : AssociativeArray K E} (hw : NoWrap fuel t)
    {c : Nat} (hc : t.nrProbesF ≤ c) :
    CountersLe t { t with nrFinds := (t.nrFinds + 1) % 2 ^ 64, nrProbesF := c } := by
  have h1 := hw.nrFinds_lt
  refine ⟨?_, le_refl _, le_refl _, le_refl _, hc, le_refl _, le_refl _, le_refl _⟩
  show t.nrFinds ≤ (t.nrFinds + 1) % 2 ^ 64
  omega

/-- The statistics after a removal whose probing loop left its counter at `c`, whatever
the slots and `used` have become. -/
theorem countersLe_remove {fuel : Nat} {t : AssociativeArray K E} (hw : NoWrap fuel t)
    {c : Nat} (hc : t.nrProbesD ≤ c) (table : List E) (used : Nat) :
    CountersLe t { t with
      nrRems := (t.nrRems + 1) % 2 ^ 64
      nrProbesD := c
      table := table
      nrUsed := used } := by
  have h1 := hw.nrRems_lt
  refine ⟨le_refl _, le_refl _, ?_, le_refl _, le_refl _, le_refl _, hc, le_refl _⟩
  show t.nrRems ≤ (t.nrRems + 1) % 2 ^ 64
  omega

/-- The statistics after an insertion that did not rehash, whatever the slots and `used`
have become. -/
theorem countersLe_add {fuel : Nat} {t : AssociativeArray K E} (hw : NoWrap fuel t)
    {c : Nat} (hc : t.nrProbesA ≤ c) (table : List E) (used : Nat) :
    CountersLe t { t with
      nrAdds := (t.nrAdds + 1) % 2 ^ 64
      nrProbesA := c
      table := table
      nrUsed := used } := by
  have h1 := hw.nrAdds_lt
  refine ⟨le_refl _, ?_, le_refl _, le_refl _, le_refl _, hc, le_refl _, le_refl _⟩
  show t.nrAdds ≤ (t.nrAdds + 1) % 2 ^ 64
  omega

/-- The statistics after an insertion that rehashed: `t3` is the state before the
re-insertion loop and `t1` the state after it. -/
theorem countersLe_grow {fuel : Nat} {t t3 t1 : AssociativeArray K E} (hw : NoWrap fuel t)
    {c : Nat} (hc : t.nrProbesA ≤ c) (hf : RehashFrame t3 t1)
    (h3 : t3.nrFinds = t.nrFinds ∧ t3.nrAdds = (t.nrAdds + 1) % 2 ^ 64 ∧
      t3.nrRems = t.nrRems ∧ t3.nrResizes = (t.nrResizes + 1) % 2 ^ 64 ∧
      t3.nrProbesF = t.nrProbesF ∧ t3.nrProbesA = c ∧ t3.nrProbesD = t.nrProbesD ∧
      t3.nrProbesR = t.nrProbesR)
    (hr : t3.nrProbesR ≤ t1.nrProbesR) : CountersLe t t1 := by
  have h1 := hw.nrAdds_lt
  have h2 := hw.nrResizes_lt
  obtain ⟨a1, a2, a3, a4, a5, a6, a7, a8⟩ := h3
  refine ⟨?_, ?_, ?_, ?_, ?_, ?_, ?_, ?_⟩
  · rw [hf.nrFinds_eq, a1]
  · rw [hf.nrAdds_eq, a2]; omega
  · rw [hf.nrRems_eq, a3]
  · rw [hf.nrResizes_eq, a4]; omega
  · rw [hf.nrProbesF_eq, a5]
  · rw [hf.nrProbesA_eq, a6]; exact hc
  · rw [hf.nrProbesD_eq, a7]
  · rw [← a8]; exact hr

end Effects2

/-! ## The effect of a public operation -/

section ApplyOp

variable {K E : Type}

theorem map_snd_eq_some {α β : Type} {o : Option (α × β)} {b : β}
    (h : o.map Prod.snd = some b) : ∃ a, o = some (a, b) := by
  cases o with
  | none => simp at h
  | some p =>
    obtain ⟨a, b2⟩ := p
    simp only [Option.map_some', Option.some.injEq] at h
    exact ⟨a, by rw [h]⟩

theorem clearAndDelete_eq {t t1 : AssociativeArray K E} (h : clearAndDelete t = some t1) :
    t1 = initialise t.desc t.nrAlloc := by
  obtain ⟨log, h1⟩ := map_snd_eq_some h
  unfold clearAndDeleteCalls at h1
  split at h1
  · exact absurd h1 (by simp)
  · simp only [Option.some.injEq, Prod.mk.injEq] at h1
    exact h1.2.symm

/-- A public operation keeps the description, and leaves the capacity as it was or, when
an insertion grows the table, makes it `(2 * capacity + 1) mod 2 ^ 64`. -/
theorem applyOp_capacity {fuh : AssociativeArray K E → Bool} {fuel : Nat}
    {t t1 : AssociativeArray K E} {op : Op K E} (h : applyOp fuh fuel t op = some t1) :
    t1.desc = t.desc ∧
      (t1.nrAlloc = t.nrAlloc ∨ t1.nrAlloc = (2 * t.nrAlloc + 1) % 2 ^ 64) := by
  cases op with
  | findKey key =>
    obtain ⟨r, h1⟩ := map_snd_eq_some h
    obtain ⟨_, c, _, ht⟩ := findKey_inv h1
    subst ht; exact ⟨rfl, Or.inl rfl⟩
  | findElement e =>
    obtain ⟨r, h1⟩ := map_snd_eq_some h
    obtain ⟨_, c, _, ht⟩ := findElement_inv h1
    subst ht; exact ⟨rfl, Or.inl rfl⟩
  | addElement e ow =>
    obtain ⟨b, h1⟩ := map_snd_eq_some h
    obtain ⟨_, r, c, x, _, _, hcase⟩ := addElement_inv h1
    rcases hcase with ⟨_, _, _, ht⟩ | ⟨_, _, _, ht⟩ | ⟨_, _, _, ht⟩ | ⟨_, _, _, _, ht⟩ |
      ⟨_, _, _, _, hre⟩
    · subst ht; exact ⟨rfl, Or.inl rfl⟩
    · subst ht; exact ⟨rfl, Or.inl rfl⟩
    · subst ht; exact ⟨rfl, Or.inl rfl⟩
    · subst ht; exact ⟨rfl, Or.inl rfl⟩
    · obtain ⟨hf, _, _⟩ := rehashLoop_frame _ _ _ _ _ hre
      exact ⟨hf.desc_eq, Or.inr hf.nrAlloc_eq⟩
  | addElementWithKey key e ow =>
    obtain ⟨b, h1⟩ := map_snd_eq_some h
    obtain ⟨_, r, c, x, _, _, hcase⟩ := addElementWithKey_inv h1
    rcases hcase with ⟨_, _, _, ht⟩ | ⟨_, _, _, ht⟩ | ⟨_, _, ht⟩ |
      ⟨_, _, _, _, table, _, hre⟩
    · subst ht; exact ⟨rfl, Or.inl rfl⟩
    · subst ht; exact ⟨rfl, Or.inl rfl⟩
    · subst ht; exact ⟨rfl, Or.inl rfl⟩
    · obtain ⟨hf, _⟩ := rehashLoopKey_frame _ _ _ _ _ hre
      exact ⟨hf.desc_eq, Or.inr hf.nrAlloc_eq⟩
  | removeKey key =>
    obtain ⟨b, h1⟩ := map_snd_eq_some h
    obtain ⟨_, r, c, x, _, _, hcase⟩ := removeKey_inv h1
    rcases hcase with ⟨_, _, ht⟩ | ⟨_, _, table, _, ht⟩
    · subst ht; exact ⟨rfl, Or.inl rfl⟩
    · rw [ht]; exact ⟨rfl, Or.inl rfl⟩
  | removeElement e =>
    obtain ⟨b, h1⟩ := map_snd_eq_some h
    obtain ⟨_, r, c, x, _, _, hcase⟩ := removeElement_inv h1
    rcases hcase with ⟨_, _, ht⟩ | ⟨_, _, table, _, ht⟩
    · subst ht; exact ⟨rfl, Or.inl rfl⟩
    · rw [ht]; exact ⟨rfl, Or.inl rfl⟩
  | clear =>
    simp only [applyOp, Option.some.injEq] at h
    subst h; exact ⟨rfl, Or.inl rfl⟩
  | clearAndDelete =>
    have ht := clearAndDelete_eq h
    subst ht; exact ⟨rfl, Or.inl rfl⟩

/-- A public operation other than `clear` and `clearAndDelete` makes no statistics
counter smaller, absent wrap-around. -/
theorem applyOp_countersLe {fuh : AssociativeArray K E → Bool} {fuel : Nat}
    {t t1 : AssociativeArray K E} {op : Op K E} (hop : op.isClear = false)
    (hw : NoWrap fuel t) (h : applyOp fuh fuel t op = some t1) : CountersLe t t1 := by
  cases op with
  | findKey key =>
    obtain ⟨r, h1⟩ := map_snd_eq_some h
    obtain ⟨_, c, hp, ht⟩ := findKey_inv h1
    subst ht
    exact countersLe_find hw (probe_counter _ _ _ _ _ _ _ _ _ hp hw.nrProbesF_le).1
  | findElement e =>
    obtain ⟨r, h1⟩ := map_snd_eq_some h
    obtain ⟨_, c, hp, ht⟩ := findElement_inv h1
    subst ht
    exact countersLe_find hw (probe_counter _ _ _ _ _ _ _ _ _ hp hw.nrProbesF_le).1
  | addElement e ow =>
    obtain ⟨b, h1⟩ := map_snd_eq_some h
    obtain ⟨_, r, c, x, hp, _, hcase⟩ := addElement_inv h1
    have hc := (probe_counter _ _ _ _ _ _ _ _ _ hp hw.nrProbesA_le).1
    rcases hcase with ⟨_, _, _, ht⟩ | ⟨_, _, _, ht⟩ | ⟨_, _, _, ht⟩ | ⟨_, _, _, _, ht⟩ |
      ⟨_, _, _, _, hre⟩
    · subst ht; exact countersLe_add hw hc _ _
    · subst ht; exact countersLe_add hw hc _ _
    · subst ht; exact countersLe_add hw hc _ _
    · subst ht; exact countersLe_add hw hc _ _
    · obtain ⟨hf, _, hr⟩ := rehashLoop_frame _ _ _ _ _ hre
      have hlen : (List.range t.nrAlloc).length = t.nrAlloc := List.length_range _
      rw [hlen] at hr
      exact countersLe_grow hw hc hf ⟨rfl, rfl, rfl, rfl, rfl, rfl, rfl, rfl⟩
        (hr hw.nrProbesR_le).1
  | addElementWithKey key e ow =>
    obtain ⟨b, h1⟩ := map_snd_eq_some h
    obtain ⟨_, r, c, x, hp, _, hcase⟩ := addElementWithKey_inv h1
    have hc := (probe_counter _ _ _ _ _ _ _ _ _ hp hw.nrProbesA_le).1
    rcases hcase with ⟨_, _, _, ht⟩ | ⟨_, _, _, ht⟩ | ⟨_, _, ht⟩ |
      ⟨_, _, _, _, table, _, hre⟩
    · subst ht; exact countersLe_add hw hc _ _
    · subst ht; exact countersLe_add hw hc _ _
    · subst ht; exact countersLe_add hw hc _ _
    · obtain ⟨hf, hr⟩ := rehashLoopKey_frame _ _ _ _ _ hre
      have hle : (t.nrAlloc -
          (if r < (2 * t.nrAlloc + 1) % 2 ^ 64 then (2 * t.nrAlloc + 1) % 2 ^ 64 else r)) *
            fuel ≤ t.nrAlloc * fuel := Nat.mul_le_mul_right _ (Nat.sub_le _ _)
      have hR := hw.nrProbesR_le
      exact countersLe_grow hw hc hf ⟨rfl, rfl, rfl, rfl, rfl, rfl, rfl, rfl⟩
        (hr (le_trans (Nat.add_le_add_left hle _) hR)).1
  | removeKey key =>
    obtain ⟨b, h1⟩ := map_snd_eq_some h
    obtain ⟨_, r, c, x, hp, _, hcase⟩ := removeKey_inv h1
    have hc := (probe_counter _ _ _ _ _ _ _ _ _ hp hw.nrProbesD_le).1
    rcases hcase with ⟨_, _, ht⟩ | ⟨_, _, table, _, ht⟩
    · subst ht; exact countersLe_remove hw hc _ _
    · rw [ht]; exact countersLe_remove hw hc _ _
  | removeElement e =>
    obtain ⟨b, h1⟩ := map_snd_eq_some h
    obtain ⟨_, r, c, x, hp, _, hcase⟩ := removeElement_inv h1
    have hc := (probe_counter _ _ _ _ _ _ _ _ _ hp hw.nrProbesD_le).1
    rcases hcase with ⟨_, _, ht⟩ | ⟨_, _, table, _, ht⟩
    · subst ht; exact countersLe_remove hw hc _ _
    · rw [ht]; exact countersLe_remove hw hc _ _
  | clear => exact absurd hop (by simp [Op.isClear])
  | clearAndDelete => exact absurd hop (by simp [Op.isClear])

end ApplyOp

/-! ## The back-shift loop on a single collision chain -/

section Chain

variable {K E : Type}

theorem add_mod_lt {n : Nat} (b s : Nat) (hn : 0 < n) : (b + s) % n < n :=
  Nat.mod_lt _ hn

/-- Different offsets from `b` lead to different slots. -/
theorem add_mod_ne {n b s1 s2 : Nat} (hb : b < n) (h1 : s1 < n) (h2 : s2 < n)
    (hne : s1 ≠ s2) : (b + s1) % n ≠ (b + s2) % n := by
  intro h
  have e1 := cdist_add_mod hb h1
  have e2 := cdist_add_mod hb h2
  rw [h] at e1
  omega

/-- An element with natural bucket `b` that sits right after a hole on the walk from
`b` is relocated into the hole. -/
theorem relocate_chain {n b v : Nat} (hb : b < n) (hv : v + 1 < n) :
    relocate ((b + v) % n) ((b + (v + 1)) % n) b = true := by
  have hv0 : v < n := by omega
  have hne : (b + v) % n ≠ (b + (v + 1)) % n := add_mod_ne hb hv0 hv (by omega)
  rw [relocate_iff (add_mod_lt b v (by omega)) (add_mod_lt b (v + 1) (by omega)) hb hne]
  rw [add_mod_eq hb hv0, add_mod_eq hb hv]
  unfold cdist
  split_ifs <;> omega

/-- The back-shift loop on a chain of `m` elements with natural bucket `b` in the slots
`b, …, b + m - 1` (mod `n`), followed by an empty slot: with the hole at offset `v`
and the slots after the hole as in `table`, the loop moves every element after the hole
back by one slot and stops at the empty slot, leaving the last slot of the chain
empty. -/
theorem backShift_chain {d : Desc K E} (hclear : ClearsToEmpty d) {n b m : Nat}
    {table : List E} (hb : b < n) (hmn : m < n)
    (hchain : ∀ s, s < m → ∃ x, table[(b + s) % n]? = some x ∧
      d.isEmptyElement x = false ∧ bucket d n x = b)
    (hend : ∃ x, table[(b + m) % n]? = some x ∧ d.isEmptyElement x = true) :
    ∀ (rem v fuel : Nat) (tbl : List E), v + rem + 1 = m → rem + 1 ≤ fuel →
      tbl.length = n →
      (∃ x, tbl[(b + v) % n]? = some x ∧ d.isEmptyElement x = true) →
      (∀ s, v < s → s ≤ m → tbl[(b + s) % n]? = table[(b + s) % n]?) →
      ∃ result, backShift d n fuel tbl ((b + v) % n) ((b + (v + 1)) % n) = some result ∧
        result.length = n ∧
        (∀ s, v ≤ s → s + 1 < m → result[(b + s) % n]? = table[(b + (s + 1)) % n]?) ∧
        (∃ x, result[(b + (m - 1)) % n]? = some x ∧ d.isEmptyElement x = true) ∧
        (∀ s, s < n → (s < v ∨ m ≤ s) → result[(b + s) % n]? = tbl[(b + s) % n]?) := by
  intro rem
  induction rem with
  | zero =>
    intro v fuel tbl hv hfuel hlen hhole hahead
    obtain ⟨f, rfl⟩ : ∃ f, fuel = f + 1 := ⟨fuel - 1, by omega⟩
    have hvm : v + 1 = m := by omega
    obtain ⟨x, hx, hex⟩ := hend
    have hk : tbl[(b + (v + 1)) % n]? = some x := by
      rw [hahead (v + 1) (by omega) (by omega), hvm]; exact hx
    have hs : slotUsed d tbl ((b + (v + 1)) % n) = false := by
      rw [slotUsed_of_get hk, hex]; rfl
    have hkl : (b + (v + 1)) % n < tbl.length := by
      rw [hlen]; exact Nat.mod_lt _ (by omega)
    refine ⟨tbl, backShift_step_stop d n f tbl _ _ hkl hs, hlen, ?_, ?_, fun _ _ _ => rfl⟩
    · intro s h1 h2; omega
    · have : m - 1 = v := by omega
      rw [this]; exact hhole
  | succ rem ih =>
    intro v fuel tbl hv hfuel hlen hhole hahead
    obtain ⟨f, rfl⟩ : ∃ f, fuel = f + 1 := ⟨fuel - 1, by omega⟩
    have hv1 : v + 1 < m := by omega
    have hvn : v + 1 < n := by omega
    obtain ⟨y, hy, hey, hby⟩ := hchain (v + 1) hv1
    have hk : tbl[(b + (v + 1)) % n]? = some y := by
      rw [hahead (v + 1) (by omega) (by omega)]; exact hy
    have hi : (b + v) % n < n := Nat.mod_lt _ (by omega)
    have hkn : (b + (v + 1)) % n < n := Nat.mod_lt _ (by omega)
    have hik : (b + v) % n ≠ (b + (v + 1)) % n :=
      add_mod_ne hb (by omega) hvn (by omega)
    have hr : relocate ((b + v) % n) ((b + (v + 1)) % n) (bucket d n y) = true := by
      rw [hby]; exact relocate_chain hb hvn
    have hstep := backShift_step_move d n f tbl ((b + v) % n) ((b + (v + 1)) % n) hk hey hr
    have hnext : ((b + (v + 1)) % n + 1) % n = (b + (v + 1 + 1)) % n := by
      rw [Nat.mod_add_mod, Nat.add_assoc]
    rw [hnext] at hstep
    have hlen1 : (((tbl.set ((b + v) % n) y).set ((b + (v + 1)) % n)
        (d.clearElement y))).length = n := by
      rw [List.length_set, List.length_set]; exact hlen
    have hhole1 : ∃ x, ((tbl.set ((b + v) % n) y).set ((b + (v + 1)) % n)
        (d.clearElement y))[(b + (v + 1)) % n]? = some x ∧ d.isEmptyElement x = true := by
      refine ⟨d.clearElement y, ?_, hclear y⟩
      exact List.getElem?_set_self (by rw [List.length_set, hlen]; exact hkn)
    have hother : ∀ s, s < n → s ≠ v → s ≠ v + 1 →
        ((tbl.set ((b + v) % n) y).set ((b + (v + 1)) % n)
          (d.clearElement y))[(b + s) % n]? = tbl[(b + s) % n]? := by
      intro s hs h1 h2
      rw [List.getElem?_set_ne (add_mod_ne hb hvn hs (by omega)),
        List.getElem?_set_ne (add_mod_ne hb (by omega) hs (by omega))]
    have hahead1 : ∀ s, v + 1 < s → s ≤ m →
        ((tbl.set ((b + v) % n) y).set ((b + (v + 1)) % n)
          (d.clearElement y))[(b + s) % n]? = table[(b + s) % n]? := by
      intro s h1 h2
      rw [hother s (by omega) (by omega) (by omega)]
      exact hahead s (by omega) h2
    obtain ⟨result, hrun, hrl, hmoved, hlast, hrest⟩ :=
      ih (v + 1) f _ (by omega) (by omega) hlen1 hhole1 hahead1
    refine ⟨result, hstep.trans hrun, hrl, ?_, hlast, ?_⟩
    · intro s h1 h2
      by_cases hsv : s = v
      · subst hsv
        rw [hrest s (by omega) (Or.inl (by omega)), List.getElem?_set_ne hik.symm,
          List.getElem?_set_self (by rw [hlen]; exact hi)]
        exact hy.symm
      · exact hmoved s (by omega) h2
    · intro s hs hcase
      rw [hrest s hs (by omega)]
      exact hother s hs (by omega) (by omega)

end Chain

/-! ## Insertions under a fill-up handler that vetoes growth -/

section Veto

variable {K E : Type}

/-- Under a vetoing handler, inserting a new element into a table that has an empty slot
stores it in place: the capacity and `resizes` stay as they are. -/
theorem refines_add_veto {d : Desc K E} {keyOf : E → K} (hcoh : Coherent d keyOf)
    {fuh : AssociativeArray K E → Bool} (hveto : ∀ t, fuh t = true)
    {t : AssociativeArray K E} {live : List E} (href : Refines d t live) {e : E}
    (he : d.isEmptyElement e = false)
    (hnew : ∀ y ∈ live, d.isEqualElementElement e y = false)
    (hroom : live.length < t.nrAlloc) {fuel : Nat} (hfuel : t.nrAlloc ≤ fuel) (ow : Bool) :
    ∃ t1, addElement fuh fuel t e ow = some (true, t1) ∧ Refines d t1 (e :: live) ∧
      t1.nrAlloc = t.nrAlloc ∧ t1.nrResizes = t.nrResizes := by
  have hs := href.sound
  have hd := hs.desc_eq
  subst hd
  have hused : (elems t.desc t.table).length < t.nrAlloc := by
    rw [href.perm.length_eq]; exact hroom
  obtain ⟨z, hz, hzu⟩ := HasEmptySlot.of_lt hs.allocated hused
  have hpos : 0 < t.nrAlloc := by omega
  obtain ⟨r, c, x, hp, hfs, hx, _⟩ := probe_total t.desc (t.desc.isEqualElementElement e)
    hs.allocated hz hzu hfuel (bucket_lt t.desc hpos e) t.nrProbesA
  have hno : ∀ y ∈ elems t.desc t.table, t.desc.isEqualElementElement e y = false :=
    fun y hy => hnew y (href.perm.subset hy)
  have hex := hfs.empty_of_no_match hno hx
  have hadd : addElement fuh fuel t e ow = some (true, insertedState t r c e) := by
    by_cases hfull : t.nrAlloc < (2 * ((t.nrUsed + 1) % 2 ^ 64)) % 2 ^ 64
    · exact addElement_new_veto (by omega) hp hx hex hfull (hveto _)
    · exact addElement_new_fits (by omega) hp hx hex hfull
  obtain ⟨hpc, hlen, _, hcount⟩ := hs.store_firstStop he hfs hx
  obtain ⟨hcount1, hmod⟩ := hcount hex
  have hperm := elems_set_insert t.desc hx hex he
  refine ⟨_, hadd, ⟨⟨rfl, hlen, hs.capacity_lt, hpc, ?_⟩, ?_, ?_⟩, rfl, rfl⟩
  · show (t.nrUsed + 1) % 2 ^ 64 = (elems t.desc (t.table.set r e)).length
    rw [hmod, hcount1]
  · exact NoDuplicateKeys.insert hcoh.eq_symm hperm href.noDuplicateKeys hno
  · exact hperm.trans (List.Perm.cons e href.perm)

/-- A sequence of insertions of new, pairwise different elements under a vetoing
handler, into a table with room for all of them and one empty slot more. -/
theorem addElements_veto {d : Desc K E} {keyOf : E → K} (hcoh : Coherent d keyOf)
    {fuh : AssociativeArray K E → Bool} (hveto : ∀ t, fuh t = true) (fuel : Nat) :
    ∀ (es : List E) (t : AssociativeArray K E) (live : List E), Refines d t live →
      (∀ e ∈ es, d.isEmptyElement e = false) →
      es.Pairwise (fun a b => d.isEqualElementElement a b = false) →
      (∀ e ∈ es, ∀ y ∈ live, d.isEqualElementElement e y = false) →
      live.length + es.length < t.nrAlloc → t.nrAlloc ≤ fuel →
      ∃ t1, addElements fuh fuel es t = some (List.replicate es.length true, t1) ∧
        Refines d t1 (es.reverse ++ live) ∧ t1.nrAlloc = t.nrAlloc ∧
        t1.nrResizes = t.nrResizes := by
  intro es
  induction es with
  | nil =>
    intro t live href _ _ _ _ _
    exact ⟨t, rfl, by simpa using href, rfl, rfl⟩
  | cons e es ih =>
    intro t live href hne hpw hlive hroom hfuel
    rw [List.length_cons] at hroom
    obtain ⟨t1, hadd, href1, hcap1, hres1⟩ := refines_add_veto hcoh hveto href
      (hne e (List.mem_cons_self e es)) (hlive e (List.mem_cons_self e es))
      (by omega) hfuel true
    obtain ⟨hhead, htail⟩ := List.pairwise_cons.mp hpw
    have hlive1 : ∀ a ∈ es, ∀ y ∈ e :: live, d.isEqualElementElement a y = false := by
      intro a ha y hy
      rcases List.mem_cons.mp hy with h1 | h1
      · rw [h1]
        exact ne_symm_of_symm hcoh.eq_symm (hhead a ha)
      · exact hlive a (List.mem_cons_of_mem e ha) y h1
    obtain ⟨t2, hrun, href2, hcap2, hres2⟩ := ih t1 (e :: live) href1
      (fun a ha => hne a (List.mem_cons_of_mem e ha)) htail hlive1
      (by rw [List.length_cons, hcap1]; omega) (by rw [hcap1]; exact hfuel)
    refine ⟨t2, ?_, ?_, hcap2.trans hcap1, hres2.trans hres1⟩
    · simp only [addElements, hadd, hrun, List.length_cons, List.replicate_succ]
    · simpa using href2

end Veto

/-! ## Provenance of the values in the slots, and states in which probing never stops -/

section Provenance

variable {K E : Type}

theorem newTable_mem {d : Desc K E} {size : Nat} {x : E} (h : x ∈ newTable d size) :
    ∃ y, x = d.clearElement y := by
  obtain ⟨p, hp⟩ := List.mem_iff_getElem?.mp h
  exact newTable_get hp

/-- After a public operation other than the key overload of `addElement`, every value in
a slot is empty, was in a slot before, or is the element argument of the operation, an
`addElement`. -/
theorem applyOp_provenance {fuh : AssociativeArray K E → Bool} {fuel : Nat}
    {t t1 : AssociativeArray K E} {op : Op K E} (hclear : ClearsToEmpty t.desc)
    (hop : op.isElementOverload = true) (h : applyOp fuh fuel t op = some t1) :
    ∀ x ∈ t1.table, t.desc.isEmptyElement x = true ∨ x ∈ t.table ∨
      ∃ ow, op = Op.addElement x ow := by
  have hcleared : ∀ x, (∃ y, x = t.desc.clearElement y) → t.desc.isEmptyElement x = true := by
    intro x hx
    obtain ⟨y, hy⟩ := hx
    rw [hy]; exact hclear y
  cases op with
  | findKey key =>
    obtain ⟨r, h1⟩ := map_snd_eq_some h
    obtain ⟨_, c, _, ht⟩ := findKey_inv h1
    subst ht
    exact fun x hx => Or.inr (Or.inl hx)
  | findElement e =>
    obtain ⟨r, h1⟩ := map_snd_eq_some h
    obtain ⟨_, c, _, ht⟩ := findElement_inv h1
    subst ht
    exact fun x hx => Or.inr (Or.inl hx)
  | addElement e ow =>
    obtain ⟨b, h1⟩ := map_snd_eq_some h
    obtain ⟨_, r, c, y, _, _, hcase⟩ := addElement_inv h1
    have hset : ∀ x ∈ t.table.set r e, t.desc.isEmptyElement x = true ∨ x ∈ t.table ∨
        ∃ ow2, (Op.addElement e ow : Op K E) = Op.addElement x ow2 := by
      intro x hx
      rcases mem_set_cases hx with h2 | h2
      · exact Or.inr (Or.inl h2)
      · exact Or.inr (Or.inr ⟨ow, by rw [h2]⟩)
    rcases hcase with ⟨_, _, _, ht⟩ | ⟨_, _, _, ht⟩ | ⟨_, _, _, ht⟩ | ⟨_, _, _, _, ht⟩ |
      ⟨_, _, _, _, hre⟩
    · subst ht; exact hset
    · subst ht; exact fun x hx => Or.inr (Or.inl hx)
    · subst ht; exact hset
    · subst ht; exact hset
    · obtain ⟨_, hm, _⟩ := rehashLoop_frame _ _ _ _ _ hre
      intro x hx
      rcases hm x hx with h2 | h2
      · exact Or.inl (hcleared x (newTable_mem h2))
      · exact hset x h2
  | addElementWithKey key e ow => exact absurd hop (by simp [Op.isElementOverload])
  | removeKey key =>
    obtain ⟨b, h1⟩ := map_snd_eq_some h
    obtain ⟨_, r, c, y, _, _, hcase⟩ := removeKey_inv h1
    rcases hcase with ⟨_, _, ht⟩ | ⟨_, _, table, hbs, ht⟩
    · subst ht; exact fun x hx => Or.inr (Or.inl hx)
    · have htab : t1.table = table := by rw [ht]
      intro x hx
      rw [htab] at hx
      rcases backShift_mem _ _ _ _ _ _ _ hbs x hx with h2 | h2
      · rcases mem_set_cases h2 with h3 | h3
        · exact Or.inr (Or.inl h3)
        · exact Or.inl (hcleared x ⟨y, h3⟩)
      · exact Or.inl (hcleared x h2)
  | removeElement e =>
    obtain ⟨b, h1⟩ := map_snd_eq_some h
    obtain ⟨_, r, c, y, _, _, hcase⟩ := removeElement_inv h1
    rcases hcase with ⟨_, _, ht⟩ | ⟨_, _, table, hbs, ht⟩
    · subst ht; exact fun x hx => Or.inr (Or.inl hx)
    · have htab : t1.table = table := by rw [ht]
      intro x hx
      rw [htab] at hx
      rcases backShift_mem _ _ _ _ _ _ _ hbs x hx with h2 | h2
      · rcases mem_set_cases h2 with h3 | h3
        · exact Or.inr (Or.inl h3)
        · exact Or.inl (hcleared x ⟨y, h3⟩)
      · exact Or.inl (hcleared x h2)
  | clear =>
    simp only [applyOp, Option.some.injEq] at h
    subst h
    exact fun x hx => Or.inl (hcleared x (newTable_mem hx))
  | clearAndDelete =>
    have ht := clearAndDelete_eq h
    subst ht
    exact fun x hx => Or.inl (hcleared x (newTable_mem hx))

theorem ReachedBy.desc_eq {d : Desc K E} {fuh : AssociativeArray K E → Bool} {size : Nat}
    {ops : List (Op K E)} {t : AssociativeArray K E} (h : ReachedBy d fuh size ops t) :
    t.desc = d := by
  induction h with
  | create => rfl
  | step ops t fuel op t1 _ h ih => rw [(applyOp_capacity h).1, ih]

end Provenance

/-! ## The loop of `clearAndDelete` -/

section Delete

variable {K E : Type}

end Delete

/-! ## Removal by key and by element, and the growth branch of the key overload -/

section Overloads

variable {K E : Type}

/-- For a coherent description, `removeElement(e)` does what `removeKey(key(e))` does,
and returns `true` exactly when `removeKey` returns an element that is not empty. -/
theorem removeElement_of_removeKey {keyOf : E → K} {fuel : Nat} {t : AssociativeArray K E}
    (hcoh : Coherent t.desc keyOf) {e x : E} {t1 : AssociativeArray K E}
    (h : removeKey fuel t (keyOf e) = some (x, t1)) :
    removeElement fuel t e = some (!t.desc.isEmptyElement x, t1) := by
  have h1 : t.desc.isEqualKeyElement (keyOf e) = t.desc.isEqualElementElement e := by
    funext y; exact hcoh.isEqualKey_keyOf e y
  have h2 : keyBucket t.desc t.nrAlloc (keyOf e) = bucket t.desc t.nrAlloc e := by
    unfold keyBucket bucket
    rw [hcoh.hashKey_keyOf e]
  obtain ⟨hn, r, c, y, hp, hy, hcase⟩ := removeKey_inv h
  rw [h1, h2] at hp
  rcases hcase with ⟨hex, hxy, ht⟩ | ⟨hex, hxy, table, hbs, ht⟩
  · rw [removeElement_empty hn hp hy hex, hxy, hex, ht]
    rfl
  · rw [removeElement_used hn hp hy hex hbs, hxy, hex, ht]
    rfl

/-- The first loop of the growth branch of the key overload clears slot 0 `count` times
and touches no other slot. -/
theorem clearLoopKey_eq (d : Desc K E) :
    ∀ (count : Nat) (table : List E) (x : E), table[0]? = some x →
      clearLoopKey d count table = some (table.set 0 (d.clearElement^[count] x)) := by
  intro count
  induction count with
  | zero =>
    intro table x hx
    simp only [clearLoopKey, Function.iterate_zero, id_eq]
    rw [set_same hx]
  | succ n ih =>
    intro table x hx
    have h0 : 0 < table.length := by
      by_contra hc
      rw [List.getElem?_eq_none (by omega)] at hx
      exact absurd hx (by simp)
    simp only [clearLoopKey, hx]
    rw [ih (table.set 0 (d.clearElement x)) (d.clearElement x)
      (List.getElem?_set_self h0), List.set_set, Function.iterate_succ_apply]

theorem rawTable_length (d : Desc K E) (size : Nat) : (rawTable d size).length = size := by
  simp [rawTable]

theorem rawTable_get (d : Desc K E) {size p : Nat} (hp : p < size) :
    (rawTable d size)[p]? = some (d.rawElement p) := by
  unfold rawTable
  rw [List.getElem?_map, List.getElem?_range hp]
  rfl

/-- The growth branch of the key overload, when the probing loop stopped at the empty
slot `r` below the new capacity: the first loop clears slot 0 of the new array, the
re-insertion loop runs `nrAlloc - newAlloc` times, and `_nrUsed` stays 0. -/
theorem addElementWithKey_new_grow (fuh : AssociativeArray K E → Bool) {fuel : Nat}
    {t : AssociativeArray K E} {key : K} (e : E) (ow : Bool) (hn : t.nrAlloc ≠ 0)
    {r c : Nat} {x : E}
    (hp : probe t.desc (t.desc.isEqualKeyElement key) t.table t.nrAlloc fuel
      (keyBucket t.desc t.nrAlloc key) t.nrProbesA = some (r, c))
    (hx : t.table[r]? = some x) (hex : t.desc.isEmptyElement x = true)
    (hfull : t.nrAlloc < (2 * ((t.nrUsed + 1) % 2 ^ 64)) % 2 ^ 64)
    (hveto : fuh (insertedState t r c e) = false)
    (hr : r < (2 * t.nrAlloc + 1) % 2 ^ 64)
    (hle : t.nrAlloc ≤ (2 * t.nrAlloc + 1) % 2 ^ 64) :
    addElementWithKey fuh fuel t key e ow =
      some (true, { insertedState t r c e with
        nrAlloc := (2 * t.nrAlloc + 1) % 2 ^ 64
        nrUsed := 0
        nrResizes := (t.nrResizes + 1) % 2 ^ 64
        table := (rawTable t.desc ((2 * t.nrAlloc + 1) % 2 ^ 64)).set 0
          (t.desc.clearElement^[(2 * t.nrAlloc + 1) % 2 ^ 64 - r] (t.desc.rawElement 0)) }) := by
  have hraw : (rawTable t.desc ((2 * t.nrAlloc + 1) % 2 ^ 64))[0]? =
      some (t.desc.rawElement 0) := rawTable_get t.desc (by omega)
  have hcl := clearLoopKey_eq t.desc ((2 * t.nrAlloc + 1) % 2 ^ 64 - r) _ _ hraw
  have hcount : t.nrAlloc - (2 * t.nrAlloc + 1) % 2 ^ 64 = 0 := by omega
  unfold keyBucket at hp
  unfold insertedState at hveto
  unfold addElementWithKey
  rw [if_neg hn]
  simp only [hp, hx, hex, hfull, hveto, hcl, hr, hcount, insertedState, rehashLoopKey,
    if_true, Bool.not_true, Bool.false_eq_true, if_false]

end Overloads

/-! ## The example description is coherent -/

section Examples

theorem pairDesc_clearsToEmpty : ClearsToEmpty pairDesc := fun _ => rfl

theorem pairDesc_coherent : Coherent pairDesc pairKey where
  hashKey_keyOf := fun _ => rfl
  isEqualKey_keyOf := fun _ _ => rfl
  hash_eq := by
    intro x y h
    simpa [pairDesc] using h
  eq_refl := by intro x; simp [pairDesc]
  eq_symm := by
    intro x y h
    simp only [pairDesc, beq_iff_eq] at h ⊢
    exact h.symm
  eq_trans := by
    intro x y z h1 h2
    simp only [pairDesc, beq_iff_eq] at h1 h2 ⊢
    exact h1.trans h2

end Examples

/-! ## Removal: claims C2 and C3 -/

section ClaimsRemove

variable {K E : Type}

/-- After the removal of the element in slot `r`, which matches `e`, no stored element
matches `e`, when no two used slots held equal elements. -/
theorem no_match_after_remove {d : Desc K E} {keyOf : E → K} (hcoh : Coherent d keyOf)
    {table result : List E} (hnd : NoDuplicateKeys d table) {e x : E}
    (hm : d.isEqualElementElement e x = true)
    (hperm : (x :: elems d result).Perm (elems d table)) :
    ∀ y ∈ elems d result, d.isEqualElementElement e y = false := by
  have hsymm : ∀ {a b : E}, d.isEqualElementElement a b = false →
      d.isEqualElementElement b a = false := by
    intro a b h
    by_contra hcon
    rw [Bool.not_eq_false] at hcon
    rw [hcoh.eq_symm b a hcon] at h
    exact absurd h (by simp)
  have hpw := (List.Perm.pairwise_iff hsymm hperm).mpr hnd
  rw [List.pairwise_cons] at hpw
  intro y hy
  by_contra hcon
  rw [Bool.not_eq_false] at hcon
  have h1 := hcoh.eq_trans x e y (hcoh.eq_symm e x hm) hcon
  rw [hpw.1 y hy] at h1
  exact absurd h1 (by simp)

/-- Claim C2 (remove then find). For every coherent description whose `clearElement`
makes a slot empty, every table with the probe-chain invariant, no duplicate keys and at
least one empty slot, and every element `e`: `removeElement(e)` returns, and after it
`findElement(e)` returns a slot that satisfies `isEmptyElement`. -/
theorem removeElement_then_findElement (t : AssociativeArray K E) (keyOf : E → K)
    (hcoh : Coherent t.desc keyOf) (hclear : ClearsToEmpty t.desc)
    (halloc : Allocated t) (hpc : ProbeChain t.desc t.nrAlloc t.table)
    (hnd : NoDuplicateKeys t.desc t.table) (hempty : HasEmptySlot t)
    (e : E) (fuel : Nat) (hfuel : t.nrAlloc ≤ fuel) :
    ∃ b t1, removeElement fuel t e = some (b, t1) ∧
      ∃ i t2 x, findElement fuel t1 e = some (i, t2) ∧ t1.table[i]? = some x ∧
        t1.desc.isEmptyElement x = true := by
  obtain ⟨b, t1, h⟩ := removeElement_total halloc hempty e hfuel
  refine ⟨b, t1, h, ?_⟩
  have hn := hempty.pos
  obtain ⟨_, r, c, x, hp, hx, hcase⟩ := removeElement_inv h
  have hfs := probe_sound _ _ _ _ halloc _ _ _ _ _ (bucket_lt t.desc hn e) hp
  rcases hcase with ⟨hex, _, ht⟩ | ⟨hex, _, table, hb, ht⟩
  · have halloc1 : Allocated t1 := by subst ht; exact halloc
    have hempty1 : HasEmptySlot t1 := by subst ht; exact hempty
    obtain ⟨i, t2, y, hf, hy, hfs2⟩ := findElement_total halloc1 hempty1 e
      (by subst ht; exact hfuel)
    refine ⟨i, t2, y, hf, hy, ?_⟩
    subst ht
    have hir : i = r := FirstStop.unique (bucket_lt t.desc hn e) hfs2 hfs
    subst hir
    have hxy : x = y := by
      have h2 : some x = some y := hx.symm.trans hy
      exact Option.some.inj h2
    rw [← hxy]; exact hex
  · obtain ⟨h1, h2, h3⟩ := backShift_after_clear_sound hclear halloc hpc hx hex hb
    have hm : t.desc.isEqualElementElement e x = true := by
      have hs := hfs.2.1
      rw [stopAt_of_get hx, hex] at hs
      simpa using hs
    have hno := no_match_after_remove hcoh hnd hm h3
    have hlen : (elems t.desc table).length < table.length := by
      have h4 := h3.length_eq
      have h5 := elems_length_le t.desc t.table
      rw [List.length_cons] at h4
      rw [h2]
      unfold Allocated at halloc
      omega
    have halloc1 : Allocated t1 := by subst ht; exact h2
    have hempty1 : HasEmptySlot t1 := by
      obtain ⟨z, hz, hzu⟩ := exists_empty_of_lt t.desc hlen
      subst ht
      exact ⟨z, by rw [← h2]; exact hz, hzu⟩
    obtain ⟨i, t2, y, hf, hy, hfs2⟩ := findElement_total halloc1 hempty1 e
      (by subst ht; exact hfuel)
    refine ⟨i, t2, y, hf, hy, ?_⟩
    subst ht
    exact hfs2.empty_of_no_match hno hy

/-- Claim C3 (back-shift deletion preserves the probe-chain invariant). For every table
that satisfies the probe-chain invariant (and a `clearElement` that makes a slot empty),
the table left by `removeKey(key)` and the table left by `removeElement(e)` satisfy the
invariant again, whenever the call returns; and the calls do return when the table has
an empty slot and the fuel is at least the capacity. -/
theorem remove_preserves_probeChain (t : AssociativeArray K E)
    (hclear : ClearsToEmpty t.desc) (halloc : Allocated t)
    (hpc : ProbeChain t.desc t.nrAlloc t.table) (key : K) (e : E) :
    (∀ fuel r t1, removeKey fuel t key = some (r, t1) →
        ProbeChain t1.desc t1.nrAlloc t1.table) ∧
    (∀ fuel b t1, removeElement fuel t e = some (b, t1) →
        ProbeChain t1.desc t1.nrAlloc t1.table) ∧
    (HasEmptySlot t → ∀ fuel, t.nrAlloc ≤ fuel →
        (∃ r t1, removeKey fuel t key = some (r, t1)) ∧
        (∃ b t1, removeElement fuel t e = some (b, t1))) := by
  refine ⟨?_, ?_, ?_⟩
  · intro fuel r t1 h
    exact (removeKey_sound hclear halloc hpc h).2.2.2
  · intro fuel b t1 h
    exact (removeElement_sound hclear halloc hpc h).2.2.2
  · intro hempty fuel hfuel
    exact ⟨removeKey_total halloc hempty key hfuel, removeElement_total halloc hempty e hfuel⟩

end ClaimsRemove

section WitnessRemove

/-- The table of capacity 7 whose collision chain of bucket 6 occupies the slots 6, 0
and 1, so that a removal wraps past the last slot. -/
theorem wrapTable_probeChain :
    ProbeChain pairDesc 7 [(13, 2), (20, 3), (0, 0), (0, 0), (0, 0), (0, 0), (6, 1)] := by
  unfold ProbeChain
  decide

theorem wrapTable_noDuplicateKeys :
    NoDuplicateKeys pairDesc [(13, 2), (20, 3), (0, 0), (0, 0), (0, 0), (0, 0), (6, 1)] := by
  unfold NoDuplicateKeys
  decide

/-- Witness of claim C2 on the wrap-around table: removing the element with key 6 and
looking it up again. -/
theorem removeElement_then_findElement_witness :
    ∃ b t1, removeElement 7
        (pairTable [(13, 2), (20, 3), (0, 0), (0, 0), (0, 0), (0, 0), (6, 1)] 3) (6, 0) =
          some (b, t1) ∧
      ∃ i t2 x, findElement 7 t1 (6, 0) = some (i, t2) ∧ t1.table[i]? = some x ∧
        t1.desc.isEmptyElement x = true :=
  removeElement_then_findElement
    (pairTable [(13, 2), (20, 3), (0, 0), (0, 0), (0, 0), (0, 0), (6, 1)] 3) pairKey
    pairDesc_coherent pairDesc_clearsToEmpty rfl wrapTable_probeChain
    wrapTable_noDuplicateKeys ⟨2, by decide, by decide⟩ (6, 0) 7 (by decide)

/-- Witness of claim C3 on the wrap-around table, for the key 6 and the element with
key 13. -/
theorem remove_preserves_probeChain_witness :
    (∀ fuel r t1, removeKey fuel
        (pairTable [(13, 2), (20, 3), (0, 0), (0, 0), (0, 0), (0, 0), (6, 1)] 3) 6 =
          some (r, t1) → ProbeChain t1.desc t1.nrAlloc t1.table) ∧
    (∀ fuel b t1, removeElement fuel
        (pairTable [(13, 2), (20, 3), (0, 0), (0, 0), (0, 0), (0, 0), (6, 1)] 3) (13, 0) =
          some (b, t1) → ProbeChain t1.desc t1.nrAlloc t1.table) ∧
    (HasEmptySlot (pairTable [(13, 2), (20, 3), (0, 0), (0, 0), (0, 0), (0, 0), (6, 1)] 3) →
      ∀ fuel, 7 ≤ fuel →
        (∃ r t1, removeKey fuel
          (pairTable [(13, 2), (20, 3), (0, 0), (0, 0), (0, 0), (0, 0), (6, 1)] 3) 6 =
            some (r, t1)) ∧
        (∃ b t1, removeElement fuel
          (pairTable [(13, 2), (20, 3), (0, 0), (0, 0), (0, 0), (0, 0), (6, 1)] 3) (13, 0) =
            some (b, t1))) :=
  remove_preserves_probeChain
    (pairTable [(13, 2), (20, 3), (0, 0), (0, 0), (0, 0), (0, 0), (6, 1)] 3)
    pairDesc_clearsToEmpty rfl wrapTable_probeChain 6 (13, 0)

end WitnessRemove

/-! ## Insertion: claims C4, C9 and C10 -/

section ClaimsAdd

variable {K E : Type}

/-- Claim C4 (insertion preserves the probe-chain invariant). For every table that
satisfies the probe-chain invariant (and a `clearElement` that makes a slot empty) and
every non-empty element `e`, the table left by `addElement(e, overwrite)` with the
default fill-up handler satisfies the invariant again, whenever the call returns, with
or without growth; and the call does return when the table has an empty slot, the
capacity after a growth is representable, and the fuel is at least that capacity. -/
theorem addElement_preserves_probeChain (t : AssociativeArray K E)
    (hclear : ClearsToEmpty t.desc) (halloc : Allocated t)
    (hpc : ProbeChain t.desc t.nrAlloc t.table) (e : E)
    (he : t.desc.isEmptyElement e = false) (ow : Bool) :
    (∀ fuel b t1, addElement ExtendAtFillup.handle fuel t e ow = some (b, t1) →
        ProbeChain t1.desc t1.nrAlloc t1.table) ∧
    (HasEmptySlot t → Growable t → ∀ fuel, 2 * t.nrAlloc + 1 ≤ fuel →
        ∃ b t1, addElement ExtendAtFillup.handle fuel t e ow = some (b, t1) ∧
          ProbeChain t1.desc t1.nrAlloc t1.table) := by
  refine ⟨?_, ?_⟩
  · intro fuel b t1 h
    exact (addElement_sound hclear halloc hpc he h).2.2
  · intro hempty hgrow fuel hfuel
    obtain ⟨b, t1, h⟩ := addElement_total ExtendAtFillup.handle hclear halloc hempty hgrow e ow hfuel
    exact ⟨b, t1, h, (addElement_sound hclear halloc hpc he h).2.2⟩

/-- The probing loop returns its first stop slot when the fuel is at least the
capacity. -/
theorem probe_of_firstStop {d : Desc K E} {isMatch : E → Bool} {table : List E} {n : Nat}
    (hlen : table.length = n) {i r : Nat} (hi : i < n)
    (hfs : FirstStop d isMatch table n i r) {fuel : Nat} (hfuel : n ≤ fuel) (c : Nat) :
    ∃ c1, probe d isMatch table n fuel i c = some (r, c1) := by
  obtain ⟨r2, c1, h1, h2, _⟩ := probe_some d isMatch table n hlen fuel i c r hi hfs.1 hfs.2.1
    (lt_of_lt_of_le (cdist_lt hi hfs.1) hfuel)
  have := FirstStop.unique hi h2 hfs
  subst this
  exact ⟨c1, h1⟩

/-- Claim C9 (reject on duplicate). For every table and element `e` for which probing
stops at a used slot `r`, `addElement(e, overwrite = false)` returns `false` and leaves
every slot, `used` and the capacity exactly as they were: slot `r` still holds the old
value. -/
theorem addElement_reject_duplicate (fuh : AssociativeArray K E → Bool)
    (t : AssociativeArray K E) (halloc : Allocated t) (e : E) (r : Nat) (x : E)
    (hstop : FirstStop t.desc (t.desc.isEqualElementElement e) t.table t.nrAlloc
      (bucket t.desc t.nrAlloc e) r)
    (hx : t.table[r]? = some x) (hused : t.desc.isEmptyElement x = false)
    (fuel : Nat) (hfuel : t.nrAlloc ≤ fuel) :
    ∃ t1, addElement fuh fuel t e false = some (false, t1) ∧
      t1.table = t.table ∧ t1.table[r]? = some x ∧
      t1.nrUsed = t.nrUsed ∧ t1.nrAlloc = t.nrAlloc ∧ t1.nrResizes = t.nrResizes := by
  have hpos : 0 < t.nrAlloc := by have := hstop.1; omega
  obtain ⟨c, hp⟩ := probe_of_firstStop halloc (bucket_lt t.desc hpos e) hstop hfuel t.nrProbesA
  exact ⟨_, addElement_found_keep (by omega) hp hx hused, rfl, hx, rfl, rfl, rfl⟩

/-- Claim C10 (overwrite on duplicate). For every table and element `e` for which
probing stops at a used slot `r`, `addElement(e, overwrite = true)` returns `false`,
makes slot `r` equal to `e`, and leaves every other slot, `used`, the capacity and
`resizes` unchanged. -/
theorem addElement_overwrite_duplicate (fuh : AssociativeArray K E → Bool)
    (t : AssociativeArray K E) (halloc : Allocated t) (e : E) (r : Nat) (x : E)
    (hstop : FirstStop t.desc (t.desc.isEqualElementElement e) t.table t.nrAlloc
      (bucket t.desc t.nrAlloc e) r)
    (hx : t.table[r]? = some x) (hused : t.desc.isEmptyElement x = false)
    (fuel : Nat) (hfuel : t.nrAlloc ≤ fuel) :
    ∃ t1, addElement fuh fuel t e true = some (false, t1) ∧
      t1.table[r]? = some e ∧ (∀ q, q ≠ r → t1.table[q]? = t.table[q]?) ∧
      t1.table.length = t.table.length ∧
      t1.nrUsed = t.nrUsed ∧ t1.nrAlloc = t.nrAlloc ∧ t1.nrResizes = t.nrResizes := by
  have hpos : 0 < t.nrAlloc := by have := hstop.1; omega
  obtain ⟨c, hp⟩ := probe_of_firstStop halloc (bucket_lt t.desc hpos e) hstop hfuel t.nrProbesA
  obtain ⟨hr, _⟩ := List.getElem?_eq_some.mp hx
  refine ⟨_, addElement_found_overwrite (by omega) hp hx hused, ?_, ?_, ?_, rfl, rfl, rfl⟩
  · exact List.getElem?_set_self hr
  · intro q hq
    exact List.getElem?_set_ne (fun h => hq h.symm)
  · exact List.length_set _ _ _

end ClaimsAdd

/-! ## Insertion: claims C1, C5 and C8 -/

section ClaimsAddFind

variable {K E : Type}

/-- Claim C1 (insert-find round trip). For every coherent description whose
`clearElement` makes a slot empty, every well-formed table and every non-empty element
`e`: `addElement(e, overwrite = true)` with the default fill-up handler returns, and
afterwards `findElement(e)` returns a slot that is not empty, is equal to `e` under
`isEqualElementElement` and in fact holds `e` itself, and `findKey(keyOf e)` returns the
same slot. Growth or no growth makes no difference. -/
theorem insert_find_roundtrip (t : AssociativeArray K E) (keyOf : E → K)
    (hcoh : Coherent t.desc keyOf) (hclear : ClearsToEmpty t.desc) (hwf : WellFormed t)
    (e : E) (he : t.desc.isEmptyElement e = false)
    (fuel : Nat) (hfuel : 2 * t.nrAlloc + 1 ≤ fuel) :
    ∃ b t1, addElement ExtendAtFillup.handle fuel t e true = some (b, t1) ∧
      ∃ i t2 x, findElement fuel t1 e = some (i, t2) ∧ t1.table[i]? = some x ∧
        t1.desc.isEmptyElement x = false ∧ t1.desc.isEqualElementElement e x = true ∧
        x = e ∧ ∃ t3, findKey fuel t1 (keyOf e) = some (i, t3) := by
  have hempty := hwf.hasEmptySlot
  have halloc := hwf.allocated
  obtain ⟨b, t1, h⟩ := addElement_total ExtendAtFillup.handle hclear halloc hempty hwf.growable e
    true hfuel
  refine ⟨b, t1, h, ?_⟩
  obtain ⟨hn, r, c, x, hp, hx, hcase⟩ := addElement_inv h
  have hpos : 0 < t.nrAlloc := by omega
  have hfs := probe_sound _ _ _ _ halloc _ _ _ _ _ (bucket_lt t.desc hpos e) hp
  obtain ⟨hr, _⟩ := List.getElem?_eq_some.mp hx
  -- the three branches that leave the element in slot `r` of the old array
  have hsame : ∀ c2 : AssociativeArray K E, c2.desc = t.desc → c2.nrAlloc = t.nrAlloc →
      c2.table = t.table.set r e → c2.nrProbesF = t.nrProbesF →
      ∃ i t2 x, findElement fuel c2 e = some (i, t2) ∧ c2.table[i]? = some x ∧
        c2.desc.isEmptyElement x = false ∧ c2.desc.isEqualElementElement e x = true ∧
        x = e ∧ ∃ t3, findKey fuel c2 (keyOf e) = some (i, t3) := by
    intro c2 hd hcap htab hpf
    have hfs2 := hfs.set_self halloc (hcoh.eq_refl e)
    obtain ⟨c1, hp2⟩ := probe_of_firstStop (by rw [List.length_set]; exact halloc)
      (bucket_lt t.desc hpos e) hfs2 (by omega : t.nrAlloc ≤ fuel) t.nrProbesF
    have hf : findElement fuel c2 e = some (r, _) :=
      findElement_eq (by rw [hcap]; exact hn) (by rw [hd, hcap, htab, hpf]; exact hp2)
    refine ⟨r, _, e, hf, ?_, ?_, ?_, rfl, ?_⟩
    · rw [htab]; exact List.getElem?_set_self hr
    · rw [hd]; exact he
    · rw [hd]; exact hcoh.eq_refl e
    · rw [findKey_keyOf hcoh fuel c2 hd e]; exact ⟨_, hf⟩
  rcases hcase with ⟨_, _, _, ht⟩ | ⟨_, _, how, _⟩ | ⟨_, _, _, ht⟩ | ⟨_, _, _, hveto, _⟩ |
    ⟨hex, _, _, _, hre⟩
  · subst ht; exact hsame _ rfl rfl rfl rfl
  · exact absurd how (by simp)
  · subst ht; exact hsame _ rfl rfl rfl rfl
  · rw [extendAtFillup_eq] at hveto; exact absurd hveto (by simp)
  · obtain ⟨hd, hcap, _, a, p, m, _, hem⟩ := grow_wellFormed hclear hwf hx hex he hre
    have hno := no_match_of_firstStop_empty halloc hwf.probeChain hcoh.hash_eq hfs hx hex
    have hcoh1 : Coherent t1.desc keyOf := by rw [hd]; exact hcoh
    have hnd : NoDuplicateKeys t1.desc t1.table := by
      rw [hd] at m ⊢
      exact NoDuplicateKeys.insert hcoh.eq_symm m hwf.noDuplicateKeys hno
    have hmem : e ∈ elems t1.desc t1.table := m.symm.subset (List.mem_cons_self _ _)
    have hfuel1 : t1.nrAlloc ≤ fuel := by rw [hcap]; exact hfuel
    obtain ⟨i, t2, hf, hi⟩ := findElement_stored keyOf hcoh1 a p hnd hem hmem hfuel1
    refine ⟨i, t2, e, hf, hi, ?_, ?_, rfl, ?_⟩
    · rw [hd]; exact he
    · exact hcoh1.eq_refl e
    · rw [findKey_keyOf hcoh1 fuel t1 rfl e]; exact ⟨_, hf⟩

/-- Claim C5 (growth preserves membership). For every coherent description whose
`clearElement` makes a slot empty, every well-formed table and every non-empty element
`e` that matches no stored element and whose insertion makes `capacity < 2 * used`:
`addElement(e)` with the default fill-up handler returns `true` with the slot array
rehashed into `2 * capacity + 1` slots; the elements stored in the used slots of the new
array are exactly the elements stored before together with `e` (as a multiset: nothing
is lost, altered, duplicated or invented); and `findElement` returns, for each of them,
a slot holding exactly that element. -/
theorem growth_preserves_membership (t : AssociativeArray K E) (keyOf : E → K)
    (hcoh : Coherent t.desc keyOf) (hclear : ClearsToEmpty t.desc) (hwf : WellFormed t)
    (e : E) (he : t.desc.isEmptyElement e = false) (ow : Bool)
    (hnew : ∀ x ∈ elems t.desc t.table, t.desc.isEqualElementElement e x = false)
    (hfull : t.nrAlloc < 2 * (t.nrUsed + 1))
    (fuel : Nat) (hfuel : 2 * t.nrAlloc + 1 ≤ fuel) :
    ∃ t1, addElement ExtendAtFillup.handle fuel t e ow = some (true, t1) ∧
      t1.nrAlloc = 2 * t.nrAlloc + 1 ∧ t1.nrResizes = (t.nrResizes + 1) % 2 ^ 64 ∧
      (elems t1.desc t1.table).Perm (e :: elems t.desc t.table) ∧
      ∀ x ∈ e :: elems t.desc t.table,
        ∃ i t2, findElement fuel t1 x = some (i, t2) ∧ t1.table[i]? = some x := by
  have hempty := hwf.hasEmptySlot
  have halloc := hwf.allocated
  have hpos : 0 < t.nrAlloc := hwf.capacity_pos
  obtain ⟨z, hz, hzu⟩ := hempty
  obtain ⟨r, c, x, hp, hfs, hx, _⟩ := probe_total t.desc (t.desc.isEqualElementElement e)
    halloc hz hzu (by omega : t.nrAlloc ≤ fuel) (bucket_lt t.desc hpos e) t.nrProbesA
  have hex : t.desc.isEmptyElement x = true := hfs.empty_of_no_match hnew hx
  obtain ⟨t1, hre⟩ := grow_total hclear halloc hwf.growable r c e hfuel
  have hadd : addElement ExtendAtFillup.handle fuel t e ow = some (true, t1) :=
    addElement_new_grow (by omega) hp hx hex (hwf.growth_test.mpr hfull) rfl hre
  obtain ⟨hd, hcap, hrs, a, p, m, _, hem⟩ := grow_wellFormed hclear hwf hx hex he hre
  have hcoh1 : Coherent t1.desc keyOf := by rw [hd]; exact hcoh
  have hnd : NoDuplicateKeys t1.desc t1.table := by
    rw [hd] at m ⊢
    exact NoDuplicateKeys.insert hcoh.eq_symm m hwf.noDuplicateKeys hnew
  have hfuel1 : t1.nrAlloc ≤ fuel := by rw [hcap]; exact hfuel
  refine ⟨t1, hadd, hcap, hrs, m, ?_⟩
  intro y hy
  exact findElement_stored keyOf hcoh1 a p hnd hem (m.symm.subset hy) hfuel1

/-- Claim C8 (the return value of `addElement`). For every coherent description whose
`clearElement` makes a slot empty, every well-formed table and non-empty element `e`:
`addElement(e, overwrite)` with the default fill-up handler returns; it returns `true`
if and only if no used slot held an element equal to `e` under `isEqualElementElement`
before the call; when it returns `true`, `size()` has grown by exactly 1, and when it
returns `false`, `size()` is unchanged. -/
theorem addElement_true_iff_new (t : AssociativeArray K E) (keyOf : E → K)
    (hcoh : Coherent t.desc keyOf) (hclear : ClearsToEmpty t.desc) (hwf : WellFormed t)
    (e : E) (he : t.desc.isEmptyElement e = false) (ow : Bool)
    (fuel : Nat) (hfuel : 2 * t.nrAlloc + 1 ≤ fuel) :
    ∃ b t1, addElement ExtendAtFillup.handle fuel t e ow = some (b, t1) ∧
      (b = true ↔ ∀ x ∈ elems t.desc t.table, t.desc.isEqualElementElement e x = false) ∧
      (b = true → t1.size = t.size + 1) ∧ (b = false → t1.size = t.size) := by
  have hempty := hwf.hasEmptySlot
  have halloc := hwf.allocated
  obtain ⟨b, t1, h⟩ := addElement_total ExtendAtFillup.handle hclear halloc hempty hwf.growable e
    ow hfuel
  refine ⟨b, t1, h, ?_⟩
  obtain ⟨hn, r, c, x, hp, hx, hcase⟩ := addElement_inv h
  have hpos : 0 < t.nrAlloc := by omega
  have hfs := probe_sound _ _ _ _ halloc _ _ _ _ _ (bucket_lt t.desc hpos e) hp
  have hfound : t.desc.isEmptyElement x = false →
      ¬ ∀ y ∈ elems t.desc t.table, t.desc.isEqualElementElement e y = false := by
    intro hex hall
    have hs := hfs.2.1
    rw [stopAt_of_get hx, hex, hall x (mem_elems_iff_slot.mpr ⟨r, hx, hex⟩)] at hs
    exact absurd hs (by simp)
  have hnone : t.desc.isEmptyElement x = true →
      ∀ y ∈ elems t.desc t.table, t.desc.isEqualElementElement e y = false :=
    fun hex => no_match_of_firstStop_empty halloc hwf.probeChain hcoh.hash_eq hfs hx hex
  have hsize : (insertedState t r c e).size = t.size + 1 := by
    show (t.nrUsed + 1) % 2 ^ 64 = t.nrUsed + 1
    exact Nat.mod_eq_of_lt hwf.used_lt
  rcases hcase with ⟨hex, hb, _, ht⟩ | ⟨hex, hb, _, ht⟩ | ⟨hex, hb, _, ht⟩ |
    ⟨hex, hb, _, _, ht⟩ | ⟨hex, hb, _, _, hre⟩
  · subst ht hb
    exact ⟨⟨fun h2 => absurd h2 (by simp), fun h2 => absurd h2 (hfound hex)⟩,
      fun h2 => absurd h2 (by simp), fun _ => rfl⟩
  · subst ht hb
    exact ⟨⟨fun h2 => absurd h2 (by simp), fun h2 => absurd h2 (hfound hex)⟩,
      fun h2 => absurd h2 (by simp), fun _ => rfl⟩
  · subst ht hb
    exact ⟨⟨fun _ => hnone hex, fun _ => rfl⟩, fun _ => hsize, fun h2 => absurd h2 (by simp)⟩
  · subst ht hb
    exact ⟨⟨fun _ => hnone hex, fun _ => rfl⟩, fun _ => hsize, fun h2 => absurd h2 (by simp)⟩
  · subst hb
    obtain ⟨_, _, _, _, _, _, hu, _⟩ := grow_wellFormed hclear hwf hx hex he hre
    exact ⟨⟨fun _ => hnone hex, fun _ => rfl⟩, fun _ => hu, fun h2 => absurd h2 (by simp)⟩

end ClaimsAddFind

/-! ## Witnesses for the insertion claims -/

section WitnessAdd

/-- The table of capacity 3 that holds the pair `(1, 10)` in slot 1 is well-formed. -/
theorem smallTable_wellFormed : WellFormed (pairTable [(0, 0), (1, 10), (0, 0)] 1) where
  capacity_pos := by decide
  allocated := rfl
  growable := by unfold Growable; decide
  probeChain := by unfold ProbeChain; decide
  noDuplicateKeys := by unfold NoDuplicateKeys; decide
  used_eq := by decide
  load := by decide

theorem smallTable_firstStop :
    FirstStop pairDesc (pairDesc.isEqualElementElement (1, 20)) [(0, 0), (1, 10), (0, 0)] 3
      (bucket pairDesc 3 (1, 20)) 1 := by
  unfold FirstStop
  decide

/-- Witness of claim C1: inserting the pair `(2, 5)` into the small table, which makes
it grow, and looking it up. -/
theorem insert_find_roundtrip_witness :
    ∃ b t1, addElement ExtendAtFillup.handle 7 (pairTable [(0, 0), (1, 10), (0, 0)] 1) (2, 5) true =
        some (b, t1) ∧
      ∃ i t2 x, findElement 7 t1 (2, 5) = some (i, t2) ∧ t1.table[i]? = some x ∧
        t1.desc.isEmptyElement x = false ∧ t1.desc.isEqualElementElement (2, 5) x = true ∧
        x = (2, 5) ∧ ∃ t3, findKey 7 t1 (pairKey (2, 5)) = some (i, t3) :=
  insert_find_roundtrip (pairTable [(0, 0), (1, 10), (0, 0)] 1) pairKey pairDesc_coherent
    pairDesc_clearsToEmpty smallTable_wellFormed (2, 5) rfl 7 (by decide)

/-- Witness of claim C4: inserting the pair `(2, 5)` into the small table. -/
theorem addElement_preserves_probeChain_witness :
    (∀ fuel b t1,
        addElement ExtendAtFillup.handle fuel (pairTable [(0, 0), (1, 10), (0, 0)] 1) (2, 5) true =
          some (b, t1) → ProbeChain t1.desc t1.nrAlloc t1.table) ∧
    (HasEmptySlot (pairTable [(0, 0), (1, 10), (0, 0)] 1) →
      Growable (pairTable [(0, 0), (1, 10), (0, 0)] 1) → ∀ fuel, 2 * 3 + 1 ≤ fuel →
        ∃ b t1,
          addElement ExtendAtFillup.handle fuel (pairTable [(0, 0), (1, 10), (0, 0)] 1) (2, 5) true =
            some (b, t1) ∧ ProbeChain t1.desc t1.nrAlloc t1.table) :=
  addElement_preserves_probeChain (pairTable [(0, 0), (1, 10), (0, 0)] 1)
    pairDesc_clearsToEmpty rfl smallTable_wellFormed.probeChain (2, 5) rfl true

/-- Witness of claim C5: the insertion of `(2, 5)` into the small table triggers a
rehash into 7 slots. -/
theorem growth_preserves_membership_witness :
    ∃ t1, addElement ExtendAtFillup.handle 7 (pairTable [(0, 0), (1, 10), (0, 0)] 1) (2, 5) true =
        some (true, t1) ∧
      t1.nrAlloc = 2 * 3 + 1 ∧ t1.nrResizes = (0 + 1) % 2 ^ 64 ∧
      (elems t1.desc t1.table).Perm ((2, 5) :: elems pairDesc [(0, 0), (1, 10), (0, 0)]) ∧
      ∀ x ∈ (2, 5) :: elems pairDesc [(0, 0), (1, 10), (0, 0)],
        ∃ i t2, findElement 7 t1 x = some (i, t2) ∧ t1.table[i]? = some x :=
  growth_preserves_membership (pairTable [(0, 0), (1, 10), (0, 0)] 1) pairKey
    pairDesc_coherent pairDesc_clearsToEmpty smallTable_wellFormed (2, 5) rfl true
    (by decide) (by decide) 7 (by decide)

/-- Witness of claim C8: inserting the pair `(2, 5)` into the small table. -/
theorem addElement_true_iff_new_witness :
    ∃ b t1, addElement ExtendAtFillup.handle 7 (pairTable [(0, 0), (1, 10), (0, 0)] 1) (2, 5) false =
        some (b, t1) ∧
      (b = true ↔ ∀ x ∈ elems pairDesc [(0, 0), (1, 10), (0, 0)],
        pairDesc.isEqualElementElement (2, 5) x = false) ∧
      (b = true → t1.size = (pairTable [(0, 0), (1, 10), (0, 0)] 1).size + 1) ∧
      (b = false → t1.size = (pairTable [(0, 0), (1, 10), (0, 0)] 1).size) :=
  addElement_true_iff_new (pairTable [(0, 0), (1, 10), (0, 0)] 1) pairKey
    pairDesc_coherent pairDesc_clearsToEmpty smallTable_wellFormed (2, 5) rfl false 7
    (by decide)

/-- Witness of claim C9: the small table holds `(1, 10)`; adding `(1, 20)` without
overwrite is rejected. -/
theorem addElement_reject_duplicate_witness :
    ∃ t1, addElement ExtendAtFillup.handle 3 (pairTable [(0, 0), (1, 10), (0, 0)] 1) (1, 20) false =
        some (false, t1) ∧
      t1.table = [(0, 0), (1, 10), (0, 0)] ∧ t1.table[1]? = some (1, 10) ∧
      t1.nrUsed = 1 ∧ t1.nrAlloc = 3 ∧ t1.nrResizes = 0 :=
  addElement_reject_duplicate ExtendAtFillup.handle (pairTable [(0, 0), (1, 10), (0, 0)] 1) rfl
    (1, 20) 1 (1, 10) smallTable_firstStop rfl rfl 3 (by decide)

/-- Witness of claim C10: the small table holds `(1, 10)`; adding `(1, 20)` with
overwrite replaces the value. -/
theorem addElement_overwrite_duplicate_witness :
    ∃ t1, addElement ExtendAtFillup.handle 3 (pairTable [(0, 0), (1, 10), (0, 0)] 1) (1, 20) true =
        some (false, t1) ∧
      t1.table[1]? = some (1, 20) ∧
      (∀ q, q ≠ 1 → t1.table[q]? = [(0, 0), (1, 10), (0, 0)][q]?) ∧
      t1.table.length = 3 ∧
      t1.nrUsed = 1 ∧ t1.nrAlloc = 3 ∧ t1.nrResizes = 0 :=
  addElement_overwrite_duplicate ExtendAtFillup.handle (pairTable [(0, 0), (1, 10), (0, 0)] 1) rfl
    (1, 20) 1 (1, 10) smallTable_firstStop rfl rfl 3 (by decide)

end WitnessAdd

/-! ## Reachable states: claim C7 -/

section ClaimsReachable

variable {K E : Type}

/-- Claim C7 (`used` counts the used slots). In every state reachable from a freshly
constructed table by `addElement` (element overload, non-empty elements, default
fill-up handler), `removeKey`, `removeElement` and `clear`, for a description whose
`clearElement` makes a slot empty: the slot array has `capacity` slots, the field `used`
equals the number of slots that do not satisfy `isEmptyElement`, and
`0 ≤ used ≤ capacity`. -/
theorem reachable_used_eq_count (d : Desc K E) (hclear : ClearsToEmpty d)
    (t : AssociativeArray K E) (h : Reachable d t) :
    t.table.length = t.capacity ∧
      t.nrUsed = (elems t.desc t.table).length ∧
      t.nrUsed = t.table.countP (fun x => !t.desc.isEmptyElement x) ∧
      0 ≤ t.nrUsed ∧ t.nrUsed ≤ t.capacity := by
  have hs := h.sound hclear
  refine ⟨hs.allocated, hs.used_eq, ?_, Nat.zero_le _, hs.used_le⟩
  rw [hs.used_eq, List.countP_eq_length_filter]
  rfl

end ClaimsReachable

section WitnessReachable

/-- The state after `addElement((1, 10))` on a fresh table of capacity 3 is reachable. -/
theorem reachable_example :
    Reachable pairDesc (insertedState (AssociativeArray.create 3 pairDesc) 1 0 (1, 10)) :=
  Reachable.addElement (AssociativeArray.create 3 pairDesc) 3 (1, 10) true true _
    (Reachable.create 3 (by decide)) rfl rfl

/-- Witness of claim C7 on the state after one insertion into a fresh table. -/
theorem reachable_used_eq_count_witness :
    (insertedState (AssociativeArray.create 3 pairDesc) 1 0 (1, 10)).table.length =
        (insertedState (AssociativeArray.create 3 pairDesc) 1 0 (1, 10)).capacity ∧
      (insertedState (AssociativeArray.create 3 pairDesc) 1 0 (1, 10)).nrUsed =
        (elems pairDesc
          (insertedState (AssociativeArray.create 3 pairDesc) 1 0 (1, 10)).table).length ∧
      (insertedState (AssociativeArray.create 3 pairDesc) 1 0 (1, 10)).nrUsed =
        (insertedState (AssociativeArray.create 3 pairDesc) 1 0 (1, 10)).table.countP
          (fun x => !pairDesc.isEmptyElement x) ∧
      0 ≤ (insertedState (AssociativeArray.create 3 pairDesc) 1 0 (1, 10)).nrUsed ∧
      (insertedState (AssociativeArray.create 3 pairDesc) 1 0 (1, 10)).nrUsed ≤
        (insertedState (AssociativeArray.create 3 pairDesc) 1 0 (1, 10)).capacity :=
  reachable_used_eq_count pairDesc pairDesc_clearsToEmpty _ reachable_example

end WitnessReachable

/-! ## Size conservation: claim C6 -/

section ClaimsSize

variable {K E : Type}

/-- A freshly constructed table represents the empty dictionary. -/
theorem create_refines {d : Desc K E} (hclear : ClearsToEmpty d) {size : Nat}
    (hsize : size < 2 ^ 64) : Refines d (AssociativeArray.create size d) [] where
  sound := initialise_sound hclear hsize
  noDuplicateKeys := by
    show NoDuplicateKeys d (newTable d size)
    unfold NoDuplicateKeys
    rw [newTable_elems hclear]
    exact List.Pairwise.nil
  perm := by
    show (elems d (newTable d size)).Perm []
    rw [newTable_elems hclear]

/-- Claim C6 (size conservation). For every coherent description whose `clearElement`
makes a slot empty and every finite sequence of `addElement(element, overwrite)`,
`removeElement` and `removeKey` calls with non-empty elements (and keys that are keys of
elements), applied to a freshly constructed table with the default fill-up handler:
whenever the calls return, `size()` equals the number of live keys of the abstract
dictionary, that is, the number of distinct keys that have been inserted and not
removed since; and the calls do return when the capacity is at least 1 and the fuel
covers the capacity that the sequence can reach. As the sequence is arbitrary, this
holds after each call. -/
theorem size_conservation (d : Desc K E) (keyOf : E → K) (hcoh : Coherent d keyOf)
    (hclear : ClearsToEmpty d) (size : Nat) (hsize : size < 2 ^ 64)
    (calls : List (Call K E)) (hvalid : ∀ c ∈ calls, ValidCall d keyOf c) :
    (∀ fuel t, runCalls fuel calls (AssociativeArray.create size d) = some t →
        t.size = (liveKeys d calls []).length) ∧
    (1 ≤ size → 2 * (size + 4 * calls.length + 3) + 1 < 2 ^ 64 →
      ∀ fuel, 2 * (size + 4 * calls.length + 3) + 1 ≤ fuel →
        ∃ t, runCalls fuel calls (AssociativeArray.create size d) = some t ∧
          t.size = (liveKeys d calls []).length) := by
  have href := create_refines hclear hsize
  have hsz : ∀ fuel t, runCalls fuel calls (AssociativeArray.create size d) = some t →
      t.size = (liveKeys d calls []).length := by
    intro fuel t h
    have h1 := refines_runCalls hcoh hclear fuel calls _ _ t href hvalid h
    have h2 := h1.sound.used_eq
    rw [h1.sound.desc_eq] at h2
    show t.nrUsed = _
    rw [h2]
    exact h1.perm.length_eq
  refine ⟨hsz, ?_⟩
  intro hpos hbound fuel hfuel
  obtain ⟨t, ht⟩ := runCalls_total hcoh hclear fuel (size + 4 * calls.length + 3) hbound hfuel
    calls _ _ href hvalid hpos (by show 2 * 0 ≤ size; omega) (by show size ≤ _; omega)
    (by show 4 * (0 + calls.length) + 3 ≤ _; omega)
  exact ⟨t, ht, hsz fuel t ht⟩

end ClaimsSize

section WitnessSize

theorem exampleCalls_valid :
    ∀ c ∈ [Call.addElement (1, 10) true, Call.addElement (2, 5) true, Call.removeKey 1,
        Call.addElement (2, 6) false, Call.removeElement (3, 0)],
      ValidCall pairDesc pairKey c := by
  intro c hc
  simp only [List.mem_cons, List.mem_singleton, List.not_mem_nil, or_false] at hc
  rcases hc with rfl | rfl | rfl | rfl | rfl
  · rfl
  · rfl
  · exact ⟨(1, 0), rfl⟩
  · rfl
  · trivial

/-- Witness of claim C6: two insertions, the removal of a key, a rejected duplicate and
the removal of an absent element on a fresh table of capacity 3. -/
theorem size_conservation_witness :
    (∀ fuel t,
      runCalls fuel
        [Call.addElement (1, 10) true, Call.addElement (2, 5) true, Call.removeKey 1,
          Call.addElement (2, 6) false, Call.removeElement (3, 0)]
        (AssociativeArray.create 3 pairDesc) = some t →
      t.size = (liveKeys pairDesc
        [Call.addElement (1, 10) true, Call.addElement (2, 5) true, Call.removeKey 1,
          Call.addElement (2, 6) false, Call.removeElement (3, 0)] []).length) ∧
    (1 ≤ 3 → 2 * (3 + 4 * 5 + 3) + 1 < 2 ^ 64 → ∀ fuel, 2 * (3 + 4 * 5 + 3) + 1 ≤ fuel →
      ∃ t,
        runCalls fuel
          [Call.addElement (1, 10) true, Call.addElement (2, 5) true, Call.removeKey 1,
            Call.addElement (2, 6) false, Call.removeElement (3, 0)]
          (AssociativeArray.create 3 pairDesc) = some t ∧
        t.size = (liveKeys pairDesc
          [Call.addElement (1, 10) true, Call.addElement (2, 5) true, Call.removeKey 1,
            Call.addElement (2, 6) false, Call.removeElement (3, 0)] []).length) :=
  size_conservation pairDesc pairKey pairDesc_coherent pairDesc_clearsToEmpty 3 (by decide)
    _ exampleCalls_valid

/-- The abstract dictionary of the example sequence holds one live key, and the table
reports the size 1. -/
theorem exampleCalls_size :
    (liveKeys pairDesc
      [Call.addElement (1, 10) true, Call.addElement (2, 5) true, Call.removeKey 1,
        Call.addElement (2, 6) false, Call.removeElement (3, 0)] []) = [(2, 5)] ∧
    (runCalls 53
      [Call.addElement (1, 10) true, Call.addElement (2, 5) true, Call.removeKey 1,
        Call.addElement (2, 6) false, Call.removeElement (3, 0)]
      (AssociativeArray.create 3 pairDesc)).map AssociativeArray.size = some 1 := by
  constructor
  · decide
  · rfl

end WitnessSize

/-! ## `clear` and `swap`: claims C19 and C20 -/

section ClaimsClearSwap

variable {K E : Type}

/-- Claim C20 (`clear`). For every table of a description whose `clearElement` makes a
slot empty, after `clear()` the slot array has as many slots as before, every slot
satisfies `isEmptyElement`, `used` is 0 and the capacity is the same as before. -/
theorem clear_empties (t : AssociativeArray K E) (hclear : ClearsToEmpty t.desc) :
    (clear t).table.length = t.nrAlloc ∧
      (∀ (i : Nat) x, (clear t).table[i]? = some x → (clear t).desc.isEmptyElement x = true) ∧
      (∀ i, i < t.nrAlloc → slotUsed (clear t).desc (clear t).table i = false) ∧
      (clear t).nrUsed = 0 ∧ (clear t).size = 0 ∧ (clear t).capacity = t.capacity := by
  refine ⟨newTable_length _ _, ?_, ?_, rfl, rfl, rfl⟩
  · intro i x hx
    obtain ⟨y, hy⟩ := newTable_get hx
    rw [hy]
    exact hclear y
  · intro i _
    exact newTable_unused hclear _ _

/-- What `swap` does, field by field: every field of the two tables is exchanged,
except `_nrRems`, which the source exchanges twice and so leaves where it was. -/
theorem swap_fields (a b : AssociativeArray K E) :
    swap a b =
      ({ b with nrRems := a.nrRems }, { a with nrRems := b.nrRems }) := by
  cases a
  cases b
  rfl

end ClaimsClearSwap

section WitnessClearSwap

/-- Witness of claim C20 on the table of capacity 3 that holds `(1, 10)`. -/
theorem clear_empties_witness :
    (clear (pairTable [(0, 0), (1, 10), (0, 0)] 1)).table.length = 3 ∧
      (∀ (i : Nat) x, (clear (pairTable [(0, 0), (1, 10), (0, 0)] 1)).table[i]? = some x →
        (clear (pairTable [(0, 0), (1, 10), (0, 0)] 1)).desc.isEmptyElement x = true) ∧
      (∀ i, i < 3 → slotUsed (clear (pairTable [(0, 0), (1, 10), (0, 0)] 1)).desc
        (clear (pairTable [(0, 0), (1, 10), (0, 0)] 1)).table i = false) ∧
      (clear (pairTable [(0, 0), (1, 10), (0, 0)] 1)).nrUsed = 0 ∧
      (clear (pairTable [(0, 0), (1, 10), (0, 0)] 1)).size = 0 ∧
      (clear (pairTable [(0, 0), (1, 10), (0, 0)] 1)).capacity =
        (pairTable [(0, 0), (1, 10), (0, 0)] 1).capacity :=
  clear_empties (pairTable [(0, 0), (1, 10), (0, 0)] 1) pairDesc_clearsToEmpty

/-- Claim C19 at a failing input: two tables that differ in `_nrRems` (3 and 5) and in
`_nrAdds` (1 and 2). After `a.swap(&b)` the counter `adds` is exchanged, but `removes`
of `a` is still 3 and `removes` of `b` is still 5. -/
theorem swap_keeps_nrRems :
    (swap { pairTable [(0, 0), (1, 10), (0, 0)] 1 with nrRems := 3, nrAdds := 1 }
        { pairTable [(2, 5)] 1 with nrRems := 5, nrAdds := 2 }).1.nrRems = 3 ∧
      (swap { pairTable [(0, 0), (1, 10), (0, 0)] 1 with nrRems := 3, nrAdds := 1 }
        { pairTable [(2, 5)] 1 with nrRems := 5, nrAdds := 2 }).2.nrRems = 5 ∧
      (swap { pairTable [(0, 0), (1, 10), (0, 0)] 1 with nrRems := 3, nrAdds := 1 }
        { pairTable [(2, 5)] 1 with nrRems := 5, nrAdds := 2 }).1.nrAdds = 2 ∧
      (swap { pairTable [(0, 0), (1, 10), (0, 0)] 1 with nrRems := 3, nrAdds := 1 }
        { pairTable [(2, 5)] 1 with nrRems := 5, nrAdds := 2 }).2.nrAdds = 1 ∧
      (swap { pairTable [(0, 0), (1, 10), (0, 0)] 1 with nrRems := 3, nrAdds := 1 }
        { pairTable [(2, 5)] 1 with nrRems := 5, nrAdds := 2 }).1.table = [(2, 5)] ∧
      (swap { pairTable [(0, 0), (1, 10), (0, 0)] 1 with nrRems := 3, nrAdds := 1 }
        { pairTable [(2, 5)] 1 with nrRems := 5, nrAdds := 2 }).1.nrAlloc = 1 := by
  decide

end WitnessClearSwap

/-! ## Results of removal and lookup: claims C16, C17 and C18 -/

section ClaimsResults

variable {K E : Type}

/-- Claim C16 (the return value of `removeElement`). For every coherent description
whose `clearElement` makes a slot empty, every well-formed table and every element `e`:
`removeElement(e)` returns; it returns `true` if and only if a used slot held an element
equal to `e` under `isEqualElementElement` before the call; when it returns `true`,
`size()` has decreased by exactly 1; when it returns `false`, every slot, `used` and the
capacity are unchanged. -/
theorem removeElement_true_iff_stored (t : AssociativeArray K E) (keyOf : E → K)
    (hcoh : Coherent t.desc keyOf) (hclear : ClearsToEmpty t.desc) (hwf : WellFormed t)
    (e : E) (fuel : Nat) (hfuel : t.nrAlloc ≤ fuel) :
    ∃ b t1, removeElement fuel t e = some (b, t1) ∧
      (b = true ↔ ∃ x ∈ elems t.desc t.table, t.desc.isEqualElementElement e x = true) ∧
      (b = true → t1.size + 1 = t.size) ∧
      (b = false → t1.table = t.table ∧ t1.nrUsed = t.nrUsed ∧ t1.nrAlloc = t.nrAlloc) := by
  obtain ⟨b, t1, h⟩ := removeElement_total hwf.allocated hwf.hasEmptySlot e hfuel
  refine ⟨b, t1, h, ?_⟩
  obtain ⟨hn, r, c, x, hp, hx, hcase⟩ := removeElement_inv h
  have hpos : 0 < t.nrAlloc := by omega
  have hfs := probe_sound _ _ _ _ hwf.allocated _ _ _ _ _ (bucket_lt t.desc hpos e) hp
  have hiff := firstStop_used_iff hwf.allocated hwf.probeChain hcoh.hash_eq hfs hx
  rcases hcase with ⟨hex, hb, ht⟩ | ⟨hex, hb, table, hbs, ht⟩
  · subst ht hb
    refine ⟨⟨fun h2 => absurd h2 (by simp), fun h2 => ?_⟩, fun h2 => absurd h2 (by simp),
      fun _ => ⟨rfl, rfl, rfl⟩⟩
    have := hiff.mpr h2
    exact absurd (hex.symm.trans this) (by simp)
  · obtain ⟨_, _, hperm, hu⟩ := hwf.toSound.after_backShift hclear hx hex hbs
    have hl := hperm.length_eq
    rw [List.length_cons, ← hwf.used_eq] at hl
    have hused1 : t1.nrUsed = (t.nrUsed + 2 ^ 64 - 1) % 2 ^ 64 := by rw [ht]
    subst hb
    refine ⟨⟨fun _ => hiff.mp hex, fun _ => rfl⟩, fun _ => ?_, fun h2 => absurd h2 (by simp)⟩
    show t1.nrUsed + 1 = t.nrUsed
    rw [hused1, hu]; exact hl

/-- Claim C17 (the result of `removeKey`). For every coherent description whose
`clearElement` makes a slot empty, every well-formed table and every key `key` of an
element: `removeKey(key)` returns the content of the slot that `findKey(key)` returned
just before. When some used slot matches the key, the result is that stored element,
not empty, matching the key and the only stored element that does, and `size()` has
decreased by 1. When no used slot matches, the result satisfies `isEmptyElement` and
the slots, `used` and the capacity are unchanged. -/
theorem removeKey_result (t : AssociativeArray K E) (keyOf : E → K)
    (hcoh : Coherent t.desc keyOf) (hclear : ClearsToEmpty t.desc) (hwf : WellFormed t)
    (key : K) (hkey : ∃ e, keyOf e = key) (fuel : Nat) (hfuel : t.nrAlloc ≤ fuel) :
    ∃ x t1, removeKey fuel t key = some (x, t1) ∧
      (∃ i t2, findKey fuel t key = some (i, t2) ∧ t.table[i]? = some x) ∧
      ((∃ y ∈ elems t.desc t.table, t.desc.isEqualKeyElement key y = true) →
        t.desc.isEmptyElement x = false ∧ x ∈ elems t.desc t.table ∧
        t.desc.isEqualKeyElement key x = true ∧
        (∀ y ∈ elems t.desc t.table, t.desc.isEqualKeyElement key y = true → y = x) ∧
        t1.size + 1 = t.size) ∧
      ((∀ y ∈ elems t.desc t.table, t.desc.isEqualKeyElement key y = false) →
        t.desc.isEmptyElement x = true ∧ t1.table = t.table ∧ t1.nrUsed = t.nrUsed ∧
        t1.nrAlloc = t.nrAlloc) := by
  obtain ⟨e, rfl⟩ := hkey
  have hfun : t.desc.isEqualKeyElement (keyOf e) = t.desc.isEqualElementElement e := by
    funext y; exact hcoh.isEqualKey_keyOf e y
  obtain ⟨x, t1, h⟩ := removeKey_total hwf.allocated hwf.hasEmptySlot (keyOf e) hfuel
  refine ⟨x, t1, h, ?_⟩
  obtain ⟨hn, r, c, x2, hp, hx, hcase⟩ := removeKey_inv h
  have hpos : 0 < t.nrAlloc := by omega
  have hkb : keyBucket t.desc t.nrAlloc (keyOf e) < t.nrAlloc := Nat.mod_lt _ hpos
  have hfsk := probe_sound _ _ _ _ hwf.allocated _ _ _ _ _ hkb hp
  have hfs := (firstStop_keyOf hcoh t.table t.nrAlloc e r).mp hfsk
  have hiff := firstStop_used_iff hwf.allocated hwf.probeChain hcoh.hash_eq hfs hx
  obtain ⟨c2, hp2⟩ := probe_of_firstStop hwf.allocated hkb hfsk hfuel t.nrProbesF
  have hfind := findKey_eq hn hp2
  rw [hfun]
  rcases hcase with ⟨hex, hb, ht⟩ | ⟨hex, hb, table, hbs, ht⟩
  · subst ht hb
    refine ⟨⟨r, _, hfind, hx⟩, fun h2 => ?_, fun _ => ⟨hex, rfl, rfl, rfl⟩⟩
    have := hiff.mpr h2
    exact absurd (hex.symm.trans this) (by simp)
  · obtain ⟨_, _, hperm, hu⟩ := hwf.toSound.after_backShift hclear hx hex hbs
    have hl := hperm.length_eq
    rw [List.length_cons, ← hwf.used_eq] at hl
    have hm := hfs.match_of_used hx hex
    have hused1 : t1.nrUsed = (t.nrUsed + 2 ^ 64 - 1) % 2 ^ 64 := by rw [ht]
    subst hb
    refine ⟨⟨r, _, hfind, hx⟩, fun _ => ⟨hex, mem_elems_iff_slot.mpr ⟨r, hx, hex⟩, hm,
      unique_match_of_removed hcoh hwf.noDuplicateKeys hm hperm, ?_⟩, fun h2 => ?_⟩
    · show t1.nrUsed + 1 = t.nrUsed
      rw [hused1, hu]; exact hl
    · have := h2 x (mem_elems_iff_slot.mpr ⟨r, hx, hex⟩)
      exact absurd (hm.symm.trans this) (by simp)

/-- Claim C18 (the result of a lookup). For every coherent description, every table
with the probe-chain invariant and at least one empty slot, and every key `key` of an
element: `findKey(key)` returns a slot and leaves the slot array as it is; the slot
holds a non-empty element that matches the key under `isEqualKeyElement` if some used
slot matches the key, and an element that satisfies `isEmptyElement` otherwise. -/
theorem findKey_result (t : AssociativeArray K E) (keyOf : E → K)
    (hcoh : Coherent t.desc keyOf) (halloc : Allocated t)
    (hpc : ProbeChain t.desc t.nrAlloc t.table) (hempty : HasEmptySlot t)
    (key : K) (hkey : ∃ e, keyOf e = key) (fuel : Nat) (hfuel : t.nrAlloc ≤ fuel) :
    ∃ i t1 x, findKey fuel t key = some (i, t1) ∧ t.table[i]? = some x ∧
      t1.table = t.table ∧
      ((∃ y ∈ elems t.desc t.table, t.desc.isEqualKeyElement key y = true) →
        t.desc.isEmptyElement x = false ∧ t.desc.isEqualKeyElement key x = true) ∧
      ((∀ y ∈ elems t.desc t.table, t.desc.isEqualKeyElement key y = false) →
        t.desc.isEmptyElement x = true) := by
  obtain ⟨e, rfl⟩ := hkey
  have hfun : t.desc.isEqualKeyElement (keyOf e) = t.desc.isEqualElementElement e := by
    funext y; exact hcoh.isEqualKey_keyOf e y
  have hpos := hempty.pos
  have hkb : keyBucket t.desc t.nrAlloc (keyOf e) < t.nrAlloc := Nat.mod_lt _ hpos
  obtain ⟨z, hz, hzu⟩ := hempty
  obtain ⟨r, c, x, hp, hfsk, hx, _⟩ := probe_total t.desc (t.desc.isEqualKeyElement (keyOf e))
    halloc hz hzu hfuel hkb t.nrProbesF
  have hfs := (firstStop_keyOf hcoh t.table t.nrAlloc e r).mp hfsk
  have hiff := firstStop_used_iff halloc hpc hcoh.hash_eq hfs hx
  refine ⟨r, _, x, findKey_eq (by omega) hp, hx, rfl, ?_, ?_⟩
  · rw [hfun]
    intro h2
    have hex := hiff.mpr h2
    exact ⟨hex, hfs.match_of_used hx hex⟩
  · rw [hfun]
    intro h2
    by_contra hex
    have hex2 : t.desc.isEmptyElement x = false := by simpa using hex
    obtain ⟨y, hy, hm⟩ := hiff.mp hex2
    exact absurd (hm.symm.trans (h2 y hy)) (by simp)

end ClaimsResults

/-! ## Witnesses for the results of removal and lookup -/

section WitnessResults

/-- The table of capacity 7 that holds the keys 1, 8 and 15, which all have the natural
bucket 1, is well-formed. -/
theorem chainTable_wellFormed :
    WellFormed (pairTable [(0, 0), (1, 1), (8, 2), (15, 3), (0, 0), (0, 0), (0, 0)] 3) where
  capacity_pos := by decide
  allocated := rfl
  growable := by unfold Growable; decide
  probeChain := by unfold ProbeChain; decide
  noDuplicateKeys := by unfold NoDuplicateKeys; decide
  used_eq := by decide
  load := by decide

/-- Witness of claim C16: removing the element with key 8 from the chain table. -/
theorem removeElement_true_iff_stored_witness :
    ∃ b t1, removeElement 7
        (pairTable [(0, 0), (1, 1), (8, 2), (15, 3), (0, 0), (0, 0), (0, 0)] 3) (8, 0) =
          some (b, t1) ∧
      (b = true ↔ ∃ x ∈ elems pairDesc [(0, 0), (1, 1), (8, 2), (15, 3), (0, 0), (0, 0), (0, 0)],
        pairDesc.isEqualElementElement (8, 0) x = true) ∧
      (b = true → t1.size + 1 =
        (pairTable [(0, 0), (1, 1), (8, 2), (15, 3), (0, 0), (0, 0), (0, 0)] 3).size) ∧
      (b = false → t1.table = [(0, 0), (1, 1), (8, 2), (15, 3), (0, 0), (0, 0), (0, 0)] ∧
        t1.nrUsed = 3 ∧ t1.nrAlloc = 7) :=
  removeElement_true_iff_stored
    (pairTable [(0, 0), (1, 1), (8, 2), (15, 3), (0, 0), (0, 0), (0, 0)] 3) pairKey
    pairDesc_coherent pairDesc_clearsToEmpty chainTable_wellFormed (8, 0) 7 (by decide)

/-- Witness of claim C17: removing the key 8 from the chain table. -/
theorem removeKey_result_witness :
    ∃ x t1, removeKey 7
        (pairTable [(0, 0), (1, 1), (8, 2), (15, 3), (0, 0), (0, 0), (0, 0)] 3) 8 =
          some (x, t1) ∧
      (∃ i t2, findKey 7
          (pairTable [(0, 0), (1, 1), (8, 2), (15, 3), (0, 0), (0, 0), (0, 0)] 3) 8 =
            some (i, t2) ∧
        [(0, 0), (1, 1), (8, 2), (15, 3), (0, 0), (0, 0), (0, 0)][i]? = some x) ∧
      ((∃ y ∈ elems pairDesc [(0, 0), (1, 1), (8, 2), (15, 3), (0, 0), (0, 0), (0, 0)],
          pairDesc.isEqualKeyElement 8 y = true) →
        pairDesc.isEmptyElement x = false ∧
        x ∈ elems pairDesc [(0, 0), (1, 1), (8, 2), (15, 3), (0, 0), (0, 0), (0, 0)] ∧
        pairDesc.isEqualKeyElement 8 x = true ∧
        (∀ y ∈ elems pairDesc [(0, 0), (1, 1), (8, 2), (15, 3), (0, 0), (0, 0), (0, 0)],
          pairDesc.isEqualKeyElement 8 y = true → y = x) ∧
        t1.size + 1 =
          (pairTable [(0, 0), (1, 1), (8, 2), (15, 3), (0, 0), (0, 0), (0, 0)] 3).size) ∧
      ((∀ y ∈ elems pairDesc [(0, 0), (1, 1), (8, 2), (15, 3), (0, 0), (0, 0), (0, 0)],
          pairDesc.isEqualKeyElement 8 y = false) →
        pairDesc.isEmptyElement x = true ∧
        t1.table = [(0, 0), (1, 1), (8, 2), (15, 3), (0, 0), (0, 0), (0, 0)] ∧
        t1.nrUsed = 3 ∧ t1.nrAlloc = 7) :=
  removeKey_result
    (pairTable [(0, 0), (1, 1), (8, 2), (15, 3), (0, 0), (0, 0), (0, 0)] 3) pairKey
    pairDesc_coherent pairDesc_clearsToEmpty chainTable_wellFormed 8 ⟨(8, 0), rfl⟩ 7
    (by decide)

/-- Witness of claim C18: looking up the absent key 22 in the chain table. -/
theorem findKey_result_witness :
    ∃ i t1 x, findKey 7
        (pairTable [(0, 0), (1, 1), (8, 2), (15, 3), (0, 0), (0, 0), (0, 0)] 3) 22 =
          some (i, t1) ∧
      [(0, 0), (1, 1), (8, 2), (15, 3), (0, 0), (0, 0), (0, 0)][i]? = some x ∧
      t1.table = [(0, 0), (1, 1), (8, 2), (15, 3), (0, 0), (0, 0), (0, 0)] ∧
      ((∃ y ∈ elems pairDesc [(0, 0), (1, 1), (8, 2), (15, 3), (0, 0), (0, 0), (0, 0)],
          pairDesc.isEqualKeyElement 22 y = true) →
        pairDesc.isEmptyElement x = false ∧ pairDesc.isEqualKeyElement 22 x = true) ∧
      ((∀ y ∈ elems pairDesc [(0, 0), (1, 1), (8, 2), (15, 3), (0, 0), (0, 0), (0, 0)],
          pairDesc.isEqualKeyElement 22 y = false) →
        pairDesc.isEmptyElement x = true) :=
  findKey_result
    (pairTable [(0, 0), (1, 1), (8, 2), (15, 3), (0, 0), (0, 0), (0, 0)] 3) pairKey
    pairDesc_coherent rfl chainTable_wellFormed.probeChain chainTable_wellFormed.hasEmptySlot
    22 ⟨(22, 0), rfl⟩ 7 (by decide)

/-- The scenario of the chain table, evaluated: inserting the keys 1, 8 and 15 into a
fresh table of capacity 7 gives the chain table; `findKey` returns the slots 1, 2 and 3
for the three keys, and the empty slot 4 for the key 22. -/
theorem chainTable_lookups :
    (runCalls 7 [Call.addElement (1, 1) true, Call.addElement (8, 2) true,
        Call.addElement (15, 3) true] (AssociativeArray.create 7 pairDesc)).map
      (fun t => t.table) = some [(0, 0), (1, 1), (8, 2), (15, 3), (0, 0), (0, 0), (0, 0)] ∧
    (findKey 7 (pairTable [(0, 0), (1, 1), (8, 2), (15, 3), (0, 0), (0, 0), (0, 0)] 3) 1).map
      Prod.fst = some 1 ∧
    (findKey 7 (pairTable [(0, 0), (1, 1), (8, 2), (15, 3), (0, 0), (0, 0), (0, 0)] 3) 8).map
      Prod.fst = some 2 ∧
    (findKey 7 (pairTable [(0, 0), (1, 1), (8, 2), (15, 3), (0, 0), (0, 0), (0, 0)] 3) 15).map
      Prod.fst = some 3 ∧
    (findKey 7 (pairTable [(0, 0), (1, 1), (8, 2), (15, 3), (0, 0), (0, 0), (0, 0)] 3) 22).map
      Prod.fst = some 4 := by
  decide

end WitnessResults

/-! ## Overwrite twice, growth policy and load factor: claims C11, C12 and C13 -/

section ClaimsGrowth

variable {K E : Type}

/-- Claim C11 (idempotent overwrite). For every coherent description whose
`clearElement` makes a slot empty, every well-formed table and every non-empty element
`e`: `addElement(e, overwrite = true)` with the default fill-up handler returns, and a
second `addElement(e, overwrite = true)` right after it returns `false` and leaves
`size()`, the whole slot array and the capacity as the first call left them. -/
theorem idempotent_overwrite (t : AssociativeArray K E) (keyOf : E → K)
    (hcoh : Coherent t.desc keyOf) (hclear : ClearsToEmpty t.desc) (hwf : WellFormed t)
    (e : E) (he : t.desc.isEmptyElement e = false)
    (fuel : Nat) (hfuel : 2 * t.nrAlloc + 1 ≤ fuel) :
    ∃ b t1, addElement ExtendAtFillup.handle fuel t e true = some (b, t1) ∧
      ∃ t2, addElement ExtendAtFillup.handle fuel t1 e true = some (false, t2) ∧
        t2.size = t1.size ∧ t2.table = t1.table ∧ t2.capacity = t1.capacity := by
  obtain ⟨b, t1, h⟩ := addElement_total ExtendAtFillup.handle hclear hwf.allocated
    hwf.hasEmptySlot hwf.growable e true hfuel
  refine ⟨b, t1, h, ?_⟩
  obtain ⟨hd, a, hpos, hcap, i, hfs, hi⟩ := addElement_stored_firstStop hcoh hclear hwf he h
  obtain ⟨c, hp⟩ := probe_of_firstStop a (bucket_lt t1.desc hpos e) hfs
    (by omega : t1.nrAlloc ≤ fuel) t1.nrProbesA
  have he1 : t1.desc.isEmptyElement e = false := by rw [hd]; exact he
  have h2 : addElement ExtendAtFillup.handle fuel t1 e true =
      some (false, { t1 with
        nrAdds := (t1.nrAdds + 1) % 2 ^ 64
        nrProbesA := c
        table := t1.table.set i e }) :=
    addElement_found_overwrite (by omega) hp hi he1
  rw [set_same hi] at h2
  exact ⟨_, h2, rfl, rfl, rfl⟩

/-- Claim C12 (growth policy). For every well-formed table (with a `clearElement` that
makes a slot empty) and every non-empty element `e` that matches no stored element,
`addElement(e)` with the default fill-up handler stores it and returns `true`; with
`u = used + 1` the new used count: when `capacity < 2 * u` the call ends with the
capacity `2 * capacity + 1`, `resizes` increased by exactly 1 (modulo `2 ^ 64`) and
`used = u`; when `capacity ≥ 2 * u`, the capacity and `resizes` are unchanged and
`used = u`. -/
theorem growth_policy (t : AssociativeArray K E) (hclear : ClearsToEmpty t.desc)
    (hwf : WellFormed t) (e : E) (he : t.desc.isEmptyElement e = false)
    (hnew : ∀ x ∈ elems t.desc t.table, t.desc.isEqualElementElement e x = false)
    (ow : Bool) (fuel : Nat) (hfuel : 2 * t.nrAlloc + 1 ≤ fuel) :
    ∃ t1, addElement ExtendAtFillup.handle fuel t e ow = some (true, t1) ∧
      (t.capacity < 2 * (t.nrUsed + 1) →
        t1.capacity = 2 * t.capacity + 1 ∧ t1.nrResizes = (t.nrResizes + 1) % 2 ^ 64 ∧
        (t.nrResizes + 1 < 2 ^ 64 → t1.nrResizes = t.nrResizes + 1) ∧
        t1.nrUsed = t.nrUsed + 1) ∧
      (2 * (t.nrUsed + 1) ≤ t.capacity →
        t1.capacity = t.capacity ∧ t1.nrResizes = t.nrResizes ∧
        t1.nrUsed = t.nrUsed + 1) := by
  obtain ⟨t1, r, c, x, hadd, hx, hex, _, hcase⟩ := hwf.addElement_new hclear hnew ow hfuel
  refine ⟨t1, hadd, ?_⟩
  have hmod : (t.nrUsed + 1) % 2 ^ 64 = t.nrUsed + 1 := Nat.mod_eq_of_lt hwf.used_lt
  rcases hcase with ⟨hfull, hre⟩ | ⟨hfit, ht⟩
  · obtain ⟨_, hcap, hrs, _, _, _, hu, _⟩ := grow_wellFormed hclear hwf hx hex he hre
    refine ⟨fun _ => ⟨hcap, hrs, fun hlt => ?_, hu⟩, fun h2 => ?_⟩
    · rw [hrs]; exact Nat.mod_eq_of_lt hlt
    · exfalso
      have : t.capacity = t.nrAlloc := rfl
      omega
  · have hu : t1.nrUsed = (t.nrUsed + 1) % 2 ^ 64 := by rw [ht]; rfl
    have hc : t1.capacity = t.capacity := by rw [ht]; rfl
    have hr : t1.nrResizes = t.nrResizes := by rw [ht]; rfl
    refine ⟨fun h2 => ?_, fun _ => ⟨hc, hr, hu.trans hmod⟩⟩
    exfalso
    have : t.capacity = t.nrAlloc := rfl
    omega

/-- Claim C13 (load factor without veto). In every state reachable from a freshly
constructed table by `addElement` (element overload, non-empty elements, default fill-up
handler), `removeKey`, `removeElement` and `clear`, for a description whose
`clearElement` makes a slot empty, and with a capacity below `2 ^ 62`:
`2 * used ≤ capacity`, that is, `used ≤ capacity / 2`; in particular right after an add
that triggered growth. -/
theorem reachable_load_factor (d : Desc K E) (hclear : ClearsToEmpty d)
    (t : AssociativeArray K E) (h : Reachable d t) (hsmall : t.capacity < 2 ^ 62) :
    2 * t.size ≤ t.capacity ∧ t.size ≤ t.capacity / 2 := by
  have h1 : 2 * t.nrUsed ≤ t.nrAlloc := h.load hclear hsmall
  have h2 : t.size = t.nrUsed := rfl
  have h3 : t.capacity = t.nrAlloc := rfl
  rw [h2, h3]
  omega

end ClaimsGrowth

section WitnessGrowth

/-- Witness of claim C11: adding `(2, 5)` twice to the small table; the first call
makes the table grow. -/
theorem idempotent_overwrite_witness :
    ∃ b t1, addElement ExtendAtFillup.handle 7 (pairTable [(0, 0), (1, 10), (0, 0)] 1)
        (2, 5) true = some (b, t1) ∧
      ∃ t2, addElement ExtendAtFillup.handle 7 t1 (2, 5) true = some (false, t2) ∧
        t2.size = t1.size ∧ t2.table = t1.table ∧ t2.capacity = t1.capacity :=
  idempotent_overwrite (pairTable [(0, 0), (1, 10), (0, 0)] 1) pairKey pairDesc_coherent
    pairDesc_clearsToEmpty smallTable_wellFormed (2, 5) rfl 7 (by decide)

/-- Witness of claim C12: adding `(2, 5)` to the small table, where the new used count 2
exceeds half of the capacity 3. -/
theorem growth_policy_witness :
    ∃ t1, addElement ExtendAtFillup.handle 7 (pairTable [(0, 0), (1, 10), (0, 0)] 1)
        (2, 5) true = some (true, t1) ∧
      ((pairTable [(0, 0), (1, 10), (0, 0)] 1).capacity < 2 * (1 + 1) →
        t1.capacity = 2 * (pairTable [(0, 0), (1, 10), (0, 0)] 1).capacity + 1 ∧
        t1.nrResizes = (0 + 1) % 2 ^ 64 ∧
        (0 + 1 < 2 ^ 64 → t1.nrResizes = 0 + 1) ∧ t1.nrUsed = 1 + 1) ∧
      (2 * (1 + 1) ≤ (pairTable [(0, 0), (1, 10), (0, 0)] 1).capacity →
        t1.capacity = (pairTable [(0, 0), (1, 10), (0, 0)] 1).capacity ∧
        t1.nrResizes = 0 ∧ t1.nrUsed = 1 + 1) :=
  growth_policy (pairTable [(0, 0), (1, 10), (0, 0)] 1) pairDesc_clearsToEmpty
    smallTable_wellFormed (2, 5) rfl (by decide) true 7 (by decide)

/-- The state after two insertions into a fresh table of capacity 3, the second of which
makes the table grow to capacity 7, is reachable. -/
theorem reachable_grown_example :
    Reachable pairDesc
      { pairTable [(0, 0), (1, 10), (2, 5), (0, 0), (0, 0), (0, 0), (0, 0)] 2 with
        nrAdds := 2, nrResizes := 1 } :=
  Reachable.addElement (insertedState (AssociativeArray.create 3 pairDesc) 1 0 (1, 10)) 7
    (2, 5) true true _
    (Reachable.addElement (AssociativeArray.create 3 pairDesc) 3 (1, 10) true true _
      (Reachable.create 3 (by decide)) rfl rfl)
    rfl rfl

/-- Witness of claim C13 on the state right after an add that triggered growth. -/
theorem reachable_load_factor_witness :
    2 * ({ pairTable [(0, 0), (1, 10), (2, 5), (0, 0), (0, 0), (0, 0), (0, 0)] 2 with
        nrAdds := 2, nrResizes := 1 } : AssociativeArray Nat (Nat × Nat)).size ≤
      ({ pairTable [(0, 0), (1, 10), (2, 5), (0, 0), (0, 0), (0, 0), (0, 0)] 2 with
        nrAdds := 2, nrResizes := 1 } : AssociativeArray Nat (Nat × Nat)).capacity ∧
    ({ pairTable [(0, 0), (1, 10), (2, 5), (0, 0), (0, 0), (0, 0), (0, 0)] 2 with
        nrAdds := 2, nrResizes := 1 } : AssociativeArray Nat (Nat × Nat)).size ≤
      ({ pairTable [(0, 0), (1, 10), (2, 5), (0, 0), (0, 0), (0, 0), (0, 0)] 2 with
        nrAdds := 2, nrResizes := 1 } : AssociativeArray Nat (Nat × Nat)).capacity / 2 :=
  reachable_load_factor pairDesc pairDesc_clearsToEmpty _ reachable_grown_example
    (by decide)

end WitnessGrowth

/-! ## The growth scenario and the key overload: claims C14 and C15 -/

section ClaimsScenario

variable {K E : Type}

/-- Claim C14 (trigger-growth scenario), amended. Starting from an empty table of
capacity 3 with the default fill-up handler, for a coherent description whose
`clearElement` makes a slot empty, inserting four non-empty elements with pairwise
distinct keys by `addElement` returns; the table grows twice, at the second insertion
to capacity 7 and at the fourth to capacity 15, so that afterwards `capacity()` is 15,
`resizes` is 2 and `size()` is 4; and `findElement` finds each of the four elements in
the slot that holds it. -/
theorem trigger_growth_scenario (d : Desc K E) (keyOf : E → K) (hcoh : Coherent d keyOf)
    (hclear : ClearsToEmpty d) (e1 e2 e3 e4 : E)
    (he1 : d.isEmptyElement e1 = false) (he2 : d.isEmptyElement e2 = false)
    (he3 : d.isEmptyElement e3 = false) (he4 : d.isEmptyElement e4 = false)
    (h21 : d.isEqualElementElement e2 e1 = false)
    (h31 : d.isEqualElementElement e3 e1 = false)
    (h32 : d.isEqualElementElement e3 e2 = false)
    (h41 : d.isEqualElementElement e4 e1 = false)
    (h42 : d.isEqualElementElement e4 e2 = false)
    (h43 : d.isEqualElementElement e4 e3 = false)
    (ow1 ow2 ow3 ow4 : Bool) (fuel : Nat) (hfuel : 15 ≤ fuel) :
    ∃ t4, runCalls fuel [Call.addElement e1 ow1, Call.addElement e2 ow2,
        Call.addElement e3 ow3, Call.addElement e4 ow4] (AssociativeArray.create 3 d) =
          some t4 ∧
      t4.capacity = 15 ∧ t4.nrResizes = 2 ∧ t4.size = 4 ∧
      ∀ e ∈ [e1, e2, e3, e4], ∃ i t5, findElement fuel t4 e = some (i, t5) ∧
        t4.table[i]? = some e := by
  have ha0 : (AssociativeArray.create 3 d).nrAlloc = 3 := rfl
  have hu0 : (AssociativeArray.create 3 d).nrUsed = 0 := rfl
  have hwf0 : WellFormed (AssociativeArray.create 3 d) :=
    (create_refines hclear (by norm_num)).wellFormed (by omega) (by omega) (by omega)
  have hr0 : (AssociativeArray.create 3 d).nrResizes = 0 := rfl
  have hel0 : elems d (AssociativeArray.create 3 d).table = [] := newTable_elems hclear 3
  obtain ⟨t1, hadd1, hd1, hwf1, hp1, hu1, hc1⟩ :=
    WellFormed.after_new_of hcoh hclear rfl hwf0 he1
      (by intro x hx; rw [hel0] at hx; exact absurd hx (List.not_mem_nil x))
      ow1 (by omega : 2 * (AssociativeArray.create 3 d).nrAlloc + 1 ≤ fuel) (by omega)
  rw [hel0] at hp1
  have ha1 : t1.nrAlloc = 3 ∧ t1.nrResizes = 0 := by omega
  obtain ⟨t2, hadd2, hd2, hwf2, hp2, hu2, hc2⟩ :=
    WellFormed.after_new_of hcoh hclear hd1 hwf1 he2
      (by
        intro x hx
        have hm := hp1.mem_iff.mp hx
        simp only [List.mem_singleton] at hm
        rw [hm]; exact h21)
      ow2 (by omega : 2 * t1.nrAlloc + 1 ≤ fuel) (by omega)
  have ha2 : t2.nrAlloc = 7 ∧ t2.nrResizes = 1 := by omega
  have hp2a : (elems d t2.table).Perm [e2, e1] := hp2.trans (hp1.cons e2)
  obtain ⟨t3, hadd3, hd3, hwf3, hp3, hu3, hc3⟩ :=
    WellFormed.after_new_of hcoh hclear hd2 hwf2 he3
      (by
        intro x hx
        have hm := hp2a.mem_iff.mp hx
        simp only [List.mem_cons, List.mem_singleton, List.not_mem_nil, or_false] at hm
        rcases hm with hm | hm
        · rw [hm]; exact h32
        · rw [hm]; exact h31)
      ow3 (by omega : 2 * t2.nrAlloc + 1 ≤ fuel) (by omega)
  have ha3 : t3.nrAlloc = 7 ∧ t3.nrResizes = 1 := by omega
  have hp3a : (elems d t3.table).Perm [e3, e2, e1] := hp3.trans (hp2a.cons e3)
  obtain ⟨t4, hadd4, hd4, hwf4, hp4, hu4, hc4⟩ :=
    WellFormed.after_new_of hcoh hclear hd3 hwf3 he4
      (by
        intro x hx
        have hm := hp3a.mem_iff.mp hx
        simp only [List.mem_cons, List.mem_singleton, List.not_mem_nil, or_false] at hm
        rcases hm with hm | hm | hm
        · rw [hm]; exact h43
        · rw [hm]; exact h42
        · rw [hm]; exact h41)
      ow4 (by omega : 2 * t3.nrAlloc + 1 ≤ fuel) (by omega)
  have ha4 : t4.nrAlloc = 15 ∧ t4.nrResizes = 2 := by omega
  have hp4a : (elems d t4.table).Perm [e4, e3, e2, e1] := hp4.trans (hp3a.cons e4)
  have hsize : t4.size = 4 := by
    show t4.nrUsed = 4
    omega
  have hrun : runCalls fuel [Call.addElement e1 ow1, Call.addElement e2 ow2,
      Call.addElement e3 ow3, Call.addElement e4 ow4] (AssociativeArray.create 3 d) =
        some t4 := by
    simp only [runCalls, applyCall, hadd1, hadd2, hadd3, hadd4, Option.map_some']
  refine ⟨t4, hrun, ha4.1, ha4.2, hsize, ?_⟩
  · intro e hmem
    have hin : e ∈ elems t4.desc t4.table := by
      rw [hd4]
      refine hp4a.mem_iff.mpr ?_
      simp only [List.mem_cons, List.mem_singleton, List.not_mem_nil, or_false] at hmem ⊢
      rcases hmem with hm | hm | hm | hm
      · exact Or.inr (Or.inr (Or.inr hm))
      · exact Or.inr (Or.inr (Or.inl hm))
      · exact Or.inr (Or.inl hm)
      · exact Or.inl hm
    have hcoh4 : Coherent t4.desc keyOf := by rw [hd4]; exact hcoh
    exact findElement_stored keyOf hcoh4 hwf4.allocated hwf4.probeChain
      hwf4.noDuplicateKeys hwf4.hasEmptySlot hin (by omega)

end ClaimsScenario

section WitnessScenario

/-- Claim C14, the scenario as the code runs it: the four elements `(1, 1)`, `(2, 2)`,
`(3, 3)`, `(4, 4)` inserted into a fresh table of capacity 3 leave the capacity 15,
not 7, with `size()` 4 after 2 rehashes; the capacity is 7 after the second and the
third insertion only. -/
theorem trigger_growth_capacity :
    (runCalls 15 [Call.addElement (1, 1) true, Call.addElement (2, 2) true,
        Call.addElement (3, 3) true, Call.addElement (4, 4) true]
      (AssociativeArray.create 3 pairDesc)).map
        (fun t => (t.capacity, t.size, t.nrResizes)) = some (15, 4, 2) ∧
    (runCalls 15 [Call.addElement (1, 1) true, Call.addElement (2, 2) true,
        Call.addElement (3, 3) true, Call.addElement (4, 4) true]
      (AssociativeArray.create 3 pairDesc)).map (fun t => t.capacity) ≠ some 7 ∧
    (runCalls 15 [Call.addElement (1, 1) true, Call.addElement (2, 2) true,
        Call.addElement (3, 3) true]
      (AssociativeArray.create 3 pairDesc)).map
        (fun t => (t.capacity, t.size, t.nrResizes)) = some (7, 3, 1) ∧
    (runCalls 15 [Call.addElement (1, 1) true, Call.addElement (2, 2) true]
      (AssociativeArray.create 3 pairDesc)).map
        (fun t => (t.capacity, t.size, t.nrResizes)) = some (7, 2, 1) ∧
    (runCalls 15 [Call.addElement (1, 1) true]
      (AssociativeArray.create 3 pairDesc)).map
        (fun t => (t.capacity, t.size, t.nrResizes)) = some (3, 1, 0) := by
  decide

/-- Witness of claim C14 (amended) with the elements `(1, 1)`, `(2, 2)`, `(3, 3)`,
`(4, 4)` of the example description. -/
theorem trigger_growth_scenario_witness :
    ∃ t4, runCalls 15 [Call.addElement (1, 1) true, Call.addElement (2, 2) true,
        Call.addElement (3, 3) true, Call.addElement (4, 4) true]
        (AssociativeArray.create 3 pairDesc) = some t4 ∧
      t4.capacity = 15 ∧ t4.nrResizes = 2 ∧ t4.size = 4 ∧
      ∀ e ∈ [((1, 1) : Nat × Nat), (2, 2), (3, 3), (4, 4)],
        ∃ i t5, findElement 15 t4 e = some (i, t5) ∧ t4.table[i]? = some e :=
  trigger_growth_scenario pairDesc pairKey pairDesc_coherent pairDesc_clearsToEmpty
    (1, 1) (2, 2) (3, 3) (4, 4) rfl rfl rfl rfl rfl rfl rfl rfl rfl rfl
    true true true true 15 (by decide)

/-- Claim C15 (key overload against element overload), evaluated where the insertion
triggers growth. The example description is coherent, the table with the slots
`[(0, 0), (1, 10), (0, 0)]` is well-formed, and `(2, 5)` is a non-empty element with
key 2. `addElement(2, (2, 5), true)` returns `true` and leaves a table of capacity 7
with `used = 0`, in which only slot 0 has been cleared, the other slots are as the
allocation left them, and neither the stored `(1, 10)` nor the new `(2, 5)` is present;
`addElement((2, 5), true)` returns `true` and leaves capacity 7, `used = 2` and both
elements stored. On a table of capacity 5, where no growth is triggered, the two
overloads leave the same table. -/
theorem addElementWithKey_growth_differs :
    Coherent pairDesc pairKey ∧
    WellFormed (pairTable [(0, 0), (1, 10), (0, 0)] 1) ∧
    pairDesc.isEmptyElement (2, 5) = false ∧ pairKey (2, 5) = 2 ∧
    (addElementWithKey ExtendAtFillup.handle 7 (pairTable [(0, 0), (1, 10), (0, 0)] 1)
        2 (2, 5) true).map
      (fun r => (r.1, r.2.table, r.2.nrUsed, r.2.nrAlloc, r.2.nrResizes)) =
      some (true, [(0, 0), (2, 9), (3, 9), (4, 9), (5, 9), (6, 9), (7, 9)], 0, 7, 1) ∧
    (addElement ExtendAtFillup.handle 7 (pairTable [(0, 0), (1, 10), (0, 0)] 1)
        (2, 5) true).map
      (fun r => (r.1, r.2.table, r.2.nrUsed, r.2.nrAlloc, r.2.nrResizes)) =
      some (true, [(0, 0), (1, 10), (2, 5), (0, 0), (0, 0), (0, 0), (0, 0)], 2, 7, 1) ∧
    addElementWithKey ExtendAtFillup.handle 7
        (pairTable [(0, 0), (1, 10), (0, 0), (0, 0), (0, 0)] 1) 2 (2, 5) true =
      addElement ExtendAtFillup.handle 7
        (pairTable [(0, 0), (1, 10), (0, 0), (0, 0), (0, 0)] 1) (2, 5) true :=
  ⟨pairDesc_coherent, smallTable_wellFormed, rfl, rfl, by decide, by decide, by rfl⟩

end WitnessScenario

/-! ## `clear`, construction, the relocation test and lookups: claims C21, C23, C27, C29 -/

section ClaimsFrame

variable {K E : Type}

/-- Claim C21 (`clear` and the statistics), amended. For every table, `clear()` resets
all eight counters to zero: `finds`, `adds`, `removes`, `probesFind`, `probesAdd`,
`probesRemove`, `probesRehash` and also `resizes`, because `clear` re-runs
`initialise`. -/
theorem clear_resets_counters (t : AssociativeArray K E) : CountersZero (clear t) :=
  ⟨rfl, rfl, rfl, rfl, rfl, rfl, rfl, rfl⟩

/-- Claim C23 (construction). For every `n ≥ 1` and every description whose
`clearElement` makes a slot empty, the table constructed with `n` slots has
`capacity() = n`, `size() = 0`, exactly `n` slots that all satisfy `isEmptyElement`, and
all eight counters at zero; and `findKey` of any key returns (one probe step suffices) a
slot that satisfies `isEmptyElement`. -/
theorem create_fresh (n : Nat) (d : Desc K E) (hn : 1 ≤ n) (hclear : ClearsToEmpty d) :
    (AssociativeArray.create n d).capacity = n ∧
    (AssociativeArray.create n d).size = 0 ∧
    (AssociativeArray.create n d).table.length = n ∧
    (∀ (i : Nat) x, (AssociativeArray.create n d).table[i]? = some x →
      d.isEmptyElement x = true) ∧
    CountersZero (AssociativeArray.create n d) ∧
    ∀ (key : K) (fuel : Nat), 1 ≤ fuel →
      ∃ i t1 x, findKey fuel (AssociativeArray.create n d) key = some (i, t1) ∧
        (AssociativeArray.create n d).table[i]? = some x ∧ d.isEmptyElement x = true := by
  have hslots : ∀ (i : Nat) x, (AssociativeArray.create n d).table[i]? = some x →
      d.isEmptyElement x = true := by
    intro i x hx
    obtain ⟨y, hy⟩ := newTable_get hx
    rw [hy]; exact hclear y
  refine ⟨rfl, rfl, newTable_length d n, hslots, ⟨rfl, rfl, rfl, rfl, rfl, rfl, rfl, rfl⟩, ?_⟩
  intro key fuel hfuel
  obtain ⟨f, rfl⟩ : ∃ f, fuel = f + 1 := ⟨fuel - 1, by omega⟩
  have hlen : (AssociativeArray.create n d).table.length = n := newTable_length d n
  have hb : keyBucket d n key < n := keyBucket_lt d (by omega) key
  have hg : (AssociativeArray.create n d).table[keyBucket d n key]? =
      some ((AssociativeArray.create n d).table[keyBucket d n key]) :=
    List.getElem?_eq_getElem (by omega)
  have hex := hslots _ _ hg
  have hstop : stopAt d (d.isEqualKeyElement key) (AssociativeArray.create n d).table
      (keyBucket d n key) = true := by
    rw [stopAt_of_get hg, hex]; rfl
  have hp := probe_step_stop d (d.isEqualKeyElement key) (AssociativeArray.create n d).table
    n f (keyBucket d n key) 0 hstop
  have hn0 : (AssociativeArray.create n d).nrAlloc ≠ 0 := by
    show n ≠ 0
    omega
  exact ⟨_, _, _, findKey_eq hn0 hp, hg, hex⟩

/-- Claim C27 (relocation predicate). For every capacity `n` and indices `i, k, j < n`
with `i ≠ k`, the test of the back-shift loop,
`(i < k && !(i < j && j <= k)) || (k < i && !(i < j || j <= k))`, is true if and only if
the natural bucket `j` lies outside the circular interval `(i, k]`, that is, if and only
if not `0 < (j - i) mod n ≤ (k - i) mod n`. -/
theorem relocate_outside_interval (n i k j : Nat) (hi : i < n) (hk : k < n) (hj : j < n)
    (hne : i ≠ k) :
    relocate i k j = true ↔
      ¬ (0 < ((j : Int) - (i : Int)) % (n : Int) ∧
        ((j : Int) - (i : Int)) % (n : Int) ≤ ((k : Int) - (i : Int)) % (n : Int)) := by
  rw [relocate_iff hi hk hj hne, ← cdist_eq_emod hi hj, ← cdist_eq_emod hi hk]
  norm_cast

/-- Claim C29 (lookup is observational). For every table with at least one empty slot
and every key, with fuel for one round over the slots: `findKey(key)` returns the slot
`r` that is the first one in probe order, from the natural bucket of the key, which is
empty or matches the key; it leaves the description, the slots, `used`, the capacity
and the six counters other than `finds` and `probesFind` unchanged; `finds` grows by
exactly 1 and `probesFind` by exactly the circular distance
`(r - hashKey(key) mod capacity) mod capacity` (both as 64-bit counters, so exactly when
they do not wrap around). -/
theorem findKey_observational (t : AssociativeArray K E) (halloc : Allocated t)
    (hempty : HasEmptySlot t) (hcount : t.nrProbesF < 2 ^ 64) (key : K) (fuel : Nat)
    (hfuel : t.nrAlloc ≤ fuel) :
    ∃ r t1, findKey fuel t key = some (r, t1) ∧
      FirstStop t.desc (t.desc.isEqualKeyElement key) t.table t.nrAlloc
        (keyBucket t.desc t.nrAlloc key) r ∧
      t1.desc = t.desc ∧ t1.table = t.table ∧ t1.nrUsed = t.nrUsed ∧
      t1.nrAlloc = t.nrAlloc ∧ t1.nrAdds = t.nrAdds ∧ t1.nrRems = t.nrRems ∧
      t1.nrResizes = t.nrResizes ∧ t1.nrProbesA = t.nrProbesA ∧
      t1.nrProbesD = t.nrProbesD ∧ t1.nrProbesR = t.nrProbesR ∧
      t1.nrFinds = (t.nrFinds + 1) % 2 ^ 64 ∧
      (t.nrFinds + 1 < 2 ^ 64 → t1.nrFinds = t.nrFinds + 1) ∧
      t1.nrProbesF =
        (t.nrProbesF + cdist t.nrAlloc (keyBucket t.desc t.nrAlloc key) r) % 2 ^ 64 ∧
      (t.nrProbesF + t.nrAlloc ≤ 2 ^ 64 → t1.nrProbesF =
        t.nrProbesF + cdist t.nrAlloc (keyBucket t.desc t.nrAlloc key) r) ∧
      ((cdist t.nrAlloc (keyBucket t.desc t.nrAlloc key) r : Nat) : Int) =
        ((r : Int) - ((t.desc.hashKey key % 2 ^ 32 % t.nrAlloc : Nat) : Int)) %
          (t.nrAlloc : Int) := by
  obtain ⟨r, c, x, hf, _, hfs, hc⟩ := findKey_total halloc hempty key hfuel
  have hpos := hempty.pos
  have hkb := keyBucket_lt t.desc hpos key
  have hd := cdist_lt hkb hfs.1
  have hc1 := hc hcount
  refine ⟨r, _, hf, hfs, rfl, rfl, rfl, rfl, rfl, rfl, rfl, rfl, rfl, rfl, rfl,
    fun h => Nat.mod_eq_of_lt h, hc1, fun h => ?_, cdist_eq_emod hkb hfs.1⟩
  show c = _
  rw [hc1]
  exact Nat.mod_eq_of_lt (by omega)

end ClaimsFrame

section WitnessFrame

/-- Claim C21, as stated, fails on the table left by two insertions into a fresh table
of capacity 3, of which the second made the table grow: `resizes` is 1 before `clear()`
and 0, not 1, after it. -/
theorem clear_resets_nrResizes :
    grownExample.nrResizes = 1 ∧
    (clear grownExample).nrResizes = 0 ∧
    (clear grownExample).nrResizes ≠ 1 := by
  decide

/-- Witness of claim C23: a table of the example description with 3 slots. -/
theorem create_fresh_witness :
    (AssociativeArray.create 3 pairDesc).capacity = 3 ∧
    (AssociativeArray.create 3 pairDesc).size = 0 ∧
    (AssociativeArray.create 3 pairDesc).table.length = 3 ∧
    (∀ (i : Nat) x, (AssociativeArray.create 3 pairDesc).table[i]? = some x →
      pairDesc.isEmptyElement x = true) ∧
    CountersZero (AssociativeArray.create 3 pairDesc) ∧
    ∀ (key : Nat) (fuel : Nat), 1 ≤ fuel →
      ∃ i t1 x, findKey fuel (AssociativeArray.create 3 pairDesc) key = some (i, t1) ∧
        (AssociativeArray.create 3 pairDesc).table[i]? = some x ∧
        pairDesc.isEmptyElement x = true :=
  create_fresh 3 pairDesc (by decide) pairDesc_clearsToEmpty

/-- Witness of claim C27 in a table of 7 slots: hole at 6, scan at 1, natural bucket 0,
which lies inside the interval `(6, 1]`. -/
theorem relocate_outside_interval_witness :
    relocate 6 1 0 = true ↔
      ¬ (0 < (((0 : Nat) : Int) - ((6 : Nat) : Int)) % ((7 : Nat) : Int) ∧
        (((0 : Nat) : Int) - ((6 : Nat) : Int)) % ((7 : Nat) : Int) ≤
          (((1 : Nat) : Int) - ((6 : Nat) : Int)) % ((7 : Nat) : Int)) :=
  relocate_outside_interval 7 6 1 0 (by decide) (by decide) (by decide) (by decide)

/-- The relocation test on all indices of a table of 3 slots. -/
theorem relocate_table :
    (List.range 3).map (fun j => relocate 0 1 j) = [true, false, true] ∧
    (List.range 3).map (fun j => relocate 0 2 j) = [true, false, false] ∧
    (List.range 3).map (fun j => relocate 2 0 j) = [false, true, true] ∧
    (List.range 3).map (fun j => relocate 2 1 j) = [false, false, true] ∧
    (List.range 3).map (fun j => relocate 1 2 j) = [true, true, false] := by
  decide

/-- Witness of claim C29: looking up the absent key 22 in the chain table, whose slots
1, 2 and 3 hold the keys 1, 8 and 15; the lookup stops at slot 4 after 3 probes. -/
theorem findKey_observational_witness :
    ∃ r t1, findKey 7 chainExample 22 =
        some (r, t1) ∧
      FirstStop pairDesc (pairDesc.isEqualKeyElement 22)
        chainExample.table 7
        (keyBucket pairDesc 7 22) r ∧
      t1.desc = pairDesc ∧
      t1.table = chainExample.table ∧
      t1.nrUsed = 3 ∧ t1.nrAlloc = 7 ∧ t1.nrAdds = 0 ∧ t1.nrRems = 0 ∧
      t1.nrResizes = 0 ∧ t1.nrProbesA = 0 ∧
      t1.nrProbesD = 0 ∧ t1.nrProbesR = 0 ∧
      t1.nrFinds = (0 + 1) % 2 ^ 64 ∧
      (0 + 1 < 2 ^ 64 → t1.nrFinds = 0 + 1) ∧
      t1.nrProbesF = (0 + cdist 7 (keyBucket pairDesc 7 22) r) % 2 ^ 64 ∧
      (0 + 7 ≤ 2 ^ 64 → t1.nrProbesF = 0 + cdist 7 (keyBucket pairDesc 7 22) r) ∧
      ((cdist 7 (keyBucket pairDesc 7 22) r : Nat) : Int) =
        ((r : Int) - ((pairDesc.hashKey 22 % 2 ^ 32 % 7 : Nat) : Int)) % ((7 : Nat) : Int) :=
  findKey_observational chainExample
    chainTable_wellFormed.allocated chainTable_wellFormed.hasEmptySlot
    (by show (0 : Nat) < 2 ^ 64; norm_num) 22 7 (by decide)

/-- The lookup of the witness of claim C29, evaluated: slot 4, one more `finds` and 3
more `probesFind`. -/
theorem chainTable_lookup_counters :
    (findKey 7 chainExample 22).map
      (fun r => (r.1, r.2.nrFinds, r.2.nrProbesF, r.2.table, r.2.nrUsed)) =
      some (4, 1, 3, [(0, 0), (1, 1), (8, 2), (15, 3), (0, 0), (0, 0), (0, 0)], 3) := by
  rfl

end WitnessFrame

/-! ## Vetoed growth, completion, provenance and the capacity: claims C22, C24, C25, C26 -/

section ClaimsVeto

variable {K E : Type}

/-- Claim C22 (vetoed growth). With a fill-up handler whose `handle` always returns
`true`, for every coherent description whose `clearElement` makes a slot empty and every
sequence of fewer than `n` insertions of non-empty elements with pairwise different keys
into a fresh table of capacity `n`: every `addElement` returns `true`, after every
prefix of the sequence the capacity is still `n` and `resizes` is still 0 (also once
`capacity < 2 * used`), `size()` is the number of insertions, and `findElement` finds
every inserted element in the slot that holds it. -/
theorem vetoed_growth (d : Desc K E) (keyOf : E → K) (hcoh : Coherent d keyOf)
    (hclear : ClearsToEmpty d) (fuh : AssociativeArray K E → Bool)
    (hveto : ∀ t, fuh t = true) (n : Nat) (hn : n < 2 ^ 64) (es : List E)
    (hne : ∀ e ∈ es, d.isEmptyElement e = false)
    (hdist : es.Pairwise (fun a b => d.isEqualElementElement a b = false))
    (hlen : es.length < n) (fuel : Nat) (hfuel : n ≤ fuel) :
    ∃ t, addElements fuh fuel es (AssociativeArray.create n d) =
        some (List.replicate es.length true, t) ∧
      t.capacity = n ∧ t.nrResizes = 0 ∧ t.size = es.length ∧
      (∀ e ∈ es, ∃ i t2, findElement fuel t e = some (i, t2) ∧ t.table[i]? = some e) ∧
      ∀ k, k ≤ es.length →
        ∃ tk, addElements fuh fuel (es.take k) (AssociativeArray.create n d) =
            some (List.replicate k true, tk) ∧
          tk.capacity = n ∧ tk.nrResizes = 0 := by
  have href0 : Refines d (AssociativeArray.create n d) [] := create_refines hclear hn
  have hcap0 : (AssociativeArray.create n d).nrAlloc = n := rfl
  obtain ⟨t, hrun, href, hcap, hres⟩ := addElements_veto hcoh hveto fuel es _ [] href0 hne
    hdist (fun _ _ y hy => absurd hy (List.not_mem_nil y))
    (by rw [hcap0, List.length_nil]; omega) (by rw [hcap0]; exact hfuel)
  rw [List.append_nil] at href
  have hd := href.sound.desc_eq
  have hused : t.nrUsed = es.length := by
    rw [href.sound.used_eq, hd, href.perm.length_eq, List.length_reverse]
  refine ⟨t, hrun, hcap, hres, hused, ?_, ?_⟩
  · intro e he
    have hcoh1 : Coherent t.desc keyOf := by rw [hd]; exact hcoh
    have hnd : NoDuplicateKeys t.desc t.table := by rw [hd]; exact href.noDuplicateKeys
    have hin : e ∈ elems t.desc t.table := by
      rw [hd]; exact href.perm.symm.subset (List.mem_reverse.mpr he)
    have hempty : HasEmptySlot t := HasEmptySlot.of_lt href.sound.allocated (by
      rw [← href.sound.used_eq, hused, hcap]; exact hlen)
    exact findElement_stored keyOf hcoh1 href.sound.allocated href.sound.probeChain hnd
      hempty hin (by rw [hcap]; exact hfuel)
  · intro k hk
    have hlk : (es.take k).length = k := by rw [List.length_take]; omega
    obtain ⟨tk, hrunk, _, hcapk, hresk⟩ := addElements_veto hcoh hveto fuel (es.take k) _ []
      href0 (fun e he => hne e (List.mem_of_mem_take he))
      (hdist.sublist (List.take_sublist k es))
      (fun _ _ y hy => absurd hy (List.not_mem_nil y))
      (by rw [hcap0, List.length_nil, hlk]; omega) (by rw [hcap0]; exact hfuel)
    rw [hlk] at hrunk
    exact ⟨tk, hrunk, hcapk, hresk⟩

/-- Claim C25 (provenance of stored values). In every state reached from a freshly
constructed table by public operations other than the key overload of `addElement`
(that is, by `addElement` of the element overload with any fill-up handler, `removeKey`,
`removeElement`, `clear`, and also the lookups and `clearAndDelete`), for a description
whose `clearElement` makes a slot empty, the value in every used slot is the element
argument of some earlier `addElement` call: back-shift relocation and rehashing never
create or alter an element value. -/
theorem stored_values_provenance (d : Desc K E) (hclear : ClearsToEmpty d)
    (fuh : AssociativeArray K E → Bool) (size : Nat) (ops : List (Op K E))
    (t : AssociativeArray K E) (h : ReachedBy d fuh size ops t)
    (hops : ∀ op ∈ ops, op.isElementOverload = true) :
    ∀ (p : Nat) (x : E), t.table[p]? = some x → d.isEmptyElement x = false →
      ∃ ow, Op.addElement x ow ∈ ops := by
  induction h with
  | create =>
    intro p x hx hex
    obtain ⟨y, hy⟩ := newTable_get hx
    rw [hy, hclear y] at hex
    exact absurd hex (by simp)
  | step ops t fuel op t1 ht h ih =>
    intro p x hx hex
    have hd := ht.desc_eq
    have hclear1 : ClearsToEmpty t.desc := by rw [hd]; exact hclear
    rcases applyOp_provenance hclear1 (hops op (List.mem_cons_self op ops)) h x
      (List.getElem?_mem hx) with h1 | h1 | h1
    · rw [hd, hex] at h1
      exact absurd h1 (by simp)
    · obtain ⟨q, hq⟩ := List.mem_iff_getElem?.mp h1
      obtain ⟨ow, how⟩ := ih (fun o ho => hops o (List.mem_cons_of_mem op ho)) q x hq hex
      exact ⟨ow, List.mem_cons_of_mem op how⟩
    · obtain ⟨ow, how⟩ := h1
      exact ⟨ow, by rw [how]; exact List.mem_cons_self _ ops⟩

/-- Claim C26 (the capacity stays strictly positive). For every table constructed with
an initial capacity of at least 1, after every sequence of public operations (both
overloads of `addElement` with any fill-up handler, `removeKey`, `removeElement`,
`clear`, `clearAndDelete` and the lookups) the capacity is at least 1, so that every
`hash % capacity` computed while probing has a non-zero divisor and is an index below
the capacity. -/
theorem capacity_stays_positive (d : Desc K E) (fuh : AssociativeArray K E → Bool)
    (size : Nat) (hsize : 1 ≤ size) (ops : List (Op K E)) (t : AssociativeArray K E)
    (h : ReachedBy d fuh size ops t) :
    1 ≤ t.capacity ∧ t.capacity ≠ 0 ∧ (∀ hash : Nat, hash % t.capacity < t.capacity) ∧
      (∀ e, bucket t.desc t.capacity e < t.capacity) ∧
      (∀ key, keyBucket t.desc t.capacity key < t.capacity) := by
  have hpos : 1 ≤ t.nrAlloc := by
    induction h with
    | create => exact hsize
    | step ops t fuel op t1 _ h ih =>
      rcases (applyOp_capacity h).2 with h1 | h1
      · rw [h1]; exact ih
      · rw [h1]; omega
  have hcap : t.capacity = t.nrAlloc := rfl
  rw [hcap]
  exact ⟨hpos, by omega, fun hash => Nat.mod_lt _ (by omega),
    fun e => bucket_lt t.desc (by omega) e, fun key => keyBucket_lt t.desc (by omega) key⟩

end ClaimsVeto

/-! ## Witnesses and a counterexample for claims C22, C24, C25 and C26 -/

section WitnessVeto

/-- Witness of claim C22: four insertions into a fresh table of capacity 7 under a
handler that always vetoes. -/
theorem vetoed_growth_witness :
    ∃ t, addElements (fun _ => true) 7 [((1, 1) : Nat × Nat), (2, 2), (3, 3), (4, 4)]
        (AssociativeArray.create 7 pairDesc) =
        some (List.replicate ([((1, 1) : Nat × Nat), (2, 2), (3, 3), (4, 4)]).length true, t) ∧
      t.capacity = 7 ∧ t.nrResizes = 0 ∧
      t.size = ([((1, 1) : Nat × Nat), (2, 2), (3, 3), (4, 4)]).length ∧
      (∀ e ∈ [((1, 1) : Nat × Nat), (2, 2), (3, 3), (4, 4)],
        ∃ i t2, findElement 7 t e = some (i, t2) ∧ t.table[i]? = some e) ∧
      ∀ k, k ≤ ([((1, 1) : Nat × Nat), (2, 2), (3, 3), (4, 4)]).length →
        ∃ tk, addElements (fun _ => true) 7
            (([((1, 1) : Nat × Nat), (2, 2), (3, 3), (4, 4)]).take k)
            (AssociativeArray.create 7 pairDesc) = some (List.replicate k true, tk) ∧
          tk.capacity = 7 ∧ tk.nrResizes = 0 :=
  vetoed_growth pairDesc pairKey pairDesc_coherent pairDesc_clearsToEmpty (fun _ => true)
    (fun _ => rfl) 7 (by norm_num) [((1, 1) : Nat × Nat), (2, 2), (3, 3), (4, 4)]
    (by decide) (by decide) (by decide) 7 (by decide)

/-- The insertions of the witness of claim C22, evaluated: the capacity stays 7 although
`capacity < 2 * used` after the fourth insertion, and six insertions still succeed. -/
theorem vetoed_growth_example :
    (addElements (fun _ => true) 7 [((1, 1) : Nat × Nat), (2, 2), (3, 3), (4, 4)]
      (AssociativeArray.create 7 pairDesc)).map
        (fun r => (r.1, r.2.table, r.2.nrUsed, r.2.nrAlloc, r.2.nrResizes)) =
      some ([true, true, true, true],
        [(0, 0), (1, 1), (2, 2), (3, 3), (4, 4), (0, 0), (0, 0)], 4, 7, 0) ∧
    (addElements (fun _ => true) 7
      [((1, 1) : Nat × Nat), (2, 2), (3, 3), (4, 4), (5, 5), (6, 6)]
      (AssociativeArray.create 7 pairDesc)).map
        (fun r => (r.1, r.2.table, r.2.nrUsed, r.2.nrAlloc, r.2.nrResizes)) =
      some ([true, true, true, true, true, true],
        [(0, 0), (1, 1), (2, 2), (3, 3), (4, 4), (5, 5), (6, 6)], 6, 7, 0) :=
  ⟨rfl, rfl⟩

/-- Two insertions through the element overload into a fresh table of capacity 3, the
second of which makes the table grow, followed by the removal of the key 1. -/
theorem reachedBy_example :
    ReachedBy pairDesc ExtendAtFillup.handle 3
      [Op.removeKey 1, Op.addElement (2, 5) true, Op.addElement (1, 10) true]
      removedExample :=
  ReachedBy.step _ grownExample 7 (Op.removeKey 1) _
    (ReachedBy.step _ insertedExample 7 (Op.addElement (2, 5) true) _
      (ReachedBy.step _ (AssociativeArray.create 3 pairDesc) 3 (Op.addElement (1, 10) true) _
        ReachedBy.create rfl)
      rfl)
    rfl

/-- Witness of claim C25: after the two insertions and the removal, the only used slot
holds `(2, 5)`, the argument of the second insertion. -/
theorem stored_values_provenance_witness :
    ReachedBy pairDesc ExtendAtFillup.handle 3
      [Op.removeKey 1, Op.addElement (2, 5) true, Op.addElement (1, 10) true]
      removedExample ∧
    ∀ (p : Nat) (x : Nat × Nat),
      removedExample.table[p]? = some x →
      pairDesc.isEmptyElement x = false →
      ∃ ow, Op.addElement x ow ∈
        ([Op.removeKey 1, Op.addElement (2, 5) true, Op.addElement (1, 10) true] :
          List (Op Nat (Nat × Nat))) :=
  ⟨reachedBy_example,
    stored_values_provenance pairDesc pairDesc_clearsToEmpty ExtendAtFillup.handle 3 _ _
      reachedBy_example (by decide)⟩

/-- An insertion through the element overload, an insertion through the key overload
that makes the table grow, and `clearAndDelete`, from a fresh table of capacity 3. -/
theorem reachedBy_key_example :
    ReachedBy pairDesc ExtendAtFillup.handle 3
      [Op.clearAndDelete, Op.addElementWithKey 2 (2, 5) true, Op.addElement (1, 10) true]
      (AssociativeArray.create 7 pairDesc) :=
  ReachedBy.step _ keyGrownExample 0 Op.clearAndDelete _
    (ReachedBy.step _ insertedExample 7 (Op.addElementWithKey 2 (2, 5) true) _
      (ReachedBy.step _ (AssociativeArray.create 3 pairDesc) 3 (Op.addElement (1, 10) true) _
        ReachedBy.create rfl)
      rfl)
    rfl

/-- Witness of claim C26 on the table left by the three operations above. -/
theorem capacity_stays_positive_witness :
    1 ≤ (AssociativeArray.create 7 pairDesc).capacity ∧
      (AssociativeArray.create 7 pairDesc).capacity ≠ 0 ∧
      (∀ hash : Nat, hash % (AssociativeArray.create 7 pairDesc).capacity <
        (AssociativeArray.create 7 pairDesc).capacity) ∧
      (∀ e, bucket pairDesc (AssociativeArray.create 7 pairDesc).capacity e <
        (AssociativeArray.create 7 pairDesc).capacity) ∧
      (∀ key, keyBucket pairDesc (AssociativeArray.create 7 pairDesc).capacity key <
        (AssociativeArray.create 7 pairDesc).capacity) :=
  capacity_stays_positive pairDesc ExtendAtFillup.handle 3 (by decide) _ _
    reachedBy_key_example

end WitnessVeto

/-! ## Removal from a collision chain and the statistics: claims C28 and C30 -/

section ClaimsChain

variable {K E : Type}

/-- Claim C28 (removal from a single collision chain). For every table of capacity `n`
(with a `clearElement` that makes a slot empty), bucket `b < n` and chain length `m` with
`1 ≤ m < n`: if `m` elements that all have natural bucket `b` occupy the slots
`b, b + 1, …, b + m - 1` (mod `n`) and every other slot is empty, then `removeElement`
of the element at slot `b + u` (an argument with natural bucket `b` that matches the
element at offset `u < m` and none before it) returns `true` and leaves the slots before
offset `u` as they were, every later element of the chain moved back by one slot, in the
original order, the slot `b + m - 1` (mod `n`) empty, and the other slots untouched. -/
theorem removeElement_single_chain (t : AssociativeArray K E)
    (hclear : ClearsToEmpty t.desc) (halloc : Allocated t) (b m u : Nat)
    (hb : b < t.nrAlloc) (hm : m < t.nrAlloc) (hu : u < m)
    (hchain : ∀ s, s < m → ∃ x, t.table[(b + s) % t.nrAlloc]? = some x ∧
      t.desc.isEmptyElement x = false ∧ bucket t.desc t.nrAlloc x = b)
    (hrest : ∀ s, m ≤ s → s < t.nrAlloc → ∃ x, t.table[(b + s) % t.nrAlloc]? = some x ∧
      t.desc.isEmptyElement x = true)
    (e : E) (he : bucket t.desc t.nrAlloc e = b)
    (hmatch : ∀ x, t.table[(b + u) % t.nrAlloc]? = some x →
      t.desc.isEqualElementElement e x = true)
    (hbefore : ∀ s, s < u → ∀ x, t.table[(b + s) % t.nrAlloc]? = some x →
      t.desc.isEqualElementElement e x = false)
    (fuel : Nat) (hfuel : t.nrAlloc ≤ fuel) :
    ∃ t1, removeElement fuel t e = some (true, t1) ∧
      t1.table.length = t.nrAlloc ∧ t1.capacity = t.capacity ∧
      (∀ s, s < u → t1.table[(b + s) % t.nrAlloc]? = t.table[(b + s) % t.nrAlloc]?) ∧
      (∀ s, u ≤ s → s + 1 < m →
        t1.table[(b + s) % t.nrAlloc]? = t.table[(b + (s + 1)) % t.nrAlloc]?) ∧
      (∃ x, t1.table[(b + (m - 1)) % t.nrAlloc]? = some x ∧
        t.desc.isEmptyElement x = true) ∧
      (∀ s, m ≤ s → s < t.nrAlloc →
        t1.table[(b + s) % t.nrAlloc]? = t.table[(b + s) % t.nrAlloc]?) := by
  have hn : 0 < t.nrAlloc := by omega
  have hun : u < t.nrAlloc := by omega
  obtain ⟨x0, hx0, hex0, _⟩ := hchain u hu
  have hr : (b + u) % t.nrAlloc < t.nrAlloc := Nat.mod_lt _ hn
  -- the probing loop stops at offset `u`
  have hfs : FirstStop t.desc (t.desc.isEqualElementElement e) t.table t.nrAlloc
      (bucket t.desc t.nrAlloc e) ((b + u) % t.nrAlloc) := by
    rw [he]
    refine ⟨hr, ?_, ?_⟩
    · rw [stopAt_of_get hx0, hmatch x0 hx0]; simp
    · intro q hq hlt
      rw [cdist_add_mod hb hun] at hlt
      have hqs := add_cdist_mod hb hq
      obtain ⟨y, hy, hey, _⟩ := hchain (cdist t.nrAlloc b q) (by omega)
      rw [hqs] at hy
      have hno := hbefore (cdist t.nrAlloc b q) hlt y (by rw [hqs]; exact hy)
      rw [stopAt_of_get hy, hey, hno]; rfl
  obtain ⟨c, hp⟩ := probe_of_firstStop halloc (bucket_lt t.desc hn e) hfs hfuel t.nrProbesD
  -- the back-shift loop
  have hlen0 : (t.table.set ((b + u) % t.nrAlloc) (t.desc.clearElement x0)).length =
      t.nrAlloc := by rw [List.length_set]; exact halloc
  have hhole : ∃ x, (t.table.set ((b + u) % t.nrAlloc) (t.desc.clearElement x0))[
      (b + u) % t.nrAlloc]? = some x ∧ t.desc.isEmptyElement x = true :=
    ⟨_, List.getElem?_set_self (by rw [halloc]; exact hr), hclear x0⟩
  have hother : ∀ s, s < t.nrAlloc → s ≠ u →
      (t.table.set ((b + u) % t.nrAlloc) (t.desc.clearElement x0))[(b + s) % t.nrAlloc]? =
        t.table[(b + s) % t.nrAlloc]? := by
    intro s hs hne
    rw [List.getElem?_set_ne (add_mod_ne hb hun hs (by omega))]
  obtain ⟨result, hrun, hrl, hmoved, hlast, hkeep⟩ :=
    backShift_chain hclear hb hm hchain (hrest m (le_refl m) hm) (m - 1 - u) u fuel
      (t.table.set ((b + u) % t.nrAlloc) (t.desc.clearElement x0)) (by omega) (by omega)
      hlen0 hhole (fun s h1 h2 => hother s (by omega) (by omega))
  have hnext : ((b + u) % t.nrAlloc + 1) % t.nrAlloc = (b + (u + 1)) % t.nrAlloc := by
    rw [Nat.mod_add_mod, Nat.add_assoc]
  rw [← hnext] at hrun
  have hrem := removeElement_used (by omega) hp hx0 hex0 hrun
  obtain ⟨t1, ht1, htab, hcap⟩ : ∃ t1, removeElement fuel t e = some (true, t1) ∧
      t1.table = result ∧ t1.nrAlloc = t.nrAlloc := ⟨_, hrem, rfl, rfl⟩
  rw [← htab] at hrl hmoved hlast hkeep
  refine ⟨t1, ht1, hrl, hcap, ?_, hmoved, hlast, ?_⟩
  · intro s hs
    exact (hkeep s (by omega) (Or.inl hs)).trans (hother s (by omega) (by omega))
  · intro s h1 h2
    exact (hkeep s h2 (Or.inr h1)).trans (hother s h2 (by omega))

/-- Claim C30 (the statistics counters), amended. For every table and every public
operation other than `clear` and `clearAndDelete` (that is `findKey`, `findElement`,
both `addElement` overloads with any fill-up handler, `removeKey`, `removeElement`),
none of the counters `finds`, `adds`, `removes`, `resizes`, `probesFind`, `probesAdd`,
`probesRemove`, `probesRehash` is smaller after the operation than before it, absent
64-bit wrap-around; `clear` and `clearAndDelete` reset all eight counters to zero. -/
theorem counters_monotone_except_clear (fuh : AssociativeArray K E → Bool) (fuel : Nat)
    (t t1 : AssociativeArray K E) (op : Op K E) (h : applyOp fuh fuel t op = some t1) :
    (op.isClear = false → NoWrap fuel t → CountersLe t t1) ∧
      (op.isClear = true → CountersZero t1) := by
  refine ⟨fun hop hw => applyOp_countersLe hop hw h, fun hop => ?_⟩
  cases op with
  | clear =>
    simp only [applyOp, Option.some.injEq] at h
    subst h
    exact ⟨rfl, rfl, rfl, rfl, rfl, rfl, rfl, rfl⟩
  | clearAndDelete =>
    have ht := clearAndDelete_eq h
    subst ht
    exact ⟨rfl, rfl, rfl, rfl, rfl, rfl, rfl, rfl⟩
  | findKey key => exact absurd hop (by simp [Op.isClear])
  | findElement e => exact absurd hop (by simp [Op.isClear])
  | addElement e ow => exact absurd hop (by simp [Op.isClear])
  | addElementWithKey key e ow => exact absurd hop (by simp [Op.isClear])
  | removeKey key => exact absurd hop (by simp [Op.isClear])
  | removeElement e => exact absurd hop (by simp [Op.isClear])

end ClaimsChain

/-! ## Witnesses and a counterexample for claims C28 and C30 -/

section WitnessChain

/-- Witness of claim C28 with wrap-around: capacity 7, the chain of the keys 6, 13, 20
(all with natural bucket 6) in the slots 6, 0, 1; the element at slot 6 is removed. -/
theorem removeElement_single_chain_witness :
    ∃ t1, removeElement 7 wrapChainExample (6, 1) = some (true, t1) ∧
      t1.table.length = 7 ∧ t1.capacity = 7 ∧
      (∀ s, s < 0 → t1.table[(6 + s) % 7]? =
        wrapChainExample.table[(6 + s) % 7]?) ∧
      (∀ s, 0 ≤ s → s + 1 < 3 → t1.table[(6 + s) % 7]? =
        wrapChainExample.table[(6 + (s + 1)) % 7]?) ∧
      (∃ x, t1.table[(6 + (3 - 1)) % 7]? = some x ∧ pairDesc.isEmptyElement x = true) ∧
      (∀ s, 3 ≤ s → s < 7 → t1.table[(6 + s) % 7]? =
        wrapChainExample.table[(6 + s) % 7]?) :=
  removeElement_single_chain wrapChainExample
    pairDesc_clearsToEmpty rfl 6 3 0 (by decide) (by decide) (by decide)
    (fun s hs => by
      interval_cases s
      · exact ⟨(6, 1), rfl, rfl, rfl⟩
      · exact ⟨(13, 2), rfl, rfl, rfl⟩
      · exact ⟨(20, 3), rfl, rfl, rfl⟩)
    (fun s h1 h2 => by
      have h3 : s < 7 := h2
      interval_cases s
      · exact ⟨(0, 0), rfl, rfl⟩
      · exact ⟨(0, 0), rfl, rfl⟩
      · exact ⟨(0, 0), rfl, rfl⟩
      · exact ⟨(0, 0), rfl, rfl⟩)
    (6, 1) rfl
    (fun x hx => by
      have h1 : some ((6, 1) : Nat × Nat) = some x := hx
      rw [← Option.some.inj h1]
      rfl)
    (fun s hs => absurd hs (Nat.not_lt_zero s)) 7 (by decide)

/-- The two scenarios of claim C28, evaluated from a fresh table of capacity 7. Without
wrap-around: the keys 2, 9, 16 (natural bucket 2) fill the slots 2, 3, 4; after the
removal of the first, the slots 2 and 3 hold the two survivors and slot 4 is empty. With
wrap-around: the keys 6, 13, 20 (natural bucket 6) fill the slots 6, 0, 1; after the
removal of the element at slot 6, slot 6 and slot 0 hold the survivors and slot 1 is
empty. A removal from the middle of the chain keeps the order too. -/
theorem chain_removal_examples :
    (runCalls 7 [Call.addElement (2, 1) true, Call.addElement (9, 2) true,
        Call.addElement (16, 3) true] (AssociativeArray.create 7 pairDesc)).map
      (fun t => t.table) =
      some [(0, 0), (0, 0), (2, 1), (9, 2), (16, 3), (0, 0), (0, 0)] ∧
    (runCalls 7 [Call.addElement (2, 1) true, Call.addElement (9, 2) true,
        Call.addElement (16, 3) true, Call.removeElement (2, 1)]
        (AssociativeArray.create 7 pairDesc)).map (fun t => (t.table, t.nrUsed)) =
      some ([(0, 0), (0, 0), (9, 2), (16, 3), (0, 0), (0, 0), (0, 0)], 2) ∧
    (runCalls 7 [Call.addElement (6, 1) true, Call.addElement (13, 2) true,
        Call.addElement (20, 3) true] (AssociativeArray.create 7 pairDesc)).map
      (fun t => t.table) =
      some [(13, 2), (20, 3), (0, 0), (0, 0), (0, 0), (0, 0), (6, 1)] ∧
    (runCalls 7 [Call.addElement (6, 1) true, Call.addElement (13, 2) true,
        Call.addElement (20, 3) true, Call.removeElement (6, 1)]
        (AssociativeArray.create 7 pairDesc)).map (fun t => (t.table, t.nrUsed)) =
      some ([(20, 3), (0, 0), (0, 0), (0, 0), (0, 0), (0, 0), (13, 2)], 2) ∧
    (runCalls 7 [Call.addElement (6, 1) true, Call.addElement (13, 2) true,
        Call.addElement (20, 3) true, Call.removeElement (13, 2)]
        (AssociativeArray.create 7 pairDesc)).map (fun t => (t.table, t.nrUsed)) =
      some ([(20, 3), (0, 0), (0, 0), (0, 0), (0, 0), (0, 0), (6, 1)], 2) :=
  ⟨rfl, rfl, rfl, rfl, rfl⟩

/-- Claim C30, as stated, fails for `clear` and `clearAndDelete`: on the table left by
two insertions, with `adds = 2` and `resizes = 1`, both operations leave `adds = 0` and
`resizes = 0`, which is smaller than before. -/
theorem clear_decreases_counters :
    applyOp ExtendAtFillup.handle 0 grownExample Op.clear = some (clear grownExample) ∧
    (clear grownExample).nrAdds < grownExample.nrAdds ∧
    (clear grownExample).nrResizes < grownExample.nrResizes ∧
    ¬ CountersLe grownExample (clear grownExample) ∧
    (applyOp ExtendAtFillup.handle 0 grownExample Op.clearAndDelete).map
      (fun t => (t.nrAdds, t.nrResizes)) = some (0, 0) :=
  ⟨rfl, by decide, by decide, fun h => absurd h.nrAdds_le (by decide), rfl⟩

/-- The table left by one insertion into a fresh table of capacity 3 is far from any
wrap-around of its counters. -/
theorem noWrap_example : NoWrap 7 insertedExample :=
  ⟨by show (0 : Nat) + 1 < 2 ^ 64; norm_num, by show (1 : Nat) + 1 < 2 ^ 64; norm_num,
    by show (0 : Nat) + 1 < 2 ^ 64; norm_num, by show (0 : Nat) + 1 < 2 ^ 64; norm_num,
    by show (0 : Nat) + 7 ≤ 2 ^ 64; norm_num, by show (0 : Nat) + 7 ≤ 2 ^ 64; norm_num,
    by show (0 : Nat) + 7 ≤ 2 ^ 64; norm_num, by show (0 : Nat) + 3 * 7 ≤ 2 ^ 64; norm_num⟩

/-- Witness of claim C30: the insertion of `(2, 5)`, which makes the table grow, leaves
no counter smaller. -/
theorem counters_monotone_except_clear_witness :
    CountersLe insertedExample grownExample :=
  (counters_monotone_except_clear ExtendAtFillup.handle 7 insertedExample grownExample
    (Op.addElement (2, 5) true) rfl).1 rfl noWrap_example

end WitnessChain

/-! ## `clearAndDelete` and `swap` twice: claims C31 and C37 -/

section ClaimsDelete

variable {K E : Type}

/-- Claim C37 (`swap` twice). For every pair of tables `a` and `b`, performing
`a.swap(&b)` twice in a row restores every field of both tables (description, capacity,
`used`, slot array and all eight counters) to its value before the first swap. -/
theorem swap_swap (a b : AssociativeArray K E) :
    swap (swap a b).1 (swap a b).2 = (a, b) := by
  rw [swap_fields a b, swap_fields]

end ClaimsDelete

section WitnessDelete

/-- The calls of `deleteElement` made by `clearAndDelete` on the table of capacity 3 that
holds `(1, 10)`: three calls, on the slots 0, 1, 2 in this order, also on the two empty
slots; afterwards the table is empty with all statistics at zero. -/
theorem clearAndDelete_example :
    (clearAndDeleteCalls insertedExample).map
      (fun r => (r.1, r.2.table, r.2.nrUsed, r.2.nrAlloc, r.2.nrAdds)) =
      some ([(0, (0, 0)), (1, (1, 10)), (2, (0, 0))], [(0, 0), (0, 0), (0, 0)], 0, 3, 0) ∧
    (clearAndDelete insertedExample).map (fun t => (t.table, t.nrUsed, t.nrAlloc)) =
      some ([(0, 0), (0, 0), (0, 0)], 0, 3) :=
  ⟨rfl, rfl⟩

/-- Two swaps of the tables of claim C19, evaluated: the first swap leaves `removes`
where it was (3 and 5) and exchanges everything else, the second brings both tables
back. -/
theorem swap_swap_example :
    (swap { insertedExample with nrRems := 3 } { fullExample with nrRems := 5 }).1.nrRems = 3 ∧
    (swap { insertedExample with nrRems := 3 } { fullExample with nrRems := 5 }).1.table =
      [(1, 1)] ∧
    (swap (swap { insertedExample with nrRems := 3 } { fullExample with nrRems := 5 }).1
      (swap { insertedExample with nrRems := 3 } { fullExample with nrRems := 5 }).2).1.table =
      [(0, 0), (1, 10), (0, 0)] ∧
    (swap (swap { insertedExample with nrRems := 3 } { fullExample with nrRems := 5 }).1
      (swap { insertedExample with nrRems := 3 } { fullExample with nrRems := 5 }).2).1.nrRems =
      3 := by
  decide

end WitnessDelete

/-! ## Key uniqueness and the frame of a removal: claims C32, C33 and C34 -/

section ClaimsUnique

variable {K E : Type}

/-- Claim C32 (key uniqueness is an invariant). For every coherent description whose
`clearElement` makes a slot empty and every table that satisfies the structural
invariant (allocated slot array, probe-chain invariant, `used` equal to the number of
used slots), has an empty slot and a capacity that can grow: if no two used slots hold
elements equal under `isEqualElementElement`, then `addElement(e, overwrite)` of a
non-empty element (element overload, default fill-up handler, with or without growth),
`removeKey` of the key of an element and `removeElement` return, and afterwards again no
two used slots hold equal elements and the probe-chain invariant holds. -/
theorem key_uniqueness_invariant (t : AssociativeArray K E) (keyOf : E → K)
    (hcoh : Coherent t.desc keyOf) (hclear : ClearsToEmpty t.desc) (hs : Sound t.desc t)
    (hnd : NoDuplicateKeys t.desc t.table) (hempty : HasEmptySlot t) (hgrow : Growable t) :
    (∀ (e : E) (ow : Bool) (fuel : Nat), t.desc.isEmptyElement e = false →
      2 * t.nrAlloc + 1 ≤ fuel →
      ∃ b t1, addElement ExtendAtFillup.handle fuel t e ow = some (b, t1) ∧
        NoDuplicateKeys t1.desc t1.table ∧ ProbeChain t1.desc t1.nrAlloc t1.table) ∧
    (∀ (key : K) (fuel : Nat), (∃ e, keyOf e = key) → t.nrAlloc ≤ fuel →
      ∃ x t1, removeKey fuel t key = some (x, t1) ∧
        NoDuplicateKeys t1.desc t1.table ∧ ProbeChain t1.desc t1.nrAlloc t1.table) ∧
    (∀ (e : E) (fuel : Nat), t.nrAlloc ≤ fuel →
      ∃ b t1, removeElement fuel t e = some (b, t1) ∧
        NoDuplicateKeys t1.desc t1.table ∧ ProbeChain t1.desc t1.nrAlloc t1.table) := by
  have href : Refines t.desc t (elems t.desc t.table) := ⟨hs, hnd, List.Perm.refl _⟩
  refine ⟨?_, ?_, ?_⟩
  · intro e ow fuel he hfuel
    obtain ⟨b, t1, h⟩ := addElement_total ExtendAtFillup.handle hclear hs.allocated hempty
      hgrow e ow hfuel
    have href1 := refines_addElement hcoh hclear href he h
    have hd := href1.sound.desc_eq
    refine ⟨b, t1, h, ?_, href1.sound.probeChain⟩
    rw [hd]; exact href1.noDuplicateKeys
  · intro key fuel hkey hfuel
    obtain ⟨x, t1, h⟩ := removeKey_total hs.allocated hempty key hfuel
    have href1 := refines_removeKey hcoh hclear href hkey h
    have hd := href1.sound.desc_eq
    refine ⟨x, t1, h, ?_, href1.sound.probeChain⟩
    rw [hd]; exact href1.noDuplicateKeys
  · intro e fuel hfuel
    obtain ⟨b, t1, h⟩ := removeElement_total hs.allocated hempty e hfuel
    have href1 := refines_removeElement hcoh hclear href h
    have hd := href1.sound.desc_eq
    refine ⟨b, t1, h, ?_, href1.sound.probeChain⟩
    rw [hd]; exact href1.noDuplicateKeys

/-- Claim C33 (a removal does not disturb the other entries). For every coherent
description whose `clearElement` makes a slot empty, every well-formed table and every
element `e`: `removeElement(e)` returns; the values in the used slots afterwards are,
as a multiset, those before the call without the element that matches `e` (when the
call returns `true`, exactly one element `x` matching `e` is gone and no remaining
element matches; when it returns `false`, the used slots are as before); and every
other stored element `e'` is still returned by `findElement(e')`, in a slot that holds
the value `e'` itself. -/
theorem removeElement_keeps_others (t : AssociativeArray K E) (keyOf : E → K)
    (hcoh : Coherent t.desc keyOf) (hclear : ClearsToEmpty t.desc) (hwf : WellFormed t)
    (e : E) (fuel : Nat) (hfuel : t.nrAlloc ≤ fuel) :
    ∃ b t1, removeElement fuel t e = some (b, t1) ∧
      (elems t1.desc t1.table).Perm
        ((elems t.desc t.table).filter (fun x => !t.desc.isEqualElementElement e x)) ∧
      (b = true → ∃ x, t.desc.isEqualElementElement e x = true ∧
        (x :: elems t1.desc t1.table).Perm (elems t.desc t.table) ∧
        ∀ y ∈ elems t1.desc t1.table, t.desc.isEqualElementElement e y = false) ∧
      (b = false → elems t1.desc t1.table = elems t.desc t.table) ∧
      ∀ e2 ∈ elems t.desc t.table, t.desc.isEqualElementElement e e2 = false →
        ∃ i t2, findElement fuel t1 e2 = some (i, t2) ∧ t1.table[i]? = some e2 := by
  have hs := hwf.toSound
  have href : Refines t.desc t (elems t.desc t.table) :=
    ⟨hs, hwf.noDuplicateKeys, List.Perm.refl _⟩
  obtain ⟨b, t1, h⟩ := removeElement_total hwf.allocated hwf.hasEmptySlot e hfuel
  have href1 := refines_removeElement hcoh hclear href h
  have hd := href1.sound.desc_eq
  have hperm : (elems t1.desc t1.table).Perm
      ((elems t.desc t.table).filter (fun x => !t.desc.isEqualElementElement e x)) := by
    rw [hd]; exact href1.perm
  obtain ⟨hcap, hused⟩ := hs.removeElement_size hclear h
  refine ⟨b, t1, h, hperm, ?_, ?_, ?_⟩
  · intro hb
    obtain ⟨hn, r, c, x, hp, hx, hcase⟩ := removeElement_inv h
    have hpos : 0 < t.nrAlloc := by omega
    have hfs := probe_sound _ _ _ _ hwf.allocated _ _ _ _ _ (bucket_lt t.desc hpos e) hp
    rcases hcase with ⟨_, hb2, _⟩ | ⟨hex, _, table, hbs, ht⟩
    · rw [hb2] at hb; exact absurd hb (by simp)
    · obtain ⟨_, _, hperm2, _⟩ := hs.after_backShift hclear hx hex hbs
      have hm := hfs.match_of_used hx hex
      have htab : t1.table = table := by rw [ht]
      rw [hd, htab]
      exact ⟨x, hm, hperm2, no_match_after_remove hcoh hwf.noDuplicateKeys hm hperm2⟩
  · intro hb
    obtain ⟨hn, r, c, x, hp, hx, hcase⟩ := removeElement_inv h
    rcases hcase with ⟨_, _, ht⟩ | ⟨_, hb2, _⟩
    · rw [ht]
    · rw [hb2] at hb; exact absurd hb (by simp)
  · intro e2 he2 hne
    have hin : e2 ∈ elems t1.desc t1.table := by
      refine hperm.symm.subset (List.mem_filter.mpr ⟨he2, ?_⟩)
      rw [hne]; rfl
    have hcoh1 : Coherent t1.desc keyOf := by rw [hd]; exact hcoh
    have hnd1 : NoDuplicateKeys t1.desc t1.table := by rw [hd]; exact href1.noDuplicateKeys
    have hload := hwf.load
    have hpos := hwf.capacity_pos
    have hempty1 : HasEmptySlot t1 := HasEmptySlot.of_lt href1.sound.allocated (by
      rw [← href1.sound.used_eq, hcap]; omega)
    exact findElement_stored keyOf hcoh1 href1.sound.allocated href1.sound.probeChain hnd1
      hempty1 hin (by rw [hcap]; exact hfuel)

/-- Claim C34 (`removeKey` and `removeElement` are the same deletion). For every coherent
description, every table with an allocated slot array and at least one empty slot, and
every element `e` with key `k = key(e)`: `removeKey(k)` and `removeElement(e)` return
and leave the same table state (slots, `used`, capacity and all counters), and
`removeElement(e)` returns `true` exactly when the element returned by `removeKey(k)`
is not empty. -/
theorem removeKey_removeElement_agree (t : AssociativeArray K E) (keyOf : E → K)
    (hcoh : Coherent t.desc keyOf) (halloc : Allocated t) (hempty : HasEmptySlot t)
    (e : E) (fuel : Nat) (hfuel : t.nrAlloc ≤ fuel) :
    ∃ x b t1, removeKey fuel t (keyOf e) = some (x, t1) ∧
      removeElement fuel t e = some (b, t1) ∧
      (b = true ↔ t.desc.isEmptyElement x = false) := by
  obtain ⟨x, t1, h⟩ := removeKey_total halloc hempty (keyOf e) hfuel
  refine ⟨x, !t.desc.isEmptyElement x, t1, h, removeElement_of_removeKey hcoh h, ?_⟩
  cases t.desc.isEmptyElement x <;> simp

end ClaimsUnique

/-! ## Growth through the key overload, probing with an empty slot, and empty elements:
claims C35, C36 and C38 -/

section ClaimsBug

variable {K E : Type}

/-- Claim C35 (growth through the key overload drops the contents). For every table
with an allocated slot array, an empty slot, `used < capacity` and a capacity that can
grow, every key that matches no used slot and every element: when
`addElement(key, element, overwrite)` with a non-vetoing fill-up handler stores the new
element and `capacity < 2 * used` holds for the new `used`, the call returns `true`
with the capacity `2 * capacity + 1` and `resizes` increased by 1 (modulo `2 ^ 64`);
its re-insertion loop runs zero times (its bound `oldAlloc - i` is 0, because the first
loop has left `i` at the new capacity); so `size()` is 0 afterwards, and the new slot
array holds nothing of the old table nor the new element: slot 0 has been cleared and
every other slot is as the allocation left it. -/
theorem key_overload_growth_drops (t : AssociativeArray K E) (halloc : Allocated t)
    (hempty : HasEmptySlot t) (hgrow : Growable t) (hused : t.nrUsed < t.nrAlloc)
    (fuh : AssociativeArray K E → Bool) (hveto : ∀ s, fuh s = false) (key : K) (e : E)
    (ow : Bool)
    (hnew : ∀ y ∈ elems t.desc t.table, t.desc.isEqualKeyElement key y = false)
    (hfull : t.nrAlloc < 2 * (t.nrUsed + 1)) (fuel : Nat) (hfuel : t.nrAlloc ≤ fuel) :
    ∃ t1 r c,
      probe t.desc (t.desc.isEqualKeyElement key) t.table t.nrAlloc fuel
        (keyBucket t.desc t.nrAlloc key) t.nrProbesA = some (r, c) ∧
      addElementWithKey fuh fuel t key e ow = some (true, t1) ∧
      t1.capacity = 2 * t.capacity + 1 ∧
      t1.nrResizes = (t.nrResizes + 1) % 2 ^ 64 ∧
      t.nrAlloc - (if r < 2 * t.nrAlloc + 1 then 2 * t.nrAlloc + 1 else r) = 0 ∧
      t1.size = 0 ∧
      t1.table.length = 2 * t.nrAlloc + 1 ∧
      t1.table[0]? =
        some (t.desc.clearElement^[2 * t.nrAlloc + 1 - r] (t.desc.rawElement 0)) ∧
      ∀ p, 1 ≤ p → p < 2 * t.nrAlloc + 1 → t1.table[p]? = some (t.desc.rawElement p) := by
  unfold Growable at hgrow
  obtain ⟨z, hz, hzu⟩ := hempty
  have hpos : 0 < t.nrAlloc := by omega
  obtain ⟨r, c, x, hp, hfs, hx, _⟩ := probe_total t.desc (t.desc.isEqualKeyElement key)
    halloc hz hzu hfuel (keyBucket_lt t.desc hpos key) t.nrProbesA
  have hex := hfs.empty_of_no_match hnew hx
  have hrn : r < t.nrAlloc := hfs.1
  have hmod : (2 * t.nrAlloc + 1) % 2 ^ 64 = 2 * t.nrAlloc + 1 := Nat.mod_eq_of_lt hgrow
  have hm1 : (t.nrUsed + 1) % 2 ^ 64 = t.nrUsed + 1 := Nat.mod_eq_of_lt (by omega)
  have hm2 : (2 * (t.nrUsed + 1)) % 2 ^ 64 = 2 * (t.nrUsed + 1) :=
    Nat.mod_eq_of_lt (by omega)
  have hfull1 : t.nrAlloc < (2 * ((t.nrUsed + 1) % 2 ^ 64)) % 2 ^ 64 := by
    rw [hm1, hm2]; exact hfull
  have hadd := addElementWithKey_new_grow fuh e ow (by omega) hp hx
    hex hfull1 (hveto _) (by omega) (by omega)
  obtain ⟨t1, ht1, hcap, hres, hsize, htab⟩ : ∃ t1,
      addElementWithKey fuh fuel t key e ow = some (true, t1) ∧
      t1.nrAlloc = (2 * t.nrAlloc + 1) % 2 ^ 64 ∧
      t1.nrResizes = (t.nrResizes + 1) % 2 ^ 64 ∧ t1.nrUsed = 0 ∧
      t1.table = (rawTable t.desc ((2 * t.nrAlloc + 1) % 2 ^ 64)).set 0
        (t.desc.clearElement^[(2 * t.nrAlloc + 1) % 2 ^ 64 - r] (t.desc.rawElement 0)) :=
    ⟨_, hadd, rfl, rfl, rfl, rfl⟩
  rw [hmod] at hcap htab
  refine ⟨t1, r, c, hp, ht1, hcap, hres, ?_, hsize, ?_, ?_, ?_⟩
  · rw [if_pos (by omega)]; omega
  · rw [htab, List.length_set, rawTable_length]
  · rw [htab]
    exact List.getElem?_set_self (by rw [rawTable_length]; omega)
  · intro p hp1 hp2
    rw [htab, List.getElem?_set_ne (by omega)]
    exact rawTable_get t.desc hp2

/-- Claim C36 (probing terminates when a slot is empty). For every table with an
allocated slot array in which at least one slot satisfies `isEmptyElement` (so that the
capacity is at least 1) and every key or element argument: the probing loops of
`findKey`, `findElement`, `addElement`, `removeKey` and `removeElement` stop within
`capacity` slots, at most `capacity - 1` steps past the natural bucket, and the
back-shift loop of a removal stops within `capacity` tests of its condition, that is,
after at most `capacity - 1` iterations. Every state reachable with the default fill-up
handler through `addElement` of the element overload (non-empty elements), removals and
`clear`, with a capacity of at least 1 and below `2 ^ 62`, has such an empty slot. -/
theorem probing_stops_with_empty_slot (t : AssociativeArray K E) (halloc : Allocated t) :
    (HasEmptySlot t → ∀ (key : K) (e : E),
      1 ≤ t.capacity ∧
      (∃ r c, probe t.desc (t.desc.isEqualKeyElement key) t.table t.nrAlloc t.nrAlloc
          (keyBucket t.desc t.nrAlloc key) t.nrProbesF = some (r, c) ∧
        cdist t.nrAlloc (keyBucket t.desc t.nrAlloc key) r ≤ t.nrAlloc - 1) ∧
      (∃ r c, probe t.desc (t.desc.isEqualElementElement e) t.table t.nrAlloc t.nrAlloc
          (bucket t.desc t.nrAlloc e) t.nrProbesF = some (r, c) ∧
        cdist t.nrAlloc (bucket t.desc t.nrAlloc e) r ≤ t.nrAlloc - 1) ∧
      (∃ r c, probe t.desc (t.desc.isEqualElementElement e) t.table t.nrAlloc t.nrAlloc
          (bucket t.desc t.nrAlloc e) t.nrProbesA = some (r, c) ∧
        cdist t.nrAlloc (bucket t.desc t.nrAlloc e) r ≤ t.nrAlloc - 1) ∧
      (∃ r c, probe t.desc (t.desc.isEqualKeyElement key) t.table t.nrAlloc t.nrAlloc
          (keyBucket t.desc t.nrAlloc key) t.nrProbesD = some (r, c) ∧
        cdist t.nrAlloc (keyBucket t.desc t.nrAlloc key) r ≤ t.nrAlloc - 1) ∧
      (∃ r c, probe t.desc (t.desc.isEqualElementElement e) t.table t.nrAlloc t.nrAlloc
          (bucket t.desc t.nrAlloc e) t.nrProbesD = some (r, c) ∧
        cdist t.nrAlloc (bucket t.desc t.nrAlloc e) r ≤ t.nrAlloc - 1) ∧
      (∀ (r : Nat) (x : E), t.table[r]? = some x → t.desc.isEmptyElement x = false →
        ∃ result, backShift t.desc t.nrAlloc t.nrAlloc
          (t.table.set r (t.desc.clearElement x)) r ((r + 1) % t.nrAlloc) = some result) ∧
      (∃ r, findKey t.nrAlloc t key = some r) ∧
      (∃ r, findElement t.nrAlloc t e = some r) ∧
      (∃ r, removeKey t.nrAlloc t key = some r) ∧
      (∃ r, removeElement t.nrAlloc t e = some r)) ∧
    (∀ d, ClearsToEmpty d → Reachable d t → 1 ≤ t.capacity → t.capacity < 2 ^ 62 →
      HasEmptySlot t) := by
  constructor
  · intro hempty key e
    obtain ⟨z, hz, hzu⟩ := hempty
    have hpos : 0 < t.nrAlloc := by omega
    have hprobe : ∀ (isMatch : E → Bool) (i c0 : Nat), i < t.nrAlloc →
        ∃ r c, probe t.desc isMatch t.table t.nrAlloc t.nrAlloc i c0 = some (r, c) ∧
          cdist t.nrAlloc i r ≤ t.nrAlloc - 1 := by
      intro isMatch i c0 hi
      obtain ⟨r, c, x, hp, hfs, _, _⟩ := probe_total t.desc isMatch halloc hz hzu
        (le_refl _) hi c0
      have := cdist_lt hi hfs.1
      exact ⟨r, c, hp, by omega⟩
    have hk := keyBucket_lt t.desc hpos key
    have hb := bucket_lt t.desc hpos e
    obtain ⟨r1, c1, x1, h1, _⟩ := findKey_total halloc ⟨z, hz, hzu⟩ key (le_refl _)
    obtain ⟨r2, t2, x2, h2, _⟩ := findElement_total halloc ⟨z, hz, hzu⟩ e
      (le_refl t.nrAlloc)
    obtain ⟨b5, t5, h5⟩ := removeKey_total halloc ⟨z, hz, hzu⟩ key (le_refl t.nrAlloc)
    obtain ⟨b6, t6, h6⟩ := removeElement_total halloc ⟨z, hz, hzu⟩ e (le_refl t.nrAlloc)
    refine ⟨hpos, hprobe _ _ _ hk, hprobe _ _ _ hb, hprobe _ _ _ hb, hprobe _ _ _ hk,
      hprobe _ _ _ hb, ?_, ⟨_, h1⟩, ⟨_, h2⟩, ⟨_, h5⟩, ⟨_, h6⟩⟩
    intro r x hx hex
    exact backShift_after_clear_total t.desc halloc hx hex hz hzu (le_refl _) _
  · intro d hclear h hpos hsmall
    have hs := h.sound hclear
    have hload := h.load hclear hsmall
    have hcap : t.capacity = t.nrAlloc := rfl
    rw [hcap] at hpos
    exact HasEmptySlot.of_lt hs.allocated (by rw [← hs.used_eq]; omega)

/-- Claim C38 (inserting an "empty" element corrupts the count). For every table with an
allocated slot array, an empty slot and a 64-bit capacity, and every element `e` that
satisfies `isEmptyElement` and matches no used slot: `addElement(e)` whose insertion
does not trigger growth (`2 * (used + 1) ≤ capacity`) returns `true` and increases
`size()` by 1, although the used slots are exactly those before the call; so when
`size()` was the number of used slots before the call, it is that number plus 1, and no
longer equal to it, afterwards. -/
theorem addElement_empty_element (t : AssociativeArray K E) (halloc : Allocated t)
    (hempty : HasEmptySlot t) (hcap : t.nrAlloc < 2 ^ 64)
    (fuh : AssociativeArray K E → Bool) (e : E) (he : t.desc.isEmptyElement e = true)
    (hnew : ∀ y ∈ elems t.desc t.table, t.desc.isEqualElementElement e y = false)
    (hfit : 2 * (t.nrUsed + 1) ≤ t.nrAlloc) (ow : Bool) (fuel : Nat)
    (hfuel : t.nrAlloc ≤ fuel) :
    ∃ t1, addElement fuh fuel t e ow = some (true, t1) ∧
      t1.size = t.size + 1 ∧ t1.capacity = t.capacity ∧
      elems t1.desc t1.table = elems t.desc t.table ∧
      (t.size = (elems t.desc t.table).length →
        t1.size = (elems t1.desc t1.table).length + 1 ∧
        t1.size ≠ (elems t1.desc t1.table).length) := by
  obtain ⟨z, hz, hzu⟩ := hempty
  have hpos : 0 < t.nrAlloc := by omega
  obtain ⟨r, c, x, hp, hfs, hx, _⟩ := probe_total t.desc (t.desc.isEqualElementElement e)
    halloc hz hzu hfuel (bucket_lt t.desc hpos e) t.nrProbesA
  have hex := hfs.empty_of_no_match hnew hx
  have hm1 : (t.nrUsed + 1) % 2 ^ 64 = t.nrUsed + 1 := Nat.mod_eq_of_lt (by omega)
  have hm2 : (2 * (t.nrUsed + 1)) % 2 ^ 64 = 2 * (t.nrUsed + 1) :=
    Nat.mod_eq_of_lt (by omega)
  have hfit1 : ¬ t.nrAlloc < (2 * ((t.nrUsed + 1) % 2 ^ 64)) % 2 ^ 64 := by
    rw [hm1, hm2]; omega
  have hadd : addElement fuh fuel t e ow = some (true, insertedState t r c e) :=
    addElement_new_fits (by omega) hp hx hex hfit1
  have hrl : r < t.table.length := by rw [halloc]; exact hfs.1
  have hel : elems t.desc (t.table.set r e) = elems t.desc t.table := by
    rw [elems_set_split t.desc hrl e, elems_split t.desc hx, elems_singleton_empty he,
      elems_singleton_empty hex]
  obtain ⟨t1, ht1, hused, hcap1, htab, hd⟩ : ∃ t1,
      addElement fuh fuel t e ow = some (true, t1) ∧
      t1.nrUsed = (t.nrUsed + 1) % 2 ^ 64 ∧ t1.nrAlloc = t.nrAlloc ∧
      t1.table = t.table.set r e ∧ t1.desc = t.desc := ⟨_, hadd, rfl, rfl, rfl, rfl⟩
  have hsize : t1.size = t.size + 1 := by
    show t1.nrUsed = t.nrUsed + 1
    rw [hused]
    exact Nat.mod_eq_of_lt (by omega)
  have hel1 : elems t1.desc t1.table = elems t.desc t.table := by rw [hd, htab, hel]
  refine ⟨t1, ht1, hsize, hcap1, hel1, ?_⟩
  intro hbefore
  rw [hel1, hsize, hbefore]
  exact ⟨rfl, by omega⟩

end ClaimsBug

/-! ## Witnesses for claims C32 to C36 and C38 -/

section WitnessLast

/-- Witness of claim C32 on the chain table. -/
theorem key_uniqueness_invariant_witness :
    (∀ (e : Nat × Nat) (ow : Bool) (fuel : Nat), pairDesc.isEmptyElement e = false →
      2 * 7 + 1 ≤ fuel →
      ∃ b t1, addElement ExtendAtFillup.handle fuel chainExample e ow = some (b, t1) ∧
        NoDuplicateKeys t1.desc t1.table ∧ ProbeChain t1.desc t1.nrAlloc t1.table) ∧
    (∀ (key : Nat) (fuel : Nat), (∃ e, pairKey e = key) → 7 ≤ fuel →
      ∃ x t1, removeKey fuel chainExample key = some (x, t1) ∧
        NoDuplicateKeys t1.desc t1.table ∧ ProbeChain t1.desc t1.nrAlloc t1.table) ∧
    (∀ (e : Nat × Nat) (fuel : Nat), 7 ≤ fuel →
      ∃ b t1, removeElement fuel chainExample e = some (b, t1) ∧
        NoDuplicateKeys t1.desc t1.table ∧ ProbeChain t1.desc t1.nrAlloc t1.table) :=
  key_uniqueness_invariant chainExample pairKey pairDesc_coherent pairDesc_clearsToEmpty
    chainTable_wellFormed.toSound chainTable_wellFormed.noDuplicateKeys
    chainTable_wellFormed.hasEmptySlot chainTable_wellFormed.growable

/-- Witness of claim C33: removing the key 8 from the middle of the chain 1, 8, 15. -/
theorem removeElement_keeps_others_witness :
    ∃ b t1, removeElement 7 chainExample (8, 2) = some (b, t1) ∧
      (elems t1.desc t1.table).Perm
        ((elems pairDesc chainExample.table).filter
          (fun x => !pairDesc.isEqualElementElement (8, 2) x)) ∧
      (b = true → ∃ x, pairDesc.isEqualElementElement (8, 2) x = true ∧
        (x :: elems t1.desc t1.table).Perm (elems pairDesc chainExample.table) ∧
        ∀ y ∈ elems t1.desc t1.table, pairDesc.isEqualElementElement (8, 2) y = false) ∧
      (b = false → elems t1.desc t1.table = elems pairDesc chainExample.table) ∧
      ∀ e2 ∈ elems pairDesc chainExample.table,
        pairDesc.isEqualElementElement (8, 2) e2 = false →
        ∃ i t2, findElement 7 t1 e2 = some (i, t2) ∧ t1.table[i]? = some e2 :=
  removeElement_keeps_others chainExample pairKey pairDesc_coherent pairDesc_clearsToEmpty
    chainTable_wellFormed (8, 2) 7 (by decide)

/-- Witness of claim C34: removing the key 8 and the element `(8, 2)` from the chain
table. -/
theorem removeKey_removeElement_agree_witness :
    ∃ x b t1, removeKey 7 chainExample (pairKey (8, 2)) = some (x, t1) ∧
      removeElement 7 chainExample (8, 2) = some (b, t1) ∧
      (b = true ↔ pairDesc.isEmptyElement x = false) :=
  removeKey_removeElement_agree chainExample pairKey pairDesc_coherent
    chainTable_wellFormed.allocated chainTable_wellFormed.hasEmptySlot (8, 2) 7 (by decide)

/-- The removals of the witnesses of claims C33 and C34, evaluated: the chain closes up,
`removeKey` returns the stored element, and a removal of the absent key 22 changes only
the statistics. -/
theorem chainExample_removals :
    (removeElement 7 chainExample (8, 2)).map (fun r => (r.1, r.2.table, r.2.nrUsed)) =
      some (true, [(0, 0), (1, 1), (15, 3), (0, 0), (0, 0), (0, 0), (0, 0)], 2) ∧
    (removeKey 7 chainExample 8).map (fun r => (r.1, r.2.table, r.2.nrUsed)) =
      some ((8, 2), [(0, 0), (1, 1), (15, 3), (0, 0), (0, 0), (0, 0), (0, 0)], 2) ∧
    (removeKey 7 chainExample 8).map Prod.snd =
      (removeElement 7 chainExample (8, 2)).map Prod.snd ∧
    (removeKey 7 chainExample 22).map (fun r => (r.1, r.2.table, r.2.nrUsed, r.2.nrProbesD)) =
      some ((0, 0), [(0, 0), (1, 1), (8, 2), (15, 3), (0, 0), (0, 0), (0, 0)], 3, 3) ∧
    (removeElement 7 chainExample (22, 1)).map
        (fun r => (r.1, r.2.table, r.2.nrUsed, r.2.nrProbesD)) =
      some (false, [(0, 0), (1, 1), (8, 2), (15, 3), (0, 0), (0, 0), (0, 0)], 3, 3) :=
  ⟨rfl, rfl, rfl, rfl, rfl⟩

/-- Witness of claim C35: the key overload inserts `(2, 5)` with key 2 into the table of
capacity 3 that holds `(1, 10)`. -/
theorem key_overload_growth_drops_witness :
    ∃ t1 r c,
      probe pairDesc (pairDesc.isEqualKeyElement 2) smallExample.table 3 7
        (keyBucket pairDesc 3 2) 0 = some (r, c) ∧
      addElementWithKey ExtendAtFillup.handle 7 smallExample 2 (2, 5) true =
        some (true, t1) ∧
      t1.capacity = 2 * smallExample.capacity + 1 ∧
      t1.nrResizes = (0 + 1) % 2 ^ 64 ∧
      3 - (if r < 2 * 3 + 1 then 2 * 3 + 1 else r) = 0 ∧
      t1.size = 0 ∧
      t1.table.length = 2 * 3 + 1 ∧
      t1.table[0]? = some (pairDesc.clearElement^[2 * 3 + 1 - r] (pairDesc.rawElement 0)) ∧
      ∀ p, 1 ≤ p → p < 2 * 3 + 1 → t1.table[p]? = some (pairDesc.rawElement p) :=
  key_overload_growth_drops smallExample rfl smallTable_wellFormed.hasEmptySlot
    smallTable_wellFormed.growable (by decide) ExtendAtFillup.handle (fun _ => rfl) 2 (2, 5)
    true (by decide) (by decide) 7 (by decide)

/-- Witness of claim C36 on the reachable table of capacity 7 that holds the keys 1 and
2: the lookup of the absent key 22 stops within 7 slots, and the table has an empty
slot. -/
theorem probing_stops_with_empty_slot_witness :
    (∃ r c, probe pairDesc (pairDesc.isEqualKeyElement 22) grownExample.table 7 7
        (keyBucket pairDesc 7 22) 0 = some (r, c) ∧
      cdist 7 (keyBucket pairDesc 7 22) r ≤ 7 - 1) ∧
    (∀ (r : Nat) (x : Nat × Nat), grownExample.table[r]? = some x →
      pairDesc.isEmptyElement x = false →
      ∃ result, backShift pairDesc 7 7
        (grownExample.table.set r (pairDesc.clearElement x)) r ((r + 1) % 7) =
          some result) ∧
    HasEmptySlot grownExample :=
  ⟨((probing_stops_with_empty_slot grownExample rfl).1 ⟨0, by decide, by decide⟩ 22
      (22, 1)).2.1,
    ((probing_stops_with_empty_slot grownExample rfl).1 ⟨0, by decide, by decide⟩ 22
      (22, 1)).2.2.2.2.2.2.1,
    (probing_stops_with_empty_slot grownExample rfl).2 pairDesc pairDesc_clearsToEmpty
      reachable_grown_example (by decide) (by show (7 : Nat) < 2 ^ 62; norm_num)⟩

/-- Witness of claim C38: inserting the empty element `(0, 7)` into the table of
capacity 5 that holds `(1, 10)`. -/
theorem addElement_empty_element_witness :
    ∃ t1, addElement ExtendAtFillup.handle 5 roomyExample (0, 7) true = some (true, t1) ∧
      t1.size = roomyExample.size + 1 ∧ t1.capacity = roomyExample.capacity ∧
      elems t1.desc t1.table = elems pairDesc roomyExample.table ∧
      (roomyExample.size = (elems pairDesc roomyExample.table).length →
        t1.size = (elems t1.desc t1.table).length + 1 ∧
        t1.size ≠ (elems t1.desc t1.table).length) :=
  addElement_empty_element roomyExample rfl ⟨0, by decide, by decide⟩
    (by show (5 : Nat) < 2 ^ 64; norm_num) ExtendAtFillup.handle (0, 7) rfl (by decide)
    (by decide) true 5 (by decide)

/-- The insertion of the witness of claim C38, evaluated: `size()` becomes 2 while only
one slot, the one holding `(1, 10)`, is used. -/
theorem addElement_empty_example :
    (addElement ExtendAtFillup.handle 5 roomyExample (0, 7) true).map
      (fun r => (r.1, r.2.table, r.2.nrUsed, elems pairDesc r.2.table)) =
      some (true, [(0, 7), (1, 10), (0, 0), (0, 0), (0, 0)], 2, [(1, 10)]) :=
  rfl

end WitnessLast

end triagens.basics
